import Mathlib

/-!
# Verification of the frame-synthesis subsystem of `magic_squares`

A shallow embedding of the frame-synthesis subsystem of the
`magic_squares` repository (files `magic_square.py`, `decorators.py`,
`bordering.py`, `line_bundle.py`) together with proofs about it.

Modelling conventions:

* Python `int` values are modelled by `ℤ`; the validated orders `n`
  (always nonnegative) are carried as `ℕ`.
* Python `dict` objects (the green/purple link maps, keyed by `int`)
  are modelled by insertion-ordered association lists
  `List (ℤ × ℤ)`: insertion of an existing key updates the value in
  place, insertion of a new key appends at the end, deletion removes
  the entry.  This matches CPython's ordered-dict semantics.
* Matrix cells may hold `float('inf')` (the value the constructor
  pours into every cell before configuration), so cell values live in
  `WithTop ℤ`; `⊤` plays the role of `float('inf')` (absorbing for
  `+`, equal to itself).
* The key set of `MagicSquare.matrix` is exactly the grid
  `[0, n) × [0, n)`: `initialize` fills precisely these keys,
  `__setitem__` refuses unknown keys, and nothing ever deletes a key.
  We therefore model the matrix as a total function `ℤ × ℤ → WithTop ℤ`
  and embed the `index in self.matrix` test as the bounds test for the
  grid; values of the function outside the grid are never observable.
* Python exceptions are modelled by the enumeration `PyErr`
  (message strings are dropped).  An operation that can raise is
  modelled as returning `Except PyErr α × State`, so that the state
  surviving the exception is explicit and "no mutation on failure"
  is a provable statement rather than a modelling artifact.
* The process-wide random source (`random.random`, `random.shuffle`)
  is modelled by an explicit oracle `Draw`: a stream of coins and a
  stream of list-permuting functions, consumed with a counter that
  advances once per actual use.  "Any randomization draw" is
  quantified as: every oracle whose shuffling functions return
  permutations of their input.
-/

/-- Python exception kinds that the embedded code can raise.
Message payloads are dropped. -/
inductive PyErr where
  | valueError : PyErr
  | typeError : PyErr
  | indexError : PyErr
  | keyError : PyErr
  | nameError : PyErr
  | warning : PyErr
  | attributeError : PyErr
  | assertionError : PyErr
  deriving DecidableEq, Repr

/-! ## Python `dict` with `int` keys as an insertion-ordered association list -/

namespace PyDict

/-- Key membership (`k in d`). -/
def dmem (k : ℤ) : List (ℤ × ℤ) → Bool
  | [] => false
  | (k', _) :: rest => k' = k || dmem k rest

/-- Lookup (`d[k]`), `none` when the key is absent (Python: `KeyError`). -/
def dget? (k : ℤ) : List (ℤ × ℤ) → Option ℤ
  | [] => none
  | (k', v) :: rest => if k' = k then some v else dget? k rest

/-- Assignment (`d[k] = v`): updates in place if present, appends otherwise. -/
def dput (k v : ℤ) : List (ℤ × ℤ) → List (ℤ × ℤ)
  | [] => [(k, v)]
  | (k', v') :: rest => if k' = k then (k, v) :: rest else (k', v') :: dput k v rest

/-- Deletion (`del d[k]`) of the first entry with key `k` (keys are unique
in every reachable dict). -/
def ddel (k : ℤ) : List (ℤ × ℤ) → List (ℤ × ℤ)
  | [] => []
  | (k', v') :: rest => if k' = k then rest else (k', v') :: ddel k rest

end PyDict

open PyDict

/-! ## Integer ranges (Python `range`) -/

/-- `irange a k` is the list `[a, a+1, …, a+k-1]`, i.e. Python
`range(a, a+k)`. -/
def irange (a : ℤ) : ℕ → List ℤ
  | 0 => []
  | k + 1 => a :: irange (a + 1) k

/-- `irange2 a k` is the list `[a, a+2, …, a+2*(k-1)]`, a step-2 range. -/
def irange2 (a : ℤ) : ℕ → List ℤ
  | 0 => []
  | k + 1 => a :: irange2 (a + 2) k

/-- Python `range(start, stop)` (step 1). -/
def pyRange (start stop : ℤ) : List ℤ := irange start (stop - start).toNat

/-- Python `range(start, stop, 2)`. -/
def pyRange2 (start stop : ℤ) : List ℤ :=
  irange2 start ((stop - start + 1).toNat / 2)

/-! ## The line bundle (`_LineBundle` / `LineBundle`, `line_bundle.py`)

`LineBundle.validate` accepts every integer `n ≥ 1` except `2`; the
validated order is carried as a natural number.  The two colored edge
dictionaries are Python dicts from node to node. -/

structure Bundle where
  n : ℕ
  green : List (ℤ × ℤ)
  purple : List (ℤ × ℤ)
  debug : Bool
  deriving DecidableEq, Repr

namespace Bundle

/-- `self.sigma = (n+2)**2 + 1`, set in the constructor and never
mutated; we derive it from `n`. -/
def sigma (b : Bundle) : ℤ := ((b.n : ℤ) + 2) ^ 2 + 1

/-- `LineBundle(n, debug)`: `validate` raises `ValueError` unless
`n ≥ 1` and `n ≠ 2` (the `TypeError` branch cannot fire for an
integer argument). -/
def lineBundle_mk (n : ℤ) (debug : Bool) : Except PyErr Bundle :=
  if n < 1 ∨ n = 2 then .error .valueError
  else .ok { n := n.toNat, green := [], purple := [], debug := debug }

/-- `complement(node) = sigma - node`. -/
def complement (b : Bundle) (node : ℤ) : ℤ := b.sigma - node

/-- `is_source_node`: `0 < node < 2n+3` (the `isinstance` test always
holds for integer nodes). -/
def is_source_node (b : Bundle) (node : ℤ) : Bool :=
  decide (0 < node) && decide (node < 2 * (b.n : ℤ) + 3)

/-- `is_target_node`: the complement is a source node. -/
def is_target_node (b : Bundle) (node : ℤ) : Bool :=
  b.is_source_node (b.complement node)

/-- `is_node`: source or target. -/
def is_node (b : Bundle) (node : ℤ) : Bool :=
  b.is_source_node node || b.is_target_node node

/-- `is_top_node`: complement carries a green link. -/
def is_top_node (b : Bundle) (node : ℤ) : Bool := dmem (b.complement node) b.green

/-- `is_bottom_node`: the node carries a green link. -/
def is_bottom_node (b : Bundle) (node : ℤ) : Bool := dmem node b.green

/-- `is_left_node`: complement carries a purple link. -/
def is_left_node (b : Bundle) (node : ℤ) : Bool := dmem (b.complement node) b.purple

/-- `is_right_node`: the node carries a purple link. -/
def is_right_node (b : Bundle) (node : ℤ) : Bool := dmem node b.purple

/-- `green_degree` (`len(self.green)`). -/
def green_degree (b : Bundle) : ℕ := b.green.length

/-- `purple_degree` (`len(self.purple)`). -/
def purple_degree (b : Bundle) : ℕ := b.purple.length

/-- `unlink_green(node)`: looks up the partner (`KeyError` when the
node holds no green link), then conditionally deletes the node's and
the partner's entries. -/
def unlink_green (b : Bundle) (node : ℤ) : Except PyErr Unit × Bundle :=
  match dget? node b.green with
  | none => (.error .keyError, b)
  | some partner =>
      let g₁ := if dmem node b.green then ddel node b.green else b.green
      let g₂ := if dmem partner g₁ then ddel partner g₁ else g₁
      (.ok (), { b with green := g₂ })

/-- `unlink_purple(node)`: purple analogue of `unlink_green`. -/
def unlink_purple (b : Bundle) (node : ℤ) : Except PyErr Unit × Bundle :=
  match dget? node b.purple with
  | none => (.error .keyError, b)
  | some partner =>
      let p₁ := if dmem node b.purple then ddel node b.purple else b.purple
      let p₂ := if dmem partner p₁ then ddel partner p₁ else p₁
      (.ok (), { b with purple := p₂ })

/-- `link_green(source, target)`: validates the endpoints (ValueError
on a non-source source, a non-target target, or a zero-slope
self-pairing), silently unlinks stale links at either endpoint, then
stores the edge symmetrically. -/
def link_green (b : Bundle) (source target : ℤ) : Except PyErr Unit × Bundle :=
  if b.is_source_node source = false then (.error .valueError, b)
  else if b.is_target_node target = false then (.error .valueError, b)
  else if source = b.complement target then (.error .valueError, b)
  else
    match (if dmem source b.green then b.unlink_green source else (.ok (), b)) with
    | (.error e, b₁) => (.error e, b₁)
    | (.ok _, b₁) =>
        match (if dmem target b₁.green then b₁.unlink_green target else (.ok (), b₁)) with
        | (.error e, b₂) => (.error e, b₂)
        | (.ok _, b₂) =>
            (.ok (), { b₂ with green := dput target source (dput source target b₂.green) })

/-- `link_purple(source, target)`: purple analogue of `link_green`. -/
def link_purple (b : Bundle) (source target : ℤ) : Except PyErr Unit × Bundle :=
  if b.is_source_node source = false then (.error .valueError, b)
  else if b.is_target_node target = false then (.error .valueError, b)
  else if source = b.complement target then (.error .valueError, b)
  else
    match (if dmem source b.purple then b.unlink_purple source else (.ok (), b)) with
    | (.error e, b₁) => (.error e, b₁)
    | (.ok _, b₁) =>
        match (if dmem target b₁.purple then b₁.unlink_purple target else (.ok (), b₁)) with
        | (.error e, b₂) => (.error e, b₂)
        | (.ok _, b₂) =>
            (.ok (), { b₂ with purple := dput target source (dput source target b₂.purple) })

/-- `LineBundle.clink_green(source)`: complementary green link; stores
only the forward entry `green[source] = complement(source)`. -/
def clink_green (b : Bundle) (source : ℤ) : Except PyErr Unit × Bundle :=
  if b.is_node source = false then (.error .valueError, b)
  else
    let target := b.complement source
    match (if dmem source b.green then b.unlink_green source else (.ok (), b)) with
    | (.error e, b₁) => (.error e, b₁)
    | (.ok _, b₁) =>
        match (if dmem target b₁.green then b₁.unlink_green target else (.ok (), b₁)) with
        | (.error e, b₂) => (.error e, b₂)
        | (.ok _, b₂) => (.ok (), { b₂ with green := dput source target b₂.green })

/-- `LineBundle.clink_purple(source)`: purple analogue of `clink_green`. -/
def clink_purple (b : Bundle) (source : ℤ) : Except PyErr Unit × Bundle :=
  if b.is_node source = false then (.error .valueError, b)
  else
    let target := b.complement source
    match (if dmem source b.purple then b.unlink_purple source else (.ok (), b)) with
    | (.error e, b₁) => (.error e, b₁)
    | (.ok _, b₁) =>
        match (if dmem target b₁.purple then b₁.unlink_purple target else (.ok (), b₁)) with
        | (.error e, b₂) => (.error e, b₂)
        | (.ok _, b₂) => (.ok (), { b₂ with purple := dput source target b₂.purple })

/-- `_LineBundle.green_sum`: integer slope accumulation over the green
dict, split into a source-side total `s` and a target-side total `t`,
with `assert s == t`; complementary entries (node equal to the
complement of its target) contribute `node - node = 0` here. -/
def green_sum0 (b : Bundle) : Except PyErr ℤ :=
  let s := ((b.green.filter fun e => b.is_source_node e.1).map
    fun e => e.1 - b.complement e.2).sum
  let t := ((b.green.filter fun e => !b.is_source_node e.1).map
    fun e => e.1 - b.complement e.2).sum
  if s = t then .ok s else .error .assertionError

/-- `_LineBundle.purple_sum`: same accumulation over the purple dict.
This is the `purple_sum` the `LineBundle` subclass inherits, so a
complementary purple link contributes `0` rather than its
half-integer slope. -/
def purple_sum0 (b : Bundle) : Except PyErr ℤ :=
  let s := ((b.purple.filter fun e => b.is_source_node e.1).map
    fun e => e.1 - b.complement e.2).sum
  let t := ((b.purple.filter fun e => !b.is_source_node e.1).map
    fun e => e.1 - b.complement e.2).sum
  if s = t then .ok s else .error .assertionError

/-- First `LineBundle.green_sum` definition (source lines 421-440):
normal links accumulate integer slopes into `s`/`t` (asserted equal),
a complementary entry (whose key equals the complement of its value)
accumulates `Fraction(node - target, 2)` into `u`; returns `s + u`.
This definition is immediately shadowed by a second `def green_sum`
in the same class body, so it is never the method dispatched at
runtime; it is, however, the stated slope-sum formula for the green
color. -/
def green_sum_v1 (b : Bundle) : Except PyErr ℚ :=
  let s := ((b.green.filter fun e =>
      !decide (e.1 = b.complement e.2) && b.is_source_node e.1).map
    fun e => e.1 - b.complement e.2).sum
  let t := ((b.green.filter fun e =>
      !decide (e.1 = b.complement e.2) && !b.is_source_node e.1).map
    fun e => e.1 - b.complement e.2).sum
  let u : ℚ := ((b.green.filter fun e => decide (e.1 = b.complement e.2)).map
    fun e => ((e.1 - e.2 : ℤ) : ℚ) / 2).sum
  if s = t then .ok ((s : ℚ) + u) else .error .assertionError

/-- Second `LineBundle.green_sum` definition (source lines 442-461):
textually a "purple" sum (it iterates `self.purple`) although its
docstring and its name disagree; being the later definition in the
class body, this is the method actually bound to the name
`green_sum` at runtime.  It computes the spec's purple slope sum,
including half-integer complementary contributions. -/
def green_sum_v2 (b : Bundle) : Except PyErr ℚ :=
  let s := ((b.purple.filter fun e =>
      !decide (e.1 = b.complement e.2) && b.is_source_node e.1).map
    fun e => e.1 - b.complement e.2).sum
  let t := ((b.purple.filter fun e =>
      !decide (e.1 = b.complement e.2) && !b.is_source_node e.1).map
    fun e => e.1 - b.complement e.2).sum
  let u : ℚ := ((b.purple.filter fun e => decide (e.1 = b.complement e.2)).map
    fun e => ((e.1 - e.2 : ℤ) : ℚ) / 2).sum
  if s = t then .ok ((s : ℚ) + u) else .error .assertionError

end Bundle

/-! ### The classification (`_LineBundle.framing`, a read-only derived view) -/

/-- Accumulator of the classification loop: side lists, the four
corner candidate lists, and the unclassified labels. -/
structure ClassifyAcc where
  top : List ℤ
  bottom : List ℤ
  left : List ℤ
  right : List ℤ
  c0 : List ℤ
  c1 : List ℤ
  c2 : List ℤ
  c3 : List ℤ
  unknown : List ℤ
  deriving Repr, DecidableEq

namespace Bundle

/-- One iteration of the classification loop of `_LineBundle.framing`:
branch priority is top, bottom, left, right, unknown, with corner
detection nested inside the row branches. -/
def classify_step (b : Bundle) (acc : ClassifyAcc) (node : ℤ) : ClassifyAcc :=
  let partner := b.complement node
  if b.is_top_node node then
    if b.is_left_node node then
      { acc with c0 := acc.c0 ++ [node], c2 := acc.c2 ++ [partner] }
    else if b.is_right_node node then
      { acc with c1 := acc.c1 ++ [node], c3 := acc.c3 ++ [partner] }
    else
      { acc with top := acc.top ++ [node], bottom := acc.bottom ++ [partner] }
  else if b.is_bottom_node node then
    if b.is_left_node node then
      { acc with c3 := acc.c3 ++ [node], c1 := acc.c1 ++ [partner] }
    else if b.is_right_node node then
      { acc with c2 := acc.c2 ++ [node], c0 := acc.c0 ++ [partner] }
    else
      { acc with bottom := acc.bottom ++ [node], top := acc.top ++ [partner] }
  else if b.is_left_node node then
    { acc with left := acc.left ++ [node], right := acc.right ++ [partner] }
  else if b.is_right_node node then
    { acc with right := acc.right ++ [node], left := acc.left ++ [partner] }
  else
    { acc with unknown := acc.unknown ++ [node] }

/-- The classification fold over the labels `1 .. 2n+2`
(`for node in range(1, 2*self.n+3)`). -/
def classify (b : Bundle) : ClassifyAcc :=
  (irange 1 (2 * b.n + 2)).foldl b.classify_step
    ⟨[], [], [], [], [], [], [], [], []⟩

/-- The status bitmask computed at the end of `_LineBundle.framing`:
bit `k` (k = 0..3) for a corner list of length ≠ 1, bit 4 for a
nonempty unknown list. -/
def classify_status (acc : ClassifyAcc) : ℕ :=
  (if acc.c0.length ≠ 1 then 1 else 0) +
  (if acc.c1.length ≠ 1 then 2 else 0) +
  (if acc.c2.length ≠ 1 then 4 else 0) +
  (if acc.c3.length ≠ 1 then 8 else 0) +
  (if acc.unknown ≠ [] then 16 else 0)

/-- `_LineBundle.framing` (a property: performs no mutation): returns
`status, (top, right, bottom, left), corners`. -/
def framing (b : Bundle) :
    ℕ × (List ℤ × List ℤ × List ℤ × List ℤ) × (List ℤ × List ℤ × List ℤ × List ℤ) :=
  let acc := b.classify
  (classify_status acc, (acc.top, acc.right, acc.bottom, acc.left),
    (acc.c0, acc.c1, acc.c2, acc.c3))

end Bundle

/-- `parse_status(status)`: returns `None` on zero; any nonzero status
evaluates the guard `if error < 0 or error >= 32` whose name `error`
is unbound in the source, so a `NameError` is raised before any of
the intended `ValueError` branches can run. -/
def parse_status (status : ℕ) : Except PyErr Unit :=
  if status = 0 then .ok ()
  else .error .nameError

/-! ## `MagicSquare` (`magic_square.py`) -/

/-- The `MagicSquare` object state: order, diagonal flag, the cached
magic constant `self._magic` (`None` after any write), and the matrix.
Cell values are `WithTop ℤ` (`⊤` models `float('inf')`).  The dict
`self.matrix` has key set exactly `[0, n) × [0, n)` (filled by
`initialize`, never extended or shrunk), so it is modelled as a total
function guarded by that bounds test. -/
structure MagicSquare where
  n : ℕ
  diagonals : Bool
  magic_ : Option (WithTop ℤ)
  matrix : ℤ × ℤ → WithTop ℤ

namespace MagicSquare

/-- `MagicSquare.__init__(n, diagonals)` up to and including
`initialize()`: `_magic = None` and every grid cell holds
`float('inf')`. -/
def new0 (n : ℕ) (diagonals : Bool) : MagicSquare :=
  { n := n, diagonals := diagonals, magic_ := none, matrix := fun _ => ⊤ }

/-- The `index in self.matrix` test: the key set is exactly the grid. -/
def in_grid (sq : MagicSquare) (idx : ℤ × ℤ) : Bool :=
  decide (0 ≤ idx.1) && decide (idx.1 < (sq.n : ℤ)) &&
  decide (0 ≤ idx.2) && decide (idx.2 < (sq.n : ℤ))

/-- `__getitem__`: direct dict access (`KeyError` off the grid). -/
def getitem (sq : MagicSquare) (idx : ℤ × ℤ) : Except PyErr (WithTop ℤ) :=
  if sq.in_grid idx then .ok (sq.matrix idx) else .error .keyError

/-- `__setitem__`: `IndexError` for an unknown key, otherwise writes
the cell and resets the cached magic constant to `None`. -/
def setitem (sq : MagicSquare) (idx : ℤ × ℤ) (v : WithTop ℤ) :
    Except PyErr Unit × MagicSquare :=
  if sq.in_grid idx then
    (.ok (), { sq with matrix := fun p => if p = idx then v else sq.matrix p,
                       magic_ := none })
  else (.error .indexError, sq)

/-- `row_sum(i)`: total of row `i` over columns `0 .. n-1`. -/
def row_sum (sq : MagicSquare) (i : ℤ) : WithTop ℤ :=
  ((irange 0 sq.n).map fun j => sq.matrix (i, j)).sum

/-- `column_sum(j)`: total of column `j` over rows `0 .. n-1`. -/
def column_sum (sq : MagicSquare) (j : ℤ) : WithTop ℤ :=
  ((irange 0 sq.n).map fun i => sq.matrix (i, j)).sum

/-- `main_diagonal_sum()`. -/
def main_diagonal_sum (sq : MagicSquare) : WithTop ℤ :=
  ((irange 0 sq.n).map fun i => sq.matrix (i, i)).sum

/-- `back_diagonal_sum()`. -/
def back_diagonal_sum (sq : MagicSquare) : WithTop ℤ :=
  ((irange 0 sq.n).map fun i => sq.matrix (i, (sq.n : ℤ) - i - 1)).sum

/-- `check()`: records `row_sum(0)` as `_magic`, then raises `Warning`
at the first row (rows `1 .. n-1`), column, or (when `diagonals`)
diagonal whose sum deviates; returns the magic constant on success.
All failure branches raise the same exception kind, so the early-exit
loops are modelled by `List.all`. -/
def check (sq : MagicSquare) : Except PyErr (WithTop ℤ) × MagicSquare :=
  let m := sq.row_sum 0
  let sq' := { sq with magic_ := some m }
  if ¬ ((irange 1 (sq.n - 1)).all fun j => decide (sq.row_sum j = m)) then
    (.error .warning, sq')
  else if ¬ ((irange 0 sq.n).all fun i => decide (sq.column_sum i = m)) then
    (.error .warning, sq')
  else if sq.diagonals &&
      (decide (¬ sq.main_diagonal_sum = m) || decide (¬ sq.back_diagonal_sum = m)) then
    (.error .warning, sq')
  else (.ok m, sq')

/-- A sequence of `__setitem__` writes, propagating the first failure. -/
def write_cells (sq : MagicSquare) : List ((ℤ × ℤ) × WithTop ℤ) →
    Except PyErr Unit × MagicSquare
  | [] => (.ok (), sq)
  | (idx, v) :: rest =>
      match sq.setitem idx v with
      | (.ok _, sq') => write_cells sq' rest
      | (.error e, sq') => (.error e, sq')

/-- `MagicSquare.from_sq(source)` for a `MagicSquare` source (the only
branch exercised by the framing flow): build `MagicSquare(n, debug=True)`
(whose `debug` branch records the all-`inf` row 0 sum as `_magic`),
copy every cell of the source through `__setitem__`, and `check()` the
copy.  Reads `source[(i,j)]` are in-grid, hence modelled by direct
matrix access. -/
def from_sq (source : MagicSquare) : Except PyErr MagicSquare :=
  let n := source.n
  let target0 := new0 n true
  let target1 := { target0 with magic_ := some (target0.row_sum 0) }
  let cells := (irange 0 n).flatMap fun i =>
    (irange 0 n).map fun j => (((i : ℤ), (j : ℤ)), source.matrix (i, j))
  match write_cells target1 cells with
  | (.error e, _) => .error e
  | (.ok _, target2) =>
      match target2.check with
      | (.error e, _) => .error e
      | (.ok _, target3) => .ok target3

end MagicSquare

/-! ## `Tier` (`decorators.py`) -/

/-- The four tier types accepted by `Tier.__init__`. -/
inductive TierType where
  | row
  | column
  | diagonal
  | antidiagonal
  deriving DecidableEq, Repr

/-- A `Tier` records the index-mapping closure built by the
constructor: tier type, tier number, and the captured
`n = len(square_matrix) - 1` (used only by the antidiagonal cases).
The matrix reference is supplied at each access, since the embedding
threads state explicitly. -/
structure Tier where
  ttype : TierType
  number : ℤ
  nlast : ℤ
  deriving DecidableEq, Repr

namespace Tier

/-- `Tier.__init__`: records the mapping; `TypeError` when an
antidiagonal is requested with a tier number other than 0 or 1
(the unknown-type branch is unrepresentable for `TierType`). -/
def new0 (sq : MagicSquare) (ttype : TierType) (number : ℤ) : Except PyErr Tier :=
  if ttype = .antidiagonal ∧ number ≠ 0 ∧ number ≠ 1 then .error .typeError
  else .ok { ttype := ttype, number := number, nlast := (sq.n : ℤ) - 1 }

/-- The index-mapping closure `self._tier`. -/
def cell (t : Tier) (index : ℤ) : ℤ × ℤ :=
  match t.ttype with
  | .row => (t.number, index)
  | .column => (index, t.number)
  | .diagonal => (index, index)
  | .antidiagonal => if t.number = 0 then (index, t.nlast - index) else (t.nlast - index, index)

/-- `Tier.__getitem__`: read through the mapping. -/
def getitem (t : Tier) (sq : MagicSquare) (index : ℤ) : Except PyErr (WithTop ℤ) :=
  sq.getitem (t.cell index)

/-- `Tier.__setitem__`: write through the mapping (the underlying
`MagicSquare.__setitem__` validates the index and resets `_magic`). -/
def setitem (t : Tier) (sq : MagicSquare) (index : ℤ) (v : WithTop ℤ) :
    Except PyErr Unit × MagicSquare :=
  sq.setitem (t.cell index) v

end Tier

/-! ## `BundledMagicSquare` (`line_bundle.py`) -/

/-- The randomness oracle standing in for Python's process-wide
`random` module: a stream of coin results (`random() < 0.5`) and a
stream of shuffling functions (`random.shuffle`), both indexed by the
number of random operations performed so far. -/
structure Draw where
  coins : ℕ → Bool
  shuffles : ℕ → List ℤ → List ℤ

/-- A draw is valid when every shuffle returns a permutation of its
input, which is all `random.shuffle` guarantees. -/
def ValidDraw (d : Draw) : Prop := ∀ k l, (d.shuffles k l).Perm l

/-- The deterministic draw (identity shuffles, constant coin). -/
def trivialDraw : Draw := { coins := fun _ => true, shuffles := fun _ l => l }

/-- The combined object state of a `BundledMagicSquare` under
construction: its own `MagicSquare` state (`sq`), the checked copy
`self.source`, `self.bundle`, the constructor arguments, the
randomness counter (position in the `Draw` oracle), the four frame
tiers (absent before `configure` creates them), and the `self.debug`
attribute that `framing()` creates (absent before the first
assignment). -/
structure BSquare where
  sq : MagicSquare
  source : MagicSquare
  bundle : Bundle
  algorithm : ℤ
  randomize : Bool
  rctr : ℕ
  tier_top? : Option Tier
  tier_bottom? : Option Tier
  tier_left? : Option Tier
  tier_right? : Option Tier
  debugAttr : Option Bool

namespace BSquare

/-- Run a bundle operation, threading the bundle through the state. -/
def bundle_op (st : BSquare) (f : Bundle → Except PyErr Unit × Bundle) :
    Except PyErr Unit × BSquare :=
  let (r, b') := f st.bundle
  (r, { st with bundle := b' })

/-- Sequencing of fallible state transformers (exception propagation). -/
def andThen (p : Except PyErr Unit × BSquare) (f : BSquare → Except PyErr Unit × BSquare) :
    Except PyErr Unit × BSquare :=
  match p with
  | (.ok _, st) => f st
  | (.error e, st) => (.error e, st)

/-- `my_random()`: consumes a coin when `randomize` is set, returning
`1` or `0`; returns `1` without consuming randomness otherwise. -/
def my_random (st : BSquare) (draw : Draw) : ℤ × BSquare :=
  if st.randomize then
    ((if draw.coins st.rctr then 1 else 0), { st with rctr := st.rctr + 1 })
  else (1, st)

/-- `my_shuffle(foo)`: consumes a shuffle when `randomize` is set;
otherwise leaves the list untouched and consumes nothing. -/
def my_shuffle (st : BSquare) (draw : Draw) (foo : List ℤ) : List ℤ × BSquare :=
  if st.randomize then
    (draw.shuffles st.rctr foo, { st with rctr := st.rctr + 1 })
  else (foo, st)

/-- A `for node in nodes: bundle.link(f node)` loop, where `f` gives
the `(source, target)` arguments of each link call.  The complement
values baked into `f` are computed from the loop-invariant `sigma`
of the bundle (the link operations never change `n`). -/
def link_each (link : Bundle → ℤ → ℤ → Except PyErr Unit × Bundle)
    (f : ℤ → ℤ × ℤ) : List ℤ → BSquare → Except PyErr Unit × BSquare
  | [], st => (.ok (), st)
  | x :: xs, st =>
      match st.bundle_op (fun b => link b (f x).1 (f x).2) with
      | (.ok _, st') => link_each link f xs st'
      | (.error e, st') => (.error e, st')

/-- `frame0_4`: the six forced links of the order-4 rule. -/
def frame0_4 (st : BSquare) : Except PyErr Unit × BSquare :=
  andThen (st.bundle_op fun b => b.link_purple 2 36) fun st =>
  andThen (st.bundle_op fun b => b.link_purple 7 31) fun st =>
  andThen (st.bundle_op fun b => b.link_green 6 36) fun st =>
  andThen (st.bundle_op fun b => b.link_green 3 33) fun st =>
  andThen (st.bundle_op fun b => b.link_green 5 28) fun st =>
  st.bundle_op fun b => b.link_purple 8 27

/-- `frame0_oddly_even`: the rule for `n % 4 == 2`, `n > 2`. -/
def frame0_oddly_even (st : BSquare) (draw : Draw) : Except PyErr Unit × BSquare :=
  let n : ℤ := st.source.n
  andThen (st.bundle_op fun b => b.link_green (n + 2) (b.complement (n + 1))) fun st =>
  andThen (st.bundle_op fun b => b.link_purple (n + 3) (b.complement (n + 1))) fun st =>
  andThen (st.bundle_op fun b => b.link_purple (n + 4) (b.complement (n + 2))) fun st =>
  let foo := pyRange2 1 n
  let (foo', st) := st.my_shuffle draw foo
  let ascents := foo'.take (st.source.n / 4)
  let descents := foo'.drop (st.source.n / 4)
  andThen (link_each Bundle.link_green
      (fun node => (node + 1, st.bundle.complement node)) ascents st) fun st =>
  andThen (link_each Bundle.link_green
      (fun node => (node, st.bundle.complement (node + 1))) descents st) fun st =>
  andThen (st.bundle_op fun b => b.link_purple (n + 5) (b.complement (n + 7))) fun st =>
  andThen (st.bundle_op fun b => b.link_purple (n + 6) (b.complement (n + 8))) fun st =>
  let foo2 := pyRange2 (n + 9) (2 * n + 2)
  let (foo2', st) := st.my_shuffle draw foo2
  let ascents2 := foo2'.take ((st.source.n - 6) / 4)
  let descents2 := foo2'.drop ((st.source.n - 6) / 4)
  andThen (link_each Bundle.link_purple
      (fun node => (node + 1, st.bundle.complement node)) ascents2 st) fun st =>
  link_each Bundle.link_purple
      (fun node => (node, st.bundle.complement (node + 1))) descents2 st

/-- `frame0_evenly_even`: the rule for `n % 4 == 0`, `n > 4`. -/
def frame0_evenly_even (st : BSquare) (draw : Draw) : Except PyErr Unit × BSquare :=
  let n : ℤ := st.source.n
  andThen (st.bundle_op fun b => b.link_green (n + 2) (b.complement (n + 1))) fun st =>
  andThen (st.bundle_op fun b => b.link_purple n (b.complement (n + 1))) fun st =>
  andThen (st.bundle_op fun b => b.link_purple (n + 4) (b.complement (n + 2))) fun st =>
  andThen (st.bundle_op fun b => b.link_green (n - 1) (b.complement (n + 3))) fun st =>
  let foo := pyRange2 1 (n - 2)
  let (foo', st) := st.my_shuffle draw foo
  let ascents := foo'.take 3
  let rest := foo'.drop 3
  let ascents2 := rest.take (rest.length / 2)
  let descents := rest.drop (rest.length / 2)
  andThen (link_each Bundle.link_green
      (fun node => (node + 1, st.bundle.complement node)) ascents st) fun st =>
  andThen (link_each Bundle.link_green
      (fun node => (node + 1, st.bundle.complement node)) ascents2 st) fun st =>
  andThen (link_each Bundle.link_green
      (fun node => (node, st.bundle.complement (node + 1))) descents st) fun st =>
  let foo2 := pyRange2 (n + 5) (2 * n + 2)
  let (foo2', st) := st.my_shuffle draw foo2
  let descents2 := foo2'.take (st.source.n / 4)
  let ascents3 := foo2'.drop (st.source.n / 4)
  andThen (link_each Bundle.link_purple
      (fun node => (node + 1, st.bundle.complement node)) ascents3 st) fun st =>
  link_each Bundle.link_purple
      (fun node => (node, st.bundle.complement (node + 1))) descents2 st

/-- The heads branch of the `frame0_odd` pairing loop: low evens to
the right, high odds to the bottom.  Each iteration issues one green
and one purple link and advances `node` by two. -/
def frame0_odd_heads (n : ℤ) : ℕ → ℤ → BSquare → Except PyErr Unit × BSquare
  | 0, _, st => (.ok (), st)
  | c + 1, node, st =>
      andThen (st.bundle_op fun b => b.link_green (node + n + 3) (b.complement node)) fun st =>
      andThen (st.bundle_op fun b => b.link_purple (node + 1) (b.complement (node + 1 + n + 3))) fun st =>
      frame0_odd_heads n c (node + 2) st

/-- The tails branch of the `frame0_odd` pairing loop: low odds to the
right, high evens to the bottom. -/
def frame0_odd_tails (n : ℤ) : ℕ → ℤ → BSquare → Except PyErr Unit × BSquare
  | 0, _, st => (.ok (), st)
  | c + 1, node, st =>
      andThen (st.bundle_op fun b => b.link_purple node (b.complement (node + n + 3))) fun st =>
      andThen (st.bundle_op fun b => b.link_green (node + 1 + n + 3) (b.complement (node + 1))) fun st =>
      frame0_odd_tails n c (node + 2) st

/-- `frame0_odd`: al-Buzjani's rule for odd `n` (complementary links
pin `n`, `n+2` and the left corners `n+1`, `n+3`; one coin flip
selects the pairing direction of the remaining labels). -/
def frame0_odd (st : BSquare) (draw : Draw) : Except PyErr Unit × BSquare :=
  let n : ℤ := st.source.n
  andThen (st.bundle_op fun b => b.clink_green (n + 2)) fun st =>
  andThen (st.bundle_op fun b => b.clink_purple n) fun st =>
  andThen (st.bundle_op fun b => b.link_green (n + 3) (b.complement (n + 1))) fun st =>
  andThen (st.bundle_op fun b => b.clink_purple (b.complement (n + 1))) fun st =>
  andThen (st.bundle_op fun b => b.clink_purple (b.complement (n + 3))) fun st =>
  let links := (st.source.n - 1) / 2
  let (r, st) := st.my_random draw
  if r ≠ 0 then frame0_odd_heads n links 1 st
  else frame0_odd_tails n links 1 st

/-- The tier-writing loop at the end of `BundledMagicSquare.framing`:
`for i in range(self.n): self._top[i] = top[i]; …` with Python list
indexing (an out-of-range index raises `IndexError`). -/
def framing_write_loop (tTop tRight tBottom tLeft : Tier)
    (top right bottom left : List ℤ) : ℕ → ℕ → MagicSquare →
    Except PyErr Unit × MagicSquare
  | 0, _, sq => (.ok (), sq)
  | c + 1, i, sq =>
      match top.get? i with
      | none => (.error .indexError, sq)
      | some v =>
          match tTop.setitem sq (i : ℤ) (v : ℤ) with
          | (.error e, sq') => (.error e, sq')
          | (.ok _, sq') =>
              match right.get? i with
              | none => (.error .indexError, sq')
              | some v =>
                  match tRight.setitem sq' (i : ℤ) (v : ℤ) with
                  | (.error e, sq') => (.error e, sq')
                  | (.ok _, sq') =>
                      match bottom.get? i with
                      | none => (.error .indexError, sq')
                      | some v =>
                          match tBottom.setitem sq' (i : ℤ) (v : ℤ) with
                          | (.error e, sq') => (.error e, sq')
                          | (.ok _, sq') =>
                              match left.get? i with
                              | none => (.error .indexError, sq')
                              | some v =>
                                  match tLeft.setitem sq' (i : ℤ) (v : ℤ) with
                                  | (.error e, sq') => (.error e, sq')
                                  | (.ok _, sq') =>
                                      framing_write_loop tTop tRight tBottom tLeft
                                        top right bottom left c (i + 1) sq'

/-- `BundledMagicSquare.framing()`: optional debug logging (which
evaluates the shadowing `green_sum` — a purple-dict sum — and the
inherited `purple_sum`, each of which can raise on its internal
assertion), then the read-only classification, `parse_status`
(whose `ValueError`s are caught, returning the status; any other
exception — in particular the `NameError` its nonzero branch actually
raises — propagates), then the four corner-extended side lists are
committed to the frame tiers and `self.debug` is set to `False`.
`framing_log` is the logging prelude, `framing_method` the rest. -/
def framing_log (st : BSquare) : Except PyErr Unit :=
  if st.bundle.debug then
    match st.bundle.green_sum_v2 with
    | .error e => .error e
    | .ok _ =>
        match st.bundle.purple_sum0 with
        | .error e => .error e
        | .ok _ => .ok ()
  else .ok ()

/-- See the doc comment above `framing_log`: the body of
`BundledMagicSquare.framing()` after its logging prelude. -/
def framing_method (st : BSquare) : Except PyErr ℕ × BSquare :=
  match st.framing_log with
  | .error e => (.error e, st)
  | .ok _ =>
    match st.bundle.framing with
    | (status, (top, right, bottom, left), (c0, c1, c2, c3)) =>
      match parse_status status with
      | .error .valueError => (.ok status, st)
      | .error e => (.error e, st)
      | .ok _ =>
          let top := c0 ++ top ++ c1
          let right := c1 ++ right ++ c2
          let bottom := c3 ++ bottom ++ c2
          let left := c0 ++ left ++ c3
          match st.tier_top?, st.tier_right?, st.tier_bottom?, st.tier_left? with
          | some tTop, some tRight, some tBottom, some tLeft =>
              match framing_write_loop tTop tRight tBottom tLeft
                  top right bottom left st.sq.n 0 st.sq with
              | (.error e, sq') => (.error e, { st with sq := sq' })
              | (.ok _, sq') =>
                  (.ok status, { st with sq := sq', debugAttr := some false })
          | _, _, _, _ => (.error .attributeError, st)

/-- `BundledMagicSquare.default_configure` (dispatch-table entry 0):
selects the rule from `n`'s residue, then runs `framing()`
(discarding its status).  The `n <= 2` branch returns without
framing; it is unreachable through the constructor because
`LineBundle.validate` already rejected those orders. -/
def default_configure (st : BSquare) (draw : Draw) : Except PyErr Unit × BSquare :=
  let n := st.source.n
  let after : Except PyErr Unit × BSquare → Except PyErr Unit × BSquare :=
    fun p => andThen p fun st =>
      match st.framing_method with
      | (.error e, st') => (.error e, st')
      | (.ok _, st') => (.ok (), st')
  if n % 2 = 1 ∧ n > 0 then after (st.frame0_odd draw)
  else if n ≤ 2 then (.ok (), st)
  else if n = 4 then after st.frame0_4
  else if n % 4 = 0 then after (st.frame0_evenly_even draw)
  else after (st.frame0_oddly_even draw)

/-- The interior-mounting loop of `BundledMagicSquare.configure`:
`self[(i+1, j+1)] = self.source[(i, j)] + h` for all `i, j < n`
(the reads are in-grid, hence direct matrix accesses). -/
def configure_interior (st : BSquare) : Except PyErr Unit × BSquare :=
  let n := st.source.n
  let h : ℤ := 2 * (n : ℤ) + 2
  let cells := (irange 0 n).flatMap fun i =>
    (irange 0 n).map fun j => ((i + 1, j + 1), st.source.matrix (i, j) + (h : WithTop ℤ))
  let r := st.sq.write_cells cells
  (r.1, { st with sq := r.2 })

/-- The loop body of `FramedMagicSquare.configure_frame`: zero the four
border cells in tier order top, bottom, left, right for each index. -/
def configure_frame_loop (tTop tBottom tLeft tRight : Tier) :
    ℕ → ℤ → MagicSquare → Except PyErr Unit × MagicSquare
  | 0, _, sq => (.ok (), sq)
  | c + 1, i, sq =>
      match tTop.setitem sq i 0 with
      | (.error e, sq') => (.error e, sq')
      | (.ok _, sq') =>
          match tBottom.setitem sq' i 0 with
          | (.error e, sq') => (.error e, sq')
          | (.ok _, sq') =>
              match tLeft.setitem sq' i 0 with
              | (.error e, sq') => (.error e, sq')
              | (.ok _, sq') =>
                  match tRight.setitem sq' i 0 with
                  | (.error e, sq') => (.error e, sq')
                  | (.ok _, sq') =>
                      configure_frame_loop tTop tBottom tLeft tRight c (i + 1) sq'

/-- `BundledMagicSquare.configure`: mount the shifted picture, create
the four tiers, run `configure_frame` (zero frame), then dispatch the
bundling algorithm (`DISPATCH_TABLE` holds exactly the key `0`, bound
to `default_configure`; any other algorithm id silently skips). -/
def configure (st : BSquare) (draw : Draw) : Except PyErr Unit × BSquare :=
  andThen st.configure_interior fun st =>
  let n := st.sq.n
  match Tier.new0 st.sq .row 0 with
  | .error e => (.error e, st)
  | .ok tTop =>
  match Tier.new0 st.sq .row ((n : ℤ) - 1) with
  | .error e => (.error e, st)
  | .ok tBottom =>
  match Tier.new0 st.sq .column 0 with
  | .error e => (.error e, st)
  | .ok tLeft =>
  match Tier.new0 st.sq .column ((n : ℤ) - 1) with
  | .error e => (.error e, st)
  | .ok tRight =>
  let st := { st with tier_top? := some tTop, tier_bottom? := some tBottom,
                      tier_left? := some tLeft, tier_right? := some tRight }
  match configure_frame_loop tTop tBottom tLeft tRight st.sq.n 0 st.sq with
  | (.error e, sq') => (.error e, { st with sq := sq' })
  | (.ok _, sq') =>
      let st := { st with sq := sq' }
      if st.algorithm = 0 then st.default_configure draw else (.ok (), st)

end BSquare

/-- `BundledMagicSquare(picture, algorithm, randomize, trace)` with an
explicit randomness oracle: builds the line bundle (validating the
picture's order), copies and checks the picture (`from_sq`), then runs
`MagicSquare.__init__(picture.n + 2, debug=True)` — matrix of `inf`,
`configure`, and, because `debug` is true, `_magic = row_sum(0)`
recorded *without* running `check()`. -/
def bundledMagicSquare (picture : MagicSquare) (algorithm : ℤ)
    (randomize : Bool) (trace : Bool) (draw : Draw) : Except PyErr BSquare :=
  match Bundle.lineBundle_mk (picture.n : ℤ) trace with
  | .error e => .error e
  | .ok bundle =>
      match MagicSquare.from_sq picture with
      | .error e => .error e
      | .ok source =>
          let st0 : BSquare :=
            { sq := MagicSquare.new0 (picture.n + 2) true, source := source,
              bundle := bundle, algorithm := algorithm, randomize := randomize,
              rctr := 0, tier_top? := none, tier_bottom? := none,
              tier_left? := none, tier_right? := none, debugAttr := none }
          match st0.configure draw with
          | (.error e, _) => .error e
          | (.ok _, st1) =>
              .ok { st1 with sq := { st1.sq with magic_ := some (st1.sq.row_sum 0) } }

/-! ## Derived notions used by the statements and proofs -/

/-- The empty classification accumulator. -/
def ClassifyAcc.empty : ClassifyAcc := ⟨[], [], [], [], [], [], [], [], []⟩

/-- Componentwise concatenation of classification accumulators. -/
def ClassifyAcc.append (a b : ClassifyAcc) : ClassifyAcc :=
  ⟨a.top ++ b.top, a.bottom ++ b.bottom, a.left ++ b.left, a.right ++ b.right,
   a.c0 ++ b.c0, a.c1 ++ b.c1, a.c2 ++ b.c2, a.c3 ++ b.c3, a.unknown ++ b.unknown⟩

/-- The classification of a single node, starting from the empty
accumulator; the classification loop is the componentwise
concatenation of these. -/
def Bundle.classify_one (b : Bundle) (v : ℤ) : ClassifyAcc :=
  b.classify_step ClassifyAcc.empty v

/-- A label has a row resolution when it (or its complement) carries a
green link, and a column resolution when it (or its complement)
carries a purple link; `classify` marks a label unknown exactly when
it has neither. -/
def Bundle.row_resolved (b : Bundle) (v : ℤ) : Bool :=
  b.is_top_node v || b.is_bottom_node v

/-- Column resolution: see `Bundle.row_resolved`. -/
def Bundle.col_resolved (b : Bundle) (v : ℤ) : Bool :=
  b.is_left_node v || b.is_right_node v

/-- The flattened list of all matrix entries of a square, row-major. -/
def MagicSquare.entriesList (sq : MagicSquare) : List (WithTop ℤ) :=
  (irange 0 sq.n).flatMap fun i => (irange 0 sq.n).map fun j => sq.matrix (i, j)

/-- Build a square from literal rows (test/counterexample inputs);
off-grid cells hold `⊤`, matching a freshly keyed dict. -/
def MagicSquare.of_rows (rows : List (List ℤ)) : MagicSquare :=
  { n := rows.length, diagonals := true, magic_ := none,
    matrix := fun p =>
      if 0 ≤ p.1 ∧ p.1 < (rows.length : ℤ) ∧ 0 ≤ p.2 ∧ p.2 < (rows.length : ℤ) then
        match (rows.get? p.1.toNat).bind (fun r => r.get? p.2.toNat) with
        | some v => (v : WithTop ℤ)
        | none => ⊤
      else ⊤ }

/-- Apply a sequence of tier writes, continuing from whatever state
each write leaves behind (writes that raise leave the state as it
was). -/
def MagicSquare.apply_writes (sq : MagicSquare) : List (Tier × ℤ × WithTop ℤ) → MagicSquare
  | [] => sq
  | (t, i, v) :: rest => ((t.setitem sq i v).2).apply_writes rest

/-- The order-1 magic square holding the single entry `5`: magic (its
one row, column and diagonal all sum to `5`) but with entries other
than `{1}`; framing it exercises the commit path on input the frame
arithmetic does not fit. -/
def pic5 : MagicSquare := MagicSquare.of_rows [[5]]

/-- The order-1 magic square holding the single entry `1`. -/
def pic1 : MagicSquare := MagicSquare.of_rows [[1]]

/-- The result of framing `pic5` with the default algorithm. -/
def pic5_run : Except PyErr BSquare := bundledMagicSquare pic5 0 true false trivialDraw

/-- The square produced by `pic5_run` (which succeeds). -/
def pic5_sq : MagicSquare :=
  match pic5_run with
  | .ok st => st.sq
  | .error _ => MagicSquare.new0 0 true

/-- The result of framing `pic1` (Scenario A input) with the default
algorithm, deterministically. -/
def pic1_run : Except PyErr BSquare := bundledMagicSquare pic1 0 false false trivialDraw

/-- The state produced by `pic1_run` (which succeeds). -/
def pic1_st : BSquare :=
  match pic1_run with
  | .ok st => st
  | .error _ =>
      { sq := MagicSquare.new0 0 true, source := MagicSquare.new0 0 true,
        bundle := ⟨0, [], [], false⟩, algorithm := 0, randomize := false,
        rctr := 0, tier_top? := none, tier_bottom? := none, tier_left? := none,
        tier_right? := none, debugAttr := none }

/-- A `BundledMagicSquare` state whose bundle is a freshly constructed
(empty) `LineBundle` of order 4, with the frame tiers configured: the
state in which `framing()` is invoked before any rule has linked
anything, so that classification reports every label unknown and
every corner empty (status 31). -/
def c4_state : BSquare :=
  { sq := MagicSquare.new0 6 true, source := MagicSquare.new0 4 true,
    bundle := { n := 4, green := [], purple := [], debug := false },
    algorithm := 0, randomize := true, rctr := 0,
    tier_top? := some { ttype := .row, number := 0, nlast := 5 },
    tier_bottom? := some { ttype := .row, number := 5, nlast := 5 },
    tier_left? := some { ttype := .column, number := 0, nlast := 5 },
    tier_right? := some { ttype := .column, number := 5, nlast := 5 },
    debugAttr := none }

/-- The magic constant of a traditional magic square of order `m`. -/
def magicConstant (m : ℕ) : ℤ := (m : ℤ) * ((m : ℤ) ^ 2 + 1) / 2

/-- A freshly constructed (empty) line bundle of order 4. -/
def bundle4 : Bundle := { n := 4, green := [], purple := [], debug := false }

/-- A small square used to instantiate matrix-level witnesses. -/
def sq3 : MagicSquare := MagicSquare.new0 3 true

/-- `Bundle.classify` as componentwise `flatMap` of per-node
classifications over a node list. -/
def Bundle.classify_parts (b : Bundle) (L : List ℤ) : ClassifyAcc :=
  ⟨L.flatMap fun v => (b.classify_one v).top,
   L.flatMap fun v => (b.classify_one v).bottom,
   L.flatMap fun v => (b.classify_one v).left,
   L.flatMap fun v => (b.classify_one v).right,
   L.flatMap fun v => (b.classify_one v).c0,
   L.flatMap fun v => (b.classify_one v).c1,
   L.flatMap fun v => (b.classify_one v).c2,
   L.flatMap fun v => (b.classify_one v).c3,
   L.flatMap fun v => (b.classify_one v).unknown⟩

/-- The two symmetric dict entries a normal link stores. -/
def cpairs (s t : ℤ) : List (ℤ × ℤ) := [(s, t), (t, s)]

/-- The dict entries appended by a `link_each` loop over `L`, where
`f` gives the `(source, target)` of each call. -/
def linkPairs (f : ℤ → ℤ × ℤ) (L : List ℤ) : List (ℤ × ℤ) :=
  L.flatMap fun x => cpairs (f x).1 (f x).2

/-- Green entries produced by the heads branch of the `frame0_odd`
loop starting at `node`, for `count` iterations (`σ` is the
complement constant, `n` the picture order): the link
`(node+n+3) → complement(node)` per iteration. -/
def odd_heads_green (σ n node : ℤ) : ℕ → List (ℤ × ℤ)
  | 0 => []
  | c + 1 => cpairs (node + n + 3) (σ - node) ++ odd_heads_green σ n (node + 2) c

/-- Purple entries of the heads branch: `(node+1) → complement(node+1+n+3)`. -/
def odd_heads_purple (σ n node : ℤ) : ℕ → List (ℤ × ℤ)
  | 0 => []
  | c + 1 => cpairs (node + 1) (σ - (node + 1 + n + 3)) ++ odd_heads_purple σ n (node + 2) c

/-- Green entries of the tails branch: `(node+1+n+3) → complement(node+1)`. -/
def odd_tails_green (σ n node : ℤ) : ℕ → List (ℤ × ℤ)
  | 0 => []
  | c + 1 => cpairs (node + 1 + n + 3) (σ - (node + 1)) ++ odd_tails_green σ n (node + 2) c

/-- Purple entries of the tails branch: `node → complement(node+n+3)`. -/
def odd_tails_purple (σ n node : ℤ) : ℕ → List (ℤ × ℤ)
  | 0 => []
  | c + 1 => cpairs node (σ - (node + n + 3)) ++ odd_tails_purple σ n (node + 2) c

/-- The cells written by `configure_frame` (zeroing the border),
in loop order: top, bottom, left, right at each index. -/
def frame_zero_cells (N : ℤ) (i : ℤ) : ℕ → List ((ℤ × ℤ) × WithTop ℤ)
  | 0 => []
  | c + 1 => [((0, i), 0), ((N - 1, i), 0), ((i, 0), 0), ((i, N - 1), 0)] ++
      frame_zero_cells N (i + 1) c

/-- The cells written by the commit loop of `framing()`, in loop
order: top, right, bottom, left at each index; values are drawn from
the corner-extended side lists. -/
def commit_cells (top right bottom left : List ℤ) (N : ℤ) :
    ℕ → ℕ → List ((ℤ × ℤ) × WithTop ℤ)
  | _, 0 => []
  | i, c + 1 =>
      [((0, (i : ℤ)), ((top.getD i 0 : ℤ) : WithTop ℤ)),
       (((i : ℤ), N - 1), ((right.getD i 0 : ℤ) : WithTop ℤ)),
       ((N - 1, (i : ℤ)), ((bottom.getD i 0 : ℤ) : WithTop ℤ)),
       (((i : ℤ), 0), ((left.getD i 0 : ℤ) : WithTop ℤ))] ++
      commit_cells top right bottom left N (i + 1) c

/-- Decidable magic test used as the picture precondition: every row,
column and both diagonals sum to the row-0 sum. -/
def MagicSquare.is_magicB (sq : MagicSquare) : Bool :=
  ((irange 0 sq.n).all fun i => decide (sq.row_sum i = sq.row_sum 0)) &&
  ((irange 0 sq.n).all fun j => decide (sq.column_sum j = sq.row_sum 0)) &&
  decide (sq.main_diagonal_sum = sq.row_sum 0) &&
  decide (sq.back_diagonal_sum = sq.row_sum 0)

/-- Whether a constructor run succeeded. -/
def okBool : Except PyErr BSquare → Bool
  | .ok _ => true
  | .error _ => false

/-! ### Abstract link lists

Each framing rule issues a sequence of `link`/`clink` calls.  A call is
described by the labels it involves: `norm s u` is `link(color, s,
complement(u))` (stored symmetrically as the entries `(s, σ-u)` and
`(σ-u, s)`), `cmp x` is `clink(color, x)` for a small label `x` (stored
forward only as `(x, σ-x)`), and `cmpT u` is `clink(color, σ-u)` (stored
as `(σ-u, u)`). -/

inductive Link where
  | norm (s u : ℤ)
  | cmp (x : ℤ)
  | cmpT (u : ℤ)
  deriving DecidableEq, Repr

/-- The dict entries stored for one described call. -/
def Link.entries (S : ℤ) : Link → List (ℤ × ℤ)
  | .norm s u => [(s, S - u), (S - u, s)]
  | .cmp x => [(x, S - x)]
  | .cmpT u => [(S - u, u)]

/-- The colored dict generated by a described call sequence. -/
def linksEntries (S : ℤ) (ls : List Link) : List (ℤ × ℤ) :=
  ls.flatMap (Link.entries S)

/-- The labels (nodes in `1 .. 2n+2`) a described call involves. -/
def Link.labels : Link → List ℤ
  | .norm s u => [s, u]
  | .cmp x => [x]
  | .cmpT u => [u]

/-- All labels involved in a call sequence. -/
def linksLabels (ls : List Link) : List ℤ := ls.flatMap Link.labels

/-- Whether a described call stores an entry keyed `k`. -/
def Link.hasKey (S k : ℤ) : Link → Bool
  | .norm s u => decide (s = k) || decide (S - u = k)
  | .cmp x => decide (x = k)
  | .cmpT u => decide (S - u = k)

/-- Whether the call resolves label `v` towards the top/left (the key
`σ - v` is stored). -/
def Link.resT (v : ℤ) : Link → Bool
  | .norm _ u => decide (v = u)
  | .cmp _ => false
  | .cmpT u => decide (v = u)

/-- Whether the call resolves label `v` towards the bottom/right (the
key `v` is stored). -/
def Link.resB (v : ℤ) : Link → Bool
  | .norm s _ => decide (v = s)
  | .cmp x => decide (v = x)
  | .cmpT _ => false

/-- Twice the slope the call contributes: a normal link `s — σ-u`
has slope `s - u`, a complementary link at key `x` has slope
`(x - (σ-x))/2`. -/
def Link.slope2 (S : ℤ) : Link → ℤ
  | .norm s u => 2 * (s - u)
  | .cmp x => 2 * x - S
  | .cmpT u => S - 2 * u

/-- Sum of twice-slopes over a call sequence. -/
def slope2Sum (S : ℤ) (ls : List Link) : ℤ := (ls.map (Link.slope2 S)).sum

/-- The structural properties of the two colored link-call sequences
that every rule establishes before `framing()` commits: the dicts are
exactly the generated entries, each color involves `n+2` pairwise
distinct labels from `1 .. 2n+2`, exactly the two labels `γ0` and `γ3`
are involved in both colors — `γ0` resolved top and left (corner 0),
`γ3` resolved bottom and left (corner 3) — and each color's slopes sum
to zero. -/
structure GoodLinks (b : Bundle) (gls pls : List Link) (γ0 γ3 : ℤ) : Prop where
  hG : b.green = linksEntries b.sigma gls
  hP : b.purple = linksEntries b.sigma pls
  hGnd : (linksLabels gls).Nodup
  hPnd : (linksLabels pls).Nodup
  hGr : ∀ v ∈ linksLabels gls, 1 ≤ v ∧ v ≤ 2 * (b.n : ℤ) + 2
  hPr : ∀ v ∈ linksLabels pls, 1 ≤ v ∧ v ≤ 2 * (b.n : ℤ) + 2
  hGc : (linksLabels gls).length = b.n + 2
  hPc : (linksLabels pls).length = b.n + 2
  hint : ∀ v, v ∈ linksLabels gls → v ∈ linksLabels pls → v = γ0 ∨ v = γ3
  hγne : γ0 ≠ γ3
  hγ0T : gls.any (Link.resT γ0) = true
  hγ0L : pls.any (Link.resT γ0) = true
  hγ3B : gls.any (Link.resB γ3) = true
  hγ3L : pls.any (Link.resT γ3) = true
  hGs : slope2Sum b.sigma gls = 0
  hPs : slope2Sum b.sigma pls = 0

/-- All classified labels and partners, in the row-major order the
committed frame holds them. -/
def ClassifyAcc.totalList (a : ClassifyAcc) : List ℤ :=
  a.c0 ++ a.c1 ++ a.c2 ++ a.c3 ++ a.top ++ a.bottom ++ a.left ++ a.right

/-- The green call sequence of the six forced order-4 links. -/
def gls4 : List Link := [.norm 6 1, .norm 3 4, .norm 5 9]

/-- The purple call sequence of the six forced order-4 links. -/
def pls4 : List Link := [.norm 2 1, .norm 7 6, .norm 8 10]

/-- Green calls of the heads branch of the `frame0_odd` loop
(`count` iterations from `node`). -/
def oddHeadsGL (n : ℤ) : ℕ → ℤ → List Link
  | 0, _ => []
  | c + 1, node => .norm (node + n + 3) node :: oddHeadsGL n c (node + 2)

/-- Purple calls of the heads branch. -/
def oddHeadsPL (n : ℤ) : ℕ → ℤ → List Link
  | 0, _ => []
  | c + 1, node => .norm (node + 1) (node + 1 + n + 3) :: oddHeadsPL n c (node + 2)

/-- Green calls of the tails branch. -/
def oddTailsGL (n : ℤ) : ℕ → ℤ → List Link
  | 0, _ => []
  | c + 1, node => .norm (node + 1 + n + 3) (node + 1) :: oddTailsGL n c (node + 2)

/-- Purple calls of the tails branch. -/
def oddTailsPL (n : ℤ) : ℕ → ℤ → List Link
  | 0, _ => []
  | c + 1, node => .norm node (node + n + 3) :: oddTailsPL n c (node + 2)

/-- The full green call sequence of `frame0_odd`. -/
def oddGls (n : ℤ) (heads : Bool) (c : ℕ) : List Link :=
  .cmp (n + 2) :: .norm (n + 3) (n + 1) ::
    (if heads then oddHeadsGL n c 1 else oddTailsGL n c 1)

/-- The full purple call sequence of `frame0_odd`. -/
def oddPls (n : ℤ) (heads : Bool) (c : ℕ) : List Link :=
  .cmp n :: .cmpT (n + 1) :: .cmpT (n + 3) ::
    (if heads then oddHeadsPL n c 1 else oddTailsPL n c 1)

/-- Ascending pairing calls (`link(node+1, complement(node))`). -/
def ascLinks (A : List ℤ) : List Link := A.map fun x => .norm (x + 1) x

/-- Descending pairing calls (`link(node, complement(node+1))`). -/
def descLinks (D : List ℤ) : List Link := D.map fun x => .norm x (x + 1)

/-- The green call sequence of `frame0_oddly_even` for ascent/descent
lists `A`, `D`. -/
def oeGls (n : ℤ) (A D : List ℤ) : List Link :=
  .norm (n + 2) (n + 1) :: (ascLinks A ++ descLinks D)

/-- The purple call sequence of `frame0_oddly_even`. -/
def oePls (n : ℤ) (A2 D2 : List ℤ) : List Link :=
  .norm (n + 3) (n + 1) :: .norm (n + 4) (n + 2) ::
  .norm (n + 5) (n + 7) :: .norm (n + 6) (n + 8) ::
    (ascLinks A2 ++ descLinks D2)

/-- The green call sequence of `frame0_evenly_even`. -/
def eeGls (n : ℤ) (A A2 D : List ℤ) : List Link :=
  .norm (n + 2) (n + 1) :: .norm (n - 1) (n + 3) ::
    (ascLinks A ++ (ascLinks A2 ++ descLinks D))

/-- The purple call sequence of `frame0_evenly_even`. -/
def eePls (n : ℤ) (A3 D2 : List ℤ) : List Link :=
  .norm n (n + 1) :: .norm (n + 4) (n + 2) ::
    (ascLinks A3 ++ descLinks D2)

/-- The orders accepted by the four rules of `default_configure` —
exactly the orders `LineBundle.validate` accepts. -/
def validOrder (n : ℕ) : Prop :=
  (n % 2 = 1 ∧ 1 ≤ n) ∨ n = 4 ∨ (n % 4 = 0 ∧ 4 < n) ∨ (n % 4 = 2 ∧ 2 < n)

/-- The matrix after the framing commit: border rows and columns hold
the corner-extended side lists, everything else is untouched. -/
def frameMatrix (N : ℤ) (tl rl bl ll : List ℤ) (base : ℤ × ℤ → WithTop ℤ) :
    ℤ × ℤ → WithTop ℤ := fun p =>
  if p.1 = 0 ∧ 0 ≤ p.2 ∧ p.2 < N then ((tl.getD p.2.toNat 0 : ℤ) : WithTop ℤ)
  else if p.1 = N - 1 ∧ 0 ≤ p.2 ∧ p.2 < N then ((bl.getD p.2.toNat 0 : ℤ) : WithTop ℤ)
  else if p.2 = 0 ∧ 0 ≤ p.1 ∧ p.1 < N then ((ll.getD p.1.toNat 0 : ℤ) : WithTop ℤ)
  else if p.2 = N - 1 ∧ 0 ≤ p.1 ∧ p.1 < N then ((rl.getD p.1.toNat 0 : ℤ) : WithTop ℤ)
  else base p

/-- The value label `v` sends to the top row side (`c0`/`top`/`c1`):
itself when it is a top node, its partner when it is a bottom node,
nothing otherwise. -/
def Bundle.rowWeight (b : Bundle) (v : ℤ) : ℤ :=
  if b.is_top_node v then v else if b.is_bottom_node v then b.sigma - v else 0

/-- The value label `v` sends to the left column side (`c0`/`left`/`c3`). -/
def Bundle.colWeight (b : Bundle) (v : ℤ) : ℤ :=
  if b.is_left_node v then v else if b.is_right_node v then b.sigma - v else 0

/-- How many values label `v` sends to the top row side. -/
def Bundle.rowCount (b : Bundle) (v : ℤ) : ℤ :=
  if b.is_top_node v || b.is_bottom_node v then 1 else 0

/-- How many values label `v` sends to the left column side. -/
def Bundle.colCount (b : Bundle) (v : ℤ) : ℤ :=
  if b.is_left_node v || b.is_right_node v then 1 else 0

/-- The integer slope a described call contributes to the `s`/`t`
accumulators of the slope-sum methods (normal links only). -/
def Link.snorm : Link → ℤ
  | .norm s u => s - u
  | .cmp _ => 0
  | .cmpT _ => 0

/-- The half-integer contribution of a described call to the `u`
accumulator (complementary links only). -/
def Link.ucon (S : ℤ) : Link → ℚ
  | .norm _ _ => 0
  | .cmp x => ((2 * x - S : ℤ) : ℚ) / 2
  | .cmpT u => ((S - 2 * u : ℤ) : ℚ) / 2

/-- A bundle state with the two colored dicts generated from described
call sequences (the shape every rule's intermediate states take). -/
def mkBundle (nb : ℕ) (d : Bool) (Sv : ℤ) (gls pls : List Link) : Bundle :=
  { n := nb, green := linksEntries Sv gls, purple := linksEntries Sv pls, debug := d }

/-- Green calls of `frame0_odd` after `i` heads/tails iterations
(the two fixed calls are shared by both branches). -/
def oddGlsI (n : ℤ) (tl : List Link) : List Link :=
  .cmp (n + 2) :: .norm (n + 3) (n + 1) :: tl

/-- Purple calls of `frame0_odd` after its three fixed complementary
calls, followed by the loop calls. -/
def oddPlsI (n : ℤ) (tl : List Link) : List Link :=
  .cmp n :: .cmpT (n + 1) :: .cmpT (n + 3) :: tl

/-- The heads-loop green calls for iterations `0 .. i-1`. -/
def headsG (n : ℤ) (i : ℕ) : List Link :=
  (irange2 1 i).map fun x => Link.norm (x + n + 3) x

/-- The heads-loop purple calls. -/
def headsP (n : ℤ) (i : ℕ) : List Link :=
  (irange2 1 i).map fun x => Link.norm (x + 1) (x + n + 4)

/-- The tails-loop green calls. -/
def tailsG (n : ℤ) (i : ℕ) : List Link :=
  (irange2 1 i).map fun x => Link.norm (x + n + 4) (x + 1)

/-- The tails-loop purple calls. -/
def tailsP (n : ℤ) (i : ℕ) : List Link :=
  (irange2 1 i).map fun x => Link.norm x (x + n + 3)

/-! # Lemmas and theorems

Everything from here on is a statement about the definitions above.
-/

namespace PyDict

@[simp] theorem dmem_nil (k : ℤ) : dmem k [] = false := rfl

@[simp] theorem dmem_cons (k k' v : ℤ) (d : List (ℤ × ℤ)) :
    dmem k ((k', v) :: d) = (decide (k' = k) || dmem k d) := rfl

theorem dmem_append (k : ℤ) (d₁ d₂ : List (ℤ × ℤ)) :
    dmem k (d₁ ++ d₂) = (dmem k d₁ || dmem k d₂) := by
  induction d₁ with
  | nil => simp
  | cons hd tl ih =>
      obtain ⟨k', v'⟩ := hd
      simp only [List.cons_append, dmem_cons, ih, Bool.or_assoc]

/-- `dmem` is membership of the key in the key list. -/
theorem dmem_iff_mem_keys (k : ℤ) (d : List (ℤ × ℤ)) :
    dmem k d = true ↔ k ∈ d.map Prod.fst := by
  induction d with
  | nil => simp
  | cons hd tl ih =>
      obtain ⟨k', v'⟩ := hd
      simp only [dmem_cons, Bool.or_eq_true, decide_eq_true_eq, ih,
        List.map_cons, List.mem_cons]
      constructor
      · rintro (rfl | h)
        · exact Or.inl rfl
        · exact Or.inr h
      · rintro (rfl | h)
        · exact Or.inl rfl
        · exact Or.inr h

theorem dput_of_not_mem (k v : ℤ) (d : List (ℤ × ℤ)) (h : dmem k d = false) :
    dput k v d = d ++ [(k, v)] := by
  induction d with
  | nil => rfl
  | cons hd tl ih =>
      obtain ⟨k', v'⟩ := hd
      simp only [dmem_cons, Bool.or_eq_false_iff, decide_eq_false_iff_not] at h
      simp [dput, h.1, ih h.2]

theorem dget?_append (k : ℤ) (d₁ d₂ : List (ℤ × ℤ)) :
    dget? k (d₁ ++ d₂) = ((dget? k d₁).or (dget? k d₂)) := by
  induction d₁ with
  | nil => simp [dget?]
  | cons hd tl ih =>
      obtain ⟨k', v'⟩ := hd
      by_cases h : k' = k <;> simp [dget?, h, ih]

@[simp] theorem dget?_nil (k : ℤ) : dget? k [] = none := rfl

@[simp] theorem dget?_cons (k k' v : ℤ) (d : List (ℤ × ℤ)) :
    dget? k ((k', v) :: d) = if k' = k then some v else dget? k d := rfl

theorem dget?_eq_none_of_not_mem (k : ℤ) (d : List (ℤ × ℤ))
    (h : dmem k d = false) : dget? k d = none := by
  induction d with
  | nil => rfl
  | cons hd tl ih =>
      obtain ⟨k', v'⟩ := hd
      simp only [dmem_cons, Bool.or_eq_false_iff, decide_eq_false_iff_not] at h
      simp [dget?, h.1, ih h.2]

theorem dmem_of_dget?_eq_some {k v : ℤ} {d : List (ℤ × ℤ)}
    (h : dget? k d = some v) : dmem k d = true := by
  by_cases hm : dmem k d = true
  · exact hm
  · rw [dget?_eq_none_of_not_mem k d (by simpa using hm)] at h
    cases h

end PyDict

@[simp] theorem irange_zero (a : ℤ) : irange a 0 = [] := rfl

@[simp] theorem irange_succ (a : ℤ) (k : ℕ) :
    irange a (k + 1) = a :: irange (a + 1) k := rfl

@[simp] theorem irange2_zero (a : ℤ) : irange2 a 0 = [] := rfl

@[simp] theorem irange2_succ (a : ℤ) (k : ℕ) :
    irange2 a (k + 1) = a :: irange2 (a + 2) k := rfl

theorem mem_irange {a x : ℤ} {k : ℕ} :
    x ∈ irange a k ↔ a ≤ x ∧ x < a + k := by
  induction k generalizing a with
  | zero => simp
  | succ k ih =>
      simp only [irange_succ, List.mem_cons, ih]
      constructor
      · rintro (rfl | ⟨h₁, h₂⟩) <;> constructor <;> omega
      · rintro ⟨h₁, h₂⟩
        rcases eq_or_lt_of_le h₁ with rfl | h
        · exact Or.inl rfl
        · exact Or.inr ⟨by omega, by omega⟩

theorem mem_irange2 {a x : ℤ} {k : ℕ} :
    x ∈ irange2 a k ↔ a ≤ x ∧ x < a + 2 * k ∧ (2 : ℤ) ∣ (x - a) := by
  induction k generalizing a with
  | zero => simp; omega
  | succ k ih =>
      simp only [irange2_succ, List.mem_cons, ih]
      constructor
      · rintro (rfl | ⟨h₁, h₂, h₃⟩)
        · refine ⟨le_refl _, by omega, ⟨0, by ring⟩⟩
        · obtain ⟨c, hc⟩ := h₃
          exact ⟨by omega, by omega, ⟨c + 1, by omega⟩⟩
      · rintro ⟨h₁, h₂, ⟨c, hc⟩⟩
        rcases eq_or_lt_of_le h₁ with rfl | h
        · exact Or.inl rfl
        · exact Or.inr ⟨by omega, by omega, ⟨c - 1, by omega⟩⟩

theorem irange_length (a : ℤ) (k : ℕ) : (irange a k).length = k := by
  induction k generalizing a with
  | zero => rfl
  | succ k ih => simp [irange_succ, ih]

theorem irange2_length (a : ℤ) (k : ℕ) : (irange2 a k).length = k := by
  induction k generalizing a with
  | zero => rfl
  | succ k ih => simp [irange2_succ, ih]

theorem irange_nodup (a : ℤ) (k : ℕ) : (irange a k).Nodup := by
  induction k generalizing a with
  | zero => simp
  | succ k ih =>
      simp only [irange_succ, List.nodup_cons]
      exact ⟨fun h => by have := mem_irange.mp h; omega, ih (a + 1)⟩

theorem irange2_nodup (a : ℤ) (k : ℕ) : (irange2 a k).Nodup := by
  induction k generalizing a with
  | zero => simp
  | succ k ih =>
      simp only [irange2_succ, List.nodup_cons]
      exact ⟨fun h => by have := (mem_irange2.mp h).1; omega, ih (a + 2)⟩

theorem irange_append (a : ℤ) (j k : ℕ) :
    irange a (j + k) = irange a j ++ irange (a + j) k := by
  induction j generalizing a with
  | zero => simp
  | succ j ih =>
      have h : a + 1 + (j : ℤ) = a + (j + 1 : ℕ) := by push_cast; ring
      simp only [Nat.succ_add, irange_succ, ih (a + 1), h, List.cons_append]

/-! ## Basic facts about `MagicSquare.setitem` and `Tier` -/

theorem MagicSquare.setitem_in_grid (sq : MagicSquare) (idx : ℤ × ℤ) (v : WithTop ℤ)
    (h : sq.in_grid idx = true) :
    sq.setitem idx v =
      (.ok (), { sq with matrix := fun p => if p = idx then v else sq.matrix p,
                         magic_ := none }) := by
  simp [MagicSquare.setitem, h]

theorem MagicSquare.setitem_out_grid (sq : MagicSquare) (idx : ℤ × ℤ) (v : WithTop ℤ)
    (h : sq.in_grid idx = false) :
    sq.setitem idx v = (.error .indexError, sq) := by
  simp [MagicSquare.setitem, h]

/-- **C10.** `MagicSquare.__setitem__`: a successful write (key on the
grid) updates exactly the addressed cell and resets the cached magic
constant to `None`; a write to an index not present in the matrix
raises `IndexError` and returns the object with matrix and cache
untouched. -/
theorem C10_setitem_contract (sq : MagicSquare) (idx : ℤ × ℤ) (v : WithTop ℤ) :
    (sq.in_grid idx = true →
      (sq.setitem idx v).1 = .ok () ∧
      (sq.setitem idx v).2.matrix idx = v ∧
      (∀ p, p ≠ idx → (sq.setitem idx v).2.matrix p = sq.matrix p) ∧
      (sq.setitem idx v).2.magic_ = none) ∧
    (sq.in_grid idx = false →
      sq.setitem idx v = (.error .indexError, sq)) := by
  constructor
  · intro h
    rw [MagicSquare.setitem_in_grid sq idx v h]
    refine ⟨rfl, by simp, fun p hp => by simp [hp], rfl⟩
  · intro h
    exact MagicSquare.setitem_out_grid sq idx v h

theorem C10_setitem_contract_witness :
    (sq3.in_grid (0, 0) = true ∧
      ((sq3.setitem (0, 0) 7).1 = .ok () ∧
       (sq3.setitem (0, 0) 7).2.matrix (0, 0) = 7 ∧
       (∀ p, p ≠ ((0 : ℤ), (0 : ℤ)) → (sq3.setitem (0, 0) 7).2.matrix p = sq3.matrix p) ∧
       (sq3.setitem (0, 0) 7).2.magic_ = none)) ∧
    (sq3.in_grid (3, 0) = false ∧
      sq3.setitem (3, 0) 7 = (.error .indexError, sq3)) :=
  ⟨⟨by decide, (C10_setitem_contract sq3 (0, 0) 7).1 (by decide)⟩,
   ⟨by decide, (C10_setitem_contract sq3 (3, 0) 7).2 (by decide)⟩⟩


theorem MagicSquare.setitem_n (sq : MagicSquare) (idx : ℤ × ℤ) (v : WithTop ℤ) :
    ((sq.setitem idx v).2).n = sq.n := by
  rw [MagicSquare.setitem]
  split <;> rfl

theorem MagicSquare.setitem_matrix_of_ne (sq : MagicSquare) (idx : ℤ × ℤ)
    (v : WithTop ℤ) (p : ℤ × ℤ) (hne : p ≠ idx) :
    ((sq.setitem idx v).2).matrix p = sq.matrix p := by
  rw [MagicSquare.setitem]
  split
  · simp [hne]
  · rfl

theorem Tier.setitem_eq (t : Tier) (sq : MagicSquare) (i : ℤ) (v : WithTop ℤ) :
    t.setitem sq i v = sq.setitem (t.cell i) v := rfl

theorem Tier.cell_row (number nlast i : ℤ) :
    (Tier.mk .row number nlast).cell i = (number, i) := rfl

theorem Tier.cell_column (number nlast i : ℤ) :
    (Tier.mk .column number nlast).cell i = (i, number) := rfl

/-- Interior cells survive any single frame-tier write. -/
theorem tier_write_interior (n : ℕ) (sq : MagicSquare) (t : Tier) (i : ℤ)
    (v : WithTop ℤ)
    (ht : t ∈ [Tier.mk .row 0 ((n : ℤ) - 1), Tier.mk .row ((n : ℤ) - 1) ((n : ℤ) - 1),
               Tier.mk .column 0 ((n : ℤ) - 1), Tier.mk .column ((n : ℤ) - 1) ((n : ℤ) - 1)])
    (p : ℤ × ℤ) (hp1 : 0 < p.1) (hp2 : p.1 < (n : ℤ) - 1)
    (hp3 : 0 < p.2) (hp4 : p.2 < (n : ℤ) - 1) :
    ((t.setitem sq i v).2).matrix p = sq.matrix p := by
  obtain ⟨a, b⟩ := p
  simp only [List.mem_cons, List.not_mem_nil, or_false] at ht
  simp only at hp1 hp2 hp3 hp4
  rcases ht with rfl | rfl | rfl | rfl <;>
    rw [Tier.setitem_eq] <;>
    [rw [Tier.cell_row]; rw [Tier.cell_row]; rw [Tier.cell_column]; rw [Tier.cell_column]] <;>
    · refine MagicSquare.setitem_matrix_of_ne sq _ v _ fun h => ?_
      rw [Prod.mk.injEq] at h
      omega

/-- **C9.** Writing through the four frame tiers of a framed square of
order `n` (the tiers `FramedMagicSquare.configure` creates: row 0,
row `n-1`, column 0, column `n-1`): a write at a valid index `i`
through the top (resp. bottom, left, right) tier modifies exactly the
cell `(0, i)` (resp. `(n-1, i)`, `(i, 0)`, `(i, n-1)`) and no other
cell, and no sequence of frame-tier writes — at any indices, valid or
not — ever changes an interior (picture) cell. -/
theorem C9_tier_writes (sq : MagicSquare) (i : ℤ) (v : WithTop ℤ) :
    (0 ≤ i → i < (sq.n : ℤ) →
      ((Tier.mk .row 0 ((sq.n : ℤ) - 1)).setitem sq i v =
        (.ok (), { sq with matrix := fun p => if p = ((0 : ℤ), i) then v else sq.matrix p,
                           magic_ := none }) ∧
       (Tier.mk .row ((sq.n : ℤ) - 1) ((sq.n : ℤ) - 1)).setitem sq i v =
        (.ok (), { sq with matrix := fun p => if p = ((sq.n : ℤ) - 1, i) then v else sq.matrix p,
                           magic_ := none }) ∧
       (Tier.mk .column 0 ((sq.n : ℤ) - 1)).setitem sq i v =
        (.ok (), { sq with matrix := fun p => if p = (i, (0 : ℤ)) then v else sq.matrix p,
                           magic_ := none }) ∧
       (Tier.mk .column ((sq.n : ℤ) - 1) ((sq.n : ℤ) - 1)).setitem sq i v =
        (.ok (), { sq with matrix := fun p => if p = (i, (sq.n : ℤ) - 1) then v else sq.matrix p,
                           magic_ := none }))) ∧
    (∀ writes : List (Tier × ℤ × WithTop ℤ),
      (∀ w ∈ writes, w.1 ∈ [Tier.mk .row 0 ((sq.n : ℤ) - 1),
          Tier.mk .row ((sq.n : ℤ) - 1) ((sq.n : ℤ) - 1),
          Tier.mk .column 0 ((sq.n : ℤ) - 1),
          Tier.mk .column ((sq.n : ℤ) - 1) ((sq.n : ℤ) - 1)]) →
      ∀ p : ℤ × ℤ, 0 < p.1 → p.1 < (sq.n : ℤ) - 1 → 0 < p.2 → p.2 < (sq.n : ℤ) - 1 →
        (sq.apply_writes writes).matrix p = sq.matrix p) := by
  constructor
  · intro h0 hn
    have hgrid : ∀ idx : ℤ × ℤ, 0 ≤ idx.1 → idx.1 < (sq.n : ℤ) →
        0 ≤ idx.2 → idx.2 < (sq.n : ℤ) → sq.in_grid idx = true := by
      intro idx h1 h2 h3 h4
      simp only [MagicSquare.in_grid, Bool.and_eq_true, decide_eq_true_eq]
      exact ⟨⟨⟨h1, h2⟩, h3⟩, h4⟩
    have hn0 : (0 : ℤ) < sq.n := lt_of_le_of_lt h0 hn
    refine ⟨?_, ?_, ?_, ?_⟩ <;>
      rw [Tier.setitem_eq] <;>
      [rw [Tier.cell_row]; rw [Tier.cell_row]; rw [Tier.cell_column]; rw [Tier.cell_column]] <;>
      · exact MagicSquare.setitem_in_grid sq _ v
          (hgrid _ (by omega) (by omega) (by omega) (by omega))
  · intro writes hw
    induction writes generalizing sq with
    | nil => intro p _ _ _ _; rfl
    | cons w rest ih =>
        intro p hp1 hp2 hp3 hp4
        obtain ⟨t, i', v'⟩ := w
        have ht := hw (t, i', v') (List.mem_cons_self _ _)
        have hn' : ((t.setitem sq i' v').2).n = sq.n := by
          rw [Tier.setitem_eq]; exact MagicSquare.setitem_n sq _ v'
        have hrec := ih ((t.setitem sq i' v').2)
        rw [hn'] at hrec
        have hrest : ∀ w ∈ rest, w.1 ∈ _ := fun w hwm => hw w (List.mem_cons_of_mem _ hwm)
        calc (sq.apply_writes ((t, i', v') :: rest)).matrix p
            = (((t.setitem sq i' v').2).apply_writes rest).matrix p := rfl
          _ = ((t.setitem sq i' v').2).matrix p := hrec hrest p hp1 hp2 hp3 hp4
          _ = sq.matrix p := tier_write_interior sq.n sq t i' v' ht p hp1 hp2 hp3 hp4

theorem C9_tier_writes_witness :
    ((0 : ℤ) ≤ 1 ∧ (1 : ℤ) < (sq3.n : ℤ)) ∧
    ((Tier.mk .row 0 ((sq3.n : ℤ) - 1)).setitem sq3 1 42 =
      (.ok (), { sq3 with matrix := fun p => if p = ((0 : ℤ), (1 : ℤ)) then 42 else sq3.matrix p,
                          magic_ := none })) ∧
    ((sq3.apply_writes [(Tier.mk .column 0 ((sq3.n : ℤ) - 1), 2, 9)]).matrix (1, 1) =
      sq3.matrix (1, 1)) :=
  ⟨⟨by decide, by decide⟩,
   ((C9_tier_writes sq3 1 42).1 (by decide) (by decide)).1,
   (C9_tier_writes sq3 1 42).2 [(Tier.mk .column 0 ((sq3.n : ℤ) - 1), 2, 9)]
     (by intro w hw; simp only [List.mem_singleton] at hw; rw [hw]; simp)
     (1, 1) (by decide) (by decide) (by decide) (by decide)⟩

/-! ## C5: zero-slope self-pairings are rejected before any mutation -/

/-- **C5.** For every graph state and both colors, a link request whose
endpoints pass the source/target tests but whose source equals the
complement of the target fails with the structural-violation
`ValueError` (raised by the `slope may not be 0` guard), and the
returned state is exactly the input state: no link of either color
has been added or removed. -/
theorem C5_link_rejects_self_pairing (b : Bundle) (s t : ℤ)
    (hs : b.is_source_node s = true) (ht : b.is_target_node t = true)
    (heq : s = b.complement t) :
    b.link_green s t = (.error .valueError, b) ∧
    b.link_purple s t = (.error .valueError, b) := by
  rw [Bundle.link_green, Bundle.link_purple, hs, ht]
  simp [heq]

theorem C5_link_rejects_self_pairing_witness :
    (bundle4.is_source_node 2 = true ∧ bundle4.is_target_node 35 = true ∧
      (2 : ℤ) = bundle4.complement 35) ∧
    bundle4.link_green 2 35 = (.error .valueError, bundle4) ∧
    bundle4.link_purple 2 35 = (.error .valueError, bundle4) :=
  ⟨⟨by decide, by decide, by decide⟩,
   C5_link_rejects_self_pairing bundle4 2 35 (by decide) (by decide) (by decide)⟩

/-! ## C6: `unlink` on an absent link raises `KeyError` (claim corrected) -/

/-- **C6 counterexample.** The claim states that `unlink` "completes
without error" when the node holds no link of the requested color; on
a fresh bundle, `unlink_green(1)` (and `unlink_purple(1)`) instead
raise `KeyError` — the partner lookup `self.green[node]` fails, as the
source's own comment admits. -/
theorem C6_unlink_counterexample :
    bundle4.unlink_green 1 = (.error .keyError, bundle4) ∧
    bundle4.unlink_purple 1 = (.error .keyError, bundle4) := by
  constructor <;> rfl

/-- **C6 (amended).** `unlink(color, node)` removes the node's link of
that color together with its partner's entry when such a link is
present (first deleting the node's entry, then the partner's, if
present); when the node holds no link of that color it raises
`KeyError` and leaves the graph unchanged. -/
theorem C6_unlink_contract (b : Bundle) (node : ℤ) :
    (∀ partner, dget? node b.green = some partner →
      b.unlink_green node =
        (.ok (), { b with green :=
          (let g₁ := if dmem node b.green then ddel node b.green else b.green;
           if dmem partner g₁ then ddel partner g₁ else g₁) })) ∧
    (dget? node b.green = none → b.unlink_green node = (.error .keyError, b)) ∧
    (∀ partner, dget? node b.purple = some partner →
      b.unlink_purple node =
        (.ok (), { b with purple :=
          (let p₁ := if dmem node b.purple then ddel node b.purple else b.purple;
           if dmem partner p₁ then ddel partner p₁ else p₁) })) ∧
    (dget? node b.purple = none → b.unlink_purple node = (.error .keyError, b)) := by
  refine ⟨fun partner hp => ?_, fun hn => ?_, fun partner hp => ?_, fun hn => ?_⟩
  · simp [Bundle.unlink_green, hp]
  · simp [Bundle.unlink_green, hn]
  · simp [Bundle.unlink_purple, hp]
  · simp [Bundle.unlink_purple, hn]

theorem C6_unlink_contract_witness :
    (dget? 3 [((3 : ℤ), (33 : ℤ)), (33, 3)] = some 33 ∧
     ({ n := 4, green := [((3 : ℤ), (33 : ℤ)), (33, 3)], purple := [],
        debug := false } : Bundle).unlink_green 3 =
       (.ok (), { n := 4, green := [], purple := [], debug := false }) ∧
     dget? 5 ([] : List (ℤ × ℤ)) = none ∧
     bundle4.unlink_purple 5 = (.error .keyError, bundle4)) := by
  refine ⟨by decide, ?_, by decide, ?_⟩
  · have h := (C6_unlink_contract
      { n := 4, green := [((3 : ℤ), (33 : ℤ)), (33, 3)], purple := [], debug := false } 3).1
      33 (by decide)
    rw [h]
    rfl
  · exact (C6_unlink_contract bundle4 5).2.2.2 (by decide)

/-! ## C4: a nonzero classification status raises `NameError` (code bug) -/

/-- **C4 (code bug).** The design intends a nonzero classification
status to be returned to the caller as a decodable value
(`framing()` catches the `ValueError`s that `parse_status` is meant
to raise and returns the status).  In the code, however,
`parse_status` first evaluates `if error < 0 or error >= 32` — and
the name `error` is unbound — so *every* nonzero status raises
`NameError`, which `except ValueError` does not catch and which
therefore propagates to the caller.  Demonstrated on a framing
attempt over a fresh (empty) order-4 bundle, whose classification
status is 31: the attempt raises `NameError`; the object state
(in particular, the matrix: no frame tier has been written) is
exactly as before the call. -/
theorem C4_nonzero_status_raises_nameError :
    (∀ s : ℕ, parse_status (s + 1) = .error .nameError) ∧
    (c4_state.bundle.framing).1 = 31 ∧
    c4_state.framing_method = (.error .nameError, c4_state) := by
  refine ⟨fun s => ?_, by decide, rfl⟩
  simp [parse_status]

/-! ## C3: no final magic check inside the framing flow (claim corrected) -/

/-- **C3 counterexample.** Framing the order-1 magic square `[[5]]`
(magic — its single row, column and diagonals all sum to 5 — so it
passes the `from_sq` precondition check) commits the frame with
classification status zero, yet the constructor returns success even
though the resulting 3×3 square violates the magic invariant (row 0
sums to 15, row 1 to 19; the square's own `check()` would raise
`Warning`).  No final defense-in-depth check runs and no hard failure
is surfaced: the magic attribute is silently set to the top row sum
15. -/
theorem C3_no_final_check_counterexample :
    okBool pic5_run = true ∧
    pic5_sq.row_sum 0 = ((15 : ℤ) : WithTop ℤ) ∧
    pic5_sq.row_sum 1 = ((19 : ℤ) : WithTop ℤ) ∧
    (pic5_sq.check).1 = .error .warning ∧
    pic5_sq.magic_ = some ((15 : ℤ) : WithTop ℤ) := by
  refine ⟨rfl, by decide, by decide, rfl, by decide⟩

/-! ## Flow-tracing lemmas for the constructor pipeline -/

theorem BSquare.andThen_ok_elim {p : Except PyErr Unit × BSquare}
    {k : BSquare → Except PyErr Unit × BSquare} {r : Unit} {st' : BSquare}
    (h : BSquare.andThen p k = (.ok r, st')) :
    p.1 = .ok () ∧ k p.2 = (.ok r, st') := by
  rcases p with ⟨pr, pst⟩
  cases pr with
  | ok u => exact ⟨rfl, h⟩
  | error e => exact absurd (congrArg Prod.fst h) (by simp [BSquare.andThen])

theorem MagicSquare.write_cells_n (sq : MagicSquare)
    (cells : List ((ℤ × ℤ) × WithTop ℤ)) :
    ((sq.write_cells cells).2).n = sq.n := by
  induction cells generalizing sq with
  | nil => rfl
  | cons c rest ih =>
      obtain ⟨idx, v⟩ := c
      rw [MagicSquare.write_cells]
      rcases hset : sq.setitem idx v with ⟨res, sq'⟩
      have hn : sq'.n = sq.n := by
        have := MagicSquare.setitem_n sq idx v
        rw [hset] at this
        exact this
      cases res with
      | ok u => simpa [hn] using ih sq'
      | error e => simpa using hn

theorem MagicSquare.check_n (sq : MagicSquare) : ((sq.check).2).n = sq.n := by
  unfold MagicSquare.check
  dsimp only
  split
  · rfl
  · split
    · rfl
    · split <;> rfl

theorem MagicSquare.check_magic (sq : MagicSquare) :
    ((sq.check).2).magic_ = some (sq.row_sum 0) := by
  unfold MagicSquare.check
  dsimp only
  split
  · rfl
  · split
    · rfl
    · split <;> rfl

theorem MagicSquare.from_sq_n (source t : MagicSquare)
    (h : MagicSquare.from_sq source = .ok t) : t.n = source.n := by
  unfold MagicSquare.from_sq at h
  dsimp only at h
  split at h
  · exact absurd h (by simp)
  · rename_i a target2 hw
    split at h
    · exact absurd h (by simp)
    · rename_i m target3 hc
      simp only [Except.ok.injEq] at h
      subst h
      have h1 : target3.n = target2.n := by
        have := MagicSquare.check_n target2
        rw [hc] at this
        exact this
      have h2 : target2.n = source.n := by
        have hx := congrArg (fun p => (p.2).n) hw
        simp only at hx
        rw [MagicSquare.write_cells_n] at hx
        exact hx.symm
      rw [h1, h2]

theorem BSquare.configure_interior_fields (st : BSquare) :
    (st.configure_interior).2.source = st.source ∧
    (st.configure_interior).2.bundle = st.bundle ∧
    (st.configure_interior).2.randomize = st.randomize ∧
    (st.configure_interior).2.algorithm = st.algorithm ∧
    (st.configure_interior).2.rctr = st.rctr ∧
    (st.configure_interior).2.debugAttr = st.debugAttr ∧
    (st.configure_interior).2.tier_top? = st.tier_top? ∧
    (st.configure_interior).2.tier_bottom? = st.tier_bottom? ∧
    (st.configure_interior).2.tier_left? = st.tier_left? ∧
    (st.configure_interior).2.tier_right? = st.tier_right? ∧
    (st.configure_interior).2.sq.n = st.sq.n := by
  refine ⟨rfl, rfl, rfl, rfl, rfl, rfl, rfl, rfl, rfl, rfl, ?_⟩
  exact MagicSquare.write_cells_n st.sq _

theorem BSquare.framing_method_ok_shape (st : BSquare) (r : ℕ) (st' : BSquare)
    (h : st.framing_method = (.ok r, st')) :
    ∃ sqn : MagicSquare, st' = { st with sq := sqn, debugAttr := some false } := by
  unfold BSquare.framing_method at h
  split at h
  · exact absurd (congrArg Prod.fst h) (by simp)
  · split at h
    rename_i u status top right bottom left c0 c1 c2 c3 hfr
    split at h
    · rename_i hps
      exfalso
      revert hps
      unfold parse_status
      split <;> simp
    · exact absurd (congrArg Prod.fst h) (by simp)
    · split at h
      · dsimp only at h
        split at h
        · exact absurd (congrArg Prod.fst h) (by simp)
        · rename_i sq' hwl
          exact ⟨sq', (congrArg Prod.snd h).symm⟩
      · exact absurd (congrArg Prod.fst h) (by simp)

theorem Tier.new0_row (sq : MagicSquare) (num : ℤ) :
    Tier.new0 sq .row num = .ok ⟨.row, num, (sq.n : ℤ) - 1⟩ := rfl

theorem Tier.new0_column (sq : MagicSquare) (num : ℤ) :
    Tier.new0 sq .column num = .ok ⟨.column, num, (sq.n : ℤ) - 1⟩ := rfl

theorem BSquare.default_configure_ok_debugAttr (st : BSquare) (draw : Draw)
    (r : Unit) (st' : BSquare) (hn1 : 1 ≤ st.source.n) (hn2 : st.source.n ≠ 2)
    (h : st.default_configure draw = (.ok r, st')) :
    st'.debugAttr = some false := by
  unfold BSquare.default_configure at h
  try dsimp only at h
  have hkill : ∀ st₀ : BSquare, ∀ p : Except PyErr Unit × BSquare,
      BSquare.andThen p (fun stk =>
        match stk.framing_method with
        | (.error e, st₂) => (.error e, st₂)
        | (.ok _, st₂) => (.ok (), st₂)) = (.ok r, st') →
      st'.debugAttr = some false := by
    intro st₀ p hp
    obtain ⟨h1, h2⟩ := BSquare.andThen_ok_elim hp
    try dsimp only at h2
    split at h2
    · exact absurd (congrArg Prod.fst h2) (by simp)
    · rename_i st₂ hfm
      obtain ⟨sqn, rfl⟩ := BSquare.framing_method_ok_shape _ _ st₂ hfm
      have := (congrArg Prod.snd h2).symm
      try dsimp only at this
      rw [this]
  split at h
  · exact hkill st _ h
  · rename_i hodd
    split at h
    · rename_i hle
      exact absurd ⟨by omega, by omega⟩ hodd
    · split at h
      · exact hkill st _ h
      · split at h
        · exact hkill st _ h
        · exact hkill st _ h

theorem BSquare.configure_ok_debugAttr (st : BSquare) (draw : Draw)
    (r : Unit) (st' : BSquare) (halg : st.algorithm = 0)
    (hn1 : 1 ≤ st.source.n) (hn2 : st.source.n ≠ 2)
    (h : st.configure draw = (.ok r, st')) :
    st'.debugAttr = some false := by
  unfold BSquare.configure at h
  obtain ⟨h1, h2⟩ := BSquare.andThen_ok_elim h
  try dsimp only at h2
  rw [Tier.new0_row, Tier.new0_row, Tier.new0_column, Tier.new0_column] at h2
  try dsimp only at h2
  split at h2
  · exact absurd (congrArg Prod.fst h2) (by simp)
  · rename_i u2 sq2 hloop
    have halg1 : (st.configure_interior).2.algorithm = 0 := by
      rw [(BSquare.configure_interior_fields st).2.2.2.1, halg]
    rw [halg1] at h2
    rw [if_pos rfl] at h2
    have hsrc : (st.configure_interior).2.source = st.source :=
      (BSquare.configure_interior_fields st).1
    exact BSquare.default_configure_ok_debugAttr _ draw r st'
      (by simpa [hsrc] using hn1) (by simpa [hsrc] using hn2) h2

/-- **C3 (amended).** After a framing attempt whose classification
status is zero commits the four border tiers, *no* final
defense-in-depth check of the (n+2)-order square runs inside the
framing flow: the constructor (which passes `debug=True` down to
`MagicSquare.__init__`) records the unvalidated top-row sum as the
magic attribute, and `framing()` merely clears the square's `debug`
flag, readying it for a *caller-side* `check()`; a magic-invariant
violation surfaces (as a `Warning` exception) only when the caller
itself invokes `check()`, whose row comparison then reports it. -/
theorem C3_no_final_check_amended (pic : MagicSquare) (randomize trace : Bool)
    (draw : Draw) (st : BSquare)
    (h : bundledMagicSquare pic 0 randomize trace draw = .ok st) :
    st.sq.magic_ = some (st.sq.row_sum 0) ∧
    st.debugAttr = some false ∧
    (∀ i : ℤ, 1 ≤ i → i < (st.sq.n : ℤ) → st.sq.row_sum i ≠ st.sq.row_sum 0 →
      (st.sq.check).1 = .error .warning) := by
  have hcheck : ∀ sq : MagicSquare, ∀ i : ℤ, 1 ≤ i → i < (sq.n : ℤ) →
      sq.row_sum i ≠ sq.row_sum 0 → (sq.check).1 = .error .warning := by
    intro sq i h1 h2 hne
    unfold MagicSquare.check
    dsimp only
    rw [if_pos]
    simp only [List.all_eq_true, not_forall]
    refine ⟨i, ?_, by simpa using hne⟩
    rw [mem_irange]
    constructor
    · exact h1
    · have : (1 : ℤ) ≤ sq.n := le_trans h1 h2.le
      omega
  unfold bundledMagicSquare at h
  split at h
  · exact absurd h (by simp)
  · rename_i bundle hmk
    split at h
    · exact absurd h (by simp)
    · rename_i source hsq
      try dsimp only at h
      split at h
      · exact absurd h (by simp)
      · rename_i u1 st1 hconf
        simp only [Except.ok.injEq] at h
        subst h
        refine ⟨rfl, ?_, hcheck _⟩
        have hval : 1 ≤ pic.n ∧ pic.n ≠ 2 := by
          unfold Bundle.lineBundle_mk at hmk
          split at hmk
          · exact absurd hmk (by simp)
          · rename_i hcond
            push_neg at hcond
            constructor
            · have := hcond.1
              omega
            · intro h2
              have := hcond.2
              omega
        have hsn : source.n = pic.n := MagicSquare.from_sq_n pic source hsq
        exact BSquare.configure_ok_debugAttr _ draw u1 st1 rfl
          (by rw [hsn]; exact hval.1) (by rw [hsn]; exact hval.2) hconf

theorem C3_no_final_check_amended_witness :
    bundledMagicSquare pic1 0 false false trivialDraw = .ok pic1_st ∧
    (pic1_st.sq.magic_ = some (pic1_st.sq.row_sum 0) ∧
     pic1_st.debugAttr = some false ∧
     (∀ i : ℤ, 1 ≤ i → i < (pic1_st.sq.n : ℤ) →
        pic1_st.sq.row_sum i ≠ pic1_st.sq.row_sum 0 →
        (pic1_st.sq.check).1 = .error .warning)) :=
  ⟨rfl, C3_no_final_check_amended pic1 false false trivialDraw pic1_st rfl⟩

/-! ## The classification loop as componentwise `flatMap` -/

theorem ClassifyAcc.append_empty (a : ClassifyAcc) : a.append ClassifyAcc.empty = a := by
  simp [ClassifyAcc.append, ClassifyAcc.empty]

theorem ClassifyAcc.empty_append (a : ClassifyAcc) : ClassifyAcc.empty.append a = a := by
  simp [ClassifyAcc.append, ClassifyAcc.empty]

theorem ClassifyAcc.append_assoc (a b c : ClassifyAcc) :
    (a.append b).append c = a.append (b.append c) := by
  simp [ClassifyAcc.append]

theorem Bundle.classify_step_eq_append (b : Bundle) (acc : ClassifyAcc) (v : ℤ) :
    b.classify_step acc v = acc.append (b.classify_one v) := by
  unfold Bundle.classify_one Bundle.classify_step
  cases ht : b.is_top_node v <;> cases hb : b.is_bottom_node v <;>
    cases hl : b.is_left_node v <;> cases hr : b.is_right_node v <;>
    simp [ht, hb, hl, hr, ClassifyAcc.append, ClassifyAcc.empty]

theorem Bundle.classify_parts_cons (b : Bundle) (v : ℤ) (L : List ℤ) :
    b.classify_parts (v :: L) = (b.classify_one v).append (b.classify_parts L) := by
  simp [Bundle.classify_parts, ClassifyAcc.append]

theorem Bundle.foldl_classify_eq (b : Bundle) (L : List ℤ) (acc : ClassifyAcc) :
    L.foldl b.classify_step acc = acc.append (b.classify_parts L) := by
  induction L generalizing acc with
  | nil =>
      have : b.classify_parts [] = ClassifyAcc.empty := by
        simp [Bundle.classify_parts, ClassifyAcc.empty]
      rw [List.foldl_nil, this, ClassifyAcc.append_empty]
  | cons v L ih =>
      rw [List.foldl_cons, ih, Bundle.classify_step_eq_append,
        ClassifyAcc.append_assoc, Bundle.classify_parts_cons]

theorem Bundle.classify_eq_parts (b : Bundle) :
    b.classify = b.classify_parts (irange 1 (2 * b.n + 2)) := by
  rw [Bundle.classify, Bundle.foldl_classify_eq]
  exact ClassifyAcc.empty_append _

/-! ### The single-node classification, componentwise -/

theorem Bundle.classify_one_unknown (b : Bundle) (v : ℤ) :
    (b.classify_one v).unknown =
      if (b.row_resolved v || b.col_resolved v) = true then [] else [v] := by
  unfold Bundle.classify_one Bundle.classify_step Bundle.row_resolved Bundle.col_resolved
  cases ht : b.is_top_node v <;> cases hb : b.is_bottom_node v <;>
    cases hl : b.is_left_node v <;> cases hr : b.is_right_node v <;>
    simp [ht, hb, hl, hr, ClassifyAcc.empty]

theorem classify_status_bits (acc : ClassifyAcc) :
    (Bundle.classify_status acc = 0 ↔
      acc.c0.length = 1 ∧ acc.c1.length = 1 ∧ acc.c2.length = 1 ∧
      acc.c3.length = 1 ∧ acc.unknown = []) ∧
    ((Bundle.classify_status acc).testBit 0 = true ↔ acc.c0.length ≠ 1) ∧
    ((Bundle.classify_status acc).testBit 1 = true ↔ acc.c1.length ≠ 1) ∧
    ((Bundle.classify_status acc).testBit 2 = true ↔ acc.c2.length ≠ 1) ∧
    ((Bundle.classify_status acc).testBit 3 = true ↔ acc.c3.length ≠ 1) ∧
    ((Bundle.classify_status acc).testBit 4 = true ↔ acc.unknown ≠ []) := by
  unfold Bundle.classify_status
  split_ifs <;> simp_all <;> decide

theorem Bundle.classify_unknown_nil_iff (b : Bundle) :
    (b.classify).unknown = [] ↔
      (∀ v : ℤ, 1 ≤ v → v < 2 * (b.n : ℤ) + 3 →
        (b.row_resolved v || b.col_resolved v) = true) := by
  rw [Bundle.classify_eq_parts]
  show (irange 1 (2 * b.n + 2)).flatMap (fun v => (b.classify_one v).unknown) = [] ↔ _
  rw [List.flatMap_eq_nil_iff]
  constructor
  · intro h v h1 h2
    have hv : v ∈ irange 1 (2 * b.n + 2) := by
      rw [mem_irange]
      constructor
      · exact h1
      · push_cast
        omega
    have := h v hv
    rw [Bundle.classify_one_unknown] at this
    by_contra hres
    rw [if_neg] at this
    · exact absurd this (by simp)
    · simpa using hres
  · intro h v hv
    rw [mem_irange] at hv
    rw [Bundle.classify_one_unknown, if_pos]
    apply h v hv.1
    have := hv.2
    push_cast at this
    omega

set_option maxHeartbeats 1000000 in
/-- **C8.** `_LineBundle.framing` classification contract (the
operation is embedded as the pure function `Bundle.framing`; it reads
the graph and mutates nothing).  Its status is zero exactly when every
label in `1 .. 2n+2` has a row or column resolution and each of the
four corner slots has exactly one candidate; otherwise bit `k`
(k = 0..3) of the status is set exactly when corner `k`'s candidate
list has length ≠ 1, and bit 4 is set exactly when some label has
neither a row nor a column resolution. -/
theorem C8_classification_contract (b : Bundle) :
    ((b.framing).1 = 0 ↔
      ((∀ v : ℤ, 1 ≤ v → v < 2 * (b.n : ℤ) + 3 →
          (b.row_resolved v || b.col_resolved v) = true) ∧
       (b.framing).2.2.1.length = 1 ∧ (b.framing).2.2.2.1.length = 1 ∧
       (b.framing).2.2.2.2.1.length = 1 ∧ (b.framing).2.2.2.2.2.length = 1)) ∧
    ((b.framing).1.testBit 0 = true ↔ (b.framing).2.2.1.length ≠ 1) ∧
    ((b.framing).1.testBit 1 = true ↔ (b.framing).2.2.2.1.length ≠ 1) ∧
    ((b.framing).1.testBit 2 = true ↔ (b.framing).2.2.2.2.1.length ≠ 1) ∧
    ((b.framing).1.testBit 3 = true ↔ (b.framing).2.2.2.2.2.length ≠ 1) ∧
    ((b.framing).1.testBit 4 = true ↔
      ¬ (∀ v : ℤ, 1 ≤ v → v < 2 * (b.n : ℤ) + 3 →
          (b.row_resolved v || b.col_resolved v) = true)) := by
  have hacc := classify_status_bits b.classify
  have h1 : (b.framing).1 = Bundle.classify_status b.classify := rfl
  have hc0 : (b.framing).2.2.1 = (b.classify).c0 := rfl
  have hc1 : (b.framing).2.2.2.1 = (b.classify).c1 := rfl
  have hc2 : (b.framing).2.2.2.2.1 = (b.classify).c2 := rfl
  have hc3 : (b.framing).2.2.2.2.2 = (b.classify).c3 := rfl
  rw [h1, hc0, hc1, hc2, hc3]
  have hunk := Bundle.classify_unknown_nil_iff b
  refine ⟨?_, hacc.2.1, hacc.2.2.1, hacc.2.2.2.1, hacc.2.2.2.2.1, ?_⟩
  · rw [hacc.1, hunk]
    tauto
  · rw [hacc.2.2.2.2.2]
    simp only [ne_eq, hunk]

/-! ## C7: determinism with `randomize` disabled -/

theorem BSquare.bundle_op_randomize (st : BSquare) (f : Bundle → Except PyErr Unit × Bundle) :
    (st.bundle_op f).2.randomize = st.randomize := by
  rcases h : f st.bundle with ⟨r, b'⟩
  simp [BSquare.bundle_op, h]

theorem BSquare.link_each_randomize (link : Bundle → ℤ → ℤ → Except PyErr Unit × Bundle)
    (f : ℤ → ℤ × ℤ) (l : List ℤ) (st : BSquare) :
    (BSquare.link_each link f l st).2.randomize = st.randomize := by
  induction l generalizing st with
  | nil => rfl
  | cons x xs ih =>
      rw [BSquare.link_each]
      rcases h : st.bundle_op (fun b => link b (f x).1 (f x).2) with ⟨r, st'⟩
      have hr : st'.randomize = st.randomize := by
        have := BSquare.bundle_op_randomize st (fun b => link b (f x).1 (f x).2)
        rw [h] at this
        exact this
      cases r with
      | ok u => simpa [hr] using ih st'
      | error e => simpa using hr

theorem BSquare.andThen_congr (p : Except PyErr Unit × BSquare)
    (k k' : BSquare → Except PyErr Unit × BSquare)
    (hr : p.2.randomize = false)
    (h : ∀ st : BSquare, st.randomize = false → k st = k' st) :
    BSquare.andThen p k = BSquare.andThen p k' := by
  rcases p with ⟨r, st⟩
  cases r with
  | ok u => exact h st hr
  | error e => rfl

theorem BSquare.my_shuffle_false (st : BSquare) (d : Draw) (foo : List ℤ)
    (h : st.randomize = false) : st.my_shuffle d foo = (foo, st) := by
  simp [BSquare.my_shuffle, h]

theorem BSquare.my_random_false (st : BSquare) (d : Draw)
    (h : st.randomize = false) : st.my_random d = (1, st) := by
  simp [BSquare.my_random, h]

theorem BSquare.frame0_odd_df (st : BSquare) (d1 d2 : Draw)
    (h : st.randomize = false) : st.frame0_odd d1 = st.frame0_odd d2 := by
  unfold BSquare.frame0_odd
  refine BSquare.andThen_congr _ _ _ (by rw [BSquare.bundle_op_randomize]; exact h)
    fun st1 h1 => ?_
  refine BSquare.andThen_congr _ _ _ (by rw [BSquare.bundle_op_randomize]; exact h1)
    fun st2 h2 => ?_
  refine BSquare.andThen_congr _ _ _ (by rw [BSquare.bundle_op_randomize]; exact h2)
    fun st3 h3 => ?_
  refine BSquare.andThen_congr _ _ _ (by rw [BSquare.bundle_op_randomize]; exact h3)
    fun st4 h4 => ?_
  refine BSquare.andThen_congr _ _ _ (by rw [BSquare.bundle_op_randomize]; exact h4)
    fun st5 h5 => ?_
  rw [BSquare.my_random_false st5 d1 h5, BSquare.my_random_false st5 d2 h5]

theorem BSquare.frame0_oddly_even_df (st : BSquare) (d1 d2 : Draw)
    (h : st.randomize = false) : st.frame0_oddly_even d1 = st.frame0_oddly_even d2 := by
  unfold BSquare.frame0_oddly_even
  refine BSquare.andThen_congr _ _ _ (by rw [BSquare.bundle_op_randomize]; exact h)
    fun st1 h1 => ?_
  refine BSquare.andThen_congr _ _ _ (by rw [BSquare.bundle_op_randomize]; exact h1)
    fun st2 h2 => ?_
  refine BSquare.andThen_congr _ _ _ (by rw [BSquare.bundle_op_randomize]; exact h2)
    fun st3 h3 => ?_
  try dsimp only
  rw [BSquare.my_shuffle_false st3 d1 _ h3, BSquare.my_shuffle_false st3 d2 _ h3]
  try dsimp only
  refine BSquare.andThen_congr _ _ _ (by rw [BSquare.link_each_randomize]; exact h3)
    fun st4 h4 => ?_
  refine BSquare.andThen_congr _ _ _ (by rw [BSquare.link_each_randomize]; exact h4)
    fun st5 h5 => ?_
  refine BSquare.andThen_congr _ _ _ (by rw [BSquare.bundle_op_randomize]; exact h5)
    fun st6 h6 => ?_
  refine BSquare.andThen_congr _ _ _ (by rw [BSquare.bundle_op_randomize]; exact h6)
    fun st7 h7 => ?_
  try dsimp only
  rw [BSquare.my_shuffle_false st7 d1 _ h7, BSquare.my_shuffle_false st7 d2 _ h7]

theorem BSquare.frame0_evenly_even_df (st : BSquare) (d1 d2 : Draw)
    (h : st.randomize = false) : st.frame0_evenly_even d1 = st.frame0_evenly_even d2 := by
  unfold BSquare.frame0_evenly_even
  refine BSquare.andThen_congr _ _ _ (by rw [BSquare.bundle_op_randomize]; exact h)
    fun st1 h1 => ?_
  refine BSquare.andThen_congr _ _ _ (by rw [BSquare.bundle_op_randomize]; exact h1)
    fun st2 h2 => ?_
  refine BSquare.andThen_congr _ _ _ (by rw [BSquare.bundle_op_randomize]; exact h2)
    fun st3 h3 => ?_
  refine BSquare.andThen_congr _ _ _ (by rw [BSquare.bundle_op_randomize]; exact h3)
    fun st4 h4 => ?_
  try dsimp only
  rw [BSquare.my_shuffle_false st4 d1 _ h4, BSquare.my_shuffle_false st4 d2 _ h4]
  try dsimp only
  refine BSquare.andThen_congr _ _ _ (by rw [BSquare.link_each_randomize]; exact h4)
    fun st5 h5 => ?_
  refine BSquare.andThen_congr _ _ _ (by rw [BSquare.link_each_randomize]; exact h5)
    fun st6 h6 => ?_
  refine BSquare.andThen_congr _ _ _ (by rw [BSquare.link_each_randomize]; exact h6)
    fun st7 h7 => ?_
  try dsimp only
  rw [BSquare.my_shuffle_false st7 d1 _ h7, BSquare.my_shuffle_false st7 d2 _ h7]

theorem BSquare.framing_wrapper_congr (p : Except PyErr Unit × BSquare) :
    ∀ q : Except PyErr Unit × BSquare, p = q →
    BSquare.andThen p (fun stk =>
      match stk.framing_method with
      | (.error e, st₂) => (.error e, st₂)
      | (.ok _, st₂) => (.ok (), st₂)) =
    BSquare.andThen q (fun stk =>
      match stk.framing_method with
      | (.error e, st₂) => (.error e, st₂)
      | (.ok _, st₂) => (.ok (), st₂)) := by
  intro q hq
  rw [hq]

theorem BSquare.default_configure_df (st : BSquare) (d1 d2 : Draw)
    (h : st.randomize = false) :
    st.default_configure d1 = st.default_configure d2 := by
  unfold BSquare.default_configure
  try dsimp only
  split
  · exact BSquare.framing_wrapper_congr _ _ (BSquare.frame0_odd_df st d1 d2 h)
  · split
    · rfl
    · split
      · rfl
      · split
        · exact BSquare.framing_wrapper_congr _ _ (BSquare.frame0_evenly_even_df st d1 d2 h)
        · exact BSquare.framing_wrapper_congr _ _ (BSquare.frame0_oddly_even_df st d1 d2 h)

theorem BSquare.configure_df (st : BSquare) (d1 d2 : Draw)
    (h : st.randomize = false) : st.configure d1 = st.configure d2 := by
  unfold BSquare.configure
  refine BSquare.andThen_congr _ _ _
    (by rw [(BSquare.configure_interior_fields st).2.2.1]; exact h) fun st1 h1 => ?_
  try dsimp only
  rw [Tier.new0_row, Tier.new0_row, Tier.new0_column, Tier.new0_column]
  try dsimp only
  split
  · rfl
  · split
    · exact BSquare.default_configure_df _ d1 d2 h1
    · rfl

/-- **C7.** Two framing invocations with `randomize` disabled on
identical input pictures are a deterministic function of the picture:
for every picture, algorithm id and trace flag, and any two
randomness draws, the two runs return identical results — the same
link choices (the bundle states coincide) and byte-identical frames
(the resulting matrices coincide). -/
theorem C7_determinism (pic : MagicSquare) (algorithm : ℤ) (trace : Bool)
    (d1 d2 : Draw) :
    bundledMagicSquare pic algorithm false trace d1 =
    bundledMagicSquare pic algorithm false trace d2 := by
  unfold bundledMagicSquare
  split
  · rfl
  · split
    · rfl
    · rename_i bundle hmk source hsq
      try dsimp only
      rw [BSquare.configure_df _ d1 d2 rfl]

/-! ## Linking on fresh keys -/

theorem Bundle.source_lt_target {b : Bundle} {s t : ℤ}
    (hs : b.is_source_node s = true) (ht : b.is_target_node t = true) : s < t := by
  simp only [Bundle.is_source_node, Bundle.is_target_node, Bundle.complement,
    Bundle.sigma, Bool.and_eq_true, decide_eq_true_eq] at hs ht
  nlinarith [sq_nonneg ((b.n : ℤ)), hs.1, hs.2, ht.1, ht.2]

theorem dmem_cpairs (k s t : ℤ) :
    dmem k (cpairs s t) = (decide (s = k) || decide (t = k)) := by
  simp [cpairs, dmem]

theorem Bundle.is_source_node_set_green (b : Bundle) (g : List (ℤ × ℤ)) (x : ℤ) :
    Bundle.is_source_node { b with green := g } x = b.is_source_node x := rfl

theorem Bundle.is_target_node_set_green (b : Bundle) (g : List (ℤ × ℤ)) (x : ℤ) :
    Bundle.is_target_node { b with green := g } x = b.is_target_node x := rfl

theorem Bundle.complement_set_green (b : Bundle) (g : List (ℤ × ℤ)) (x : ℤ) :
    Bundle.complement { b with green := g } x = b.complement x := rfl

theorem Bundle.is_source_node_set_purple (b : Bundle) (p : List (ℤ × ℤ)) (x : ℤ) :
    Bundle.is_source_node { b with purple := p } x = b.is_source_node x := rfl

theorem Bundle.is_target_node_set_purple (b : Bundle) (p : List (ℤ × ℤ)) (x : ℤ) :
    Bundle.is_target_node { b with purple := p } x = b.is_target_node x := rfl

theorem Bundle.complement_set_purple (b : Bundle) (p : List (ℤ × ℤ)) (x : ℤ) :
    Bundle.complement { b with purple := p } x = b.complement x := rfl

theorem Bundle.link_green_fresh (b : Bundle) (s t : ℤ)
    (hs : b.is_source_node s = true) (ht : b.is_target_node t = true)
    (hne : s ≠ b.complement t)
    (hfs : dmem s b.green = false) (hft : dmem t b.green = false) :
    b.link_green s t = (.ok (), { b with green := b.green ++ cpairs s t }) := by
  have hst : s ≠ t := ne_of_lt (Bundle.source_lt_target hs ht)
  unfold Bundle.link_green
  rw [hs, ht]
  simp only [Bool.true_eq_false, if_false, if_neg hne, hfs, hft, Bool.false_eq_true, if_false]
  have h1 : dput s t b.green = b.green ++ [(s, t)] := dput_of_not_mem s t b.green hfs
  have h2 : dput t s (b.green ++ [(s, t)]) = (b.green ++ [(s, t)]) ++ [(t, s)] := by
    apply dput_of_not_mem
    rw [dmem_append, hft]
    simp [dmem, hst]
  rw [h1, h2]
  simp [cpairs]

theorem Bundle.link_purple_fresh (b : Bundle) (s t : ℤ)
    (hs : b.is_source_node s = true) (ht : b.is_target_node t = true)
    (hne : s ≠ b.complement t)
    (hfs : dmem s b.purple = false) (hft : dmem t b.purple = false) :
    b.link_purple s t = (.ok (), { b with purple := b.purple ++ cpairs s t }) := by
  have hst : s ≠ t := ne_of_lt (Bundle.source_lt_target hs ht)
  unfold Bundle.link_purple
  rw [hs, ht]
  simp only [Bool.true_eq_false, if_false, if_neg hne, hfs, hft, Bool.false_eq_true, if_false]
  have h1 : dput s t b.purple = b.purple ++ [(s, t)] := dput_of_not_mem s t b.purple hfs
  have h2 : dput t s (b.purple ++ [(s, t)]) = (b.purple ++ [(s, t)]) ++ [(t, s)] := by
    apply dput_of_not_mem
    rw [dmem_append, hft]
    simp [dmem, hst]
  rw [h1, h2]
  simp [cpairs]

theorem Bundle.clink_green_fresh (b : Bundle) (s : ℤ)
    (hs : b.is_node s = true)
    (hfs : dmem s b.green = false) (hft : dmem (b.complement s) b.green = false) :
    b.clink_green s = (.ok (), { b with green := b.green ++ [(s, b.complement s)] }) := by
  unfold Bundle.clink_green
  rw [hs]
  simp only [Bool.true_eq_false, if_false, hfs, hft, Bool.false_eq_true, if_false]
  rw [dput_of_not_mem s (b.complement s) b.green hfs]

theorem Bundle.clink_purple_fresh (b : Bundle) (s : ℤ)
    (hs : b.is_node s = true)
    (hfs : dmem s b.purple = false) (hft : dmem (b.complement s) b.purple = false) :
    b.clink_purple s = (.ok (), { b with purple := b.purple ++ [(s, b.complement s)] }) := by
  unfold Bundle.clink_purple
  rw [hs]
  simp only [Bool.true_eq_false, if_false, hfs, hft, Bool.false_eq_true, if_false]
  rw [dput_of_not_mem s (b.complement s) b.purple hfs]

theorem linkPairs_nil (f : ℤ → ℤ × ℤ) : linkPairs f [] = [] := rfl

theorem linkPairs_cons (f : ℤ → ℤ × ℤ) (x : ℤ) (L : List ℤ) :
    linkPairs f (x :: L) = cpairs (f x).1 (f x).2 ++ linkPairs f L := rfl

theorem BSquare.link_each_green_append (f : ℤ → ℤ × ℤ) (L : List ℤ)
    (st : BSquare)
    (hcond : ∀ x ∈ L, st.bundle.is_source_node (f x).1 = true ∧
        st.bundle.is_target_node (f x).2 = true ∧
        (f x).1 ≠ st.bundle.complement (f x).2)
    (hfresh : ∀ x ∈ L, dmem (f x).1 st.bundle.green = false ∧
        dmem (f x).2 st.bundle.green = false)
    (hnodup : (L.flatMap fun x => [(f x).1, (f x).2]).Nodup) :
    BSquare.link_each Bundle.link_green f L st =
      (.ok (), { st with bundle :=
        { st.bundle with green := st.bundle.green ++ linkPairs f L } }) := by
  induction L generalizing st with
  | nil =>
      have h1 : BSquare.link_each Bundle.link_green f [] st = (.ok (), st) := rfl
      rw [h1, linkPairs_nil, List.append_nil]
  | cons x xs ih =>
      obtain ⟨hs, ht, hne⟩ := hcond x (List.mem_cons_self _ _)
      obtain ⟨hf1, hf2⟩ := hfresh x (List.mem_cons_self _ _)
      have hstep : st.bundle_op (fun b => Bundle.link_green b (f x).1 (f x).2) =
          (.ok (), { st with bundle :=
            { st.bundle with green := st.bundle.green ++ cpairs (f x).1 (f x).2 } }) := by
        rw [BSquare.bundle_op, Bundle.link_green_fresh st.bundle (f x).1 (f x).2 hs ht hne hf1 hf2]
      have hkey : ∀ y ∈ xs, (f y).1 ≠ (f x).1 ∧ (f y).1 ≠ (f x).2 ∧
          (f y).2 ≠ (f x).1 ∧ (f y).2 ≠ (f x).2 := by
        intro y hy
        simp only [List.flatMap_cons, List.nodup_append] at hnodup
        obtain ⟨h1, h2, h3⟩ := hnodup
        have hy1 : (f y).1 ∈ xs.flatMap fun z => [(f z).1, (f z).2] := by
          simp only [List.mem_flatMap]
          exact ⟨y, hy, by simp⟩
        have hy2 : (f y).2 ∈ xs.flatMap fun z => [(f z).1, (f z).2] := by
          simp only [List.mem_flatMap]
          exact ⟨y, hy, by simp⟩
        refine ⟨?_, ?_, ?_, ?_⟩ <;> intro he
        · exact h3 (by simp) (he ▸ hy1)
        · exact h3 (by simp) (he ▸ hy1)
        · exact h3 (by simp) (he ▸ hy2)
        · exact h3 (by simp) (he ▸ hy2)
      have ihres := ih { st with bundle :=
          { st.bundle with green := st.bundle.green ++ cpairs (f x).1 (f x).2 } }
        (fun y hy => hcond y (List.mem_cons_of_mem _ hy))
        (by
          intro y hy
          obtain ⟨k1, k2, k3, k4⟩ := hkey y hy
          obtain ⟨g1, g2⟩ := hfresh y (List.mem_cons_of_mem _ hy)
          constructor <;>
            · show dmem _ (st.bundle.green ++ cpairs (f x).1 (f x).2) = false
              rw [dmem_append, dmem_cpairs]
              simp only [Bool.or_eq_false_iff, decide_eq_false_iff_not]
              refine ⟨by assumption, ?_, ?_⟩ <;> omega)
        (by
          simp only [List.flatMap_cons, List.nodup_append] at hnodup
          exact hnodup.2.1)
      rw [BSquare.link_each, hstep]
      show BSquare.link_each Bundle.link_green f xs _ = _
      rw [ihres]
      show (Except.ok (), _) = (Except.ok (), _)
      have : (st.bundle.green ++ cpairs (f x).1 (f x).2) ++ linkPairs f xs =
          st.bundle.green ++ linkPairs f (x :: xs) := by
        rw [linkPairs_cons, List.append_assoc]
      rw [this]

theorem BSquare.link_each_purple_append (f : ℤ → ℤ × ℤ) (L : List ℤ)
    (st : BSquare)
    (hcond : ∀ x ∈ L, st.bundle.is_source_node (f x).1 = true ∧
        st.bundle.is_target_node (f x).2 = true ∧
        (f x).1 ≠ st.bundle.complement (f x).2)
    (hfresh : ∀ x ∈ L, dmem (f x).1 st.bundle.purple = false ∧
        dmem (f x).2 st.bundle.purple = false)
    (hnodup : (L.flatMap fun x => [(f x).1, (f x).2]).Nodup) :
    BSquare.link_each Bundle.link_purple f L st =
      (.ok (), { st with bundle :=
        { st.bundle with purple := st.bundle.purple ++ linkPairs f L } }) := by
  induction L generalizing st with
  | nil =>
      have h1 : BSquare.link_each Bundle.link_purple f [] st = (.ok (), st) := rfl
      rw [h1, linkPairs_nil, List.append_nil]
  | cons x xs ih =>
      obtain ⟨hs, ht, hne⟩ := hcond x (List.mem_cons_self _ _)
      obtain ⟨hf1, hf2⟩ := hfresh x (List.mem_cons_self _ _)
      have hstep : st.bundle_op (fun b => Bundle.link_purple b (f x).1 (f x).2) =
          (.ok (), { st with bundle :=
            { st.bundle with purple := st.bundle.purple ++ cpairs (f x).1 (f x).2 } }) := by
        rw [BSquare.bundle_op, Bundle.link_purple_fresh st.bundle (f x).1 (f x).2 hs ht hne hf1 hf2]
      have hkey : ∀ y ∈ xs, (f y).1 ≠ (f x).1 ∧ (f y).1 ≠ (f x).2 ∧
          (f y).2 ≠ (f x).1 ∧ (f y).2 ≠ (f x).2 := by
        intro y hy
        simp only [List.flatMap_cons, List.nodup_append] at hnodup
        obtain ⟨h1, h2, h3⟩ := hnodup
        have hy1 : (f y).1 ∈ xs.flatMap fun z => [(f z).1, (f z).2] := by
          simp only [List.mem_flatMap]
          exact ⟨y, hy, by simp⟩
        have hy2 : (f y).2 ∈ xs.flatMap fun z => [(f z).1, (f z).2] := by
          simp only [List.mem_flatMap]
          exact ⟨y, hy, by simp⟩
        refine ⟨?_, ?_, ?_, ?_⟩ <;> intro he
        · exact h3 (by simp) (he ▸ hy1)
        · exact h3 (by simp) (he ▸ hy1)
        · exact h3 (by simp) (he ▸ hy2)
        · exact h3 (by simp) (he ▸ hy2)
      have ihres := ih { st with bundle :=
          { st.bundle with purple := st.bundle.purple ++ cpairs (f x).1 (f x).2 } }
        (fun y hy => hcond y (List.mem_cons_of_mem _ hy))
        (by
          intro y hy
          obtain ⟨k1, k2, k3, k4⟩ := hkey y hy
          obtain ⟨g1, g2⟩ := hfresh y (List.mem_cons_of_mem _ hy)
          constructor <;>
            · show dmem _ (st.bundle.purple ++ cpairs (f x).1 (f x).2) = false
              rw [dmem_append, dmem_cpairs]
              simp only [Bool.or_eq_false_iff, decide_eq_false_iff_not]
              refine ⟨by assumption, ?_, ?_⟩ <;> omega)
        (by
          simp only [List.flatMap_cons, List.nodup_append] at hnodup
          exact hnodup.2.1)
      rw [BSquare.link_each, hstep]
      show BSquare.link_each Bundle.link_purple f xs _ = _
      rw [ihres]
      show (Except.ok (), _) = (Except.ok (), _)
      have : (st.bundle.purple ++ cpairs (f x).1 (f x).2) ++ linkPairs f xs =
          st.bundle.purple ++ linkPairs f (x :: xs) := by
        rw [linkPairs_cons, List.append_assoc]
      rw [this]

/-! ## Write sequences with a known final matrix -/

theorem MagicSquare.in_grid_congr (sq sq' : MagicSquare) (hn : sq'.n = sq.n)
    (idx : ℤ × ℤ) : sq'.in_grid idx = sq.in_grid idx := by
  unfold MagicSquare.in_grid
  rw [hn]

theorem MagicSquare.write_cells_spec (sq : MagicSquare)
    (cells : List ((ℤ × ℤ) × WithTop ℤ)) (F : ℤ × ℤ → WithTop ℤ)
    (hne : cells ≠ [])
    (hgrid : ∀ c ∈ cells, sq.in_grid c.1 = true)
    (hmem : ∀ c ∈ cells, F c.1 = c.2)
    (hout : ∀ p, (∀ c ∈ cells, c.1 ≠ p) → F p = sq.matrix p) :
    sq.write_cells cells = (.ok (), { sq with matrix := F, magic_ := none }) := by
  induction cells generalizing sq with
  | nil => exact absurd rfl hne
  | cons c rest ih =>
      obtain ⟨idx, v⟩ := c
      have hg := hgrid (idx, v) (List.mem_cons_self _ _)
      rw [MagicSquare.write_cells, MagicSquare.setitem_in_grid sq idx v hg]
      rcases Decidable.em (rest = []) with hrest | hrest
      · subst hrest
        dsimp only
        have hf : (fun p => if p = idx then v else sq.matrix p) = F := by
          funext p
          by_cases hp : p = idx
          · subst hp
            simp only [if_pos rfl]
            exact (hmem (p, v) (List.mem_cons_self _ _)).symm
          · rw [if_neg hp, hout p]
            intro c hc
            simp only [List.mem_singleton] at hc
            subst hc
            simpa using fun he => hp he.symm
        rw [hf]
        rfl
      · have ihres := ih { sq with
            matrix := fun p => if p = idx then v else sq.matrix p, magic_ := none }
          hrest
          (fun c hc => by
            rw [MagicSquare.in_grid_congr _ _ rfl]
            exact hgrid c (List.mem_cons_of_mem _ hc))
          (fun c hc => hmem c (List.mem_cons_of_mem _ hc))
          (by
            intro p hp
            by_cases hpi : p = idx
            · subst hpi
              simp only [if_pos rfl]
              exact hmem (p, v) (List.mem_cons_self _ _)
            · simp only [if_neg hpi]
              apply hout p
              intro c hc
              rcases List.mem_cons.mp hc with rfl | hc
              · simpa using fun he => hpi he.symm
              · exact hp c hc)
        dsimp only
        rw [ihres]

theorem MagicSquare.write_cells_nil (sq : MagicSquare) :
    sq.write_cells [] = (.ok (), sq) := rfl

theorem MagicSquare.write_cells_cons (sq : MagicSquare) (idx : ℤ × ℤ)
    (v : WithTop ℤ) (rest : List ((ℤ × ℤ) × WithTop ℤ)) :
    sq.write_cells ((idx, v) :: rest) =
      match sq.setitem idx v with
      | (.ok _, sq') => sq'.write_cells rest
      | (.error e, sq') => (.error e, sq') := rfl

theorem BSquare.configure_frame_loop_eq (N nl : ℤ) (c : ℕ) (i : ℤ) (sq : MagicSquare) :
    BSquare.configure_frame_loop (Tier.mk .row 0 nl) (Tier.mk .row (N - 1) nl)
      (Tier.mk .column 0 nl) (Tier.mk .column (N - 1) nl) c i sq =
    sq.write_cells (frame_zero_cells N i c) := by
  induction c generalizing i sq with
  | zero => rfl
  | succ c ih =>
      rw [BSquare.configure_frame_loop, frame_zero_cells]
      simp only [Tier.setitem_eq, Tier.cell_row, Tier.cell_column, List.cons_append,
        List.nil_append]
      rcases h1 : sq.setitem (0, i) 0 with ⟨r1, sq1⟩
      rw [MagicSquare.write_cells_cons, h1]
      cases r1 with
      | error e => rfl
      | ok u =>
          dsimp only
          rcases h2 : sq1.setitem (N - 1, i) 0 with ⟨r2, sq2⟩
          rw [MagicSquare.write_cells_cons, h2]
          cases r2 with
          | error e => rfl
          | ok u =>
              dsimp only
              rcases h3 : sq2.setitem (i, 0) 0 with ⟨r3, sq3⟩
              rw [MagicSquare.write_cells_cons, h3]
              cases r3 with
              | error e => rfl
              | ok u =>
                  dsimp only
                  rcases h4 : sq3.setitem (i, N - 1) 0 with ⟨r4, sq4⟩
                  rw [MagicSquare.write_cells_cons, h4]
                  cases r4 with
                  | error e => rfl
                  | ok u =>
                      dsimp only
                      exact ih (i + 1) sq4

theorem BSquare.framing_write_loop_eq (N nl : ℤ) (top right bottom left : List ℤ)
    (c i : ℕ) (sq : MagicSquare)
    (hl1 : i + c ≤ top.length) (hl2 : i + c ≤ right.length)
    (hl3 : i + c ≤ bottom.length) (hl4 : i + c ≤ left.length) :
    BSquare.framing_write_loop (Tier.mk .row 0 nl) (Tier.mk .column (N - 1) nl)
      (Tier.mk .row (N - 1) nl) (Tier.mk .column 0 nl)
      top right bottom left c i sq =
    sq.write_cells (commit_cells top right bottom left N i c) := by
  induction c generalizing i sq with
  | zero => rfl
  | succ c ih =>
      rw [BSquare.framing_write_loop, commit_cells]
      have ht : top.get? i = some (top.getD i 0) := by
        rw [List.getD_eq_getElem?_getD, List.get?_eq_getElem?]
        rcases h : top[i]? with _ | x
        · rw [List.getElem?_eq_none_iff] at h
          omega
        · rfl
      have hr : right.get? i = some (right.getD i 0) := by
        rw [List.getD_eq_getElem?_getD, List.get?_eq_getElem?]
        rcases h : right[i]? with _ | x
        · rw [List.getElem?_eq_none_iff] at h
          omega
        · rfl
      have hb : bottom.get? i = some (bottom.getD i 0) := by
        rw [List.getD_eq_getElem?_getD, List.get?_eq_getElem?]
        rcases h : bottom[i]? with _ | x
        · rw [List.getElem?_eq_none_iff] at h
          omega
        · rfl
      have hle : left.get? i = some (left.getD i 0) := by
        rw [List.getD_eq_getElem?_getD, List.get?_eq_getElem?]
        rcases h : left[i]? with _ | x
        · rw [List.getElem?_eq_none_iff] at h
          omega
        · rfl
      rw [ht, hr, hb, hle]
      simp only [Tier.setitem_eq, Tier.cell_row, Tier.cell_column, List.cons_append,
        List.nil_append]
      rcases h1 : sq.setitem (0, (i : ℤ)) ((top.getD i 0 : ℤ) : WithTop ℤ) with ⟨r1, sq1⟩
      rw [MagicSquare.write_cells_cons, h1]
      cases r1 with
      | error e => rfl
      | ok u =>
          dsimp only
          rcases h2 : sq1.setitem ((i : ℤ), N - 1) ((right.getD i 0 : ℤ) : WithTop ℤ) with ⟨r2, sq2⟩
          rw [MagicSquare.write_cells_cons, h2]
          cases r2 with
          | error e => rfl
          | ok u =>
              dsimp only
              rcases h3 : sq2.setitem (N - 1, (i : ℤ)) ((bottom.getD i 0 : ℤ) : WithTop ℤ) with ⟨r3, sq3⟩
              rw [MagicSquare.write_cells_cons, h3]
              cases r3 with
              | error e => rfl
              | ok u =>
                  dsimp only
                  rcases h4 : sq3.setitem ((i : ℤ), 0) ((left.getD i 0 : ℤ) : WithTop ℤ) with ⟨r4, sq4⟩
                  rw [MagicSquare.write_cells_cons, h4]
                  cases r4 with
                  | error e => rfl
                  | ok u =>
                      dsimp only
                      exact ih (i + 1) sq4 (by omega) (by omega) (by omega) (by omega)

/-! ## Abstract link sequences and the colored dicts they generate -/

theorem linksEntries_cons (S : ℤ) (l : Link) (ls : List Link) :
    linksEntries S (l :: ls) = l.entries S ++ linksEntries S ls := rfl

theorem linksLabels_cons (l : Link) (ls : List Link) :
    linksLabels (l :: ls) = l.labels ++ linksLabels ls := rfl

theorem linksEntries_append (S : ℤ) (l₁ l₂ : List Link) :
    linksEntries S (l₁ ++ l₂) = linksEntries S l₁ ++ linksEntries S l₂ :=
  List.flatMap_append _ _ _

theorem linksLabels_append (l₁ l₂ : List Link) :
    linksLabels (l₁ ++ l₂) = linksLabels l₁ ++ linksLabels l₂ :=
  List.flatMap_append _ _ _

theorem slope2Sum_cons (S : ℤ) (l : Link) (ls : List Link) :
    slope2Sum S (l :: ls) = l.slope2 S + slope2Sum S ls := by
  simp [slope2Sum]

theorem slope2Sum_append (S : ℤ) (l₁ l₂ : List Link) :
    slope2Sum S (l₁ ++ l₂) = slope2Sum S l₁ + slope2Sum S l₂ := by
  simp [slope2Sum]

theorem dmem_entries (S k : ℤ) (l : Link) : dmem k (l.entries S) = l.hasKey S k := by
  cases l <;> simp [Link.entries, Link.hasKey, dmem]

theorem dmem_linksEntries (S k : ℤ) (ls : List Link) :
    dmem k (linksEntries S ls) = ls.any (Link.hasKey S k) := by
  induction ls with
  | nil => rfl
  | cons l ls ih => rw [linksEntries_cons, dmem_append, dmem_entries, ih, List.any_cons]

theorem link_any_congr {p q : Link → Bool} {l : List Link}
    (h : ∀ x ∈ l, p x = q x) : l.any p = l.any q := by
  induction l with
  | nil => rfl
  | cons x xs ih =>
      rw [List.any_cons, List.any_cons, h x (List.mem_cons_self _ _),
        ih fun y hy => h y (List.mem_cons_of_mem _ hy)]

theorem Link.hasKey_compl_eq_resT (S n v : ℤ) (l : Link)
    (hS : 4 * n + 5 ≤ S) (hv : 1 ≤ v ∧ v ≤ 2 * n + 2)
    (hr : ∀ w ∈ l.labels, 1 ≤ w ∧ w ≤ 2 * n + 2) :
    l.hasKey S (S - v) = l.resT v := by
  cases l with
  | norm s u =>
      have h1 := hr s (by simp [Link.labels])
      have h2 := hr u (by simp [Link.labels])
      have e1 : decide (s = S - v) = false := by
        simp only [decide_eq_false_iff_not]
        omega
      have e2 : decide (S - u = S - v) = decide (v = u) :=
        decide_eq_decide.mpr (by omega)
      simp only [Link.hasKey, Link.resT, e1, e2, Bool.false_or]
  | cmp x =>
      have h1 := hr x (by simp [Link.labels])
      have e1 : decide (x = S - v) = false := by
        simp only [decide_eq_false_iff_not]
        omega
      simp only [Link.hasKey, Link.resT, e1]
  | cmpT u =>
      have h2 := hr u (by simp [Link.labels])
      have e2 : decide (S - u = S - v) = decide (v = u) :=
        decide_eq_decide.mpr (by omega)
      simp only [Link.hasKey, Link.resT, e2]

theorem Link.hasKey_self_eq_resB (S n v : ℤ) (l : Link)
    (hS : 4 * n + 5 ≤ S) (hv : 1 ≤ v ∧ v ≤ 2 * n + 2)
    (hr : ∀ w ∈ l.labels, 1 ≤ w ∧ w ≤ 2 * n + 2) :
    l.hasKey S v = l.resB v := by
  cases l with
  | norm s u =>
      have h2 := hr u (by simp [Link.labels])
      have e1 : decide (s = v) = decide (v = s) := decide_eq_decide.mpr (by omega)
      have e2 : decide (S - u = v) = false := by
        simp only [decide_eq_false_iff_not]
        omega
      simp only [Link.hasKey, Link.resB, e1, e2, Bool.or_false]
  | cmp x =>
      have e1 : decide (x = v) = decide (v = x) := decide_eq_decide.mpr (by omega)
      simp only [Link.hasKey, Link.resB, e1]
  | cmpT u =>
      have h2 := hr u (by simp [Link.labels])
      have e2 : decide (S - u = v) = false := by
        simp only [decide_eq_false_iff_not]
        omega
      simp only [Link.hasKey, Link.resB, e2]

theorem Bundle.sigma_ge (b : Bundle) : 4 * (b.n : ℤ) + 5 ≤ b.sigma := by
  have h0 : (0 : ℤ) ≤ (b.n : ℤ) := Int.natCast_nonneg _
  have : (0 : ℤ) ≤ ((b.n : ℤ)) ^ 2 := sq_nonneg _
  unfold Bundle.sigma
  nlinarith

theorem Bundle.is_top_node_links (b : Bundle) (ls : List Link)
    (hG : b.green = linksEntries b.sigma ls)
    (hr : ∀ w ∈ linksLabels ls, 1 ≤ w ∧ w ≤ 2 * (b.n : ℤ) + 2)
    (v : ℤ) (hv : 1 ≤ v ∧ v ≤ 2 * (b.n : ℤ) + 2) :
    b.is_top_node v = ls.any (Link.resT v) := by
  rw [Bundle.is_top_node, Bundle.complement, hG, dmem_linksEntries]
  apply link_any_congr
  intro l hl
  exact Link.hasKey_compl_eq_resT b.sigma (b.n : ℤ) v l b.sigma_ge hv
    fun w hw => hr w (List.mem_flatMap.mpr ⟨l, hl, hw⟩)

theorem Bundle.is_bottom_node_links (b : Bundle) (ls : List Link)
    (hG : b.green = linksEntries b.sigma ls)
    (hr : ∀ w ∈ linksLabels ls, 1 ≤ w ∧ w ≤ 2 * (b.n : ℤ) + 2)
    (v : ℤ) (hv : 1 ≤ v ∧ v ≤ 2 * (b.n : ℤ) + 2) :
    b.is_bottom_node v = ls.any (Link.resB v) := by
  rw [Bundle.is_bottom_node, hG, dmem_linksEntries]
  apply link_any_congr
  intro l hl
  exact Link.hasKey_self_eq_resB b.sigma (b.n : ℤ) v l b.sigma_ge hv
    fun w hw => hr w (List.mem_flatMap.mpr ⟨l, hl, hw⟩)

theorem Bundle.is_left_node_links (b : Bundle) (ls : List Link)
    (hP : b.purple = linksEntries b.sigma ls)
    (hr : ∀ w ∈ linksLabels ls, 1 ≤ w ∧ w ≤ 2 * (b.n : ℤ) + 2)
    (v : ℤ) (hv : 1 ≤ v ∧ v ≤ 2 * (b.n : ℤ) + 2) :
    b.is_left_node v = ls.any (Link.resT v) := by
  rw [Bundle.is_left_node, Bundle.complement, hP, dmem_linksEntries]
  apply link_any_congr
  intro l hl
  exact Link.hasKey_compl_eq_resT b.sigma (b.n : ℤ) v l b.sigma_ge hv
    fun w hw => hr w (List.mem_flatMap.mpr ⟨l, hl, hw⟩)

theorem Bundle.is_right_node_links (b : Bundle) (ls : List Link)
    (hP : b.purple = linksEntries b.sigma ls)
    (hr : ∀ w ∈ linksLabels ls, 1 ≤ w ∧ w ≤ 2 * (b.n : ℤ) + 2)
    (v : ℤ) (hv : 1 ≤ v ∧ v ≤ 2 * (b.n : ℤ) + 2) :
    b.is_right_node v = ls.any (Link.resB v) := by
  rw [Bundle.is_right_node, hP, dmem_linksEntries]
  apply link_any_congr
  intro l hl
  exact Link.hasKey_self_eq_resB b.sigma (b.n : ℤ) v l b.sigma_ge hv
    fun w hw => hr w (List.mem_flatMap.mpr ⟨l, hl, hw⟩)

theorem Link.resT_mem_labels {v : ℤ} {l : Link} (h : l.resT v = true) :
    v ∈ l.labels := by
  cases l <;> simp_all [Link.resT, Link.labels]

theorem Link.resB_mem_labels {v : ℤ} {l : Link} (h : l.resB v = true) :
    v ∈ l.labels := by
  cases l <;> simp_all [Link.resB, Link.labels]

theorem any_resT_mem {v : ℤ} {ls : List Link} (h : ls.any (Link.resT v) = true) :
    v ∈ linksLabels ls := by
  rw [List.any_eq_true] at h
  obtain ⟨l, hl, hres⟩ := h
  exact List.mem_flatMap.mpr ⟨l, hl, Link.resT_mem_labels hres⟩

theorem any_resB_mem {v : ℤ} {ls : List Link} (h : ls.any (Link.resB v) = true) :
    v ∈ linksLabels ls := by
  rw [List.any_eq_true] at h
  obtain ⟨l, hl, hres⟩ := h
  exact List.mem_flatMap.mpr ⟨l, hl, Link.resB_mem_labels hres⟩

theorem mem_labels_res {v : ℤ} {ls : List Link} (h : v ∈ linksLabels ls) :
    ls.any (Link.resT v) = true ∨ ls.any (Link.resB v) = true := by
  obtain ⟨l, hl, hv⟩ := List.mem_flatMap.mp h
  cases l with
  | norm s u =>
      simp only [Link.labels, List.mem_cons, List.not_mem_nil, or_false] at hv
      rcases hv with h1 | h2
      · right
        rw [List.any_eq_true]
        exact ⟨.norm s u, hl, by simp [Link.resB, h1]⟩
      · left
        rw [List.any_eq_true]
        exact ⟨.norm s u, hl, by simp [Link.resT, h2]⟩
  | cmp x =>
      simp only [Link.labels, List.mem_cons, List.not_mem_nil, or_false] at hv
      right
      rw [List.any_eq_true]
      exact ⟨.cmp x, hl, by simp [Link.resB, hv]⟩
  | cmpT u =>
      simp only [Link.labels, List.mem_cons, List.not_mem_nil, or_false] at hv
      left
      rw [List.any_eq_true]
      exact ⟨.cmpT u, hl, by simp [Link.resT, hv]⟩

theorem Link.res_TB {v : ℤ} {l : Link} (hnd : l.labels.Nodup)
    (hT : l.resT v = true) (hB : l.resB v = true) : False := by
  cases l with
  | norm s u =>
      simp only [Link.resT, Link.resB, decide_eq_true_eq] at hT hB
      simp only [Link.labels, List.nodup_cons, List.mem_singleton] at hnd
      exact hnd.1 (by omega)
  | cmp x => simp [Link.resT] at hT
  | cmpT u => simp [Link.resB] at hB

theorem res_exclusive {v : ℤ} (ls : List Link) (hnd : (linksLabels ls).Nodup) :
    ¬(ls.any (Link.resT v) = true ∧ ls.any (Link.resB v) = true) := by
  induction ls with
  | nil => simp
  | cons l ls ih =>
      rw [linksLabels_cons, List.nodup_append] at hnd
      obtain ⟨h1, h2, h3⟩ := hnd
      rintro ⟨hT, hB⟩
      rw [List.any_cons, Bool.or_eq_true] at hT hB
      rcases hT with hT | hT <;> rcases hB with hB | hB
      · exact Link.res_TB h1 hT hB
      · exact h3 (Link.resT_mem_labels hT) (any_resB_mem hB)
      · exact h3 (Link.resB_mem_labels hB) (any_resT_mem hT)
      · exact ih h2 ⟨hT, hB⟩

/-! ## List utilities for the classification proofs -/

theorem flatMap_single (L : List ℤ) (f : ℤ → List ℤ) (a : ℤ)
    (hnd : L.Nodup) (ha : a ∈ L) (h0 : ∀ v ∈ L, v ≠ a → f v = []) :
    L.flatMap f = f a := by
  induction L with
  | nil => cases ha
  | cons x xs ih =>
      rw [List.nodup_cons] at hnd
      rw [List.flatMap_cons]
      rcases List.mem_cons.mp ha with rfl | hax
      · have : xs.flatMap f = [] := by
          rw [List.flatMap_eq_nil_iff]
          intro v hv
          exact h0 v (List.mem_cons_of_mem _ hv) fun he => hnd.1 (he ▸ hv)
        rw [this, List.append_nil]
      · have hx : f x = [] :=
          h0 x (List.mem_cons_self _ _) fun he => hnd.1 (he ▸ hax)
        rw [hx, List.nil_append]
        exact ih hnd.2 hax fun v hv => h0 v (List.mem_cons_of_mem _ hv)

theorem sum_flatMap (L : List ℤ) (f : ℤ → List ℤ) :
    (L.flatMap f).sum = (L.map fun v => (f v).sum).sum := by
  induction L with
  | nil => rfl
  | cons x xs ih => rw [List.flatMap_cons, List.sum_append, List.map_cons, List.sum_cons, ih]

theorem len_flatMap (L : List ℤ) (f : ℤ → List ℤ) :
    ((L.flatMap f).length : ℤ) = (L.map fun v => ((f v).length : ℤ)).sum := by
  induction L with
  | nil => rfl
  | cons x xs ih =>
      rw [List.flatMap_cons, List.length_append, List.map_cons, List.sum_cons, ← ih]
      push_cast
      ring

theorem sum_map_congr (L : List ℤ) (f g : ℤ → ℤ) (h : ∀ v ∈ L, f v = g v) :
    (L.map f).sum = (L.map g).sum := by
  induction L with
  | nil => rfl
  | cons x xs ih =>
      rw [List.map_cons, List.map_cons, List.sum_cons, List.sum_cons,
        h x (List.mem_cons_self _ _), ih fun v hv => h v (List.mem_cons_of_mem _ hv)]

theorem perm_of_nodup_same_mem (L M : List ℤ) (hL : L.Nodup) (hM : M.Nodup)
    (h : ∀ v, v ∈ L ↔ v ∈ M) : L.Perm M :=
  (List.perm_ext_iff_of_nodup hL hM).mpr h

theorem sum_map_eq_of_support (L M : List ℤ) (h : ℤ → ℤ)
    (hLnd : L.Nodup) (hMnd : M.Nodup) (hsub : ∀ v ∈ M, v ∈ L)
    (h0 : ∀ v ∈ L, v ∉ M → h v = 0) :
    (L.map h).sum = (M.map h).sum := by
  have hperm : ((L.filter fun v => decide (v ∈ M)) ++
      (L.filter fun v => !decide (v ∈ M))).Perm L := List.filter_append_perm _ L
  have hsplit : (L.map h).sum =
      ((L.filter fun v => decide (v ∈ M)).map h).sum +
      ((L.filter fun v => !decide (v ∈ M)).map h).sum := by
    rw [← List.sum_append, ← List.map_append]
    exact ((hperm.map h).sum_eq).symm
  have hzero : ((L.filter fun v => !decide (v ∈ M)).map h).sum = 0 := by
    apply List.sum_eq_zero
    intro x hx
    obtain ⟨v, hv, rfl⟩ := List.mem_map.mp hx
    rw [List.mem_filter] at hv
    exact h0 v hv.1 (by simpa using hv.2)
  have hfperm : (L.filter fun v => decide (v ∈ M)).Perm M := by
    apply perm_of_nodup_same_mem _ _ (hLnd.filter _) hMnd
    intro v
    rw [List.mem_filter]
    constructor
    · intro hv
      simpa using hv.2
    · intro hv
      exact ⟨hsub v hv, by simpa using hv⟩
  rw [hsplit, hzero, add_zero, (hfperm.map h).sum_eq]

theorem flatMap_perm_of_forall (L : List ℤ) (f g : ℤ → List ℤ)
    (h : ∀ v ∈ L, (f v).Perm (g v)) : (L.flatMap f).Perm (L.flatMap g) := by
  induction L with
  | nil => exact List.Perm.refl _
  | cons x xs ih =>
      rw [List.flatMap_cons, List.flatMap_cons]
      exact (h x (List.mem_cons_self _ _)).append
        (ih fun v hv => h v (List.mem_cons_of_mem _ hv))

theorem flatMap_append_perm (L : List ℤ) (f g : ℤ → List ℤ) :
    (L.flatMap f ++ L.flatMap g).Perm (L.flatMap fun v => f v ++ g v) := by
  induction L with
  | nil => exact List.Perm.refl _
  | cons x xs ih =>
      rw [List.flatMap_cons, List.flatMap_cons, List.flatMap_cons, List.append_assoc,
        List.append_assoc]
      refine List.Perm.append_left (f x) ?_
      have h1 : (xs.flatMap f ++ (g x ++ xs.flatMap g)).Perm
          (g x ++ (xs.flatMap f ++ xs.flatMap g)) := by
        have h2 : ((xs.flatMap f ++ g x) ++ xs.flatMap g).Perm
            ((g x ++ xs.flatMap f) ++ xs.flatMap g) :=
          List.Perm.append_right _ List.perm_append_comm
        rw [List.append_assoc, List.append_assoc] at h2
        exact h2
      refine h1.trans ?_
      exact List.Perm.append_left (g x) ih

theorem flatMap_pair_perm (L : List ℤ) (g : ℤ → ℤ) :
    (L.flatMap fun v => [v, g v]).Perm (L ++ L.map g) := by
  induction L with
  | nil => exact List.Perm.refl _
  | cons x xs ih =>
      rw [List.flatMap_cons, List.map_cons]
      show (x :: g x :: xs.flatMap fun v => [v, g v]).Perm (x :: (xs ++ g x :: xs.map g))
      refine List.Perm.cons x ?_
      exact (List.Perm.cons _ ih).trans List.perm_middle.symm

theorem length_filter_split (p : ℤ → Bool) (L : List ℤ) :
    (L.filter p).length + (L.filter fun v => !(p v)).length = L.length := by
  induction L with
  | nil => rfl
  | cons x xs ih =>
      by_cases hx : p x = true
      · rw [List.filter_cons_of_pos hx, List.filter_cons_of_neg (by simp [hx])]
        simp only [List.length_cons]
        omega
      · rw [List.filter_cons_of_neg (by simpa using hx),
          List.filter_cons_of_pos (by simpa using hx)]
        simp only [List.length_cons]
        omega

/-! ## The classification under a `GoodLinks` description -/

theorem Bundle.classify_one_eval (b : Bundle) (v : ℤ) :
    b.classify_one v =
      (if b.is_top_node v then
        if b.is_left_node v then ⟨[], [], [], [], [v], [], [b.complement v], [], []⟩
        else if b.is_right_node v then ⟨[], [], [], [], [], [v], [], [b.complement v], []⟩
        else ⟨[v], [b.complement v], [], [], [], [], [], [], []⟩
      else if b.is_bottom_node v then
        if b.is_left_node v then ⟨[], [], [], [], [], [b.complement v], [], [v], []⟩
        else if b.is_right_node v then ⟨[], [], [], [], [b.complement v], [], [v], [], []⟩
        else ⟨[b.complement v], [v], [], [], [], [], [], [], []⟩
      else if b.is_left_node v then ⟨[], [], [v], [b.complement v], [], [], [], [], []⟩
      else if b.is_right_node v then ⟨[], [], [b.complement v], [v], [], [], [], [], []⟩
      else ⟨[], [], [], [], [], [], [], [], [v]⟩ : ClassifyAcc) := by
  unfold Bundle.classify_one Bundle.classify_step
  cases ht : b.is_top_node v <;> cases hb : b.is_bottom_node v <;>
    cases hl : b.is_left_node v <;> cases hr : b.is_right_node v <;>
    simp [ht, hb, hl, hr, ClassifyAcc.empty]

theorem GoodLinks.coverage {b : Bundle} {gls pls : List Link} {γ0 γ3 : ℤ}
    (hg : GoodLinks b gls pls γ0 γ3) :
    ∀ v : ℤ, 1 ≤ v → v ≤ 2 * (b.n : ℤ) + 2 →
      v ∈ linksLabels gls ∨ v ∈ linksLabels pls := by
  intro v hv1 hv2
  by_contra hcon
  push_neg at hcon
  have hilnd : (irange 1 (2 * b.n + 2)).Nodup := irange_nodup _ _
  have hillen : (irange 1 (2 * b.n + 2)).length = 2 * b.n + 2 := irange_length _ _
  have hγ0G : γ0 ∈ linksLabels gls := any_resT_mem hg.hγ0T
  have hγ0P : γ0 ∈ linksLabels pls := any_resT_mem hg.hγ0L
  have hγ3G : γ3 ∈ linksLabels gls := any_resB_mem hg.hγ3B
  have hγ3P : γ3 ∈ linksLabels pls := any_resT_mem hg.hγ3L
  have hboth : ((linksLabels pls).filter fun w =>
      decide (w ∈ linksLabels gls)).Perm [γ0, γ3] := by
    apply perm_of_nodup_same_mem _ _ (hg.hPnd.filter _) (by simp [hg.hγne])
    intro w
    rw [List.mem_filter]
    constructor
    · rintro ⟨hwP, hwG⟩
      have := hg.hint w (by simpa using hwG) hwP
      simpa using this
    · intro hw
      rcases (by simpa using hw : w = γ0 ∨ w = γ3) with rfl | rfl
      · exact ⟨hγ0P, by simpa using hγ0G⟩
      · exact ⟨hγ3P, by simpa using hγ3G⟩
  have hlen2 : ((linksLabels pls).filter fun w =>
      decide (w ∈ linksLabels gls)).length = 2 := hboth.length_eq
  have hsplit := length_filter_split
    (fun w => decide (w ∈ linksLabels gls)) (linksLabels pls)
  have hUnd : (linksLabels gls ++ ((linksLabels pls).filter
      fun w => !decide (w ∈ linksLabels gls))).Nodup := by
    rw [List.nodup_append]
    refine ⟨hg.hGnd, hg.hPnd.filter _, ?_⟩
    intro a haG haF
    rw [List.mem_filter] at haF
    exact absurd haG (by simpa using haF.2)
  have hUsub : (linksLabels gls ++ ((linksLabels pls).filter
      fun w => !decide (w ∈ linksLabels gls))) ⊆ irange 1 (2 * b.n + 2) := by
    intro w hw
    rw [List.mem_append] at hw
    rw [mem_irange]
    rcases hw with hw | hw
    · have := hg.hGr w hw
      push_cast
      omega
    · rw [List.mem_filter] at hw
      have := hg.hPr w hw.1
      push_cast
      omega
  have hUlen : (linksLabels gls ++ ((linksLabels pls).filter
      fun w => !decide (w ∈ linksLabels gls))).length = 2 * b.n + 2 := by
    rw [List.length_append, hg.hGc]
    have := hg.hPc
    omega
  have hUperm := (hUnd.subperm hUsub).perm_of_length_le (by omega)
  have hvil : v ∈ irange 1 (2 * b.n + 2) := by
    rw [mem_irange]
    push_cast
    omega
  have hvU := hUperm.mem_iff.mpr hvil
  rw [List.mem_append] at hvU
  rcases hvU with h | h
  · exact hcon.1 h
  · rw [List.mem_filter] at h
    exact hcon.2 h.1

theorem GoodLinks.case_split {b : Bundle} {gls pls : List Link} {γ0 γ3 : ℤ}
    (hg : GoodLinks b gls pls γ0 γ3)
    (v : ℤ) (hv1 : 1 ≤ v) (hv2 : v ≤ 2 * (b.n : ℤ) + 2) :
    (v = γ0 ∧ b.is_top_node v = true ∧ b.is_bottom_node v = false ∧
      b.is_left_node v = true ∧ b.is_right_node v = false) ∨
    (v = γ3 ∧ b.is_top_node v = false ∧ b.is_bottom_node v = true ∧
      b.is_left_node v = true ∧ b.is_right_node v = false) ∨
    (v ≠ γ0 ∧ v ≠ γ3 ∧
      (((b.is_top_node v = true ∧ b.is_bottom_node v = false) ∨
        (b.is_top_node v = false ∧ b.is_bottom_node v = true)) ∧
        b.is_left_node v = false ∧ b.is_right_node v = false ∨
       (b.is_top_node v = false ∧ b.is_bottom_node v = false ∧
        ((b.is_left_node v = true ∧ b.is_right_node v = false) ∨
         (b.is_left_node v = false ∧ b.is_right_node v = true))))) := by
  have hv : 1 ≤ v ∧ v ≤ 2 * (b.n : ℤ) + 2 := ⟨hv1, hv2⟩
  have hT := b.is_top_node_links gls hg.hG hg.hGr v hv
  have hB := b.is_bottom_node_links gls hg.hG hg.hGr v hv
  have hL := b.is_left_node_links pls hg.hP hg.hPr v hv
  have hR := b.is_right_node_links pls hg.hP hg.hPr v hv
  have hexG := res_exclusive (v := v) gls hg.hGnd
  have hexP := res_exclusive (v := v) pls hg.hPnd
  have hfG : v ∉ linksLabels gls →
      b.is_top_node v = false ∧ b.is_bottom_node v = false := by
    intro hout
    rw [hT, hB]
    constructor
    · cases h' : gls.any (Link.resT v)
      · rfl
      · exact absurd (any_resT_mem h') hout
    · cases h' : gls.any (Link.resB v)
      · rfl
      · exact absurd (any_resB_mem h') hout
  have hfP : v ∉ linksLabels pls →
      b.is_left_node v = false ∧ b.is_right_node v = false := by
    intro hout
    rw [hL, hR]
    constructor
    · cases h' : pls.any (Link.resT v)
      · rfl
      · exact absurd (any_resT_mem h') hout
    · cases h' : pls.any (Link.resB v)
      · rfl
      · exact absurd (any_resB_mem h') hout
  have hTB : v ∈ linksLabels gls →
      (b.is_top_node v = true ∧ b.is_bottom_node v = false) ∨
      (b.is_top_node v = false ∧ b.is_bottom_node v = true) := by
    intro hin
    rw [hT, hB]
    rcases mem_labels_res hin with h1 | h1
    · left
      refine ⟨h1, ?_⟩
      cases h' : gls.any (Link.resB v)
      · rfl
      · exact absurd ⟨h1, h'⟩ hexG
    · right
      refine ⟨?_, h1⟩
      cases h' : gls.any (Link.resT v)
      · rfl
      · exact absurd ⟨h', h1⟩ hexG
  have hLR : v ∈ linksLabels pls →
      (b.is_left_node v = true ∧ b.is_right_node v = false) ∨
      (b.is_left_node v = false ∧ b.is_right_node v = true) := by
    intro hin
    rw [hL, hR]
    rcases mem_labels_res hin with h1 | h1
    · left
      refine ⟨h1, ?_⟩
      cases h' : pls.any (Link.resB v)
      · rfl
      · exact absurd ⟨h1, h'⟩ hexP
    · right
      refine ⟨?_, h1⟩
      cases h' : pls.any (Link.resT v)
      · rfl
      · exact absurd ⟨h', h1⟩ hexP
  by_cases hvG : v ∈ linksLabels gls <;> by_cases hvP : v ∈ linksLabels pls
  · rcases hg.hint v hvG hvP with rfl | rfl
    · left
      have h1 : b.is_top_node v = true := by
        rw [hT]
        exact hg.hγ0T
      have h2 : b.is_bottom_node v = false := by
        rw [hB]
        cases h' : gls.any (Link.resB v)
        · rfl
        · exact absurd ⟨hg.hγ0T, h'⟩ hexG
      have h3 : b.is_left_node v = true := by
        rw [hL]
        exact hg.hγ0L
      have h4 : b.is_right_node v = false := by
        rw [hR]
        cases h' : pls.any (Link.resB v)
        · rfl
        · exact absurd ⟨hg.hγ0L, h'⟩ hexP
      exact ⟨rfl, h1, h2, h3, h4⟩
    · right
      left
      have h2 : b.is_bottom_node v = true := by
        rw [hB]
        exact hg.hγ3B
      have h1 : b.is_top_node v = false := by
        rw [hT]
        cases h' : gls.any (Link.resT v)
        · rfl
        · exact absurd ⟨h', hg.hγ3B⟩ hexG
      have h3 : b.is_left_node v = true := by
        rw [hL]
        exact hg.hγ3L
      have h4 : b.is_right_node v = false := by
        rw [hR]
        cases h' : pls.any (Link.resB v)
        · rfl
        · exact absurd ⟨hg.hγ3L, h'⟩ hexP
      exact ⟨rfl, h1, h2, h3, h4⟩
  · right
    right
    refine ⟨fun he => hvP (he ▸ any_resT_mem hg.hγ0L),
      fun he => hvP (he ▸ any_resT_mem hg.hγ3L), ?_⟩
    left
    exact ⟨hTB hvG, hfP hvP⟩
  · right
    right
    refine ⟨fun he => hvG (he ▸ any_resT_mem hg.hγ0T),
      fun he => hvG (he ▸ any_resB_mem hg.hγ3B), ?_⟩
    right
    exact ⟨(hfG hvG).1, (hfG hvG).2, hLR hvP⟩
  · exact absurd (hg.coverage v hv1 hv2) (by tauto)

theorem sum_map_add (L : List ℤ) (f g : ℤ → ℤ) :
    (L.map fun v => f v + g v).sum = (L.map f).sum + (L.map g).sum := by
  induction L with
  | nil => rfl
  | cons x xs ih =>
      simp only [List.map_cons, List.sum_cons, ih]
      ring

theorem sum_map_flatMap (ls : List Link) (f : Link → List ℤ) (h : ℤ → ℤ) :
    (((ls.flatMap f).map h).sum) = (ls.map fun l => ((f l).map h).sum).sum := by
  induction ls with
  | nil => rfl
  | cons l ls ih =>
      rw [List.flatMap_cons, List.map_append, List.sum_append, List.map_cons,
        List.sum_cons, ih]

theorem linksLabels_length_sum (ls : List Link) :
    (ls.map fun l => (l.labels.length : ℤ)).sum = ((linksLabels ls).length : ℤ) := by
  induction ls with
  | nil => rfl
  | cons l ls ih =>
      rw [linksLabels_cons, List.length_append, List.map_cons, List.sum_cons, ih]
      push_cast
      ring

theorem GoodLinks.resTG_bools {b : Bundle} {gls pls : List Link} {γ0 γ3 : ℤ}
    (hg : GoodLinks b gls pls γ0 γ3) {v : ℤ}
    (hv : 1 ≤ v ∧ v ≤ 2 * (b.n : ℤ) + 2)
    (h : gls.any (Link.resT v) = true) :
    b.is_top_node v = true ∧ b.is_bottom_node v = false := by
  refine ⟨by rw [b.is_top_node_links gls hg.hG hg.hGr v hv]; exact h, ?_⟩
  rw [b.is_bottom_node_links gls hg.hG hg.hGr v hv]
  cases h' : gls.any (Link.resB v)
  · rfl
  · exact absurd ⟨h, h'⟩ (res_exclusive gls hg.hGnd)

theorem GoodLinks.resBG_bools {b : Bundle} {gls pls : List Link} {γ0 γ3 : ℤ}
    (hg : GoodLinks b gls pls γ0 γ3) {v : ℤ}
    (hv : 1 ≤ v ∧ v ≤ 2 * (b.n : ℤ) + 2)
    (h : gls.any (Link.resB v) = true) :
    b.is_top_node v = false ∧ b.is_bottom_node v = true := by
  refine ⟨?_, by rw [b.is_bottom_node_links gls hg.hG hg.hGr v hv]; exact h⟩
  rw [b.is_top_node_links gls hg.hG hg.hGr v hv]
  cases h' : gls.any (Link.resT v)
  · rfl
  · exact absurd ⟨h', h⟩ (res_exclusive gls hg.hGnd)

theorem GoodLinks.resTP_bools {b : Bundle} {gls pls : List Link} {γ0 γ3 : ℤ}
    (hg : GoodLinks b gls pls γ0 γ3) {v : ℤ}
    (hv : 1 ≤ v ∧ v ≤ 2 * (b.n : ℤ) + 2)
    (h : pls.any (Link.resT v) = true) :
    b.is_left_node v = true ∧ b.is_right_node v = false := by
  refine ⟨by rw [b.is_left_node_links pls hg.hP hg.hPr v hv]; exact h, ?_⟩
  rw [b.is_right_node_links pls hg.hP hg.hPr v hv]
  cases h' : pls.any (Link.resB v)
  · rfl
  · exact absurd ⟨h, h'⟩ (res_exclusive pls hg.hPnd)

theorem GoodLinks.resBP_bools {b : Bundle} {gls pls : List Link} {γ0 γ3 : ℤ}
    (hg : GoodLinks b gls pls γ0 γ3) {v : ℤ}
    (hv : 1 ≤ v ∧ v ≤ 2 * (b.n : ℤ) + 2)
    (h : pls.any (Link.resB v) = true) :
    b.is_left_node v = false ∧ b.is_right_node v = true := by
  refine ⟨?_, by rw [b.is_right_node_links pls hg.hP hg.hPr v hv]; exact h⟩
  rw [b.is_left_node_links pls hg.hP hg.hPr v hv]
  cases h' : pls.any (Link.resT v)
  · rfl
  · exact absurd ⟨h', h⟩ (res_exclusive pls hg.hPnd)

theorem GoodLinks.not_memG_bools {b : Bundle} {gls pls : List Link} {γ0 γ3 : ℤ}
    (hg : GoodLinks b gls pls γ0 γ3) {v : ℤ}
    (hv : 1 ≤ v ∧ v ≤ 2 * (b.n : ℤ) + 2)
    (hout : v ∉ linksLabels gls) :
    b.is_top_node v = false ∧ b.is_bottom_node v = false := by
  constructor
  · rw [b.is_top_node_links gls hg.hG hg.hGr v hv]
    cases h' : gls.any (Link.resT v)
    · rfl
    · exact absurd (any_resT_mem h') hout
  · rw [b.is_bottom_node_links gls hg.hG hg.hGr v hv]
    cases h' : gls.any (Link.resB v)
    · rfl
    · exact absurd (any_resB_mem h') hout

theorem GoodLinks.not_memP_bools {b : Bundle} {gls pls : List Link} {γ0 γ3 : ℤ}
    (hg : GoodLinks b gls pls γ0 γ3) {v : ℤ}
    (hv : 1 ≤ v ∧ v ≤ 2 * (b.n : ℤ) + 2)
    (hout : v ∉ linksLabels pls) :
    b.is_left_node v = false ∧ b.is_right_node v = false := by
  constructor
  · rw [b.is_left_node_links pls hg.hP hg.hPr v hv]
    cases h' : pls.any (Link.resT v)
    · rfl
    · exact absurd (any_resT_mem h') hout
  · rw [b.is_right_node_links pls hg.hP hg.hPr v hv]
    cases h' : pls.any (Link.resB v)
    · rfl
    · exact absurd (any_resB_mem h') hout

theorem flatMap_congr_mem (L : List ℤ) (f g : ℤ → List ℤ)
    (h : ∀ v ∈ L, f v = g v) : L.flatMap f = L.flatMap g := by
  induction L with
  | nil => rfl
  | cons x xs ih =>
      rw [List.flatMap_cons, List.flatMap_cons, h x (List.mem_cons_self _ _),
        ih fun v hv => h v (List.mem_cons_of_mem _ hv)]

theorem Bundle.classify_one_bottom_pair (b : Bundle) (v : ℤ) :
    (b.classify_one v).bottom = (b.classify_one v).top.map fun w => b.sigma - w := by
  rw [Bundle.classify_one_eval]
  cases ht : b.is_top_node v <;> cases hb : b.is_bottom_node v <;>
    cases hl : b.is_left_node v <;> cases hr : b.is_right_node v <;>
    simp [Bundle.complement, sub_sub_cancel]

theorem Bundle.classify_one_right_pair (b : Bundle) (v : ℤ) :
    (b.classify_one v).right = (b.classify_one v).left.map fun w => b.sigma - w := by
  rw [Bundle.classify_one_eval]
  cases ht : b.is_top_node v <;> cases hb : b.is_bottom_node v <;>
    cases hl : b.is_left_node v <;> cases hr : b.is_right_node v <;>
    simp [Bundle.complement, sub_sub_cancel]

theorem Bundle.classify_bottom_eq (b : Bundle) :
    (b.classify).bottom = (b.classify).top.map fun w => b.sigma - w := by
  rw [Bundle.classify_eq_parts]
  show (irange 1 (2 * b.n + 2)).flatMap (fun v => (b.classify_one v).bottom) =
    ((irange 1 (2 * b.n + 2)).flatMap fun v => (b.classify_one v).top).map _
  rw [List.map_flatMap]
  exact flatMap_congr_mem _ _ _ fun v _ => b.classify_one_bottom_pair v

theorem Bundle.classify_right_eq (b : Bundle) :
    (b.classify).right = (b.classify).left.map fun w => b.sigma - w := by
  rw [Bundle.classify_eq_parts]
  show (irange 1 (2 * b.n + 2)).flatMap (fun v => (b.classify_one v).right) =
    ((irange 1 (2 * b.n + 2)).flatMap fun v => (b.classify_one v).left).map _
  rw [List.map_flatMap]
  exact flatMap_congr_mem _ _ _ fun v _ => b.classify_one_right_pair v

theorem GoodLinks.c0_eq {b : Bundle} {gls pls : List Link} {γ0 γ3 : ℤ}
    (hg : GoodLinks b gls pls γ0 γ3) : (b.classify).c0 = [γ0] := by
  have hγ0r := hg.hGr γ0 (any_resT_mem hg.hγ0T)
  have hγ0il : γ0 ∈ irange 1 (2 * b.n + 2) := by
    rw [mem_irange]
    push_cast
    omega
  rw [Bundle.classify_eq_parts]
  show (irange 1 (2 * b.n + 2)).flatMap (fun v => (b.classify_one v).c0) = [γ0]
  have h0 : ∀ v ∈ irange 1 (2 * b.n + 2), v ≠ γ0 → (b.classify_one v).c0 = [] := by
    intro v hvm hvne
    rw [mem_irange] at hvm
    have hv2 : v ≤ 2 * (b.n : ℤ) + 2 := by
      have := hvm.2
      push_cast at this
      omega
    rcases hg.case_split v hvm.1 hv2 with ⟨he, _⟩ | ⟨he, h1, h2, h3, h4⟩ | ⟨hn0, hn3, hca⟩
    · exact absurd he hvne
    · rw [Bundle.classify_one_eval]
      simp [h1, h2, h3, h4]
    · rcases hca with ⟨⟨h1, h2⟩ | ⟨h1, h2⟩, h3, h4⟩ | ⟨h1, h2, ⟨h3, h4⟩ | ⟨h3, h4⟩⟩ <;>
        · rw [Bundle.classify_one_eval]
          simp [h1, h2, h3, h4]
  rw [flatMap_single _ _ γ0 (irange_nodup _ _) hγ0il h0]
  have hb1 := hg.resTG_bools ⟨hγ0r.1, hγ0r.2⟩ hg.hγ0T
  have hb2 := hg.resTP_bools ⟨hγ0r.1, hγ0r.2⟩ hg.hγ0L
  rw [Bundle.classify_one_eval]
  simp [hb1.1, hb2.1]

theorem GoodLinks.c2_eq {b : Bundle} {gls pls : List Link} {γ0 γ3 : ℤ}
    (hg : GoodLinks b gls pls γ0 γ3) : (b.classify).c2 = [b.sigma - γ0] := by
  have hγ0r := hg.hGr γ0 (any_resT_mem hg.hγ0T)
  have hγ0il : γ0 ∈ irange 1 (2 * b.n + 2) := by
    rw [mem_irange]
    push_cast
    omega
  rw [Bundle.classify_eq_parts]
  show (irange 1 (2 * b.n + 2)).flatMap (fun v => (b.classify_one v).c2) = [b.sigma - γ0]
  have h0 : ∀ v ∈ irange 1 (2 * b.n + 2), v ≠ γ0 → (b.classify_one v).c2 = [] := by
    intro v hvm hvne
    rw [mem_irange] at hvm
    have hv2 : v ≤ 2 * (b.n : ℤ) + 2 := by
      have := hvm.2
      push_cast at this
      omega
    rcases hg.case_split v hvm.1 hv2 with ⟨he, _⟩ | ⟨he, h1, h2, h3, h4⟩ | ⟨hn0, hn3, hca⟩
    · exact absurd he hvne
    · rw [Bundle.classify_one_eval]
      simp [h1, h2, h3, h4]
    · rcases hca with ⟨⟨h1, h2⟩ | ⟨h1, h2⟩, h3, h4⟩ | ⟨h1, h2, ⟨h3, h4⟩ | ⟨h3, h4⟩⟩ <;>
        · rw [Bundle.classify_one_eval]
          simp [h1, h2, h3, h4]
  rw [flatMap_single _ _ γ0 (irange_nodup _ _) hγ0il h0]
  have hb1 := hg.resTG_bools ⟨hγ0r.1, hγ0r.2⟩ hg.hγ0T
  have hb2 := hg.resTP_bools ⟨hγ0r.1, hγ0r.2⟩ hg.hγ0L
  rw [Bundle.classify_one_eval]
  simp [hb1.1, hb2.1, Bundle.complement]

theorem GoodLinks.c3_eq {b : Bundle} {gls pls : List Link} {γ0 γ3 : ℤ}
    (hg : GoodLinks b gls pls γ0 γ3) : (b.classify).c3 = [γ3] := by
  have hγ3r := hg.hGr γ3 (any_resB_mem hg.hγ3B)
  have hγ3il : γ3 ∈ irange 1 (2 * b.n + 2) := by
    rw [mem_irange]
    push_cast
    omega
  rw [Bundle.classify_eq_parts]
  show (irange 1 (2 * b.n + 2)).flatMap (fun v => (b.classify_one v).c3) = [γ3]
  have h0 : ∀ v ∈ irange 1 (2 * b.n + 2), v ≠ γ3 → (b.classify_one v).c3 = [] := by
    intro v hvm hvne
    rw [mem_irange] at hvm
    have hv2 : v ≤ 2 * (b.n : ℤ) + 2 := by
      have := hvm.2
      push_cast at this
      omega
    rcases hg.case_split v hvm.1 hv2 with ⟨he, h1, h2, h3, h4⟩ | ⟨he, _⟩ | ⟨hn0, hn3, hca⟩
    · rw [Bundle.classify_one_eval]
      simp [h1, h2, h3, h4]
    · exact absurd he hvne
    · rcases hca with ⟨⟨h1, h2⟩ | ⟨h1, h2⟩, h3, h4⟩ | ⟨h1, h2, ⟨h3, h4⟩ | ⟨h3, h4⟩⟩ <;>
        · rw [Bundle.classify_one_eval]
          simp [h1, h2, h3, h4]
  rw [flatMap_single _ _ γ3 (irange_nodup _ _) hγ3il h0]
  have hb1 := hg.resBG_bools ⟨hγ3r.1, hγ3r.2⟩ hg.hγ3B
  have hb2 := hg.resTP_bools ⟨hγ3r.1, hγ3r.2⟩ hg.hγ3L
  rw [Bundle.classify_one_eval]
  simp [hb1.1, hb1.2, hb2.1]

theorem GoodLinks.c1_eq {b : Bundle} {gls pls : List Link} {γ0 γ3 : ℤ}
    (hg : GoodLinks b gls pls γ0 γ3) : (b.classify).c1 = [b.sigma - γ3] := by
  have hγ3r := hg.hGr γ3 (any_resB_mem hg.hγ3B)
  have hγ3il : γ3 ∈ irange 1 (2 * b.n + 2) := by
    rw [mem_irange]
    push_cast
    omega
  rw [Bundle.classify_eq_parts]
  show (irange 1 (2 * b.n + 2)).flatMap (fun v => (b.classify_one v).c1) = [b.sigma - γ3]
  have h0 : ∀ v ∈ irange 1 (2 * b.n + 2), v ≠ γ3 → (b.classify_one v).c1 = [] := by
    intro v hvm hvne
    rw [mem_irange] at hvm
    have hv2 : v ≤ 2 * (b.n : ℤ) + 2 := by
      have := hvm.2
      push_cast at this
      omega
    rcases hg.case_split v hvm.1 hv2 with ⟨he, h1, h2, h3, h4⟩ | ⟨he, _⟩ | ⟨hn0, hn3, hca⟩
    · rw [Bundle.classify_one_eval]
      simp [h1, h2, h3, h4]
    · exact absurd he hvne
    · rcases hca with ⟨⟨h1, h2⟩ | ⟨h1, h2⟩, h3, h4⟩ | ⟨h1, h2, ⟨h3, h4⟩ | ⟨h3, h4⟩⟩ <;>
        · rw [Bundle.classify_one_eval]
          simp [h1, h2, h3, h4]
  rw [flatMap_single _ _ γ3 (irange_nodup _ _) hγ3il h0]
  have hb1 := hg.resBG_bools ⟨hγ3r.1, hγ3r.2⟩ hg.hγ3B
  have hb2 := hg.resTP_bools ⟨hγ3r.1, hγ3r.2⟩ hg.hγ3L
  rw [Bundle.classify_one_eval]
  simp [hb1.1, hb1.2, hb2.1, Bundle.complement]

theorem GoodLinks.unknown_eq {b : Bundle} {gls pls : List Link} {γ0 γ3 : ℤ}
    (hg : GoodLinks b gls pls γ0 γ3) : (b.classify).unknown = [] := by
  rw [Bundle.classify_eq_parts]
  show (irange 1 (2 * b.n + 2)).flatMap (fun v => (b.classify_one v).unknown) = []
  rw [List.flatMap_eq_nil_iff]
  intro v hvm
  rw [mem_irange] at hvm
  have hv2 : v ≤ 2 * (b.n : ℤ) + 2 := by
    have := hvm.2
    push_cast at this
    omega
  rcases hg.case_split v hvm.1 hv2 with ⟨he, h1, h2, h3, h4⟩ | ⟨he, h1, h2, h3, h4⟩ |
    ⟨hn0, hn3, hca⟩
  · rw [Bundle.classify_one_eval]
    simp [h1, h2, h3, h4]
  · rw [Bundle.classify_one_eval]
    simp [h1, h2, h3, h4]
  · rcases hca with ⟨⟨h1, h2⟩ | ⟨h1, h2⟩, h3, h4⟩ | ⟨h1, h2, ⟨h3, h4⟩ | ⟨h3, h4⟩⟩ <;>
      · rw [Bundle.classify_one_eval]
        simp [h1, h2, h3, h4]

theorem sum_map_congr2 {α : Type} (L : List α) (f g : α → ℤ)
    (h : ∀ x ∈ L, f x = g x) : (L.map f).sum = (L.map g).sum := by
  induction L with
  | nil => rfl
  | cons x xs ih =>
      rw [List.map_cons, List.map_cons, List.sum_cons, List.sum_cons,
        h x (List.mem_cons_self _ _), ih fun y hy => h y (List.mem_cons_of_mem _ hy)]

theorem sum_map_sub2 {α : Type} (L : List α) (f g : α → ℤ) :
    (L.map fun x => f x - g x).sum = (L.map f).sum - (L.map g).sum := by
  induction L with
  | nil => simp
  | cons x xs ih =>
      simp only [List.map_cons, List.sum_cons, ih]
      ring

theorem sum_map_twice {α : Type} (L : List α) (f : α → ℤ) :
    (L.map fun x => 2 * f x).sum = 2 * (L.map f).sum := by
  induction L with
  | nil => simp
  | cons x xs ih =>
      simp only [List.map_cons, List.sum_cons, ih]
      ring

theorem sum_map_mulS {α : Type} (L : List α) (f : α → ℤ) (S : ℤ) :
    (L.map fun x => f x * S).sum = (L.map f).sum * S := by
  induction L with
  | nil => simp
  | cons x xs ih =>
      simp only [List.map_cons, List.sum_cons, ih]
      ring

theorem GoodLinks.row_side_sum {b : Bundle} {gls pls : List Link} {γ0 γ3 : ℤ}
    (hg : GoodLinks b gls pls γ0 γ3) :
    (b.classify).c0.sum + (b.classify).top.sum + (b.classify).c1.sum =
      ((irange 1 (2 * b.n + 2)).map b.rowWeight).sum := by
  rw [Bundle.classify_eq_parts]
  show ((irange 1 (2 * b.n + 2)).flatMap fun v => (b.classify_one v).c0).sum +
      ((irange 1 (2 * b.n + 2)).flatMap fun v => (b.classify_one v).top).sum +
      ((irange 1 (2 * b.n + 2)).flatMap fun v => (b.classify_one v).c1).sum = _
  rw [sum_flatMap, sum_flatMap, sum_flatMap, ← sum_map_add, ← sum_map_add]
  apply sum_map_congr
  intro v hvm
  rw [mem_irange] at hvm
  have hv2 : v ≤ 2 * (b.n : ℤ) + 2 := by
    have := hvm.2
    push_cast at this
    omega
  rcases hg.case_split v hvm.1 hv2 with ⟨he, h1, h2, h3, h4⟩ | ⟨he, h1, h2, h3, h4⟩ |
    ⟨hn0, hn3, hca⟩
  · rw [Bundle.classify_one_eval, Bundle.rowWeight]
    simp [h1, h2, h3, h4]
  · rw [Bundle.classify_one_eval, Bundle.rowWeight]
    simp [h1, h2, h3, h4, Bundle.complement]
  · rcases hca with ⟨⟨h1, h2⟩ | ⟨h1, h2⟩, h3, h4⟩ | ⟨h1, h2, ⟨h3, h4⟩ | ⟨h3, h4⟩⟩ <;>
      · rw [Bundle.classify_one_eval, Bundle.rowWeight]
        simp [h1, h2, h3, h4, Bundle.complement]

theorem GoodLinks.col_side_sum {b : Bundle} {gls pls : List Link} {γ0 γ3 : ℤ}
    (hg : GoodLinks b gls pls γ0 γ3) :
    (b.classify).c0.sum + (b.classify).left.sum + (b.classify).c3.sum =
      ((irange 1 (2 * b.n + 2)).map b.colWeight).sum := by
  rw [Bundle.classify_eq_parts]
  show ((irange 1 (2 * b.n + 2)).flatMap fun v => (b.classify_one v).c0).sum +
      ((irange 1 (2 * b.n + 2)).flatMap fun v => (b.classify_one v).left).sum +
      ((irange 1 (2 * b.n + 2)).flatMap fun v => (b.classify_one v).c3).sum = _
  rw [sum_flatMap, sum_flatMap, sum_flatMap, ← sum_map_add, ← sum_map_add]
  apply sum_map_congr
  intro v hvm
  rw [mem_irange] at hvm
  have hv2 : v ≤ 2 * (b.n : ℤ) + 2 := by
    have := hvm.2
    push_cast at this
    omega
  rcases hg.case_split v hvm.1 hv2 with ⟨he, h1, h2, h3, h4⟩ | ⟨he, h1, h2, h3, h4⟩ |
    ⟨hn0, hn3, hca⟩
  · rw [Bundle.classify_one_eval, Bundle.colWeight]
    simp [h1, h2, h3, h4]
  · rw [Bundle.classify_one_eval, Bundle.colWeight]
    simp [h1, h2, h3, h4, Bundle.complement]
  · rcases hca with ⟨⟨h1, h2⟩ | ⟨h1, h2⟩, h3, h4⟩ | ⟨h1, h2, ⟨h3, h4⟩ | ⟨h3, h4⟩⟩ <;>
      · rw [Bundle.classify_one_eval, Bundle.colWeight]
        simp [h1, h2, h3, h4, Bundle.complement]

theorem GoodLinks.row_side_len {b : Bundle} {gls pls : List Link} {γ0 γ3 : ℤ}
    (hg : GoodLinks b gls pls γ0 γ3) :
    ((b.classify).c0.length : ℤ) + ((b.classify).top.length : ℤ) +
      ((b.classify).c1.length : ℤ) =
      ((irange 1 (2 * b.n + 2)).map b.rowCount).sum := by
  rw [Bundle.classify_eq_parts]
  show (((irange 1 (2 * b.n + 2)).flatMap fun v => (b.classify_one v).c0).length : ℤ) +
      (((irange 1 (2 * b.n + 2)).flatMap fun v => (b.classify_one v).top).length : ℤ) +
      (((irange 1 (2 * b.n + 2)).flatMap fun v => (b.classify_one v).c1).length : ℤ) = _
  rw [len_flatMap, len_flatMap, len_flatMap, ← sum_map_add, ← sum_map_add]
  apply sum_map_congr
  intro v hvm
  rw [mem_irange] at hvm
  have hv2 : v ≤ 2 * (b.n : ℤ) + 2 := by
    have := hvm.2
    push_cast at this
    omega
  rcases hg.case_split v hvm.1 hv2 with ⟨he, h1, h2, h3, h4⟩ | ⟨he, h1, h2, h3, h4⟩ |
    ⟨hn0, hn3, hca⟩
  · rw [Bundle.classify_one_eval, Bundle.rowCount]
    simp [h1, h2, h3, h4]
  · rw [Bundle.classify_one_eval, Bundle.rowCount]
    simp [h1, h2, h3, h4]
  · rcases hca with ⟨⟨h1, h2⟩ | ⟨h1, h2⟩, h3, h4⟩ | ⟨h1, h2, ⟨h3, h4⟩ | ⟨h3, h4⟩⟩ <;>
      · rw [Bundle.classify_one_eval, Bundle.rowCount]
        simp [h1, h2, h3, h4]

theorem GoodLinks.col_side_len {b : Bundle} {gls pls : List Link} {γ0 γ3 : ℤ}
    (hg : GoodLinks b gls pls γ0 γ3) :
    ((b.classify).c0.length : ℤ) + ((b.classify).left.length : ℤ) +
      ((b.classify).c3.length : ℤ) =
      ((irange 1 (2 * b.n + 2)).map b.colCount).sum := by
  rw [Bundle.classify_eq_parts]
  show (((irange 1 (2 * b.n + 2)).flatMap fun v => (b.classify_one v).c0).length : ℤ) +
      (((irange 1 (2 * b.n + 2)).flatMap fun v => (b.classify_one v).left).length : ℤ) +
      (((irange 1 (2 * b.n + 2)).flatMap fun v => (b.classify_one v).c3).length : ℤ) = _
  rw [len_flatMap, len_flatMap, len_flatMap, ← sum_map_add, ← sum_map_add]
  apply sum_map_congr
  intro v hvm
  rw [mem_irange] at hvm
  have hv2 : v ≤ 2 * (b.n : ℤ) + 2 := by
    have := hvm.2
    push_cast at this
    omega
  rcases hg.case_split v hvm.1 hv2 with ⟨he, h1, h2, h3, h4⟩ | ⟨he, h1, h2, h3, h4⟩ |
    ⟨hn0, hn3, hca⟩
  · rw [Bundle.classify_one_eval, Bundle.colCount]
    simp [h1, h2, h3, h4]
  · rw [Bundle.classify_one_eval, Bundle.colCount]
    simp [h1, h2, h3, h4]
  · rcases hca with ⟨⟨h1, h2⟩ | ⟨h1, h2⟩, h3, h4⟩ | ⟨h1, h2, ⟨h3, h4⟩ | ⟨h3, h4⟩⟩ <;>
      · rw [Bundle.classify_one_eval, Bundle.colCount]
        simp [h1, h2, h3, h4]

theorem GoodLinks.rowWeight_link {b : Bundle} {gls pls : List Link} {γ0 γ3 : ℤ}
    (hg : GoodLinks b gls pls γ0 γ3) {l : Link} (hl : l ∈ gls) :
    2 * ((l.labels.map b.rowWeight).sum) =
      (l.labels.length : ℤ) * b.sigma - l.slope2 b.sigma := by
  cases l with
  | norm s u =>
      have hsr := hg.hGr s (List.mem_flatMap.mpr ⟨.norm s u, hl, by simp [Link.labels]⟩)
      have hur := hg.hGr u (List.mem_flatMap.mpr ⟨.norm s u, hl, by simp [Link.labels]⟩)
      have hbs := hg.resBG_bools hsr
        (List.any_eq_true.mpr ⟨.norm s u, hl, by simp [Link.resB]⟩)
      have hbu := hg.resTG_bools hur
        (List.any_eq_true.mpr ⟨.norm s u, hl, by simp [Link.resT]⟩)
      simp only [Link.labels, Link.slope2, List.map_cons, List.map_nil, List.sum_cons,
        List.sum_nil, List.length_cons, List.length_nil, Bundle.rowWeight,
        hbs.1, hbs.2, hbu.1, Bool.false_eq_true, if_false, if_true]
      push_cast
      ring
  | cmp x =>
      have hxr := hg.hGr x (List.mem_flatMap.mpr ⟨.cmp x, hl, by simp [Link.labels]⟩)
      have hbx := hg.resBG_bools hxr
        (List.any_eq_true.mpr ⟨.cmp x, hl, by simp [Link.resB]⟩)
      simp only [Link.labels, Link.slope2, List.map_cons, List.map_nil, List.sum_cons,
        List.sum_nil, List.length_cons, List.length_nil, Bundle.rowWeight,
        hbx.1, hbx.2, Bool.false_eq_true, if_false, if_true]
      push_cast
      ring
  | cmpT u =>
      have hur := hg.hGr u (List.mem_flatMap.mpr ⟨.cmpT u, hl, by simp [Link.labels]⟩)
      have hbu := hg.resTG_bools hur
        (List.any_eq_true.mpr ⟨.cmpT u, hl, by simp [Link.resT]⟩)
      simp only [Link.labels, Link.slope2, List.map_cons, List.map_nil, List.sum_cons,
        List.sum_nil, List.length_cons, List.length_nil, Bundle.rowWeight,
        hbu.1, if_true]
      push_cast
      ring

theorem GoodLinks.colWeight_link {b : Bundle} {gls pls : List Link} {γ0 γ3 : ℤ}
    (hg : GoodLinks b gls pls γ0 γ3) {l : Link} (hl : l ∈ pls) :
    2 * ((l.labels.map b.colWeight).sum) =
      (l.labels.length : ℤ) * b.sigma - l.slope2 b.sigma := by
  cases l with
  | norm s u =>
      have hsr := hg.hPr s (List.mem_flatMap.mpr ⟨.norm s u, hl, by simp [Link.labels]⟩)
      have hur := hg.hPr u (List.mem_flatMap.mpr ⟨.norm s u, hl, by simp [Link.labels]⟩)
      have hbs := hg.resBP_bools hsr
        (List.any_eq_true.mpr ⟨.norm s u, hl, by simp [Link.resB]⟩)
      have hbu := hg.resTP_bools hur
        (List.any_eq_true.mpr ⟨.norm s u, hl, by simp [Link.resT]⟩)
      simp only [Link.labels, Link.slope2, List.map_cons, List.map_nil, List.sum_cons,
        List.sum_nil, List.length_cons, List.length_nil, Bundle.colWeight,
        hbs.1, hbs.2, hbu.1, Bool.false_eq_true, if_false, if_true]
      push_cast
      ring
  | cmp x =>
      have hxr := hg.hPr x (List.mem_flatMap.mpr ⟨.cmp x, hl, by simp [Link.labels]⟩)
      have hbx := hg.resBP_bools hxr
        (List.any_eq_true.mpr ⟨.cmp x, hl, by simp [Link.resB]⟩)
      simp only [Link.labels, Link.slope2, List.map_cons, List.map_nil, List.sum_cons,
        List.sum_nil, List.length_cons, List.length_nil, Bundle.colWeight,
        hbx.1, hbx.2, Bool.false_eq_true, if_false, if_true]
      push_cast
      ring
  | cmpT u =>
      have hur := hg.hPr u (List.mem_flatMap.mpr ⟨.cmpT u, hl, by simp [Link.labels]⟩)
      have hbu := hg.resTP_bools hur
        (List.any_eq_true.mpr ⟨.cmpT u, hl, by simp [Link.resT]⟩)
      simp only [Link.labels, Link.slope2, List.map_cons, List.map_nil, List.sum_cons,
        List.sum_nil, List.length_cons, List.length_nil, Bundle.colWeight,
        hbu.1, if_true]
      push_cast
      ring

theorem GoodLinks.rowCount_link {b : Bundle} {gls pls : List Link} {γ0 γ3 : ℤ}
    (hg : GoodLinks b gls pls γ0 γ3) {l : Link} (hl : l ∈ gls) :
    (l.labels.map b.rowCount).sum = (l.labels.length : ℤ) := by
  cases l with
  | norm s u =>
      have hsr := hg.hGr s (List.mem_flatMap.mpr ⟨.norm s u, hl, by simp [Link.labels]⟩)
      have hur := hg.hGr u (List.mem_flatMap.mpr ⟨.norm s u, hl, by simp [Link.labels]⟩)
      have hbs := hg.resBG_bools hsr
        (List.any_eq_true.mpr ⟨.norm s u, hl, by simp [Link.resB]⟩)
      have hbu := hg.resTG_bools hur
        (List.any_eq_true.mpr ⟨.norm s u, hl, by simp [Link.resT]⟩)
      simp [Link.labels, Bundle.rowCount, hbs.2, hbu.1]
  | cmp x =>
      have hxr := hg.hGr x (List.mem_flatMap.mpr ⟨.cmp x, hl, by simp [Link.labels]⟩)
      have hbx := hg.resBG_bools hxr
        (List.any_eq_true.mpr ⟨.cmp x, hl, by simp [Link.resB]⟩)
      simp [Link.labels, Bundle.rowCount, hbx.2]
  | cmpT u =>
      have hur := hg.hGr u (List.mem_flatMap.mpr ⟨.cmpT u, hl, by simp [Link.labels]⟩)
      have hbu := hg.resTG_bools hur
        (List.any_eq_true.mpr ⟨.cmpT u, hl, by simp [Link.resT]⟩)
      simp [Link.labels, Bundle.rowCount, hbu.1]

theorem GoodLinks.colCount_link {b : Bundle} {gls pls : List Link} {γ0 γ3 : ℤ}
    (hg : GoodLinks b gls pls γ0 γ3) {l : Link} (hl : l ∈ pls) :
    (l.labels.map b.colCount).sum = (l.labels.length : ℤ) := by
  cases l with
  | norm s u =>
      have hsr := hg.hPr s (List.mem_flatMap.mpr ⟨.norm s u, hl, by simp [Link.labels]⟩)
      have hur := hg.hPr u (List.mem_flatMap.mpr ⟨.norm s u, hl, by simp [Link.labels]⟩)
      have hbs := hg.resBP_bools hsr
        (List.any_eq_true.mpr ⟨.norm s u, hl, by simp [Link.resB]⟩)
      have hbu := hg.resTP_bools hur
        (List.any_eq_true.mpr ⟨.norm s u, hl, by simp [Link.resT]⟩)
      simp [Link.labels, Bundle.colCount, hbs.2, hbu.1]
  | cmp x =>
      have hxr := hg.hPr x (List.mem_flatMap.mpr ⟨.cmp x, hl, by simp [Link.labels]⟩)
      have hbx := hg.resBP_bools hxr
        (List.any_eq_true.mpr ⟨.cmp x, hl, by simp [Link.resB]⟩)
      simp [Link.labels, Bundle.colCount, hbx.2]
  | cmpT u =>
      have hur := hg.hPr u (List.mem_flatMap.mpr ⟨.cmpT u, hl, by simp [Link.labels]⟩)
      have hbu := hg.resTP_bools hur
        (List.any_eq_true.mpr ⟨.cmpT u, hl, by simp [Link.resT]⟩)
      simp [Link.labels, Bundle.colCount, hbu.1]

theorem GoodLinks.rowWeight_total {b : Bundle} {gls pls : List Link} {γ0 γ3 : ℤ}
    (hg : GoodLinks b gls pls γ0 γ3) :
    2 * ((irange 1 (2 * b.n + 2)).map b.rowWeight).sum = ((b.n : ℤ) + 2) * b.sigma := by
  have hsupp : ((irange 1 (2 * b.n + 2)).map b.rowWeight).sum =
      ((linksLabels gls).map b.rowWeight).sum := by
    apply sum_map_eq_of_support _ _ _ (irange_nodup _ _) hg.hGnd
    · intro v hv
      have := hg.hGr v hv
      rw [mem_irange]
      push_cast
      omega
    · intro v hv hout
      rw [mem_irange] at hv
      have hv2 : v ≤ 2 * (b.n : ℤ) + 2 := by
        have := hv.2
        push_cast at this
        omega
      have := hg.not_memG_bools ⟨hv.1, hv2⟩ hout
      rw [Bundle.rowWeight, this.1, this.2]
      simp
  rw [hsupp]
  have hflat : ((linksLabels gls).map b.rowWeight).sum =
      (gls.map fun l => ((l.labels.map b.rowWeight).sum)).sum :=
    sum_map_flatMap gls Link.labels b.rowWeight
  rw [hflat, ← sum_map_twice]
  have hcongr : (gls.map fun l => 2 * ((l.labels.map b.rowWeight).sum)).sum =
      (gls.map fun l => (l.labels.length : ℤ) * b.sigma - l.slope2 b.sigma).sum :=
    sum_map_congr2 _ _ _ fun l hl => hg.rowWeight_link hl
  rw [hcongr, sum_map_sub2, sum_map_mulS, linksLabels_length_sum]
  have hs := hg.hGs
  rw [slope2Sum] at hs
  rw [hs, hg.hGc]
  push_cast
  ring

theorem GoodLinks.colWeight_total {b : Bundle} {gls pls : List Link} {γ0 γ3 : ℤ}
    (hg : GoodLinks b gls pls γ0 γ3) :
    2 * ((irange 1 (2 * b.n + 2)).map b.colWeight).sum = ((b.n : ℤ) + 2) * b.sigma := by
  have hsupp : ((irange 1 (2 * b.n + 2)).map b.colWeight).sum =
      ((linksLabels pls).map b.colWeight).sum := by
    apply sum_map_eq_of_support _ _ _ (irange_nodup _ _) hg.hPnd
    · intro v hv
      have := hg.hPr v hv
      rw [mem_irange]
      push_cast
      omega
    · intro v hv hout
      rw [mem_irange] at hv
      have hv2 : v ≤ 2 * (b.n : ℤ) + 2 := by
        have := hv.2
        push_cast at this
        omega
      have := hg.not_memP_bools ⟨hv.1, hv2⟩ hout
      rw [Bundle.colWeight, this.1, this.2]
      simp
  rw [hsupp]
  have hflat : ((linksLabels pls).map b.colWeight).sum =
      (pls.map fun l => ((l.labels.map b.colWeight).sum)).sum :=
    sum_map_flatMap pls Link.labels b.colWeight
  rw [hflat, ← sum_map_twice]
  have hcongr : (pls.map fun l => 2 * ((l.labels.map b.colWeight).sum)).sum =
      (pls.map fun l => (l.labels.length : ℤ) * b.sigma - l.slope2 b.sigma).sum :=
    sum_map_congr2 _ _ _ fun l hl => hg.colWeight_link hl
  rw [hcongr, sum_map_sub2, sum_map_mulS, linksLabels_length_sum]
  have hs := hg.hPs
  rw [slope2Sum] at hs
  rw [hs, hg.hPc]
  push_cast
  ring

theorem GoodLinks.rowCount_total {b : Bundle} {gls pls : List Link} {γ0 γ3 : ℤ}
    (hg : GoodLinks b gls pls γ0 γ3) :
    ((irange 1 (2 * b.n + 2)).map b.rowCount).sum = (b.n : ℤ) + 2 := by
  have hsupp : ((irange 1 (2 * b.n + 2)).map b.rowCount).sum =
      ((linksLabels gls).map b.rowCount).sum := by
    apply sum_map_eq_of_support _ _ _ (irange_nodup _ _) hg.hGnd
    · intro v hv
      have := hg.hGr v hv
      rw [mem_irange]
      push_cast
      omega
    · intro v hv hout
      rw [mem_irange] at hv
      have hv2 : v ≤ 2 * (b.n : ℤ) + 2 := by
        have := hv.2
        push_cast at this
        omega
      have := hg.not_memG_bools ⟨hv.1, hv2⟩ hout
      rw [Bundle.rowCount, this.1, this.2]
      simp
  rw [hsupp]
  have hflat : ((linksLabels gls).map b.rowCount).sum =
      (gls.map fun l => ((l.labels.map b.rowCount).sum)).sum :=
    sum_map_flatMap gls Link.labels b.rowCount
  rw [hflat]
  have hcongr : (gls.map fun l => ((l.labels.map b.rowCount).sum)).sum =
      (gls.map fun l => (l.labels.length : ℤ)).sum :=
    sum_map_congr2 _ _ _ fun l hl => hg.rowCount_link hl
  rw [hcongr, linksLabels_length_sum, hg.hGc]
  push_cast
  ring

theorem GoodLinks.colCount_total {b : Bundle} {gls pls : List Link} {γ0 γ3 : ℤ}
    (hg : GoodLinks b gls pls γ0 γ3) :
    ((irange 1 (2 * b.n + 2)).map b.colCount).sum = (b.n : ℤ) + 2 := by
  have hsupp : ((irange 1 (2 * b.n + 2)).map b.colCount).sum =
      ((linksLabels pls).map b.colCount).sum := by
    apply sum_map_eq_of_support _ _ _ (irange_nodup _ _) hg.hPnd
    · intro v hv
      have := hg.hPr v hv
      rw [mem_irange]
      push_cast
      omega
    · intro v hv hout
      rw [mem_irange] at hv
      have hv2 : v ≤ 2 * (b.n : ℤ) + 2 := by
        have := hv.2
        push_cast at this
        omega
      have := hg.not_memP_bools ⟨hv.1, hv2⟩ hout
      rw [Bundle.colCount, this.1, this.2]
      simp
  rw [hsupp]
  have hflat : ((linksLabels pls).map b.colCount).sum =
      (pls.map fun l => ((l.labels.map b.colCount).sum)).sum :=
    sum_map_flatMap pls Link.labels b.colCount
  rw [hflat]
  have hcongr : (pls.map fun l => ((l.labels.map b.colCount).sum)).sum =
      (pls.map fun l => (l.labels.length : ℤ)).sum :=
    sum_map_congr2 _ _ _ fun l hl => hg.colCount_link hl
  rw [hcongr, linksLabels_length_sum, hg.hPc]
  push_cast
  ring

theorem GoodLinks.top_sum {b : Bundle} {gls pls : List Link} {γ0 γ3 : ℤ}
    (hg : GoodLinks b gls pls γ0 γ3) :
    2 * (γ0 + (b.classify).top.sum + (b.sigma - γ3)) = ((b.n : ℤ) + 2) * b.sigma := by
  have h1 := hg.row_side_sum
  rw [hg.c0_eq, hg.c1_eq] at h1
  simp only [List.sum_cons, List.sum_nil, add_zero] at h1
  have h2 := hg.rowWeight_total
  omega

theorem GoodLinks.left_sum {b : Bundle} {gls pls : List Link} {γ0 γ3 : ℤ}
    (hg : GoodLinks b gls pls γ0 γ3) :
    2 * (γ0 + (b.classify).left.sum + γ3) = ((b.n : ℤ) + 2) * b.sigma := by
  have h1 := hg.col_side_sum
  rw [hg.c0_eq, hg.c3_eq] at h1
  simp only [List.sum_cons, List.sum_nil, add_zero] at h1
  have h2 := hg.colWeight_total
  omega

theorem GoodLinks.top_len {b : Bundle} {gls pls : List Link} {γ0 γ3 : ℤ}
    (hg : GoodLinks b gls pls γ0 γ3) : (b.classify).top.length = b.n := by
  have h1 := hg.row_side_len
  rw [hg.c0_eq, hg.c1_eq] at h1
  simp only [List.length_cons, List.length_nil] at h1
  have h2 := hg.rowCount_total
  omega

theorem GoodLinks.left_len {b : Bundle} {gls pls : List Link} {γ0 γ3 : ℤ}
    (hg : GoodLinks b gls pls γ0 γ3) : (b.classify).left.length = b.n := by
  have h1 := hg.col_side_len
  rw [hg.c0_eq, hg.c3_eq] at h1
  simp only [List.length_cons, List.length_nil] at h1
  have h2 := hg.colCount_total
  omega

theorem GoodLinks.total_perm {b : Bundle} {gls pls : List Link} {γ0 γ3 : ℤ}
    (hg : GoodLinks b gls pls γ0 γ3) :
    ((b.classify).totalList).Perm
      (irange 1 (2 * b.n + 2) ++ (irange 1 (2 * b.n + 2)).map fun v => b.sigma - v) := by
  have hstep : ((b.classify).totalList).Perm
      ((irange 1 (2 * b.n + 2)).flatMap fun v => (b.classify_one v).totalList) := by
    rw [Bundle.classify_eq_parts]
    show (((irange 1 (2 * b.n + 2)).flatMap fun v => (b.classify_one v).c0) ++
        ((irange 1 (2 * b.n + 2)).flatMap fun v => (b.classify_one v).c1) ++
        ((irange 1 (2 * b.n + 2)).flatMap fun v => (b.classify_one v).c2) ++
        ((irange 1 (2 * b.n + 2)).flatMap fun v => (b.classify_one v).c3) ++
        ((irange 1 (2 * b.n + 2)).flatMap fun v => (b.classify_one v).top) ++
        ((irange 1 (2 * b.n + 2)).flatMap fun v => (b.classify_one v).bottom) ++
        ((irange 1 (2 * b.n + 2)).flatMap fun v => (b.classify_one v).left) ++
        ((irange 1 (2 * b.n + 2)).flatMap fun v => (b.classify_one v).right)).Perm
      ((irange 1 (2 * b.n + 2)).flatMap fun v => (b.classify_one v).totalList)
    have p1 := flatMap_append_perm (irange 1 (2 * b.n + 2))
      (fun v => (b.classify_one v).c0) (fun v => (b.classify_one v).c1)
    have p2 := (p1.append_right _).trans (flatMap_append_perm (irange 1 (2 * b.n + 2))
      (fun v => (b.classify_one v).c0 ++ (b.classify_one v).c1)
      (fun v => (b.classify_one v).c2))
    have p3 := (p2.append_right _).trans (flatMap_append_perm (irange 1 (2 * b.n + 2))
      (fun v => (b.classify_one v).c0 ++ (b.classify_one v).c1 ++ (b.classify_one v).c2)
      (fun v => (b.classify_one v).c3))
    have p4 := (p3.append_right _).trans (flatMap_append_perm (irange 1 (2 * b.n + 2))
      (fun v => (b.classify_one v).c0 ++ (b.classify_one v).c1 ++ (b.classify_one v).c2 ++
        (b.classify_one v).c3)
      (fun v => (b.classify_one v).top))
    have p5 := (p4.append_right _).trans (flatMap_append_perm (irange 1 (2 * b.n + 2))
      (fun v => (b.classify_one v).c0 ++ (b.classify_one v).c1 ++ (b.classify_one v).c2 ++
        (b.classify_one v).c3 ++ (b.classify_one v).top)
      (fun v => (b.classify_one v).bottom))
    have p6 := (p5.append_right _).trans (flatMap_append_perm (irange 1 (2 * b.n + 2))
      (fun v => (b.classify_one v).c0 ++ (b.classify_one v).c1 ++ (b.classify_one v).c2 ++
        (b.classify_one v).c3 ++ (b.classify_one v).top ++ (b.classify_one v).bottom)
      (fun v => (b.classify_one v).left))
    have p7 := (p6.append_right _).trans (flatMap_append_perm (irange 1 (2 * b.n + 2))
      (fun v => (b.classify_one v).c0 ++ (b.classify_one v).c1 ++ (b.classify_one v).c2 ++
        (b.classify_one v).c3 ++ (b.classify_one v).top ++ (b.classify_one v).bottom ++
        (b.classify_one v).left)
      (fun v => (b.classify_one v).right))
    simpa only [ClassifyAcc.totalList] using p7
  refine hstep.trans ?_
  have hpt : ∀ v ∈ irange 1 (2 * b.n + 2),
      ((b.classify_one v).totalList).Perm [v, b.sigma - v] := by
    intro v hvm
    rw [mem_irange] at hvm
    have hv2 : v ≤ 2 * (b.n : ℤ) + 2 := by
      have := hvm.2
      push_cast at this
      omega
    have hswap : ((b.sigma - v) :: v :: ([] : List ℤ)).Perm [v, b.sigma - v] :=
      List.Perm.swap v (b.sigma - v) []
    rcases hg.case_split v hvm.1 hv2 with ⟨he, h1, h2, h3, h4⟩ | ⟨he, h1, h2, h3, h4⟩ |
      ⟨hn0, hn3, hca⟩
    · rw [Bundle.classify_one_eval]
      simp only [h1, h3, if_true]
      simp [ClassifyAcc.totalList, Bundle.complement]
    · rw [Bundle.classify_one_eval]
      simp only [h1, h2, h3, Bool.false_eq_true, if_false, if_true]
      refine List.Perm.trans ?_ hswap
      simp [ClassifyAcc.totalList, Bundle.complement]
    · rcases hca with ⟨⟨h1, h2⟩ | ⟨h1, h2⟩, h3, h4⟩ | ⟨h1, h2, ⟨h3, h4⟩ | ⟨h3, h4⟩⟩ <;>
        rw [Bundle.classify_one_eval] <;>
        simp only [h1, h2, h3, h4, Bool.false_eq_true, if_false, if_true]
      · simp [ClassifyAcc.totalList, Bundle.complement]
      · refine List.Perm.trans ?_ hswap
        simp [ClassifyAcc.totalList, Bundle.complement]
      · simp [ClassifyAcc.totalList, Bundle.complement]
      · refine List.Perm.trans ?_ hswap
        simp [ClassifyAcc.totalList, Bundle.complement]
  refine (flatMap_perm_of_forall _ _ (fun v => [v, b.sigma - v]) hpt).trans ?_
  exact flatMap_pair_perm _ _

/-! ## The slope-sum methods on a described dict -/

theorem filter_flatMap2 {α β : Type} (L : List α) (f : α → List β) (p : β → Bool) :
    (L.flatMap f).filter p = L.flatMap fun a => (f a).filter p := by
  induction L with
  | nil => rfl
  | cons x xs ih => rw [List.flatMap_cons, List.flatMap_cons, List.filter_append, ih]

theorem sum_map_flatMap2 {α β γ : Type} [AddCommMonoid γ] (L : List α)
    (f : α → List β) (h : β → γ) :
    ((L.flatMap f).map h).sum = (L.map fun a => ((f a).map h).sum).sum := by
  induction L with
  | nil => rfl
  | cons x xs ih =>
      rw [List.flatMap_cons, List.map_append, List.sum_append, List.map_cons,
        List.sum_cons, ih]

theorem sum_map_congr3 {α γ : Type} [AddCommMonoid γ] (L : List α) (f g : α → γ)
    (h : ∀ x ∈ L, f x = g x) : (L.map f).sum = (L.map g).sum := by
  induction L with
  | nil => rfl
  | cons x xs ih =>
      rw [List.map_cons, List.map_cons, List.sum_cons, List.sum_cons,
        h x (List.mem_cons_self _ _), ih fun y hy => h y (List.mem_cons_of_mem _ hy)]

theorem cast_sum_map (L : List Link) (f : Link → ℤ) :
    (((L.map f).sum : ℤ) : ℚ) = (L.map fun l => ((f l : ℤ) : ℚ)).sum := by
  induction L with
  | nil => simp
  | cons x xs ih =>
      rw [List.map_cons, List.sum_cons, List.map_cons, List.sum_cons, ← ih]
      push_cast
      ring

theorem sum_map_add3 {α γ : Type} [AddCommMonoid γ] (L : List α) (f g : α → γ) :
    (L.map fun x => f x + g x).sum = (L.map f).sum + (L.map g).sum := by
  induction L with
  | nil => simp
  | cons x xs ih =>
      rw [List.map_cons, List.sum_cons, List.map_cons, List.sum_cons,
        List.map_cons, List.sum_cons, ih]
      rw [add_assoc, add_assoc]
      congr 1
      rw [← add_assoc, ← add_assoc, add_comm (g x)]

theorem nodup_of_mem_links {ls : List Link} {l : Link}
    (hnd : (linksLabels ls).Nodup) (hl : l ∈ ls) : l.labels.Nodup := by
  induction ls with
  | nil => cases hl
  | cons x xs ih =>
      rw [linksLabels_cons, List.nodup_append] at hnd
      rcases List.mem_cons.mp hl with rfl | hmem
      · exact hnd.1
      · exact ih hnd.2.1 hmem

theorem Bundle.is_source_node_label (b : Bundle) {w : ℤ}
    (hw : 1 ≤ w ∧ w ≤ 2 * (b.n : ℤ) + 2) : b.is_source_node w = true := by
  simp only [Bundle.is_source_node, Bool.and_eq_true, decide_eq_true_eq]
  omega

theorem Bundle.is_source_node_large (b : Bundle) {w : ℤ}
    (hw : 1 ≤ w ∧ w ≤ 2 * (b.n : ℤ) + 2) :
    b.is_source_node (b.sigma - w) = false := by
  have hS := b.sigma_ge
  simp only [Bundle.is_source_node, Bool.and_eq_true, decide_eq_true_eq,
    Bool.and_eq_false_iff, decide_eq_false_iff_not]
  right
  omega

theorem link_sum_s (b : Bundle) (l : Link)
    (hr : ∀ w ∈ l.labels, 1 ≤ w ∧ w ≤ 2 * (b.n : ℤ) + 2) (hnd : l.labels.Nodup) :
    (((l.entries b.sigma).filter fun e =>
        !decide (e.1 = b.complement e.2) && b.is_source_node e.1).map
      fun e => e.1 - b.complement e.2).sum = l.snorm := by
  cases l with
  | norm s u =>
      have hs := hr s (by simp [Link.labels])
      have hu := hr u (by simp [Link.labels])
      have hne : s ≠ u := by
        simp only [Link.labels, List.nodup_cons, List.mem_singleton] at hnd
        exact hnd.1
      have e1 : decide (s = b.complement (b.sigma - u)) = false := by
        simp only [Bundle.complement, sub_sub_cancel, decide_eq_false_iff_not]
        exact hne
      have e2 : decide (b.sigma - u = b.complement s) = false := by
        simp only [Bundle.complement, decide_eq_false_iff_not]
        omega
      simp only [Link.entries, Link.snorm, List.filter_cons, List.filter_nil, e1,
        b.is_source_node_label hs, b.is_source_node_large hu, Bool.not_false,
        Bool.true_and, Bool.and_false, e2, Bool.not_true, Bool.false_and]
      simp only [if_true, if_false, Bool.false_eq_true, List.map_cons, List.map_nil,
        List.sum_cons, List.sum_nil, Bundle.complement, sub_sub_cancel, add_zero]
  | cmp x =>
      have e1 : decide (x = b.complement (b.sigma - x)) = true := by
        simp [Bundle.complement]
      simp [Link.entries, Link.snorm, List.filter_cons, e1]
  | cmpT u =>
      have e1 : decide (b.sigma - u = b.complement u) = true := by
        simp [Bundle.complement]
      simp [Link.entries, Link.snorm, List.filter_cons, e1]

theorem link_sum_t (b : Bundle) (l : Link)
    (hr : ∀ w ∈ l.labels, 1 ≤ w ∧ w ≤ 2 * (b.n : ℤ) + 2) (hnd : l.labels.Nodup) :
    (((l.entries b.sigma).filter fun e =>
        !decide (e.1 = b.complement e.2) && !b.is_source_node e.1).map
      fun e => e.1 - b.complement e.2).sum = l.snorm := by
  cases l with
  | norm s u =>
      have hs := hr s (by simp [Link.labels])
      have hu := hr u (by simp [Link.labels])
      have hne : s ≠ u := by
        simp only [Link.labels, List.nodup_cons, List.mem_singleton] at hnd
        exact hnd.1
      have e1 : decide (s = b.complement (b.sigma - u)) = false := by
        simp only [Bundle.complement, sub_sub_cancel, decide_eq_false_iff_not]
        exact hne
      have e2 : decide (b.sigma - u = b.complement s) = false := by
        simp only [Bundle.complement, decide_eq_false_iff_not]
        omega
      simp only [Link.entries, Link.snorm, List.filter_cons, List.filter_nil, e1,
        b.is_source_node_label hs, b.is_source_node_large hu, Bool.not_false,
        Bool.not_true, Bool.true_and, Bool.and_false, Bool.and_true, e2,
        Bool.false_and]
      simp only [if_true, if_false, Bool.false_eq_true, List.map_cons, List.map_nil,
        List.sum_cons, List.sum_nil, Bundle.complement]
      ring
  | cmp x =>
      have e1 : decide (x = b.complement (b.sigma - x)) = true := by
        simp [Bundle.complement]
      simp [Link.entries, Link.snorm, List.filter_cons, e1]
  | cmpT u =>
      have e1 : decide (b.sigma - u = b.complement u) = true := by
        simp [Bundle.complement]
      simp [Link.entries, Link.snorm, List.filter_cons, e1]

theorem link_sum_u (b : Bundle) (l : Link)
    (hr : ∀ w ∈ l.labels, 1 ≤ w ∧ w ≤ 2 * (b.n : ℤ) + 2) (hnd : l.labels.Nodup) :
    (((l.entries b.sigma).filter fun e => decide (e.1 = b.complement e.2)).map
      fun e => ((e.1 - e.2 : ℤ) : ℚ) / 2).sum = l.ucon b.sigma := by
  cases l with
  | norm s u =>
      have hs := hr s (by simp [Link.labels])
      have hu := hr u (by simp [Link.labels])
      have hne : s ≠ u := by
        simp only [Link.labels, List.nodup_cons, List.mem_singleton] at hnd
        exact hnd.1
      have e1 : decide (s = b.complement (b.sigma - u)) = false := by
        simp only [Bundle.complement, sub_sub_cancel, decide_eq_false_iff_not]
        exact hne
      have e2 : decide (b.sigma - u = b.complement s) = false := by
        simp only [Bundle.complement, decide_eq_false_iff_not]
        omega
      simp [Link.entries, Link.ucon, List.filter_cons, e1, e2]
  | cmp x =>
      have e1 : decide (x = b.complement (b.sigma - x)) = true := by
        simp [Bundle.complement]
      simp only [Link.entries, Link.ucon, List.filter_cons, List.filter_nil, e1,
        if_true, List.map_cons, List.map_nil, List.sum_cons, List.sum_nil, add_zero]
      congr 1
      push_cast
      ring
  | cmpT u =>
      have e1 : decide (b.sigma - u = b.complement u) = true := by
        simp [Bundle.complement]
      simp only [Link.entries, Link.ucon, List.filter_cons, List.filter_nil, e1,
        if_true, List.map_cons, List.map_nil, List.sum_cons, List.sum_nil, add_zero]
      congr 1
      push_cast
      ring

theorem sum_map_div2 (L : List Link) (f : Link → ℚ) :
    (L.map fun x => f x / 2).sum = (L.map f).sum / 2 := by
  induction L with
  | nil => simp
  | cons x xs ih =>
      rw [List.map_cons, List.sum_cons, List.map_cons, List.sum_cons, ih]
      ring

theorem green_sum_v1_links (b : Bundle) (ls : List Link)
    (hG : b.green = linksEntries b.sigma ls)
    (hr : ∀ w ∈ linksLabels ls, 1 ≤ w ∧ w ≤ 2 * (b.n : ℤ) + 2)
    (hnd : (linksLabels ls).Nodup) :
    b.green_sum_v1 = .ok ((slope2Sum b.sigma ls : ℚ) / 2) := by
  have hs : (((linksEntries b.sigma ls).filter fun e =>
      !decide (e.1 = b.complement e.2) && b.is_source_node e.1).map
        fun e => e.1 - b.complement e.2).sum = (ls.map Link.snorm).sum := by
    show (((ls.flatMap (Link.entries b.sigma)).filter fun e =>
      !decide (e.1 = b.complement e.2) && b.is_source_node e.1).map
        fun e => e.1 - b.complement e.2).sum = _
    rw [filter_flatMap2, sum_map_flatMap2]
    exact sum_map_congr3 _ _ _ fun l hl =>
      link_sum_s b l (fun w hw => hr w (List.mem_flatMap.mpr ⟨l, hl, hw⟩))
        (nodup_of_mem_links hnd hl)
  have ht : (((linksEntries b.sigma ls).filter fun e =>
      !decide (e.1 = b.complement e.2) && !b.is_source_node e.1).map
        fun e => e.1 - b.complement e.2).sum = (ls.map Link.snorm).sum := by
    show (((ls.flatMap (Link.entries b.sigma)).filter fun e =>
      !decide (e.1 = b.complement e.2) && !b.is_source_node e.1).map
        fun e => e.1 - b.complement e.2).sum = _
    rw [filter_flatMap2, sum_map_flatMap2]
    exact sum_map_congr3 _ _ _ fun l hl =>
      link_sum_t b l (fun w hw => hr w (List.mem_flatMap.mpr ⟨l, hl, hw⟩))
        (nodup_of_mem_links hnd hl)
  have hu : (((linksEntries b.sigma ls).filter fun e =>
      decide (e.1 = b.complement e.2)).map
        fun e => ((e.1 - e.2 : ℤ) : ℚ) / 2).sum = (ls.map (Link.ucon b.sigma)).sum := by
    show (((ls.flatMap (Link.entries b.sigma)).filter fun e =>
      decide (e.1 = b.complement e.2)).map
        fun e => ((e.1 - e.2 : ℤ) : ℚ) / 2).sum = _
    rw [filter_flatMap2, sum_map_flatMap2]
    exact sum_map_congr3 _ _ _ fun l hl =>
      link_sum_u b l (fun w hw => hr w (List.mem_flatMap.mpr ⟨l, hl, hw⟩))
        (nodup_of_mem_links hnd hl)
  unfold Bundle.green_sum_v1
  rw [hG]
  try dsimp only
  rw [hs, ht, hu, if_pos rfl]
  congr 1
  rw [cast_sum_map, ← sum_map_add3]
  have hpt : (ls.map fun l => ((Link.snorm l : ℤ) : ℚ) + Link.ucon b.sigma l).sum =
      (ls.map fun l => ((Link.slope2 b.sigma l : ℤ) : ℚ) / 2).sum := by
    apply sum_map_congr3
    intro l hl
    cases l <;>
      · simp only [Link.snorm, Link.ucon, Link.slope2]
        push_cast
        ring
  rw [hpt, sum_map_div2]
  congr 1
  rw [slope2Sum, cast_sum_map]

theorem green_sum_v2_links (b : Bundle) (ls : List Link)
    (hP : b.purple = linksEntries b.sigma ls)
    (hr : ∀ w ∈ linksLabels ls, 1 ≤ w ∧ w ≤ 2 * (b.n : ℤ) + 2)
    (hnd : (linksLabels ls).Nodup) :
    b.green_sum_v2 = .ok ((slope2Sum b.sigma ls : ℚ) / 2) := by
  have hs : (((linksEntries b.sigma ls).filter fun e =>
      !decide (e.1 = b.complement e.2) && b.is_source_node e.1).map
        fun e => e.1 - b.complement e.2).sum = (ls.map Link.snorm).sum := by
    show (((ls.flatMap (Link.entries b.sigma)).filter fun e =>
      !decide (e.1 = b.complement e.2) && b.is_source_node e.1).map
        fun e => e.1 - b.complement e.2).sum = _
    rw [filter_flatMap2, sum_map_flatMap2]
    exact sum_map_congr3 _ _ _ fun l hl =>
      link_sum_s b l (fun w hw => hr w (List.mem_flatMap.mpr ⟨l, hl, hw⟩))
        (nodup_of_mem_links hnd hl)
  have ht : (((linksEntries b.sigma ls).filter fun e =>
      !decide (e.1 = b.complement e.2) && !b.is_source_node e.1).map
        fun e => e.1 - b.complement e.2).sum = (ls.map Link.snorm).sum := by
    show (((ls.flatMap (Link.entries b.sigma)).filter fun e =>
      !decide (e.1 = b.complement e.2) && !b.is_source_node e.1).map
        fun e => e.1 - b.complement e.2).sum = _
    rw [filter_flatMap2, sum_map_flatMap2]
    exact sum_map_congr3 _ _ _ fun l hl =>
      link_sum_t b l (fun w hw => hr w (List.mem_flatMap.mpr ⟨l, hl, hw⟩))
        (nodup_of_mem_links hnd hl)
  have hu : (((linksEntries b.sigma ls).filter fun e =>
      decide (e.1 = b.complement e.2)).map
        fun e => ((e.1 - e.2 : ℤ) : ℚ) / 2).sum = (ls.map (Link.ucon b.sigma)).sum := by
    show (((ls.flatMap (Link.entries b.sigma)).filter fun e =>
      decide (e.1 = b.complement e.2)).map
        fun e => ((e.1 - e.2 : ℤ) : ℚ) / 2).sum = _
    rw [filter_flatMap2, sum_map_flatMap2]
    exact sum_map_congr3 _ _ _ fun l hl =>
      link_sum_u b l (fun w hw => hr w (List.mem_flatMap.mpr ⟨l, hl, hw⟩))
        (nodup_of_mem_links hnd hl)
  unfold Bundle.green_sum_v2
  rw [hP]
  try dsimp only
  rw [hs, ht, hu, if_pos rfl]
  congr 1
  rw [cast_sum_map, ← sum_map_add3]
  have hpt : (ls.map fun l => ((Link.snorm l : ℤ) : ℚ) + Link.ucon b.sigma l).sum =
      (ls.map fun l => ((Link.slope2 b.sigma l : ℤ) : ℚ) / 2).sum := by
    apply sum_map_congr3
    intro l hl
    cases l <;>
      · simp only [Link.snorm, Link.ucon, Link.slope2]
        push_cast
        ring
  rw [hpt, sum_map_div2]
  congr 1
  rw [slope2Sum, cast_sum_map]

/-! ## The per-rule link descriptions: labels, slopes -/

theorem linksLabels_asc (A : List ℤ) :
    linksLabels (ascLinks A) = A.flatMap fun x => [x + 1, x] := by
  induction A with
  | nil => rfl
  | cons x xs ih =>
      show linksLabels (Link.norm (x + 1) x :: ascLinks xs) = _
      rw [linksLabels_cons, List.flatMap_cons, ih]
      rfl

theorem linksLabels_desc (D : List ℤ) :
    linksLabels (descLinks D) = D.flatMap fun x => [x, x + 1] := by
  induction D with
  | nil => rfl
  | cons x xs ih =>
      show linksLabels (Link.norm x (x + 1) :: descLinks xs) = _
      rw [linksLabels_cons, List.flatMap_cons, ih]
      rfl

theorem slope2Sum_asc (S : ℤ) (A : List ℤ) :
    slope2Sum S (ascLinks A) = 2 * A.length := by
  induction A with
  | nil => rfl
  | cons x xs ih =>
      show slope2Sum S (Link.norm (x + 1) x :: ascLinks xs) = _
      rw [slope2Sum_cons, ih]
      simp only [Link.slope2, List.length_cons]
      push_cast
      ring

theorem slope2Sum_desc (S : ℤ) (D : List ℤ) :
    slope2Sum S (descLinks D) = -2 * D.length := by
  induction D with
  | nil => rfl
  | cons x xs ih =>
      show slope2Sum S (Link.norm x (x + 1) :: descLinks xs) = _
      rw [slope2Sum_cons, ih]
      simp only [Link.slope2, List.length_cons]
      push_cast
      ring

theorem flatMap_pair_perm2 (L : List ℤ) (f g : ℤ → ℤ) :
    (L.flatMap fun v => [f v, g v]).Perm (L.map f ++ L.map g) := by
  induction L with
  | nil => exact List.Perm.refl _
  | cons x xs ih =>
      rw [List.flatMap_cons, List.map_cons]
      show (f x :: g x :: xs.flatMap fun v => [f v, g v]).Perm
        (f x :: (xs.map f ++ g x :: xs.map g))
      refine List.Perm.cons (f x) ?_
      exact (List.Perm.cons _ ih).trans List.perm_middle.symm

theorem irange2_map_add (a d : ℤ) (k : ℕ) :
    (irange2 a k).map (fun x => x + d) = irange2 (a + d) k := by
  induction k generalizing a with
  | zero => rfl
  | succ k ih =>
      rw [irange2_succ, irange2_succ, List.map_cons, ih]
      have : a + 2 + d = a + d + 2 := by ring
      rw [this]

theorem irange2_pairs (a : ℤ) (k : ℕ) :
    (irange2 a k).flatMap (fun x => [x, x + 1]) = irange a (2 * k) := by
  induction k generalizing a with
  | zero => rfl
  | succ k ih =>
      have h2 : 2 * (k + 1) = (2 * k) + 1 + 1 := by ring
      rw [irange2_succ, List.flatMap_cons, ih, h2, irange_succ, irange_succ]
      have : a + 1 + 1 = a + 2 := by ring
      rw [this]
      rfl

theorem oddHeadsGL_labels (n : ℤ) (c : ℕ) : ∀ node : ℤ,
    linksLabels (oddHeadsGL n c node) =
      (irange2 node c).flatMap fun x => [x + n + 3, x] := by
  induction c with
  | zero => intro node; rfl
  | succ c ih =>
      intro node
      rw [oddHeadsGL, linksLabels_cons, irange2_succ, List.flatMap_cons, ih]
      rfl

theorem oddHeadsPL_labels (n : ℤ) (c : ℕ) : ∀ node : ℤ,
    linksLabels (oddHeadsPL n c node) =
      (irange2 node c).flatMap fun x => [x + 1, x + n + 4] := by
  induction c with
  | zero => intro node; rfl
  | succ c ih =>
      intro node
      rw [oddHeadsPL, linksLabels_cons, irange2_succ, List.flatMap_cons, ih]
      show (node + 1) :: (node + 1 + n + 3) :: _ = (node + 1) :: (node + n + 4) :: _
      have : node + 1 + n + 3 = node + n + 4 := by ring
      rw [this]

theorem oddTailsGL_labels (n : ℤ) (c : ℕ) : ∀ node : ℤ,
    linksLabels (oddTailsGL n c node) =
      (irange2 node c).flatMap fun x => [x + n + 4, x + 1] := by
  induction c with
  | zero => intro node; rfl
  | succ c ih =>
      intro node
      rw [oddTailsGL, linksLabels_cons, irange2_succ, List.flatMap_cons, ih]
      show (node + 1 + n + 3) :: (node + 1) :: _ = (node + n + 4) :: (node + 1) :: _
      have : node + 1 + n + 3 = node + n + 4 := by ring
      rw [this]

theorem oddTailsPL_labels (n : ℤ) (c : ℕ) : ∀ node : ℤ,
    linksLabels (oddTailsPL n c node) =
      (irange2 node c).flatMap fun x => [x, x + n + 3] := by
  induction c with
  | zero => intro node; rfl
  | succ c ih =>
      intro node
      rw [oddTailsPL, linksLabels_cons, irange2_succ, List.flatMap_cons, ih]
      rfl

theorem slope2Sum_oddHeadsGL (S n : ℤ) (c : ℕ) : ∀ node : ℤ,
    slope2Sum S (oddHeadsGL n c node) = 2 * (n + 3) * c := by
  induction c with
  | zero => intro node; simp [slope2Sum, oddHeadsGL, oddHeadsPL, oddTailsGL, oddTailsPL]
  | succ c ih =>
      intro node
      rw [oddHeadsGL, slope2Sum_cons, ih]
      simp only [Link.slope2]
      push_cast
      ring

theorem slope2Sum_oddHeadsPL (S n : ℤ) (c : ℕ) : ∀ node : ℤ,
    slope2Sum S (oddHeadsPL n c node) = -(2 * (n + 3) * c) := by
  induction c with
  | zero => intro node; simp [slope2Sum, oddHeadsGL, oddHeadsPL, oddTailsGL, oddTailsPL]
  | succ c ih =>
      intro node
      rw [oddHeadsPL, slope2Sum_cons, ih]
      simp only [Link.slope2]
      push_cast
      ring

theorem slope2Sum_oddTailsGL (S n : ℤ) (c : ℕ) : ∀ node : ℤ,
    slope2Sum S (oddTailsGL n c node) = 2 * (n + 3) * c := by
  induction c with
  | zero => intro node; simp [slope2Sum, oddHeadsGL, oddHeadsPL, oddTailsGL, oddTailsPL]
  | succ c ih =>
      intro node
      rw [oddTailsGL, slope2Sum_cons, ih]
      simp only [Link.slope2]
      push_cast
      ring

theorem slope2Sum_oddTailsPL (S n : ℤ) (c : ℕ) : ∀ node : ℤ,
    slope2Sum S (oddTailsPL n c node) = -(2 * (n + 3) * c) := by
  induction c with
  | zero => intro node; simp [slope2Sum, oddHeadsGL, oddHeadsPL, oddTailsGL, oddTailsPL]
  | succ c ih =>
      intro node
      rw [oddTailsPL, slope2Sum_cons, ih]
      simp only [Link.slope2]
      push_cast
      ring

theorem any_hasKey_map_norm (Sv k : ℤ) (L : List ℤ) (f g : ℤ → ℤ) :
    ((L.map fun x => Link.norm (f x) (g x)).any (Link.hasKey Sv k)) = true ↔
      ∃ x ∈ L, f x = k ∨ Sv - g x = k := by
  simp [List.any_eq_true, Link.hasKey]

theorem irange2_snoc (a : ℤ) (k : ℕ) :
    irange2 a (k + 1) = irange2 a k ++ [a + 2 * k] := by
  induction k generalizing a with
  | zero => simp
  | succ k ih =>
      rw [irange2_succ, ih (a + 2), irange2_succ, List.cons_append]
      have : a + 2 + 2 * (k : ℤ) = a + 2 * ((k + 1 : ℕ) : ℤ) := by push_cast; ring
      rw [this]

theorem oddHeadsGL_eq_map (n : ℤ) (c : ℕ) : ∀ node : ℤ,
    oddHeadsGL n c node = (irange2 node c).map fun x => Link.norm (x + n + 3) x := by
  induction c with
  | zero => intro node; rfl
  | succ c ih =>
      intro node
      rw [oddHeadsGL, irange2_succ, List.map_cons, ih]

theorem oddHeadsPL_eq_map (n : ℤ) (c : ℕ) : ∀ node : ℤ,
    oddHeadsPL n c node = (irange2 node c).map fun x => Link.norm (x + 1) (x + n + 4) := by
  induction c with
  | zero => intro node; rfl
  | succ c ih =>
      intro node
      rw [oddHeadsPL, irange2_succ, List.map_cons, ih]
      have : node + 1 + n + 3 = node + n + 4 := by ring
      rw [this]

theorem oddTailsGL_eq_map (n : ℤ) (c : ℕ) : ∀ node : ℤ,
    oddTailsGL n c node = (irange2 node c).map fun x => Link.norm (x + n + 4) (x + 1) := by
  induction c with
  | zero => intro node; rfl
  | succ c ih =>
      intro node
      rw [oddTailsGL, irange2_succ, List.map_cons, ih]
      have : node + 1 + n + 3 = node + n + 4 := by ring
      rw [this]

theorem oddTailsPL_eq_map (n : ℤ) (c : ℕ) : ∀ node : ℤ,
    oddTailsPL n c node = (irange2 node c).map fun x => Link.norm x (x + n + 3) := by
  induction c with
  | zero => intro node; rfl
  | succ c ih =>
      intro node
      rw [oddTailsPL, irange2_succ, List.map_cons, ih]

theorem Link.hasKey_false_small {Sv n : ℤ} (hSv : 4 * n + 5 ≤ Sv) {l : Link}
    (hr : ∀ w ∈ l.labels, 1 ≤ w ∧ w ≤ 2 * n + 2) {s : ℤ}
    (hs : 1 ≤ s ∧ s ≤ 2 * n + 2) (hout : s ∉ l.labels) :
    l.hasKey Sv s = false := by
  cases l with
  | norm a u =>
      have h1 := hr a (by simp [Link.labels])
      have h2 := hr u (by simp [Link.labels])
      simp only [Link.labels, List.mem_cons, List.not_mem_nil, or_false, not_or] at hout
      simp only [Link.hasKey, Bool.or_eq_false_iff, decide_eq_false_iff_not]
      omega
  | cmp x =>
      have h1 := hr x (by simp [Link.labels])
      simp only [Link.labels, List.mem_cons, List.not_mem_nil, or_false] at hout
      simp only [Link.hasKey, decide_eq_false_iff_not]
      omega
  | cmpT u =>
      have h2 := hr u (by simp [Link.labels])
      simp only [Link.hasKey, decide_eq_false_iff_not]
      omega

theorem Link.hasKey_false_large {Sv n : ℤ} (hSv : 4 * n + 5 ≤ Sv) {l : Link}
    (hr : ∀ w ∈ l.labels, 1 ≤ w ∧ w ≤ 2 * n + 2) {u : ℤ}
    (hu : 1 ≤ u ∧ u ≤ 2 * n + 2) (hout : u ∉ l.labels) :
    l.hasKey Sv (Sv - u) = false := by
  cases l with
  | norm a u' =>
      have h1 := hr a (by simp [Link.labels])
      have h2 := hr u' (by simp [Link.labels])
      simp only [Link.labels, List.mem_cons, List.not_mem_nil, or_false, not_or] at hout
      simp only [Link.hasKey, Bool.or_eq_false_iff, decide_eq_false_iff_not]
      omega
  | cmp x =>
      have h1 := hr x (by simp [Link.labels])
      simp only [Link.hasKey, decide_eq_false_iff_not]
      omega
  | cmpT u' =>
      have h2 := hr u' (by simp [Link.labels])
      simp only [Link.labels, List.mem_cons, List.not_mem_nil, or_false] at hout
      simp only [Link.hasKey, decide_eq_false_iff_not]
      omega

theorem dmem_false_small {Sv n : ℤ} (hSv : 4 * n + 5 ≤ Sv) (ls : List Link)
    (hr : ∀ w ∈ linksLabels ls, 1 ≤ w ∧ w ≤ 2 * n + 2) {s : ℤ}
    (hs : 1 ≤ s ∧ s ≤ 2 * n + 2) (hout : s ∉ linksLabels ls) :
    dmem s (linksEntries Sv ls) = false := by
  rw [dmem_linksEntries, List.any_eq_false]
  intro l hl
  rw [Link.hasKey_false_small hSv
    (fun w hw => hr w (List.mem_flatMap.mpr ⟨l, hl, hw⟩)) hs
    (fun hmem => hout (List.mem_flatMap.mpr ⟨l, hl, hmem⟩))]
  simp

theorem dmem_false_large {Sv n : ℤ} (hSv : 4 * n + 5 ≤ Sv) (ls : List Link)
    (hr : ∀ w ∈ linksLabels ls, 1 ≤ w ∧ w ≤ 2 * n + 2) {u : ℤ}
    (hu : 1 ≤ u ∧ u ≤ 2 * n + 2) (hout : u ∉ linksLabels ls) :
    dmem (Sv - u) (linksEntries Sv ls) = false := by
  rw [dmem_linksEntries, List.any_eq_false]
  intro l hl
  rw [Link.hasKey_false_large hSv
    (fun w hw => hr w (List.mem_flatMap.mpr ⟨l, hl, hw⟩)) hu
    (fun hmem => hout (List.mem_flatMap.mpr ⟨l, hl, hmem⟩))]
  simp

theorem mem_linksLabels_map_norm (L : List ℤ) (f g : ℤ → ℤ) (v : ℤ) :
    v ∈ linksLabels (L.map fun x => Link.norm (f x) (g x)) ↔
      ∃ x ∈ L, v = f x ∨ v = g x := by
  simp [linksLabels, List.mem_flatMap, Link.labels]

theorem Bundle.is_target_node_compl (b : Bundle) (w : ℤ) :
    b.is_target_node (b.sigma - w) = b.is_source_node w := by
  simp [Bundle.is_target_node, Bundle.complement, sub_sub_cancel]


theorem mkBundle_n (nb : ℕ) (d : Bool) (Sv : ℤ) (gls pls : List Link) :
    (mkBundle nb d Sv gls pls).n = nb := rfl

theorem mkBundle_green (nb : ℕ) (d : Bool) (Sv : ℤ) (gls pls : List Link) :
    (mkBundle nb d Sv gls pls).green = linksEntries Sv gls := rfl

theorem mkBundle_purple (nb : ℕ) (d : Bool) (Sv : ℤ) (gls pls : List Link) :
    (mkBundle nb d Sv gls pls).purple = linksEntries Sv pls := rfl

theorem mkBundle_debug (nb : ℕ) (d : Bool) (Sv : ℤ) (gls pls : List Link) :
    (mkBundle nb d Sv gls pls).debug = d := rfl

theorem mkBundle_sigma (nb : ℕ) (d : Bool) (Sv : ℤ) (gls pls : List Link) :
    (mkBundle nb d Sv gls pls).sigma = ((nb : ℤ) + 2) ^ 2 + 1 := rfl

theorem mkBundle_complement (nb : ℕ) (d : Bool) (Sv : ℤ) (gls pls : List Link) (x : ℤ) :
    (mkBundle nb d Sv gls pls).complement x = ((nb : ℤ) + 2) ^ 2 + 1 - x := rfl

theorem mkBundle_set_green (nb : ℕ) (d : Bool) (Sv : ℤ) (gls pls gls' : List Link) :
    { mkBundle nb d Sv gls pls with green := linksEntries Sv gls' } =
      mkBundle nb d Sv gls' pls := rfl

theorem mkBundle_set_purple (nb : ℕ) (d : Bool) (Sv : ℤ) (gls pls pls' : List Link) :
    { mkBundle nb d Sv gls pls with purple := linksEntries Sv pls' } =
      mkBundle nb d Sv gls pls' := rfl

theorem mem_oddG_heads {n v : ℤ} {i : ℕ}
    (h : v ∈ linksLabels (oddGlsI n (headsG n i))) :
    v = n + 2 ∨ v = n + 3 ∨ v = n + 1 ∨
      ∃ x : ℤ, 1 ≤ x ∧ x < 1 + 2 * (i : ℤ) ∧ (2 : ℤ) ∣ x - 1 ∧
        (v = x + n + 3 ∨ v = x) := by
  rw [oddGlsI, linksLabels_cons, List.mem_append] at h
  rcases h with h | h
  · simp only [Link.labels, List.mem_cons, List.not_mem_nil, or_false] at h
    exact Or.inl h
  · rw [linksLabels_cons, List.mem_append] at h
    rcases h with h | h
    · simp only [Link.labels, List.mem_cons, List.not_mem_nil, or_false] at h
      rcases h with h | h
      · exact Or.inr (Or.inl h)
      · exact Or.inr (Or.inr (Or.inl h))
    · rw [headsG, mem_linksLabels_map_norm] at h
      obtain ⟨x, hx, hv⟩ := h
      rw [mem_irange2] at hx
      exact Or.inr (Or.inr (Or.inr ⟨x, hx.1, hx.2.1, hx.2.2, hv⟩))

theorem mem_oddP_heads {n v : ℤ} {i : ℕ}
    (h : v ∈ linksLabels (oddPlsI n (headsP n i))) :
    v = n ∨ v = n + 1 ∨ v = n + 3 ∨
      ∃ x : ℤ, 1 ≤ x ∧ x < 1 + 2 * (i : ℤ) ∧ (2 : ℤ) ∣ x - 1 ∧
        (v = x + 1 ∨ v = x + n + 4) := by
  rw [oddPlsI, linksLabels_cons, List.mem_append] at h
  rcases h with h | h
  · simp only [Link.labels, List.mem_cons, List.not_mem_nil, or_false] at h
    exact Or.inl h
  · rw [linksLabels_cons, List.mem_append] at h
    rcases h with h | h
    · simp only [Link.labels, List.mem_cons, List.not_mem_nil, or_false] at h
      exact Or.inr (Or.inl h)
    · rw [linksLabels_cons, List.mem_append] at h
      rcases h with h | h
      · simp only [Link.labels, List.mem_cons, List.not_mem_nil, or_false] at h
        exact Or.inr (Or.inr (Or.inl h))
      · rw [headsP, mem_linksLabels_map_norm] at h
        obtain ⟨x, hx, hv⟩ := h
        rw [mem_irange2] at hx
        exact Or.inr (Or.inr (Or.inr ⟨x, hx.1, hx.2.1, hx.2.2, hv⟩))

theorem mem_oddG_tails {n v : ℤ} {i : ℕ}
    (h : v ∈ linksLabels (oddGlsI n (tailsG n i))) :
    v = n + 2 ∨ v = n + 3 ∨ v = n + 1 ∨
      ∃ x : ℤ, 1 ≤ x ∧ x < 1 + 2 * (i : ℤ) ∧ (2 : ℤ) ∣ x - 1 ∧
        (v = x + n + 4 ∨ v = x + 1) := by
  rw [oddGlsI, linksLabels_cons, List.mem_append] at h
  rcases h with h | h
  · simp only [Link.labels, List.mem_cons, List.not_mem_nil, or_false] at h
    exact Or.inl h
  · rw [linksLabels_cons, List.mem_append] at h
    rcases h with h | h
    · simp only [Link.labels, List.mem_cons, List.not_mem_nil, or_false] at h
      rcases h with h | h
      · exact Or.inr (Or.inl h)
      · exact Or.inr (Or.inr (Or.inl h))
    · rw [tailsG, mem_linksLabels_map_norm] at h
      obtain ⟨x, hx, hv⟩ := h
      rw [mem_irange2] at hx
      exact Or.inr (Or.inr (Or.inr ⟨x, hx.1, hx.2.1, hx.2.2, hv⟩))

theorem mem_oddP_tails {n v : ℤ} {i : ℕ}
    (h : v ∈ linksLabels (oddPlsI n (tailsP n i))) :
    v = n ∨ v = n + 1 ∨ v = n + 3 ∨
      ∃ x : ℤ, 1 ≤ x ∧ x < 1 + 2 * (i : ℤ) ∧ (2 : ℤ) ∣ x - 1 ∧
        (v = x ∨ v = x + n + 3) := by
  rw [oddPlsI, linksLabels_cons, List.mem_append] at h
  rcases h with h | h
  · simp only [Link.labels, List.mem_cons, List.not_mem_nil, or_false] at h
    exact Or.inl h
  · rw [linksLabels_cons, List.mem_append] at h
    rcases h with h | h
    · simp only [Link.labels, List.mem_cons, List.not_mem_nil, or_false] at h
      exact Or.inr (Or.inl h)
    · rw [linksLabels_cons, List.mem_append] at h
      rcases h with h | h
      · simp only [Link.labels, List.mem_cons, List.not_mem_nil, or_false] at h
        exact Or.inr (Or.inr (Or.inl h))
      · rw [tailsP, mem_linksLabels_map_norm] at h
        obtain ⟨x, hx, hv⟩ := h
        rw [mem_irange2] at hx
        exact Or.inr (Or.inr (Or.inr ⟨x, hx.1, hx.2.1, hx.2.2, hv⟩))


theorem BSquare.andThen_ok (st : BSquare) (f : BSquare → Except PyErr Unit × BSquare) :
    BSquare.andThen (.ok (), st) f = f st := rfl

theorem BSquare.odd_heads_green_step (nb : ℕ) (d : Bool) (Sv : ℤ)
    (hSveq : Sv = ((nb : ℤ) + 2) ^ 2 + 1) (c i : ℕ)
    (hcount : 2 * (c + 1 + i) + 1 = nb) (st : BSquare)
    (hb : st.bundle = mkBundle nb d Sv (oddGlsI (nb : ℤ) (headsG (nb : ℤ) i))
      (oddPlsI (nb : ℤ) (headsP (nb : ℤ) i))) :
    st.bundle_op (fun b =>
        b.link_green (1 + 2 * (i : ℤ) + ((nb : ℤ)) + 3) (b.complement (1 + 2 * (i : ℤ)))) =
      (.ok (), { st with
                 bundle := mkBundle nb d Sv
                   (oddGlsI (nb : ℤ) (headsG (nb : ℤ) (i + 1)))
                   (oddPlsI (nb : ℤ) (headsP (nb : ℤ) i)) }) := by
  have hSv : 4 * (nb : ℤ) + 5 ≤ Sv := by
    rw [hSveq]
    nlinarith [sq_nonneg ((nb : ℤ))]
  have hnbZ : 2 * ((c : ℤ) + 1 + (i : ℤ)) + 1 = (nb : ℤ) := by
    push_cast [← hcount]
    ring
  have hrG : ∀ w ∈ linksLabels (oddGlsI (nb : ℤ) (headsG (nb : ℤ) i)),
      1 ≤ w ∧ w ≤ 2 * (nb : ℤ) + 2 := by
    intro w hw
    rcases mem_oddG_heads hw with h | h | h | ⟨x, h1, h2, h3, h4 | h4⟩ <;> omega
  rw [BSquare.bundle_op, hb, mkBundle_complement, ← hSveq]
  have htar : (mkBundle nb d Sv (oddGlsI (nb : ℤ) (headsG (nb : ℤ) i))
      (oddPlsI (nb : ℤ) (headsP (nb : ℤ) i))).is_target_node
        (Sv - (1 + 2 * (i : ℤ))) = true := by
    have hc2 := Bundle.is_target_node_compl
      (mkBundle nb d Sv (oddGlsI (nb : ℤ) (headsG (nb : ℤ) i))
        (oddPlsI (nb : ℤ) (headsP (nb : ℤ) i))) (1 + 2 * (i : ℤ))
    rw [mkBundle_sigma, ← hSveq] at hc2
    rw [hc2]
    apply Bundle.is_source_node_label
    rw [mkBundle_n]
    omega
  rw [Bundle.link_green_fresh _ _ _
    (by
      apply Bundle.is_source_node_label
      rw [mkBundle_n]
      omega)
    htar
    (by
      rw [mkBundle_complement, ← hSveq]
      simp only [sub_sub_cancel]
      omega)
    (by
      rw [mkBundle_green]
      apply dmem_false_small hSv _ hrG (by omega)
      intro hw
      rcases mem_oddG_heads hw with h | h | h | ⟨x, h1, h2, h3, h4 | h4⟩ <;> omega)
    (by
      rw [mkBundle_green]
      apply dmem_false_large hSv _ hrG (by omega)
      intro hw
      rcases mem_oddG_heads hw with h | h | h | ⟨x, h1, h2, h3, h4 | h4⟩ <;> omega)]
  show (Except.ok (), _) = (Except.ok (), _)
  have hgrow : (mkBundle nb d Sv (oddGlsI (nb : ℤ) (headsG (nb : ℤ) i))
      (oddPlsI (nb : ℤ) (headsP (nb : ℤ) i))).green ++
        cpairs (1 + 2 * (i : ℤ) + ((nb : ℤ)) + 3) (Sv - (1 + 2 * (i : ℤ))) =
      linksEntries Sv (oddGlsI (nb : ℤ) (headsG (nb : ℤ) (i + 1))) := by
    rw [mkBundle_green]
    have h1 : cpairs (1 + 2 * (i : ℤ) + ((nb : ℤ)) + 3) (Sv - (1 + 2 * (i : ℤ))) =
        linksEntries Sv [Link.norm (1 + 2 * (i : ℤ) + ((nb : ℤ)) + 3)
          (1 + 2 * (i : ℤ))] := rfl
    rw [h1, ← linksEntries_append]
    congr 1
    show oddGlsI (nb : ℤ) (headsG (nb : ℤ) i) ++ _ =
      oddGlsI (nb : ℤ) (headsG (nb : ℤ) (i + 1))
    rw [oddGlsI, oddGlsI, List.cons_append, List.cons_append]
    congr 2
    rw [headsG, headsG, irange2_snoc, List.map_append]
    rfl
  rw [hgrow, mkBundle_set_green]

theorem BSquare.odd_heads_purple_step (nb : ℕ) (d : Bool) (Sv : ℤ)
    (hSveq : Sv = ((nb : ℤ) + 2) ^ 2 + 1) (c i : ℕ)
    (hcount : 2 * (c + 1 + i) + 1 = nb) (st : BSquare)
    (hb : st.bundle = mkBundle nb d Sv (oddGlsI (nb : ℤ) (headsG (nb : ℤ) (i + 1)))
      (oddPlsI (nb : ℤ) (headsP (nb : ℤ) i))) :
    st.bundle_op (fun b =>
        b.link_purple (1 + 2 * (i : ℤ) + 1)
          (b.complement (1 + 2 * (i : ℤ) + 1 + ((nb : ℤ)) + 3))) =
      (.ok (), { st with
                 bundle := mkBundle nb d Sv
                   (oddGlsI (nb : ℤ) (headsG (nb : ℤ) (i + 1)))
                   (oddPlsI (nb : ℤ) (headsP (nb : ℤ) (i + 1))) }) := by
  have hSv : 4 * (nb : ℤ) + 5 ≤ Sv := by
    rw [hSveq]
    nlinarith [sq_nonneg ((nb : ℤ))]
  have hnbZ : 2 * ((c : ℤ) + 1 + (i : ℤ)) + 1 = (nb : ℤ) := by
    push_cast [← hcount]
    ring
  have hrP : ∀ w ∈ linksLabels (oddPlsI (nb : ℤ) (headsP (nb : ℤ) i)),
      1 ≤ w ∧ w ≤ 2 * (nb : ℤ) + 2 := by
    intro w hw
    rcases mem_oddP_heads hw with h | h | h | ⟨x, h1, h2, h3, h4 | h4⟩ <;> omega
  rw [BSquare.bundle_op, hb, mkBundle_complement, ← hSveq]
  have htar : (mkBundle nb d Sv (oddGlsI (nb : ℤ) (headsG (nb : ℤ) (i + 1)))
      (oddPlsI (nb : ℤ) (headsP (nb : ℤ) i))).is_target_node
        (Sv - (1 + 2 * (i : ℤ) + 1 + ((nb : ℤ)) + 3)) = true := by
    have hc2 := Bundle.is_target_node_compl
      (mkBundle nb d Sv (oddGlsI (nb : ℤ) (headsG (nb : ℤ) (i + 1)))
        (oddPlsI (nb : ℤ) (headsP (nb : ℤ) i))) (1 + 2 * (i : ℤ) + 1 + ((nb : ℤ)) + 3)
    rw [mkBundle_sigma, ← hSveq] at hc2
    rw [hc2]
    apply Bundle.is_source_node_label
    rw [mkBundle_n]
    omega
  rw [Bundle.link_purple_fresh _ _ _
    (by
      apply Bundle.is_source_node_label
      rw [mkBundle_n]
      omega)
    htar
    (by
      rw [mkBundle_complement, ← hSveq]
      simp only [sub_sub_cancel]
      omega)
    (by
      rw [mkBundle_purple]
      apply dmem_false_small hSv _ hrP (by omega)
      intro hw
      rcases mem_oddP_heads hw with h | h | h | ⟨x, h1, h2, h3, h4 | h4⟩ <;> omega)
    (by
      rw [mkBundle_purple]
      apply dmem_false_large hSv _ hrP (by omega)
      intro hw
      rcases mem_oddP_heads hw with h | h | h | ⟨x, h1, h2, h3, h4 | h4⟩ <;> omega)]
  show (Except.ok (), _) = (Except.ok (), _)
  have hgrow : (mkBundle nb d Sv (oddGlsI (nb : ℤ) (headsG (nb : ℤ) (i + 1)))
      (oddPlsI (nb : ℤ) (headsP (nb : ℤ) i))).purple ++
        cpairs (1 + 2 * (i : ℤ) + 1) (Sv - (1 + 2 * (i : ℤ) + 1 + ((nb : ℤ)) + 3)) =
      linksEntries Sv (oddPlsI (nb : ℤ) (headsP (nb : ℤ) (i + 1))) := by
    rw [mkBundle_purple]
    have h1 : cpairs (1 + 2 * (i : ℤ) + 1) (Sv - (1 + 2 * (i : ℤ) + 1 + ((nb : ℤ)) + 3)) =
        linksEntries Sv [Link.norm (1 + 2 * (i : ℤ) + 1)
          (1 + 2 * (i : ℤ) + 1 + ((nb : ℤ)) + 3)] := rfl
    rw [h1, ← linksEntries_append]
    congr 1
    show oddPlsI (nb : ℤ) (headsP (nb : ℤ) i) ++ _ =
      oddPlsI (nb : ℤ) (headsP (nb : ℤ) (i + 1))
    rw [oddPlsI, oddPlsI, List.cons_append, List.cons_append, List.cons_append]
    congr 3
    rw [headsP, headsP, irange2_snoc, List.map_append]
    simp only [List.map_cons, List.map_nil]
    have h2 : (1 : ℤ) + 2 * (i : ℤ) + ((nb : ℤ)) + 4 =
        1 + 2 * (i : ℤ) + 1 + ((nb : ℤ)) + 3 := by ring
    rw [h2]
  rw [hgrow, mkBundle_set_purple]

theorem BSquare.frame0_odd_heads_spec (nb : ℕ) (d : Bool) (Sv : ℤ)
    (hSveq : Sv = ((nb : ℤ) + 2) ^ 2 + 1) (c : ℕ) :
    ∀ (i : ℕ) (st : BSquare), 2 * (c + i) + 1 = nb →
    st.bundle = mkBundle nb d Sv (oddGlsI (nb : ℤ) (headsG (nb : ℤ) i))
      (oddPlsI (nb : ℤ) (headsP (nb : ℤ) i)) →
    BSquare.frame0_odd_heads (nb : ℤ) c (1 + 2 * (i : ℤ)) st =
      (.ok (), { st with
                 bundle := mkBundle nb d Sv
                   (oddGlsI (nb : ℤ) (headsG (nb : ℤ) (c + i)))
                   (oddPlsI (nb : ℤ) (headsP (nb : ℤ) (c + i))) }) := by
  induction c with
  | zero =>
      intro i st hcount hb
      show ((Except.ok () : Except PyErr Unit), st) = _
      rw [Nat.zero_add, ← hb]
  | succ c ih =>
      intro i st hcount hb
      rw [BSquare.frame0_odd_heads]
      rw [BSquare.odd_heads_green_step nb d Sv hSveq c i hcount st hb,
        BSquare.andThen_ok]
      rw [BSquare.odd_heads_purple_step nb d Sv hSveq c i hcount _ rfl,
        BSquare.andThen_ok]
      have harg : (1 : ℤ) + 2 * (i : ℤ) + 2 = 1 + 2 * ((i + 1 : ℕ) : ℤ) := by
        push_cast
        ring
      rw [harg]
      rw [ih (i + 1) _ (by omega) rfl]
      have hidx : c + (i + 1) = c + 1 + i := by omega
      rw [hidx]

theorem BSquare.odd_tails_purple_step (nb : ℕ) (d : Bool) (Sv : ℤ)
    (hSveq : Sv = ((nb : ℤ) + 2) ^ 2 + 1) (c i : ℕ)
    (hcount : 2 * (c + 1 + i) + 1 = nb) (st : BSquare)
    (hb : st.bundle = mkBundle nb d Sv (oddGlsI (nb : ℤ) (tailsG (nb : ℤ) i))
      (oddPlsI (nb : ℤ) (tailsP (nb : ℤ) i))) :
    st.bundle_op (fun b =>
        b.link_purple (1 + 2 * (i : ℤ))
          (b.complement (1 + 2 * (i : ℤ) + ((nb : ℤ)) + 3))) =
      (.ok (), { st with
                 bundle := mkBundle nb d Sv
                   (oddGlsI (nb : ℤ) (tailsG (nb : ℤ) i))
                   (oddPlsI (nb : ℤ) (tailsP (nb : ℤ) (i + 1))) }) := by
  have hSv : 4 * (nb : ℤ) + 5 ≤ Sv := by
    rw [hSveq]
    nlinarith [sq_nonneg ((nb : ℤ))]
  have hnbZ : 2 * ((c : ℤ) + 1 + (i : ℤ)) + 1 = (nb : ℤ) := by
    push_cast [← hcount]
    ring
  have hrP : ∀ w ∈ linksLabels (oddPlsI (nb : ℤ) (tailsP (nb : ℤ) i)),
      1 ≤ w ∧ w ≤ 2 * (nb : ℤ) + 2 := by
    intro w hw
    rcases mem_oddP_tails hw with h | h | h | ⟨x, h1, h2, h3, h4 | h4⟩ <;> omega
  rw [BSquare.bundle_op, hb, mkBundle_complement, ← hSveq]
  have htar : (mkBundle nb d Sv (oddGlsI (nb : ℤ) (tailsG (nb : ℤ) i))
      (oddPlsI (nb : ℤ) (tailsP (nb : ℤ) i))).is_target_node
        (Sv - (1 + 2 * (i : ℤ) + ((nb : ℤ)) + 3)) = true := by
    have hc2 := Bundle.is_target_node_compl
      (mkBundle nb d Sv (oddGlsI (nb : ℤ) (tailsG (nb : ℤ) i))
        (oddPlsI (nb : ℤ) (tailsP (nb : ℤ) i))) (1 + 2 * (i : ℤ) + ((nb : ℤ)) + 3)
    rw [mkBundle_sigma, ← hSveq] at hc2
    rw [hc2]
    apply Bundle.is_source_node_label
    rw [mkBundle_n]
    omega
  rw [Bundle.link_purple_fresh _ _ _
    (by
      apply Bundle.is_source_node_label
      rw [mkBundle_n]
      omega)
    htar
    (by
      rw [mkBundle_complement, ← hSveq]
      simp only [sub_sub_cancel]
      omega)
    (by
      rw [mkBundle_purple]
      apply dmem_false_small hSv _ hrP (by omega)
      intro hw
      rcases mem_oddP_tails hw with h | h | h | ⟨x, h1, h2, h3, h4 | h4⟩ <;> omega)
    (by
      rw [mkBundle_purple]
      apply dmem_false_large hSv _ hrP (by omega)
      intro hw
      rcases mem_oddP_tails hw with h | h | h | ⟨x, h1, h2, h3, h4 | h4⟩ <;> omega)]
  show (Except.ok (), _) = (Except.ok (), _)
  have hgrow : (mkBundle nb d Sv (oddGlsI (nb : ℤ) (tailsG (nb : ℤ) i))
      (oddPlsI (nb : ℤ) (tailsP (nb : ℤ) i))).purple ++
        cpairs (1 + 2 * (i : ℤ)) (Sv - (1 + 2 * (i : ℤ) + ((nb : ℤ)) + 3)) =
      linksEntries Sv (oddPlsI (nb : ℤ) (tailsP (nb : ℤ) (i + 1))) := by
    rw [mkBundle_purple]
    have h1 : cpairs (1 + 2 * (i : ℤ)) (Sv - (1 + 2 * (i : ℤ) + ((nb : ℤ)) + 3)) =
        linksEntries Sv [Link.norm (1 + 2 * (i : ℤ))
          (1 + 2 * (i : ℤ) + ((nb : ℤ)) + 3)] := rfl
    rw [h1, ← linksEntries_append]
    congr 1
    show oddPlsI (nb : ℤ) (tailsP (nb : ℤ) i) ++ _ =
      oddPlsI (nb : ℤ) (tailsP (nb : ℤ) (i + 1))
    rw [oddPlsI, oddPlsI, List.cons_append, List.cons_append, List.cons_append]
    congr 3
    rw [tailsP, tailsP, irange2_snoc, List.map_append]
    rfl
  rw [hgrow, mkBundle_set_purple]

theorem BSquare.odd_tails_green_step (nb : ℕ) (d : Bool) (Sv : ℤ)
    (hSveq : Sv = ((nb : ℤ) + 2) ^ 2 + 1) (c i : ℕ)
    (hcount : 2 * (c + 1 + i) + 1 = nb) (st : BSquare)
    (hb : st.bundle = mkBundle nb d Sv (oddGlsI (nb : ℤ) (tailsG (nb : ℤ) i))
      (oddPlsI (nb : ℤ) (tailsP (nb : ℤ) (i + 1)))) :
    st.bundle_op (fun b =>
        b.link_green (1 + 2 * (i : ℤ) + 1 + ((nb : ℤ)) + 3)
          (b.complement (1 + 2 * (i : ℤ) + 1))) =
      (.ok (), { st with
                 bundle := mkBundle nb d Sv
                   (oddGlsI (nb : ℤ) (tailsG (nb : ℤ) (i + 1)))
                   (oddPlsI (nb : ℤ) (tailsP (nb : ℤ) (i + 1))) }) := by
  have hSv : 4 * (nb : ℤ) + 5 ≤ Sv := by
    rw [hSveq]
    nlinarith [sq_nonneg ((nb : ℤ))]
  have hnbZ : 2 * ((c : ℤ) + 1 + (i : ℤ)) + 1 = (nb : ℤ) := by
    push_cast [← hcount]
    ring
  have hrG : ∀ w ∈ linksLabels (oddGlsI (nb : ℤ) (tailsG (nb : ℤ) i)),
      1 ≤ w ∧ w ≤ 2 * (nb : ℤ) + 2 := by
    intro w hw
    rcases mem_oddG_tails hw with h | h | h | ⟨x, h1, h2, h3, h4 | h4⟩ <;> omega
  rw [BSquare.bundle_op, hb, mkBundle_complement, ← hSveq]
  have htar : (mkBundle nb d Sv (oddGlsI (nb : ℤ) (tailsG (nb : ℤ) i))
      (oddPlsI (nb : ℤ) (tailsP (nb : ℤ) (i + 1)))).is_target_node
        (Sv - (1 + 2 * (i : ℤ) + 1)) = true := by
    have hc2 := Bundle.is_target_node_compl
      (mkBundle nb d Sv (oddGlsI (nb : ℤ) (tailsG (nb : ℤ) i))
        (oddPlsI (nb : ℤ) (tailsP (nb : ℤ) (i + 1)))) (1 + 2 * (i : ℤ) + 1)
    rw [mkBundle_sigma, ← hSveq] at hc2
    rw [hc2]
    apply Bundle.is_source_node_label
    rw [mkBundle_n]
    omega
  rw [Bundle.link_green_fresh _ _ _
    (by
      apply Bundle.is_source_node_label
      rw [mkBundle_n]
      omega)
    htar
    (by
      rw [mkBundle_complement, ← hSveq]
      simp only [sub_sub_cancel]
      omega)
    (by
      rw [mkBundle_green]
      apply dmem_false_small hSv _ hrG (by omega)
      intro hw
      rcases mem_oddG_tails hw with h | h | h | ⟨x, h1, h2, h3, h4 | h4⟩ <;> omega)
    (by
      rw [mkBundle_green]
      apply dmem_false_large hSv _ hrG (by omega)
      intro hw
      rcases mem_oddG_tails hw with h | h | h | ⟨x, h1, h2, h3, h4 | h4⟩ <;> omega)]
  show (Except.ok (), _) = (Except.ok (), _)
  have hgrow : (mkBundle nb d Sv (oddGlsI (nb : ℤ) (tailsG (nb : ℤ) i))
      (oddPlsI (nb : ℤ) (tailsP (nb : ℤ) (i + 1)))).green ++
        cpairs (1 + 2 * (i : ℤ) + 1 + ((nb : ℤ)) + 3) (Sv - (1 + 2 * (i : ℤ) + 1)) =
      linksEntries Sv (oddGlsI (nb : ℤ) (tailsG (nb : ℤ) (i + 1))) := by
    rw [mkBundle_green]
    have h1 : cpairs (1 + 2 * (i : ℤ) + 1 + ((nb : ℤ)) + 3) (Sv - (1 + 2 * (i : ℤ) + 1)) =
        linksEntries Sv [Link.norm (1 + 2 * (i : ℤ) + 1 + ((nb : ℤ)) + 3)
          (1 + 2 * (i : ℤ) + 1)] := rfl
    rw [h1, ← linksEntries_append]
    congr 1
    show oddGlsI (nb : ℤ) (tailsG (nb : ℤ) i) ++ _ =
      oddGlsI (nb : ℤ) (tailsG (nb : ℤ) (i + 1))
    rw [oddGlsI, oddGlsI, List.cons_append, List.cons_append]
    congr 2
    rw [tailsG, tailsG, irange2_snoc, List.map_append]
    simp only [List.map_cons, List.map_nil]
    have h2 : (1 : ℤ) + 2 * (i : ℤ) + ((nb : ℤ)) + 4 =
        1 + 2 * (i : ℤ) + 1 + ((nb : ℤ)) + 3 := by ring
    rw [h2]
  rw [hgrow, mkBundle_set_green]

theorem BSquare.frame0_odd_tails_spec (nb : ℕ) (d : Bool) (Sv : ℤ)
    (hSveq : Sv = ((nb : ℤ) + 2) ^ 2 + 1) (c : ℕ) :
    ∀ (i : ℕ) (st : BSquare), 2 * (c + i) + 1 = nb →
    st.bundle = mkBundle nb d Sv (oddGlsI (nb : ℤ) (tailsG (nb : ℤ) i))
      (oddPlsI (nb : ℤ) (tailsP (nb : ℤ) i)) →
    BSquare.frame0_odd_tails (nb : ℤ) c (1 + 2 * (i : ℤ)) st =
      (.ok (), { st with
                 bundle := mkBundle nb d Sv
                   (oddGlsI (nb : ℤ) (tailsG (nb : ℤ) (c + i)))
                   (oddPlsI (nb : ℤ) (tailsP (nb : ℤ) (c + i))) }) := by
  induction c with
  | zero =>
      intro i st hcount hb
      show ((Except.ok () : Except PyErr Unit), st) = _
      rw [Nat.zero_add, ← hb]
  | succ c ih =>
      intro i st hcount hb
      rw [BSquare.frame0_odd_tails]
      rw [BSquare.odd_tails_purple_step nb d Sv hSveq c i hcount st hb,
        BSquare.andThen_ok]
      rw [BSquare.odd_tails_green_step nb d Sv hSveq c i hcount _ rfl,
        BSquare.andThen_ok]
      have harg : (1 : ℤ) + 2 * (i : ℤ) + 2 = 1 + 2 * ((i + 1 : ℕ) : ℤ) := by
        push_cast
        ring
      rw [harg]
      rw [ih (i + 1) _ (by omega) rfl]
      have hidx : c + (i + 1) = c + 1 + i := by omega
      rw [hidx]

theorem BSquare.bundle_op_ok (st : BSquare) (f : Bundle → Except PyErr Unit × Bundle)
    (b' : Bundle) (h : f st.bundle = (.ok (), b')) :
    st.bundle_op f = (.ok (), { st with bundle := b' }) := by
  rw [BSquare.bundle_op, h]

theorem mkBundle_clink_green_small (nb : ℕ) (d : Bool) (Sv : ℤ)
    (hSveq : Sv = ((nb : ℤ) + 2) ^ 2 + 1) (gls pls : List Link) (x : ℤ)
    (hr : ∀ w ∈ linksLabels gls, 1 ≤ w ∧ w ≤ 2 * (nb : ℤ) + 2)
    (hx : 1 ≤ x ∧ x ≤ 2 * (nb : ℤ) + 2) (hout : x ∉ linksLabels gls) :
    (mkBundle nb d Sv gls pls).clink_green x =
      (.ok (), mkBundle nb d Sv (gls ++ [Link.cmp x]) pls) := by
  have hSv : 4 * (nb : ℤ) + 5 ≤ Sv := by
    rw [hSveq]
    nlinarith [sq_nonneg ((nb : ℤ))]
  rw [Bundle.clink_green_fresh _ _
    (by
      rw [Bundle.is_node,
        Bundle.is_source_node_label _ (by rw [mkBundle_n]; exact hx), Bool.true_or])
    (by
      rw [mkBundle_green]
      exact dmem_false_small hSv _ hr hx hout)
    (by
      rw [mkBundle_green, mkBundle_complement, ← hSveq]
      exact dmem_false_large hSv _ hr hx hout)]
  have hgrow : (mkBundle nb d Sv gls pls).green ++
      [(x, (mkBundle nb d Sv gls pls).complement x)] =
      linksEntries Sv (gls ++ [Link.cmp x]) := by
    rw [mkBundle_green, mkBundle_complement, ← hSveq, linksEntries_append]
    rfl
  rw [hgrow, mkBundle_set_green]

theorem mkBundle_clink_purple_small (nb : ℕ) (d : Bool) (Sv : ℤ)
    (hSveq : Sv = ((nb : ℤ) + 2) ^ 2 + 1) (gls pls : List Link) (x : ℤ)
    (hr : ∀ w ∈ linksLabels pls, 1 ≤ w ∧ w ≤ 2 * (nb : ℤ) + 2)
    (hx : 1 ≤ x ∧ x ≤ 2 * (nb : ℤ) + 2) (hout : x ∉ linksLabels pls) :
    (mkBundle nb d Sv gls pls).clink_purple x =
      (.ok (), mkBundle nb d Sv gls (pls ++ [Link.cmp x])) := by
  have hSv : 4 * (nb : ℤ) + 5 ≤ Sv := by
    rw [hSveq]
    nlinarith [sq_nonneg ((nb : ℤ))]
  rw [Bundle.clink_purple_fresh _ _
    (by
      rw [Bundle.is_node,
        Bundle.is_source_node_label _ (by rw [mkBundle_n]; exact hx), Bool.true_or])
    (by
      rw [mkBundle_purple]
      exact dmem_false_small hSv _ hr hx hout)
    (by
      rw [mkBundle_purple, mkBundle_complement, ← hSveq]
      exact dmem_false_large hSv _ hr hx hout)]
  have hgrow : (mkBundle nb d Sv gls pls).purple ++
      [(x, (mkBundle nb d Sv gls pls).complement x)] =
      linksEntries Sv (pls ++ [Link.cmp x]) := by
    rw [mkBundle_purple, mkBundle_complement, ← hSveq, linksEntries_append]
    rfl
  rw [hgrow, mkBundle_set_purple]

theorem mkBundle_clink_purple_compT (nb : ℕ) (d : Bool) (Sv : ℤ)
    (hSveq : Sv = ((nb : ℤ) + 2) ^ 2 + 1) (gls pls : List Link) (u : ℤ)
    (hr : ∀ w ∈ linksLabels pls, 1 ≤ w ∧ w ≤ 2 * (nb : ℤ) + 2)
    (hu : 1 ≤ u ∧ u ≤ 2 * (nb : ℤ) + 2) (hout : u ∉ linksLabels pls) :
    (mkBundle nb d Sv gls pls).clink_purple ((mkBundle nb d Sv gls pls).complement u) =
      (.ok (), mkBundle nb d Sv gls (pls ++ [Link.cmpT u])) := by
  have hSv : 4 * (nb : ℤ) + 5 ≤ Sv := by
    rw [hSveq]
    nlinarith [sq_nonneg ((nb : ℤ))]
  rw [Bundle.clink_purple_fresh _ _
    (by
      have hc2 := Bundle.is_target_node_compl (mkBundle nb d Sv gls pls) u
      rw [mkBundle_sigma] at hc2
      have hsl : (mkBundle nb d Sv gls pls).is_source_node u = true :=
        Bundle.is_source_node_label _ (by rw [mkBundle_n]; exact hu)
      rw [Bundle.is_node, Bundle.complement, mkBundle_sigma, hc2, hsl, Bool.or_true])
    (by
      rw [mkBundle_purple, mkBundle_complement, ← hSveq]
      exact dmem_false_large hSv _ hr hu hout)
    (by
      rw [mkBundle_purple, mkBundle_complement, mkBundle_complement, ← hSveq]
      simp only [sub_sub_cancel]
      exact dmem_false_small hSv _ hr hu hout)]
  have hgrow : (mkBundle nb d Sv gls pls).purple ++
      [((mkBundle nb d Sv gls pls).complement u,
        (mkBundle nb d Sv gls pls).complement ((mkBundle nb d Sv gls pls).complement u))] =
      linksEntries Sv (pls ++ [Link.cmpT u]) := by
    rw [mkBundle_purple, mkBundle_complement, mkBundle_complement,
      ← hSveq, linksEntries_append]
    simp only [sub_sub_cancel]
    rfl
  rw [hgrow, mkBundle_set_purple]

theorem mkBundle_link_green_norm (nb : ℕ) (d : Bool) (Sv : ℤ)
    (hSveq : Sv = ((nb : ℤ) + 2) ^ 2 + 1) (gls pls : List Link) (s u : ℤ)
    (hr : ∀ w ∈ linksLabels gls, 1 ≤ w ∧ w ≤ 2 * (nb : ℤ) + 2)
    (hs : 1 ≤ s ∧ s ≤ 2 * (nb : ℤ) + 2) (hu : 1 ≤ u ∧ u ≤ 2 * (nb : ℤ) + 2)
    (hsu : s ≠ u)
    (houts : s ∉ linksLabels gls) (houtu : u ∉ linksLabels gls) :
    (mkBundle nb d Sv gls pls).link_green s ((mkBundle nb d Sv gls pls).complement u) =
      (.ok (), mkBundle nb d Sv (gls ++ [Link.norm s u]) pls) := by
  have hSv : 4 * (nb : ℤ) + 5 ≤ Sv := by
    rw [hSveq]
    nlinarith [sq_nonneg ((nb : ℤ))]
  rw [mkBundle_complement, ← hSveq]
  have htar : (mkBundle nb d Sv gls pls).is_target_node (Sv - u) = true := by
    have hc2 := Bundle.is_target_node_compl (mkBundle nb d Sv gls pls) u
    rw [mkBundle_sigma, ← hSveq] at hc2
    rw [hc2]
    apply Bundle.is_source_node_label
    rw [mkBundle_n]
    exact hu
  rw [Bundle.link_green_fresh _ _ _
    (by
      apply Bundle.is_source_node_label
      rw [mkBundle_n]
      exact hs)
    htar
    (by
      rw [mkBundle_complement, ← hSveq]
      simp only [sub_sub_cancel]
      exact hsu)
    (by
      rw [mkBundle_green]
      exact dmem_false_small hSv _ hr hs houts)
    (by
      rw [mkBundle_green]
      exact dmem_false_large hSv _ hr hu houtu)]
  have hgrow : (mkBundle nb d Sv gls pls).green ++ cpairs s (Sv - u) =
      linksEntries Sv (gls ++ [Link.norm s u]) := by
    rw [mkBundle_green, linksEntries_append]
    rfl
  rw [hgrow, mkBundle_set_green]

theorem mkBundle_link_purple_norm (nb : ℕ) (d : Bool) (Sv : ℤ)
    (hSveq : Sv = ((nb : ℤ) + 2) ^ 2 + 1) (gls pls : List Link) (s u : ℤ)
    (hr : ∀ w ∈ linksLabels pls, 1 ≤ w ∧ w ≤ 2 * (nb : ℤ) + 2)
    (hs : 1 ≤ s ∧ s ≤ 2 * (nb : ℤ) + 2) (hu : 1 ≤ u ∧ u ≤ 2 * (nb : ℤ) + 2)
    (hsu : s ≠ u)
    (houts : s ∉ linksLabels pls) (houtu : u ∉ linksLabels pls) :
    (mkBundle nb d Sv gls pls).link_purple s ((mkBundle nb d Sv gls pls).complement u) =
      (.ok (), mkBundle nb d Sv gls (pls ++ [Link.norm s u])) := by
  have hSv : 4 * (nb : ℤ) + 5 ≤ Sv := by
    rw [hSveq]
    nlinarith [sq_nonneg ((nb : ℤ))]
  rw [mkBundle_complement, ← hSveq]
  have htar : (mkBundle nb d Sv gls pls).is_target_node (Sv - u) = true := by
    have hc2 := Bundle.is_target_node_compl (mkBundle nb d Sv gls pls) u
    rw [mkBundle_sigma, ← hSveq] at hc2
    rw [hc2]
    apply Bundle.is_source_node_label
    rw [mkBundle_n]
    exact hu
  rw [Bundle.link_purple_fresh _ _ _
    (by
      apply Bundle.is_source_node_label
      rw [mkBundle_n]
      exact hs)
    htar
    (by
      rw [mkBundle_complement, ← hSveq]
      simp only [sub_sub_cancel]
      exact hsu)
    (by
      rw [mkBundle_purple]
      exact dmem_false_small hSv _ hr hs houts)
    (by
      rw [mkBundle_purple]
      exact dmem_false_large hSv _ hr hu houtu)]
  have hgrow : (mkBundle nb d Sv gls pls).purple ++ cpairs s (Sv - u) =
      linksEntries Sv (pls ++ [Link.norm s u]) := by
    rw [mkBundle_purple, linksEntries_append]
    rfl
  rw [hgrow, mkBundle_set_purple]


theorem BSquare.bundle_op_ok2 (st st' : BSquare) (f : Bundle → Except PyErr Unit × Bundle)
    (b' : Bundle) (h : f st.bundle = (.ok (), b'))
    (h2 : ({ st with bundle := b' } : BSquare) = st') :
    st.bundle_op f = (.ok (), st') := by
  rw [BSquare.bundle_op, h]
  show ((Except.ok () : Except PyErr Unit), ({ st with bundle := b' } : BSquare)) =
    (Except.ok (), st')
  rw [h2]

theorem BSquare.frame0_odd_spec (nb : ℕ) (d : Bool) (Sv : ℤ)
    (hSveq : Sv = ((nb : ℤ) + 2) ^ 2 + 1) (c : ℕ) (hodd : 2 * c + 1 = nb)
    (st : BSquare) (draw : Draw) (hsrc : st.source.n = nb)
    (hb : st.bundle = mkBundle nb d Sv [] []) :
    st.frame0_odd draw =
      if st.randomize = false ∨ draw.coins st.rctr = true then
        (.ok (), { st with
                   bundle := mkBundle nb d Sv
                     (oddGlsI (nb : ℤ) (headsG (nb : ℤ) c))
                     (oddPlsI (nb : ℤ) (headsP (nb : ℤ) c)),
                   rctr := st.rctr + if st.randomize then 1 else 0 })
      else
        (.ok (), { st with
                   bundle := mkBundle nb d Sv
                     (oddGlsI (nb : ℤ) (tailsG (nb : ℤ) c))
                     (oddPlsI (nb : ℤ) (tailsP (nb : ℤ) c)),
                   rctr := st.rctr + 1 }) := by
  simp only [BSquare.frame0_odd, hsrc]
  rw [BSquare.bundle_op_ok2 st
      { st with bundle := mkBundle nb d Sv [Link.cmp ((nb : ℤ) + 2)] [] }
      (fun b => b.clink_green ((nb : ℤ) + 2))
      (mkBundle nb d Sv ([] ++ [Link.cmp ((nb : ℤ) + 2)]) [])
      (by
        rw [hb]
        exact mkBundle_clink_green_small nb d Sv hSveq [] [] ((nb : ℤ) + 2)
          (by intro w hw; simp [linksLabels] at hw) (by omega)
          (by simp [linksLabels]))
      rfl,
    BSquare.andThen_ok]
  rw [BSquare.bundle_op_ok2
      { st with bundle := mkBundle nb d Sv [Link.cmp ((nb : ℤ) + 2)] [] }
      { st with bundle := mkBundle nb d Sv [Link.cmp ((nb : ℤ) + 2)] [Link.cmp ((nb : ℤ))] }
      (fun b => b.clink_purple ((nb : ℤ)))
      (mkBundle nb d Sv [Link.cmp ((nb : ℤ) + 2)] ([] ++ [Link.cmp ((nb : ℤ))]))
      (mkBundle_clink_purple_small nb d Sv hSveq [Link.cmp ((nb : ℤ) + 2)] []
        ((nb : ℤ))
        (by intro w hw; simp [linksLabels] at hw) (by omega)
        (by simp [linksLabels]))
      rfl,
    BSquare.andThen_ok]
  rw [BSquare.bundle_op_ok2
      { st with bundle := mkBundle nb d Sv [Link.cmp ((nb : ℤ) + 2)] [Link.cmp ((nb : ℤ))] }
      { st with
        bundle := mkBundle nb d Sv
          [Link.cmp ((nb : ℤ) + 2), Link.norm ((nb : ℤ) + 3) ((nb : ℤ) + 1)]
          [Link.cmp ((nb : ℤ))] }
      (fun b => b.link_green ((nb : ℤ) + 3) (b.complement ((nb : ℤ) + 1)))
      (mkBundle nb d Sv
        ([Link.cmp ((nb : ℤ) + 2)] ++ [Link.norm ((nb : ℤ) + 3) ((nb : ℤ) + 1)])
        [Link.cmp ((nb : ℤ))])
      (mkBundle_link_green_norm nb d Sv hSveq [Link.cmp ((nb : ℤ) + 2)]
        [Link.cmp ((nb : ℤ))] ((nb : ℤ) + 3) ((nb : ℤ) + 1)
        (by intro w hw; simp [linksLabels, Link.labels] at hw; omega)
        (by omega) (by omega) (by omega)
        (by simp [linksLabels, Link.labels])
        (by simp [linksLabels, Link.labels]))
      rfl,
    BSquare.andThen_ok]
  rw [BSquare.bundle_op_ok2
      { st with
        bundle := mkBundle nb d Sv
          [Link.cmp ((nb : ℤ) + 2), Link.norm ((nb : ℤ) + 3) ((nb : ℤ) + 1)]
          [Link.cmp ((nb : ℤ))] }
      { st with
        bundle := mkBundle nb d Sv
          [Link.cmp ((nb : ℤ) + 2), Link.norm ((nb : ℤ) + 3) ((nb : ℤ) + 1)]
          [Link.cmp ((nb : ℤ)), Link.cmpT ((nb : ℤ) + 1)] }
      (fun b => b.clink_purple (b.complement ((nb : ℤ) + 1)))
      (mkBundle nb d Sv
        [Link.cmp ((nb : ℤ) + 2), Link.norm ((nb : ℤ) + 3) ((nb : ℤ) + 1)]
        ([Link.cmp ((nb : ℤ))] ++ [Link.cmpT ((nb : ℤ) + 1)]))
      (mkBundle_clink_purple_compT nb d Sv hSveq
        [Link.cmp ((nb : ℤ) + 2), Link.norm ((nb : ℤ) + 3) ((nb : ℤ) + 1)]
        [Link.cmp ((nb : ℤ))] ((nb : ℤ) + 1)
        (by intro w hw; simp [linksLabels, Link.labels] at hw; omega)
        (by omega)
        (by simp [linksLabels, Link.labels]))
      rfl,
    BSquare.andThen_ok]
  rw [BSquare.bundle_op_ok2
      { st with
        bundle := mkBundle nb d Sv
          [Link.cmp ((nb : ℤ) + 2), Link.norm ((nb : ℤ) + 3) ((nb : ℤ) + 1)]
          [Link.cmp ((nb : ℤ)), Link.cmpT ((nb : ℤ) + 1)] }
      { st with
        bundle := mkBundle nb d Sv
          [Link.cmp ((nb : ℤ) + 2), Link.norm ((nb : ℤ) + 3) ((nb : ℤ) + 1)]
          [Link.cmp ((nb : ℤ)), Link.cmpT ((nb : ℤ) + 1), Link.cmpT ((nb : ℤ) + 3)] }
      (fun b => b.clink_purple (b.complement ((nb : ℤ) + 3)))
      (mkBundle nb d Sv
        [Link.cmp ((nb : ℤ) + 2), Link.norm ((nb : ℤ) + 3) ((nb : ℤ) + 1)]
        ([Link.cmp ((nb : ℤ)), Link.cmpT ((nb : ℤ) + 1)] ++ [Link.cmpT ((nb : ℤ) + 3)]))
      (mkBundle_clink_purple_compT nb d Sv hSveq
        [Link.cmp ((nb : ℤ) + 2), Link.norm ((nb : ℤ) + 3) ((nb : ℤ) + 1)]
        [Link.cmp ((nb : ℤ)), Link.cmpT ((nb : ℤ) + 1)] ((nb : ℤ) + 3)
        (by intro w hw; simp [linksLabels, Link.labels] at hw; omega)
        (by omega)
        (by simp [linksLabels, Link.labels]))
      rfl,
    BSquare.andThen_ok]
  simp only [BSquare.my_random, hsrc]
  have hc : (nb - 1) / 2 = c := by omega
  rw [hc]
  have e1 : ((1 : ℤ) + 2 * ((0 : ℕ) : ℤ)) = 1 := by norm_num
  by_cases hrand : st.randomize = true
  · by_cases hcoin : draw.coins st.rctr = true
    · have hheads := BSquare.frame0_odd_heads_spec nb d Sv hSveq c 0
        { st with
          bundle := mkBundle nb d Sv
            [Link.cmp ((nb : ℤ) + 2), Link.norm ((nb : ℤ) + 3) ((nb : ℤ) + 1)]
            [Link.cmp ((nb : ℤ)), Link.cmpT ((nb : ℤ) + 1), Link.cmpT ((nb : ℤ) + 3)],
          rctr := st.rctr + 1 }
        (by omega) rfl
      rw [e1, Nat.add_zero] at hheads
      simp only [hrand, hcoin, if_true, ne_eq, one_ne_zero, not_false_eq_true,
        Bool.true_eq_false, false_or, or_true, if_false]
      simp only [hrand, Nat.add_zero] at hheads
      rw [hheads]
    · have htails := BSquare.frame0_odd_tails_spec nb d Sv hSveq c 0
        { st with
          bundle := mkBundle nb d Sv
            [Link.cmp ((nb : ℤ) + 2), Link.norm ((nb : ℤ) + 3) ((nb : ℤ) + 1)]
            [Link.cmp ((nb : ℤ)), Link.cmpT ((nb : ℤ) + 1), Link.cmpT ((nb : ℤ) + 3)],
          rctr := st.rctr + 1 }
        (by omega) rfl
      rw [e1, Nat.add_zero] at htails
      rw [Bool.not_eq_true] at hcoin
      simp only [hrand, hcoin, if_true, if_false, ne_eq, not_true_eq_false,
        Bool.true_eq_false, Bool.false_eq_true, false_or, or_false, not_not,
        not_false_eq_true]
      simp only [hrand, Nat.add_zero] at htails
      rw [htails]
  · rw [Bool.not_eq_true] at hrand
    have hheads := BSquare.frame0_odd_heads_spec nb d Sv hSveq c 0
      { st with
        bundle := mkBundle nb d Sv
          [Link.cmp ((nb : ℤ) + 2), Link.norm ((nb : ℤ) + 3) ((nb : ℤ) + 1)]
          [Link.cmp ((nb : ℤ)), Link.cmpT ((nb : ℤ) + 1), Link.cmpT ((nb : ℤ) + 3)] }
      (by omega) rfl
    rw [e1, Nat.add_zero] at hheads
    simp only [hrand, if_false, ne_eq, one_ne_zero, not_false_eq_true,
      Bool.false_eq_true, eq_self_iff_true, true_or, if_true]
    simp only [hrand, Nat.add_zero] at hheads
    rw [hheads, Nat.add_zero]


theorem linksLabels_map_norm2 (L : List ℤ) (f g : ℤ → ℤ) :
    linksLabels (L.map fun x => Link.norm (f x) (g x)) =
      L.flatMap fun x => [f x, g x] := by
  induction L with
  | nil => rfl
  | cons x xs ih =>
      rw [List.map_cons, linksLabels_cons, List.flatMap_cons, ih]
      rfl

theorem nodup_flatMap_pairs (L : List ℤ) (f g : ℤ → ℤ)
    (hL : L.Nodup)
    (hf : ∀ x ∈ L, ∀ y ∈ L, f x = f y → x = y)
    (hg : ∀ x ∈ L, ∀ y ∈ L, g x = g y → x = y)
    (hfg : ∀ x ∈ L, ∀ y ∈ L, f x ≠ g y) :
    (L.flatMap fun x => [f x, g x]).Nodup := by
  refine (flatMap_pair_perm2 L f g).nodup_iff.mpr ?_
  rw [List.nodup_append]
  refine ⟨hL.map_on hf, hL.map_on hg, ?_⟩
  intro a haf hag
  rw [List.mem_map] at haf hag
  obtain ⟨x, hx, hxa⟩ := haf
  obtain ⟨y, hy, hya⟩ := hag
  exact hfg x hx y hy (hxa.trans hya.symm)

theorem length_flatMap_pairs (L : List ℤ) (f g : ℤ → ℤ) :
    (L.flatMap fun x => [f x, g x]).length = 2 * L.length := by
  rw [(flatMap_pair_perm2 L f g).length_eq, List.length_append,
    List.length_map, List.length_map]
  omega

theorem mem_flatMap_pairs {v : ℤ} {f g : ℤ → ℤ} {a : ℤ} {k : ℕ}
    (h : v ∈ (irange2 a k).flatMap fun x => [f x, g x]) :
    ∃ x, a ≤ x ∧ x < a + 2 * (k : ℤ) ∧ (2 : ℤ) ∣ x - a ∧ (v = f x ∨ v = g x) := by
  rw [List.mem_flatMap] at h
  obtain ⟨x, hx, hv⟩ := h
  rw [mem_irange2] at hx
  refine ⟨x, hx.1, hx.2.1, hx.2.2, ?_⟩
  simpa using hv

theorem slope2Sum_map_norm (S k : ℤ) (L : List ℤ) (f g : ℤ → ℤ) :
    (∀ x ∈ L, f x - g x = k) →
    slope2Sum S (L.map fun x => Link.norm (f x) (g x)) = 2 * k * L.length := by
  induction L with
  | nil =>
      intro h
      simp [slope2Sum]
  | cons x xs ih =>
      intro h
      rw [List.map_cons, slope2Sum_cons, ih fun y hy => h y (List.mem_cons_of_mem _ hy)]
      have hx := h x (List.mem_cons_self _ _)
      simp only [Link.slope2, List.length_cons]
      push_cast
      linarith

theorem labels_oddG_heads (n : ℤ) (c : ℕ) :
    linksLabels (oddGlsI n (headsG n c)) =
      (n + 2) :: (n + 3) :: (n + 1) :: ((irange2 1 c).flatMap fun x => [x + n + 3, x]) := by
  rw [oddGlsI, linksLabels_cons, linksLabels_cons, headsG, linksLabels_map_norm2]
  rfl

theorem labels_oddP_heads (n : ℤ) (c : ℕ) :
    linksLabels (oddPlsI n (headsP n c)) =
      n :: (n + 1) :: (n + 3) :: ((irange2 1 c).flatMap fun x => [x + 1, x + n + 4]) := by
  rw [oddPlsI, linksLabels_cons, linksLabels_cons, linksLabels_cons, headsP,
    linksLabels_map_norm2]
  rfl

theorem labels_oddG_tails (n : ℤ) (c : ℕ) :
    linksLabels (oddGlsI n (tailsG n c)) =
      (n + 2) :: (n + 3) :: (n + 1) :: ((irange2 1 c).flatMap fun x => [x + n + 4, x + 1]) := by
  rw [oddGlsI, linksLabels_cons, linksLabels_cons, tailsG, linksLabels_map_norm2]
  rfl

theorem labels_oddP_tails (n : ℤ) (c : ℕ) :
    linksLabels (oddPlsI n (tailsP n c)) =
      n :: (n + 1) :: (n + 3) :: ((irange2 1 c).flatMap fun x => [x, x + n + 3]) := by
  rw [oddPlsI, linksLabels_cons, linksLabels_cons, linksLabels_cons, tailsP,
    linksLabels_map_norm2]
  rfl

theorem goodLinks_odd_heads (nb : ℕ) (d : Bool) (Sv : ℤ)
    (hSveq : Sv = ((nb : ℤ) + 2) ^ 2 + 1) (c : ℕ) (hodd : 2 * c + 1 = nb) :
    GoodLinks (mkBundle nb d Sv (oddGlsI (nb : ℤ) (headsG (nb : ℤ) c))
        (oddPlsI (nb : ℤ) (headsP (nb : ℤ) c)))
      (oddGlsI (nb : ℤ) (headsG (nb : ℤ) c)) (oddPlsI (nb : ℤ) (headsP (nb : ℤ) c))
      ((nb : ℤ) + 1) ((nb : ℤ) + 3) := by
  have hnbZ : 2 * (c : ℤ) + 1 = (nb : ℤ) := by
    push_cast [← hodd]
    ring
  refine { hG := ?_, hP := ?_, hGnd := ?_, hPnd := ?_, hGr := ?_, hPr := ?_,
           hGc := ?_, hPc := ?_, hint := ?_, hγne := ?_, hγ0T := ?_, hγ0L := ?_,
           hγ3B := ?_, hγ3L := ?_, hGs := ?_, hPs := ?_ }
  · rw [mkBundle_green, mkBundle_sigma, ← hSveq]
  · rw [mkBundle_purple, mkBundle_sigma, ← hSveq]
  · rw [labels_oddG_heads]
    have hrest : (((irange2 1 c).flatMap fun x => [x + (nb : ℤ) + 3, x])).Nodup := by
      apply nodup_flatMap_pairs _ _ _ (irange2_nodup 1 c)
      · intro x hx y hy hxy
        omega
      · intro x hx y hy hxy
        exact hxy
      · intro x hx y hy
        rw [mem_irange2] at hx hy
        simp only [ne_eq]
        omega
    simp only [List.nodup_cons, List.mem_cons]
    refine ⟨?_, ?_, ?_, hrest⟩
    · rintro (h | h | h)
      · omega
      · omega
      · obtain ⟨x, h1, h2, h3, h4 | h4⟩ := mem_flatMap_pairs h <;> omega
    · rintro (h | h)
      · omega
      · obtain ⟨x, h1, h2, h3, h4 | h4⟩ := mem_flatMap_pairs h <;> omega
    · intro h
      obtain ⟨x, h1, h2, h3, h4 | h4⟩ := mem_flatMap_pairs h <;> omega
  · rw [labels_oddP_heads]
    have hrest : (((irange2 1 c).flatMap fun x => [x + 1, x + (nb : ℤ) + 4])).Nodup := by
      apply nodup_flatMap_pairs _ _ _ (irange2_nodup 1 c)
      · intro x hx y hy hxy
        omega
      · intro x hx y hy hxy
        omega
      · intro x hx y hy
        rw [mem_irange2] at hx hy
        simp only [ne_eq]
        omega
    simp only [List.nodup_cons, List.mem_cons]
    refine ⟨?_, ?_, ?_, hrest⟩
    · rintro (h | h | h)
      · omega
      · omega
      · obtain ⟨x, h1, h2, h3, h4 | h4⟩ := mem_flatMap_pairs h <;> omega
    · rintro (h | h)
      · omega
      · obtain ⟨x, h1, h2, h3, h4 | h4⟩ := mem_flatMap_pairs h <;> omega
    · intro h
      obtain ⟨x, h1, h2, h3, h4 | h4⟩ := mem_flatMap_pairs h <;> omega
  · intro v hv
    rw [mkBundle_n]
    rcases mem_oddG_heads hv with h | h | h | ⟨x, h1, h2, h3, h4 | h4⟩ <;> omega
  · intro v hv
    rw [mkBundle_n]
    rcases mem_oddP_heads hv with h | h | h | ⟨x, h1, h2, h3, h4 | h4⟩ <;> omega
  · rw [labels_oddG_heads, mkBundle_n]
    simp only [List.length_cons, length_flatMap_pairs, irange2_length]
    omega
  · rw [labels_oddP_heads, mkBundle_n]
    simp only [List.length_cons, length_flatMap_pairs, irange2_length]
    omega
  · intro v hvG hvP
    rcases mem_oddG_heads hvG with h | h | h | ⟨x, h1, h2, h3, h4 | h4⟩ <;>
      rcases mem_oddP_heads hvP with h' | h' | h' | ⟨y, g1, g2, g3, g4 | g4⟩ <;> omega
  · omega
  · simp [oddGlsI, Link.resT]
  · simp [oddPlsI, Link.resT]
  · simp [oddGlsI, Link.resB]
  · simp [oddPlsI, Link.resT]
  · rw [mkBundle_sigma, oddGlsI, slope2Sum_cons, slope2Sum_cons, headsG]
    rw [slope2Sum_map_norm _ ((nb : ℤ) + 3) _ _ _ (fun x hx => by ring)]
    simp only [Link.slope2, irange2_length]
    linear_combination ((nb : ℤ) + 3) * hnbZ
  · rw [mkBundle_sigma, oddPlsI, slope2Sum_cons, slope2Sum_cons, slope2Sum_cons, headsP]
    rw [slope2Sum_map_norm _ (-((nb : ℤ) + 3)) _ _ _ (fun x hx => by ring)]
    simp only [Link.slope2, irange2_length]
    linear_combination (-((nb : ℤ) + 3)) * hnbZ

theorem goodLinks_odd_tails (nb : ℕ) (d : Bool) (Sv : ℤ)
    (hSveq : Sv = ((nb : ℤ) + 2) ^ 2 + 1) (c : ℕ) (hodd : 2 * c + 1 = nb) :
    GoodLinks (mkBundle nb d Sv (oddGlsI (nb : ℤ) (tailsG (nb : ℤ) c))
        (oddPlsI (nb : ℤ) (tailsP (nb : ℤ) c)))
      (oddGlsI (nb : ℤ) (tailsG (nb : ℤ) c)) (oddPlsI (nb : ℤ) (tailsP (nb : ℤ) c))
      ((nb : ℤ) + 1) ((nb : ℤ) + 3) := by
  have hnbZ : 2 * (c : ℤ) + 1 = (nb : ℤ) := by
    push_cast [← hodd]
    ring
  refine { hG := ?_, hP := ?_, hGnd := ?_, hPnd := ?_, hGr := ?_, hPr := ?_,
           hGc := ?_, hPc := ?_, hint := ?_, hγne := ?_, hγ0T := ?_, hγ0L := ?_,
           hγ3B := ?_, hγ3L := ?_, hGs := ?_, hPs := ?_ }
  · rw [mkBundle_green, mkBundle_sigma, ← hSveq]
  · rw [mkBundle_purple, mkBundle_sigma, ← hSveq]
  · rw [labels_oddG_tails]
    have hrest : (((irange2 1 c).flatMap fun x => [x + (nb : ℤ) + 4, x + 1])).Nodup := by
      apply nodup_flatMap_pairs _ _ _ (irange2_nodup 1 c)
      · intro x hx y hy hxy
        omega
      · intro x hx y hy hxy
        omega
      · intro x hx y hy
        rw [mem_irange2] at hx hy
        simp only [ne_eq]
        omega
    simp only [List.nodup_cons, List.mem_cons]
    refine ⟨?_, ?_, ?_, hrest⟩
    · rintro (h | h | h)
      · omega
      · omega
      · obtain ⟨x, h1, h2, h3, h4 | h4⟩ := mem_flatMap_pairs h <;> omega
    · rintro (h | h)
      · omega
      · obtain ⟨x, h1, h2, h3, h4 | h4⟩ := mem_flatMap_pairs h <;> omega
    · intro h
      obtain ⟨x, h1, h2, h3, h4 | h4⟩ := mem_flatMap_pairs h <;> omega
  · rw [labels_oddP_tails]
    have hrest : (((irange2 1 c).flatMap fun x => [x, x + (nb : ℤ) + 3])).Nodup := by
      apply nodup_flatMap_pairs _ _ _ (irange2_nodup 1 c)
      · intro x hx y hy hxy
        exact hxy
      · intro x hx y hy hxy
        omega
      · intro x hx y hy
        rw [mem_irange2] at hx hy
        simp only [ne_eq]
        omega
    simp only [List.nodup_cons, List.mem_cons]
    refine ⟨?_, ?_, ?_, hrest⟩
    · rintro (h | h | h)
      · omega
      · omega
      · obtain ⟨x, h1, h2, h3, h4 | h4⟩ := mem_flatMap_pairs h <;> omega
    · rintro (h | h)
      · omega
      · obtain ⟨x, h1, h2, h3, h4 | h4⟩ := mem_flatMap_pairs h <;> omega
    · intro h
      obtain ⟨x, h1, h2, h3, h4 | h4⟩ := mem_flatMap_pairs h <;> omega
  · intro v hv
    rw [mkBundle_n]
    rcases mem_oddG_tails hv with h | h | h | ⟨x, h1, h2, h3, h4 | h4⟩ <;> omega
  · intro v hv
    rw [mkBundle_n]
    rcases mem_oddP_tails hv with h | h | h | ⟨x, h1, h2, h3, h4 | h4⟩ <;> omega
  · rw [labels_oddG_tails, mkBundle_n]
    simp only [List.length_cons, length_flatMap_pairs, irange2_length]
    omega
  · rw [labels_oddP_tails, mkBundle_n]
    simp only [List.length_cons, length_flatMap_pairs, irange2_length]
    omega
  · intro v hvG hvP
    rcases mem_oddG_tails hvG with h | h | h | ⟨x, h1, h2, h3, h4 | h4⟩ <;>
      rcases mem_oddP_tails hvP with h' | h' | h' | ⟨y, g1, g2, g3, g4 | g4⟩ <;> omega
  · omega
  · simp [oddGlsI, Link.resT]
  · simp [oddPlsI, Link.resT]
  · simp [oddGlsI, Link.resB]
  · simp [oddPlsI, Link.resT]
  · rw [mkBundle_sigma, oddGlsI, slope2Sum_cons, slope2Sum_cons, tailsG]
    rw [slope2Sum_map_norm _ ((nb : ℤ) + 3) _ _ _ (fun x hx => by ring)]
    simp only [Link.slope2, irange2_length]
    linear_combination ((nb : ℤ) + 3) * hnbZ
  · rw [mkBundle_sigma, oddPlsI, slope2Sum_cons, slope2Sum_cons, slope2Sum_cons, tailsP]
    rw [slope2Sum_map_norm _ (-((nb : ℤ) + 3)) _ _ _ (fun x hx => by ring)]
    simp only [Link.slope2, irange2_length]
    linear_combination (-((nb : ℤ) + 3)) * hnbZ

theorem BSquare.frame0_4_spec (st : BSquare) (d : Bool)
    (hb : st.bundle = mkBundle 4 d 37 [] []) :
    st.frame0_4 = (.ok (), { st with bundle := mkBundle 4 d 37 gls4 pls4 }) := by
  obtain ⟨sq, source, bundle, alg, rnd, rctr, t1, t2, t3, t4, dbg⟩ := st
  simp only at hb
  subst hb
  rfl

theorem goodLinks4 (d : Bool) :
    GoodLinks (mkBundle 4 d 37 gls4 pls4) gls4 pls4 1 6 := by
  refine { hG := rfl, hP := rfl, hGnd := by decide, hPnd := by decide,
           hGr := by simp only [mkBundle_n]; decide,
           hPr := by simp only [mkBundle_n]; decide,
           hGc := by rw [mkBundle_n]; decide,
           hPc := by rw [mkBundle_n]; decide,
           hint := by decide, hγne := by decide, hγ0T := by decide, hγ0L := by decide,
           hγ3B := by decide, hγ3L := by decide,
           hGs := by rw [mkBundle_sigma]; decide,
           hPs := by rw [mkBundle_sigma]; decide }

theorem flatMap_swap_perm (L : List ℤ) (f g : ℤ → ℤ) :
    (L.flatMap fun x => [f x, g x]).Perm (L.flatMap fun x => [g x, f x]) :=
  (flatMap_pair_perm2 L f g).trans
    (List.perm_append_comm.trans (flatMap_pair_perm2 L g f).symm)

theorem labels_ascdesc_perm (A D M : List ℤ) (h : (A ++ D).Perm M) :
    (linksLabels (ascLinks A ++ descLinks D)).Perm (M.flatMap fun x => [x, x + 1]) := by
  rw [linksLabels_append, linksLabels_asc, linksLabels_desc]
  refine List.Perm.trans (List.Perm.append_right _
    (flatMap_swap_perm A (fun x => x + 1) (fun x => x))) ?_
  rw [← List.flatMap_append A D fun x => [x, x + 1]]
  exact h.flatMap_right _

theorem labels_oeGls_perm (n : ℤ) (A D M : List ℤ) (h : (A ++ D).Perm M) :
    (linksLabels (oeGls n A D)).Perm
      ((n + 2) :: (n + 1) :: (M.flatMap fun x => [x, x + 1])) := by
  rw [oeGls, linksLabels_cons]
  show ((n + 2) :: (n + 1) :: linksLabels (ascLinks A ++ descLinks D)).Perm _
  exact ((labels_ascdesc_perm A D M h).cons _).cons _

theorem labels_oePls_perm (n : ℤ) (A2 D2 M : List ℤ) (h : (A2 ++ D2).Perm M) :
    (linksLabels (oePls n A2 D2)).Perm
      ((n + 3) :: (n + 1) :: (n + 4) :: (n + 2) :: (n + 5) :: (n + 7) :: (n + 6) ::
        (n + 8) :: (M.flatMap fun x => [x, x + 1])) := by
  rw [oePls, linksLabels_cons, linksLabels_cons, linksLabels_cons, linksLabels_cons]
  show ((n + 3) :: (n + 1) :: (n + 4) :: (n + 2) :: (n + 5) :: (n + 7) :: (n + 6) ::
    (n + 8) :: linksLabels (ascLinks A2 ++ descLinks D2)).Perm _
  exact ((((((((labels_ascdesc_perm A2 D2 M h).cons _).cons _).cons _).cons
    _).cons _).cons _).cons _).cons _

theorem nodup_irange2_pairs (a : ℤ) (k : ℕ) :
    ((irange2 a k).flatMap fun x => [x, x + 1]).Nodup := by
  apply nodup_flatMap_pairs _ _ _ (irange2_nodup a k)
  · intro x hx y hy hxy
    exact hxy
  · intro x hx y hy hxy
    omega
  · intro x hx y hy
    rw [mem_irange2] at hx hy
    simp only [ne_eq]
    omega

theorem slope2Sum_oeGls (S n : ℤ) (A D : List ℤ) :
    slope2Sum S (oeGls n A D) = 2 + 2 * A.length - 2 * D.length := by
  rw [oeGls, slope2Sum_cons, slope2Sum_append, slope2Sum_asc, slope2Sum_desc]
  simp only [Link.slope2]
  ring

theorem slope2Sum_oePls (S n : ℤ) (A2 D2 : List ℤ) :
    slope2Sum S (oePls n A2 D2) = 2 * A2.length - 2 * D2.length := by
  rw [oePls, slope2Sum_cons, slope2Sum_cons, slope2Sum_cons, slope2Sum_cons,
    slope2Sum_append, slope2Sum_asc, slope2Sum_desc]
  simp only [Link.slope2]
  ring

theorem goodLinks_oe (nb m : ℕ) (d : Bool) (Sv : ℤ)
    (hSveq : Sv = ((nb : ℤ) + 2) ^ 2 + 1) (hnb : nb = 4 * m + 2) (hm : 1 ≤ m)
    (A D A2 D2 : List ℤ)
    (hAD : (A ++ D).Perm (pyRange2 1 (nb : ℤ)))
    (hA : A.length = m) (hD : D.length = m + 1)
    (hAD2 : (A2 ++ D2).Perm (pyRange2 ((nb : ℤ) + 9) (2 * (nb : ℤ) + 2)))
    (hA2 : A2.length = m - 1) (hD2 : D2.length = m - 1) :
    GoodLinks (mkBundle nb d Sv (oeGls (nb : ℤ) A D) (oePls (nb : ℤ) A2 D2))
      (oeGls (nb : ℤ) A D) (oePls (nb : ℤ) A2 D2) ((nb : ℤ) + 1) ((nb : ℤ) + 2) := by
  have hpy : pyRange2 1 (nb : ℤ) = irange2 1 (2 * m + 1) := by
    rw [pyRange2]
    congr 1
    omega
  have hpy2 : pyRange2 ((nb : ℤ) + 9) (2 * (nb : ℤ) + 2) =
      irange2 ((nb : ℤ) + 9) (2 * m - 2) := by
    rw [pyRange2]
    congr 1
    omega
  have hcanG : (linksLabels (oeGls (nb : ℤ) A D)).Perm
      (((nb : ℤ) + 2) :: ((nb : ℤ) + 1) ::
        ((irange2 1 (2 * m + 1)).flatMap fun x => [x, x + 1])) :=
    labels_oeGls_perm _ _ _ _ (hAD.trans (by rw [hpy]))
  have hcanP : (linksLabels (oePls (nb : ℤ) A2 D2)).Perm
      (((nb : ℤ) + 3) :: ((nb : ℤ) + 1) :: ((nb : ℤ) + 4) :: ((nb : ℤ) + 2) ::
        ((nb : ℤ) + 5) :: ((nb : ℤ) + 7) :: ((nb : ℤ) + 6) :: ((nb : ℤ) + 8) ::
        ((irange2 ((nb : ℤ) + 9) (2 * m - 2)).flatMap fun x => [x, x + 1])) :=
    labels_oePls_perm _ _ _ _ (hAD2.trans (by rw [hpy2]))
  have hmemG : ∀ v ∈ linksLabels (oeGls (nb : ℤ) A D),
      v = (nb : ℤ) + 2 ∨ v = (nb : ℤ) + 1 ∨
      ∃ x, 1 ≤ x ∧ x < 1 + 2 * ((2 * m + 1 : ℕ) : ℤ) ∧ (2 : ℤ) ∣ x - 1 ∧
        (v = x ∨ v = x + 1) := by
    intro v hv
    rcases List.mem_cons.mp (hcanG.mem_iff.mp hv) with h | h
    · exact Or.inl h
    rcases List.mem_cons.mp h with h | h
    · exact Or.inr (Or.inl h)
    have h2 := mem_flatMap_pairs h
    obtain ⟨x, h1, h2, h3, h4⟩ := h2
    exact Or.inr (Or.inr ⟨x, h1, h2, h3, h4⟩)
  have hmemP : ∀ v ∈ linksLabels (oePls (nb : ℤ) A2 D2),
      v = (nb : ℤ) + 3 ∨ v = (nb : ℤ) + 1 ∨ v = (nb : ℤ) + 4 ∨ v = (nb : ℤ) + 2 ∨
      v = (nb : ℤ) + 5 ∨ v = (nb : ℤ) + 7 ∨ v = (nb : ℤ) + 6 ∨ v = (nb : ℤ) + 8 ∨
      ∃ x, (nb : ℤ) + 9 ≤ x ∧ x < (nb : ℤ) + 9 + 2 * ((2 * m - 2 : ℕ) : ℤ) ∧
        (2 : ℤ) ∣ x - ((nb : ℤ) + 9) ∧ (v = x ∨ v = x + 1) := by
    intro v hv
    rcases List.mem_cons.mp (hcanP.mem_iff.mp hv) with h | h
    · exact Or.inl h
    rcases List.mem_cons.mp h with h | h
    · exact Or.inr (Or.inl h)
    rcases List.mem_cons.mp h with h | h
    · exact Or.inr (Or.inr (Or.inl h))
    rcases List.mem_cons.mp h with h | h
    · exact Or.inr (Or.inr (Or.inr (Or.inl h)))
    rcases List.mem_cons.mp h with h | h
    · exact Or.inr (Or.inr (Or.inr (Or.inr (Or.inl h))))
    rcases List.mem_cons.mp h with h | h
    · exact Or.inr (Or.inr (Or.inr (Or.inr (Or.inr (Or.inl h)))))
    rcases List.mem_cons.mp h with h | h
    · exact Or.inr (Or.inr (Or.inr (Or.inr (Or.inr (Or.inr (Or.inl h))))))
    rcases List.mem_cons.mp h with h | h
    · exact Or.inr (Or.inr (Or.inr (Or.inr (Or.inr (Or.inr (Or.inr (Or.inl h)))))))
    obtain ⟨x, h1, h2, h3, h4⟩ := mem_flatMap_pairs h
    exact Or.inr (Or.inr (Or.inr (Or.inr (Or.inr (Or.inr (Or.inr (Or.inr
      ⟨x, h1, h2, h3, h4⟩)))))))
  refine { hG := ?_, hP := ?_, hGnd := ?_, hPnd := ?_, hGr := ?_, hPr := ?_,
           hGc := ?_, hPc := ?_, hint := ?_, hγne := ?_, hγ0T := ?_, hγ0L := ?_,
           hγ3B := ?_, hγ3L := ?_, hGs := ?_, hPs := ?_ }
  · rw [mkBundle_green, mkBundle_sigma, ← hSveq]
  · rw [mkBundle_purple, mkBundle_sigma, ← hSveq]
  · refine hcanG.nodup_iff.mpr ?_
    simp only [List.nodup_cons, List.mem_cons]
    refine ⟨?_, ?_, nodup_irange2_pairs 1 (2 * m + 1)⟩
    · rintro (h | h)
      · omega
      · obtain ⟨x, h1, h2, h3, h4 | h4⟩ := mem_flatMap_pairs h <;> omega
    · intro h
      obtain ⟨x, h1, h2, h3, h4 | h4⟩ := mem_flatMap_pairs h <;> omega
  · refine hcanP.nodup_iff.mpr ?_
    simp only [List.nodup_cons, List.mem_cons]
    refine ⟨?_, ?_, ?_, ?_, ?_, ?_, ?_, ?_, nodup_irange2_pairs _ (2 * m - 2)⟩
    · rintro (h | h | h | h | h | h | h | h) <;>
        first
          | omega
          | (obtain ⟨x, h1, h2, h3, h4 | h4⟩ := mem_flatMap_pairs h <;> omega)
    · rintro (h | h | h | h | h | h | h) <;>
        first
          | omega
          | (obtain ⟨x, h1, h2, h3, h4 | h4⟩ := mem_flatMap_pairs h <;> omega)
    · rintro (h | h | h | h | h | h) <;>
        first
          | omega
          | (obtain ⟨x, h1, h2, h3, h4 | h4⟩ := mem_flatMap_pairs h <;> omega)
    · rintro (h | h | h | h | h) <;>
        first
          | omega
          | (obtain ⟨x, h1, h2, h3, h4 | h4⟩ := mem_flatMap_pairs h <;> omega)
    · rintro (h | h | h | h) <;>
        first
          | omega
          | (obtain ⟨x, h1, h2, h3, h4 | h4⟩ := mem_flatMap_pairs h <;> omega)
    · rintro (h | h | h) <;>
        first
          | omega
          | (obtain ⟨x, h1, h2, h3, h4 | h4⟩ := mem_flatMap_pairs h <;> omega)
    · rintro (h | h)
      · omega
      · obtain ⟨x, h1, h2, h3, h4 | h4⟩ := mem_flatMap_pairs h <;> omega
    · intro h
      obtain ⟨x, h1, h2, h3, h4 | h4⟩ := mem_flatMap_pairs h <;> omega
  · intro v hv
    rw [mkBundle_n]
    rcases hmemG v hv with h | h | ⟨x, h1, h2, h3, h4 | h4⟩ <;> omega
  · intro v hv
    rw [mkBundle_n]
    rcases hmemP v hv with h | h | h | h | h | h | h | h | ⟨x, h1, h2, h3, h4 | h4⟩ <;>
      omega
  · rw [hcanG.length_eq, mkBundle_n]
    simp only [List.length_cons, length_flatMap_pairs, irange2_length]
    omega
  · rw [hcanP.length_eq, mkBundle_n]
    simp only [List.length_cons, length_flatMap_pairs, irange2_length]
    omega
  · intro v hvG hvP
    rcases hmemG v hvG with h | h | ⟨x, h1, h2, h3, h4 | h4⟩ <;>
      rcases hmemP v hvP with h' | h' | h' | h' | h' | h' | h' | h' |
        ⟨y, g1, g2, g3, g4 | g4⟩ <;> omega
  · omega
  · simp [oeGls, Link.resT]
  · simp [oePls, Link.resT]
  · simp [oeGls, Link.resB]
  · simp [oePls, Link.resT]
  · rw [mkBundle_sigma, slope2Sum_oeGls, hA, hD]
    push_cast
    ring
  · rw [mkBundle_sigma, slope2Sum_oePls, hA2, hD2]
    ring

theorem labels_eeGls_perm (n : ℤ) (A A2 D M : List ℤ) (h : ((A ++ A2) ++ D).Perm M) :
    (linksLabels (eeGls n A A2 D)).Perm
      ((n + 2) :: (n + 1) :: (n - 1) :: (n + 3) :: (M.flatMap fun x => [x, x + 1])) := by
  rw [eeGls, linksLabels_cons, linksLabels_cons]
  show ((n + 2) :: (n + 1) :: (n - 1) :: (n + 3) ::
    linksLabels (ascLinks A ++ (ascLinks A2 ++ descLinks D))).Perm _
  have h1 : ascLinks (A ++ A2) = ascLinks A ++ ascLinks A2 := by
    simp [ascLinks]
  rw [← List.append_assoc, ← h1]
  exact ((((labels_ascdesc_perm (A ++ A2) D M h).cons _).cons _).cons _).cons _

theorem labels_eePls_perm (n : ℤ) (A3 D2 M : List ℤ) (h : (A3 ++ D2).Perm M) :
    (linksLabels (eePls n A3 D2)).Perm
      (n :: (n + 1) :: (n + 4) :: (n + 2) :: (M.flatMap fun x => [x, x + 1])) := by
  rw [eePls, linksLabels_cons, linksLabels_cons]
  show (n :: (n + 1) :: (n + 4) :: (n + 2) ::
    linksLabels (ascLinks A3 ++ descLinks D2)).Perm _
  exact ((((labels_ascdesc_perm A3 D2 M h).cons _).cons _).cons _).cons _

theorem slope2Sum_eeGls (S n : ℤ) (A A2 D : List ℤ) :
    slope2Sum S (eeGls n A A2 D) =
      2 - 8 + 2 * A.length + 2 * A2.length - 2 * D.length := by
  rw [eeGls, slope2Sum_cons, slope2Sum_cons, slope2Sum_append, slope2Sum_append,
    slope2Sum_asc, slope2Sum_asc, slope2Sum_desc]
  simp only [Link.slope2]
  ring

theorem slope2Sum_eePls (S n : ℤ) (A3 D2 : List ℤ) :
    slope2Sum S (eePls n A3 D2) = 2 + 2 * A3.length - 2 * D2.length := by
  rw [eePls, slope2Sum_cons, slope2Sum_cons, slope2Sum_append,
    slope2Sum_asc, slope2Sum_desc]
  simp only [Link.slope2]
  ring

theorem goodLinks_ee (nb m : ℕ) (d : Bool) (Sv : ℤ)
    (hSveq : Sv = ((nb : ℤ) + 2) ^ 2 + 1) (hnb : nb = 4 * m) (hm : 2 ≤ m)
    (A A2 D A3 D2 : List ℤ)
    (hAAD : ((A ++ A2) ++ D).Perm (pyRange2 1 ((nb : ℤ) - 2)))
    (hA : A.length = 3) (hA2 : A2.length = m - 2) (hD : D.length = m - 2)
    (hA3D2 : (A3 ++ D2).Perm (pyRange2 ((nb : ℤ) + 5) (2 * (nb : ℤ) + 2)))
    (hA3 : A3.length = m - 1) (hD2 : D2.length = m) :
    GoodLinks (mkBundle nb d Sv (eeGls (nb : ℤ) A A2 D) (eePls (nb : ℤ) A3 D2))
      (eeGls (nb : ℤ) A A2 D) (eePls (nb : ℤ) A3 D2) ((nb : ℤ) + 1) ((nb : ℤ) + 2) := by
  have hpy : pyRange2 1 ((nb : ℤ) - 2) = irange2 1 (2 * m - 1) := by
    rw [pyRange2]
    congr 1
    omega
  have hpy2 : pyRange2 ((nb : ℤ) + 5) (2 * (nb : ℤ) + 2) =
      irange2 ((nb : ℤ) + 5) (2 * m - 1) := by
    rw [pyRange2]
    congr 1
    omega
  have hcanG : (linksLabels (eeGls (nb : ℤ) A A2 D)).Perm
      (((nb : ℤ) + 2) :: ((nb : ℤ) + 1) :: ((nb : ℤ) - 1) :: ((nb : ℤ) + 3) ::
        ((irange2 1 (2 * m - 1)).flatMap fun x => [x, x + 1])) :=
    labels_eeGls_perm _ _ _ _ _ (hAAD.trans (by rw [hpy]))
  have hcanP : (linksLabels (eePls (nb : ℤ) A3 D2)).Perm
      ((nb : ℤ) :: ((nb : ℤ) + 1) :: ((nb : ℤ) + 4) :: ((nb : ℤ) + 2) ::
        ((irange2 ((nb : ℤ) + 5) (2 * m - 1)).flatMap fun x => [x, x + 1])) :=
    labels_eePls_perm _ _ _ _ (hA3D2.trans (by rw [hpy2]))
  have hmemG : ∀ v ∈ linksLabels (eeGls (nb : ℤ) A A2 D),
      v = (nb : ℤ) + 2 ∨ v = (nb : ℤ) + 1 ∨ v = (nb : ℤ) - 1 ∨ v = (nb : ℤ) + 3 ∨
      ∃ x, 1 ≤ x ∧ x < 1 + 2 * ((2 * m - 1 : ℕ) : ℤ) ∧ (2 : ℤ) ∣ x - 1 ∧
        (v = x ∨ v = x + 1) := by
    intro v hv
    rcases List.mem_cons.mp (hcanG.mem_iff.mp hv) with h | h
    · exact Or.inl h
    rcases List.mem_cons.mp h with h | h
    · exact Or.inr (Or.inl h)
    rcases List.mem_cons.mp h with h | h
    · exact Or.inr (Or.inr (Or.inl h))
    rcases List.mem_cons.mp h with h | h
    · exact Or.inr (Or.inr (Or.inr (Or.inl h)))
    obtain ⟨x, h1, h2, h3, h4⟩ := mem_flatMap_pairs h
    exact Or.inr (Or.inr (Or.inr (Or.inr ⟨x, h1, h2, h3, h4⟩)))
  have hmemP : ∀ v ∈ linksLabels (eePls (nb : ℤ) A3 D2),
      v = (nb : ℤ) ∨ v = (nb : ℤ) + 1 ∨ v = (nb : ℤ) + 4 ∨ v = (nb : ℤ) + 2 ∨
      ∃ x, (nb : ℤ) + 5 ≤ x ∧ x < (nb : ℤ) + 5 + 2 * ((2 * m - 1 : ℕ) : ℤ) ∧
        (2 : ℤ) ∣ x - ((nb : ℤ) + 5) ∧ (v = x ∨ v = x + 1) := by
    intro v hv
    rcases List.mem_cons.mp (hcanP.mem_iff.mp hv) with h | h
    · exact Or.inl h
    rcases List.mem_cons.mp h with h | h
    · exact Or.inr (Or.inl h)
    rcases List.mem_cons.mp h with h | h
    · exact Or.inr (Or.inr (Or.inl h))
    rcases List.mem_cons.mp h with h | h
    · exact Or.inr (Or.inr (Or.inr (Or.inl h)))
    obtain ⟨x, h1, h2, h3, h4⟩ := mem_flatMap_pairs h
    exact Or.inr (Or.inr (Or.inr (Or.inr ⟨x, h1, h2, h3, h4⟩)))
  refine { hG := ?_, hP := ?_, hGnd := ?_, hPnd := ?_, hGr := ?_, hPr := ?_,
           hGc := ?_, hPc := ?_, hint := ?_, hγne := ?_, hγ0T := ?_, hγ0L := ?_,
           hγ3B := ?_, hγ3L := ?_, hGs := ?_, hPs := ?_ }
  · rw [mkBundle_green, mkBundle_sigma, ← hSveq]
  · rw [mkBundle_purple, mkBundle_sigma, ← hSveq]
  · refine hcanG.nodup_iff.mpr ?_
    simp only [List.nodup_cons, List.mem_cons]
    refine ⟨?_, ?_, ?_, ?_, nodup_irange2_pairs 1 (2 * m - 1)⟩
    · rintro (h | h | h | h) <;>
        first
          | omega
          | (obtain ⟨x, h1, h2, h3, h4 | h4⟩ := mem_flatMap_pairs h <;> omega)
    · rintro (h | h | h) <;>
        first
          | omega
          | (obtain ⟨x, h1, h2, h3, h4 | h4⟩ := mem_flatMap_pairs h <;> omega)
    · rintro (h | h) <;>
        first
          | omega
          | (obtain ⟨x, h1, h2, h3, h4 | h4⟩ := mem_flatMap_pairs h <;> omega)
    · intro h
      obtain ⟨x, h1, h2, h3, h4 | h4⟩ := mem_flatMap_pairs h <;> omega
  · refine hcanP.nodup_iff.mpr ?_
    simp only [List.nodup_cons, List.mem_cons]
    refine ⟨?_, ?_, ?_, ?_, nodup_irange2_pairs _ (2 * m - 1)⟩
    · rintro (h | h | h | h) <;>
        first
          | omega
          | (obtain ⟨x, h1, h2, h3, h4 | h4⟩ := mem_flatMap_pairs h <;> omega)
    · rintro (h | h | h) <;>
        first
          | omega
          | (obtain ⟨x, h1, h2, h3, h4 | h4⟩ := mem_flatMap_pairs h <;> omega)
    · rintro (h | h) <;>
        first
          | omega
          | (obtain ⟨x, h1, h2, h3, h4 | h4⟩ := mem_flatMap_pairs h <;> omega)
    · intro h
      obtain ⟨x, h1, h2, h3, h4 | h4⟩ := mem_flatMap_pairs h <;> omega
  · intro v hv
    rw [mkBundle_n]
    rcases hmemG v hv with h | h | h | h | ⟨x, h1, h2, h3, h4 | h4⟩ <;> omega
  · intro v hv
    rw [mkBundle_n]
    rcases hmemP v hv with h | h | h | h | ⟨x, h1, h2, h3, h4 | h4⟩ <;> omega
  · rw [hcanG.length_eq, mkBundle_n]
    simp only [List.length_cons, length_flatMap_pairs, irange2_length]
    omega
  · rw [hcanP.length_eq, mkBundle_n]
    simp only [List.length_cons, length_flatMap_pairs, irange2_length]
    omega
  · intro v hvG hvP
    rcases hmemG v hvG with h | h | h | h | ⟨x, h1, h2, h3, h4 | h4⟩ <;>
      rcases hmemP v hvP with h' | h' | h' | h' | ⟨y, g1, g2, g3, g4 | g4⟩ <;> omega
  · omega
  · simp [eeGls, Link.resT]
  · simp [eePls, Link.resT]
  · simp [eeGls, Link.resB]
  · simp [eePls, Link.resT]
  · rw [mkBundle_sigma, slope2Sum_eeGls, hA, hA2, hD]
    ring
  · rw [mkBundle_sigma, slope2Sum_eePls, hA3, hD2]
    have h1 : ((m - 1 : ℕ) : ℤ) = (m : ℤ) - 1 := by omega
    rw [h1]
    ring

theorem linkPairs_asc (Sv : ℤ) (L : List ℤ) :
    linkPairs (fun node => (node + 1, Sv - node)) L = linksEntries Sv (ascLinks L) := by
  induction L with
  | nil => rfl
  | cons x xs ih =>
      rw [linkPairs_cons, ih]
      rfl

theorem linkPairs_desc (Sv : ℤ) (L : List ℤ) :
    linkPairs (fun node => (node, Sv - (node + 1))) L = linksEntries Sv (descLinks L) := by
  induction L with
  | nil => rfl
  | cons x xs ih =>
      rw [linkPairs_cons, ih]
      rfl

theorem mem_labels_asc {v : ℤ} {A : List ℤ} (h : v ∈ linksLabels (ascLinks A)) :
    ∃ x ∈ A, v = x + 1 ∨ v = x := by
  rw [linksLabels_asc, List.mem_flatMap] at h
  obtain ⟨x, hx, hv⟩ := h
  exact ⟨x, hx, by simpa using hv⟩

theorem mem_labels_desc {v : ℤ} {D : List ℤ} (h : v ∈ linksLabels (descLinks D)) :
    ∃ x ∈ D, v = x ∨ v = x + 1 := by
  rw [linksLabels_desc, List.mem_flatMap] at h
  obtain ⟨x, hx, hv⟩ := h
  exact ⟨x, hx, by simpa using hv⟩

theorem BSquare.link_each_asc_green_spec (nb : ℕ) (d : Bool) (Sv : ℤ)
    (hSveq : Sv = ((nb : ℤ) + 2) ^ 2 + 1) (gls pls : List Link) (A : List ℤ)
    (st : BSquare) (hb : st.bundle = mkBundle nb d Sv gls pls)
    (hrg : ∀ w ∈ linksLabels gls, 1 ≤ w ∧ w ≤ 2 * (nb : ℤ) + 2)
    (hmemA : ∀ x ∈ A, 1 ≤ x ∧ x + 1 ≤ 2 * (nb : ℤ) + 2)
    (hAnd : A.Nodup)
    (hfreshA : ∀ x ∈ A, x ∉ linksLabels gls ∧ x + 1 ∉ linksLabels gls)
    (st' : BSquare)
    (h2 : ({ st with bundle := mkBundle nb d Sv (gls ++ ascLinks A) pls } : BSquare) = st') :
    BSquare.link_each Bundle.link_green (fun node => (node + 1, Sv - node)) A st =
      (.ok (), st') := by
  have hSv : 4 * (nb : ℤ) + 5 ≤ Sv := by
    rw [hSveq]
    nlinarith [sq_nonneg ((nb : ℤ))]
  rw [BSquare.link_each_green_append (fun node => (node + 1, Sv - node)) A st
    (by
      intro x hx
      obtain ⟨hx1, hx2⟩ := hmemA x hx
      rw [hb]
      refine ⟨?_, ?_, ?_⟩
      · show (mkBundle nb d Sv gls pls).is_source_node (x + 1) = true
        exact Bundle.is_source_node_label _ (by rw [mkBundle_n]; omega)
      · have hc2 := Bundle.is_target_node_compl (mkBundle nb d Sv gls pls) x
        rw [mkBundle_sigma, ← hSveq] at hc2
        show (mkBundle nb d Sv gls pls).is_target_node (Sv - x) = true
        rw [hc2]
        exact Bundle.is_source_node_label _ (by rw [mkBundle_n]; omega)
      · show x + 1 ≠ (mkBundle nb d Sv gls pls).complement (Sv - x)
        rw [mkBundle_complement, ← hSveq]
        omega)
    (by
      intro x hx
      obtain ⟨hx1, hx2⟩ := hmemA x hx
      obtain ⟨ho1, ho2⟩ := hfreshA x hx
      rw [hb, mkBundle_green]
      refine ⟨?_, ?_⟩
      · show dmem (x + 1) (linksEntries Sv gls) = false
        exact dmem_false_small hSv _ hrg (by omega) ho2
      · show dmem (Sv - x) (linksEntries Sv gls) = false
        exact dmem_false_large hSv _ hrg (by omega) ho1)
    (by
      apply nodup_flatMap_pairs A (fun x => x + 1) (fun x => Sv - x) hAnd
      · intro x hx y hy hxy
        omega
      · intro x hx y hy hxy
        omega
      · intro x hx y hy
        obtain ⟨hx1, hx2⟩ := hmemA x hx
        obtain ⟨hy1, hy2⟩ := hmemA y hy
        simp only [ne_eq]
        omega)]
  rw [← h2, hb, linkPairs_asc, mkBundle_green, ← linksEntries_append, mkBundle_set_green]

theorem BSquare.link_each_desc_green_spec (nb : ℕ) (d : Bool) (Sv : ℤ)
    (hSveq : Sv = ((nb : ℤ) + 2) ^ 2 + 1) (gls pls : List Link) (D : List ℤ)
    (st : BSquare) (hb : st.bundle = mkBundle nb d Sv gls pls)
    (hrg : ∀ w ∈ linksLabels gls, 1 ≤ w ∧ w ≤ 2 * (nb : ℤ) + 2)
    (hmemD : ∀ x ∈ D, 1 ≤ x ∧ x + 1 ≤ 2 * (nb : ℤ) + 2)
    (hDnd : D.Nodup)
    (hfreshD : ∀ x ∈ D, x ∉ linksLabels gls ∧ x + 1 ∉ linksLabels gls)
    (st' : BSquare)
    (h2 : ({ st with bundle := mkBundle nb d Sv (gls ++ descLinks D) pls } : BSquare) = st') :
    BSquare.link_each Bundle.link_green (fun node => (node, Sv - (node + 1))) D st =
      (.ok (), st') := by
  have hSv : 4 * (nb : ℤ) + 5 ≤ Sv := by
    rw [hSveq]
    nlinarith [sq_nonneg ((nb : ℤ))]
  rw [BSquare.link_each_green_append (fun node => (node, Sv - (node + 1))) D st
    (by
      intro x hx
      obtain ⟨hx1, hx2⟩ := hmemD x hx
      rw [hb]
      refine ⟨?_, ?_, ?_⟩
      · show (mkBundle nb d Sv gls pls).is_source_node x = true
        exact Bundle.is_source_node_label _ (by rw [mkBundle_n]; omega)
      · have hc2 := Bundle.is_target_node_compl (mkBundle nb d Sv gls pls) (x + 1)
        rw [mkBundle_sigma, ← hSveq] at hc2
        show (mkBundle nb d Sv gls pls).is_target_node (Sv - (x + 1)) = true
        rw [hc2]
        exact Bundle.is_source_node_label _ (by rw [mkBundle_n]; omega)
      · show x ≠ (mkBundle nb d Sv gls pls).complement (Sv - (x + 1))
        rw [mkBundle_complement, ← hSveq]
        omega)
    (by
      intro x hx
      obtain ⟨hx1, hx2⟩ := hmemD x hx
      obtain ⟨ho1, ho2⟩ := hfreshD x hx
      rw [hb, mkBundle_green]
      refine ⟨?_, ?_⟩
      · show dmem x (linksEntries Sv gls) = false
        exact dmem_false_small hSv _ hrg (by omega) ho1
      · show dmem (Sv - (x + 1)) (linksEntries Sv gls) = false
        exact dmem_false_large hSv _ hrg (by omega) ho2)
    (by
      apply nodup_flatMap_pairs D (fun x => x) (fun x => Sv - (x + 1)) hDnd
      · intro x hx y hy hxy
        exact hxy
      · intro x hx y hy hxy
        omega
      · intro x hx y hy
        obtain ⟨hx1, hx2⟩ := hmemD x hx
        obtain ⟨hy1, hy2⟩ := hmemD y hy
        simp only [ne_eq]
        omega)]
  rw [← h2, hb, linkPairs_desc, mkBundle_green, ← linksEntries_append, mkBundle_set_green]

theorem BSquare.link_each_asc_purple_spec (nb : ℕ) (d : Bool) (Sv : ℤ)
    (hSveq : Sv = ((nb : ℤ) + 2) ^ 2 + 1) (gls pls : List Link) (A : List ℤ)
    (st : BSquare) (hb : st.bundle = mkBundle nb d Sv gls pls)
    (hrp : ∀ w ∈ linksLabels pls, 1 ≤ w ∧ w ≤ 2 * (nb : ℤ) + 2)
    (hmemA : ∀ x ∈ A, 1 ≤ x ∧ x + 1 ≤ 2 * (nb : ℤ) + 2)
    (hAnd : A.Nodup)
    (hfreshA : ∀ x ∈ A, x ∉ linksLabels pls ∧ x + 1 ∉ linksLabels pls)
    (st' : BSquare)
    (h2 : ({ st with bundle := mkBundle nb d Sv gls (pls ++ ascLinks A) } : BSquare) = st') :
    BSquare.link_each Bundle.link_purple (fun node => (node + 1, Sv - node)) A st =
      (.ok (), st') := by
  have hSv : 4 * (nb : ℤ) + 5 ≤ Sv := by
    rw [hSveq]
    nlinarith [sq_nonneg ((nb : ℤ))]
  rw [BSquare.link_each_purple_append (fun node => (node + 1, Sv - node)) A st
    (by
      intro x hx
      obtain ⟨hx1, hx2⟩ := hmemA x hx
      rw [hb]
      refine ⟨?_, ?_, ?_⟩
      · show (mkBundle nb d Sv gls pls).is_source_node (x + 1) = true
        exact Bundle.is_source_node_label _ (by rw [mkBundle_n]; omega)
      · have hc2 := Bundle.is_target_node_compl (mkBundle nb d Sv gls pls) x
        rw [mkBundle_sigma, ← hSveq] at hc2
        show (mkBundle nb d Sv gls pls).is_target_node (Sv - x) = true
        rw [hc2]
        exact Bundle.is_source_node_label _ (by rw [mkBundle_n]; omega)
      · show x + 1 ≠ (mkBundle nb d Sv gls pls).complement (Sv - x)
        rw [mkBundle_complement, ← hSveq]
        omega)
    (by
      intro x hx
      obtain ⟨hx1, hx2⟩ := hmemA x hx
      obtain ⟨ho1, ho2⟩ := hfreshA x hx
      rw [hb, mkBundle_purple]
      refine ⟨?_, ?_⟩
      · show dmem (x + 1) (linksEntries Sv pls) = false
        exact dmem_false_small hSv _ hrp (by omega) ho2
      · show dmem (Sv - x) (linksEntries Sv pls) = false
        exact dmem_false_large hSv _ hrp (by omega) ho1)
    (by
      apply nodup_flatMap_pairs A (fun x => x + 1) (fun x => Sv - x) hAnd
      · intro x hx y hy hxy
        omega
      · intro x hx y hy hxy
        omega
      · intro x hx y hy
        obtain ⟨hx1, hx2⟩ := hmemA x hx
        obtain ⟨hy1, hy2⟩ := hmemA y hy
        simp only [ne_eq]
        omega)]
  rw [← h2, hb, linkPairs_asc, mkBundle_purple, ← linksEntries_append, mkBundle_set_purple]

theorem BSquare.link_each_desc_purple_spec (nb : ℕ) (d : Bool) (Sv : ℤ)
    (hSveq : Sv = ((nb : ℤ) + 2) ^ 2 + 1) (gls pls : List Link) (D : List ℤ)
    (st : BSquare) (hb : st.bundle = mkBundle nb d Sv gls pls)
    (hrp : ∀ w ∈ linksLabels pls, 1 ≤ w ∧ w ≤ 2 * (nb : ℤ) + 2)
    (hmemD : ∀ x ∈ D, 1 ≤ x ∧ x + 1 ≤ 2 * (nb : ℤ) + 2)
    (hDnd : D.Nodup)
    (hfreshD : ∀ x ∈ D, x ∉ linksLabels pls ∧ x + 1 ∉ linksLabels pls)
    (st' : BSquare)
    (h2 : ({ st with bundle := mkBundle nb d Sv gls (pls ++ descLinks D) } : BSquare) = st') :
    BSquare.link_each Bundle.link_purple (fun node => (node, Sv - (node + 1))) D st =
      (.ok (), st') := by
  have hSv : 4 * (nb : ℤ) + 5 ≤ Sv := by
    rw [hSveq]
    nlinarith [sq_nonneg ((nb : ℤ))]
  rw [BSquare.link_each_purple_append (fun node => (node, Sv - (node + 1))) D st
    (by
      intro x hx
      obtain ⟨hx1, hx2⟩ := hmemD x hx
      rw [hb]
      refine ⟨?_, ?_, ?_⟩
      · show (mkBundle nb d Sv gls pls).is_source_node x = true
        exact Bundle.is_source_node_label _ (by rw [mkBundle_n]; omega)
      · have hc2 := Bundle.is_target_node_compl (mkBundle nb d Sv gls pls) (x + 1)
        rw [mkBundle_sigma, ← hSveq] at hc2
        show (mkBundle nb d Sv gls pls).is_target_node (Sv - (x + 1)) = true
        rw [hc2]
        exact Bundle.is_source_node_label _ (by rw [mkBundle_n]; omega)
      · show x ≠ (mkBundle nb d Sv gls pls).complement (Sv - (x + 1))
        rw [mkBundle_complement, ← hSveq]
        omega)
    (by
      intro x hx
      obtain ⟨hx1, hx2⟩ := hmemD x hx
      obtain ⟨ho1, ho2⟩ := hfreshD x hx
      rw [hb, mkBundle_purple]
      refine ⟨?_, ?_⟩
      · show dmem x (linksEntries Sv pls) = false
        exact dmem_false_small hSv _ hrp (by omega) ho1
      · show dmem (Sv - (x + 1)) (linksEntries Sv pls) = false
        exact dmem_false_large hSv _ hrp (by omega) ho2)
    (by
      apply nodup_flatMap_pairs D (fun x => x) (fun x => Sv - (x + 1)) hDnd
      · intro x hx y hy hxy
        exact hxy
      · intro x hx y hy hxy
        omega
      · intro x hx y hy
        obtain ⟨hx1, hx2⟩ := hmemD x hx
        obtain ⟨hy1, hy2⟩ := hmemD y hy
        simp only [ne_eq]
        omega)]
  rw [← h2, hb, linkPairs_desc, mkBundle_purple, ← linksEntries_append, mkBundle_set_purple]

theorem BSquare.frame0_oddly_even_spec (nb m : ℕ) (d : Bool) (Sv : ℤ)
    (hSveq : Sv = ((nb : ℤ) + 2) ^ 2 + 1) (hnb : nb = 4 * m + 2) (hm : 1 ≤ m)
    (st : BSquare) (draw : Draw) (hvd : ValidDraw draw)
    (hsrc : st.source.n = nb) (hb : st.bundle = mkBundle nb d Sv [] []) :
    ∃ (A D A2 D2 : List ℤ) (r2 : ℕ),
      (A ++ D).Perm (pyRange2 1 (nb : ℤ)) ∧ A.length = m ∧ D.length = m + 1 ∧
      (A2 ++ D2).Perm (pyRange2 ((nb : ℤ) + 9) (2 * (nb : ℤ) + 2)) ∧
      A2.length = m - 1 ∧ D2.length = m - 1 ∧
      st.frame0_oddly_even draw =
        (.ok (), { st with
                   bundle := mkBundle nb d Sv (oeGls (nb : ℤ) A D)
                     (oePls (nb : ℤ) A2 D2),
                   rctr := r2 }) := by
  have hSv : 4 * (nb : ℤ) + 5 ≤ Sv := by
    rw [hSveq]
    nlinarith [sq_nonneg ((nb : ℤ))]
  simp only [BSquare.frame0_oddly_even, hsrc]
  rw [BSquare.bundle_op_ok2 st
      { st with bundle := mkBundle nb d Sv [Link.norm ((nb : ℤ) + 2) ((nb : ℤ) + 1)] [] }
      (fun b => b.link_green ((nb : ℤ) + 2) (b.complement ((nb : ℤ) + 1)))
      (mkBundle nb d Sv ([] ++ [Link.norm ((nb : ℤ) + 2) ((nb : ℤ) + 1)]) [])
      (by
        rw [hb]
        exact mkBundle_link_green_norm nb d Sv hSveq [] [] ((nb : ℤ) + 2) ((nb : ℤ) + 1)
          (by intro w hw; simp [linksLabels] at hw) (by omega) (by omega) (by omega)
          (by simp [linksLabels]) (by simp [linksLabels]))
      rfl,
    BSquare.andThen_ok]
  rw [BSquare.bundle_op_ok2
      { st with bundle := mkBundle nb d Sv [Link.norm ((nb : ℤ) + 2) ((nb : ℤ) + 1)] [] }
      { st with
        bundle := mkBundle nb d Sv [Link.norm ((nb : ℤ) + 2) ((nb : ℤ) + 1)]
          [Link.norm ((nb : ℤ) + 3) ((nb : ℤ) + 1)] }
      (fun b => b.link_purple ((nb : ℤ) + 3) (b.complement ((nb : ℤ) + 1)))
      (mkBundle nb d Sv [Link.norm ((nb : ℤ) + 2) ((nb : ℤ) + 1)]
        ([] ++ [Link.norm ((nb : ℤ) + 3) ((nb : ℤ) + 1)]))
      (mkBundle_link_purple_norm nb d Sv hSveq [Link.norm ((nb : ℤ) + 2) ((nb : ℤ) + 1)] []
        ((nb : ℤ) + 3) ((nb : ℤ) + 1)
        (by intro w hw; simp [linksLabels] at hw) (by omega) (by omega) (by omega)
        (by simp [linksLabels]) (by simp [linksLabels]))
      rfl,
    BSquare.andThen_ok]
  rw [BSquare.bundle_op_ok2
      { st with
        bundle := mkBundle nb d Sv [Link.norm ((nb : ℤ) + 2) ((nb : ℤ) + 1)]
          [Link.norm ((nb : ℤ) + 3) ((nb : ℤ) + 1)] }
      { st with
        bundle := mkBundle nb d Sv [Link.norm ((nb : ℤ) + 2) ((nb : ℤ) + 1)]
          [Link.norm ((nb : ℤ) + 3) ((nb : ℤ) + 1), Link.norm ((nb : ℤ) + 4) ((nb : ℤ) + 2)] }
      (fun b => b.link_purple ((nb : ℤ) + 4) (b.complement ((nb : ℤ) + 2)))
      (mkBundle nb d Sv [Link.norm ((nb : ℤ) + 2) ((nb : ℤ) + 1)]
        ([Link.norm ((nb : ℤ) + 3) ((nb : ℤ) + 1)] ++ [Link.norm ((nb : ℤ) + 4) ((nb : ℤ) + 2)]))
      (mkBundle_link_purple_norm nb d Sv hSveq [Link.norm ((nb : ℤ) + 2) ((nb : ℤ) + 1)]
        [Link.norm ((nb : ℤ) + 3) ((nb : ℤ) + 1)] ((nb : ℤ) + 4) ((nb : ℤ) + 2)
        (by intro w hw; simp [linksLabels, Link.labels] at hw; omega)
        (by omega) (by omega) (by omega)
        (by simp [linksLabels, Link.labels])
        (by simp [linksLabels, Link.labels]))
      rfl,
    BSquare.andThen_ok]
  have hpy : pyRange2 1 (nb : ℤ) = irange2 1 (2 * m + 1) := by
    rw [pyRange2]
    congr 1
    omega
  have hfooNd : (pyRange2 1 (nb : ℤ)).Nodup := by
    rw [hpy]
    exact irange2_nodup _ _
  have hfooLen : (pyRange2 1 (nb : ℤ)).length = 2 * m + 1 := by
    rw [hpy]
    exact irange2_length _ _
  have hfooMem : ∀ x ∈ pyRange2 1 (nb : ℤ),
      1 ≤ x ∧ x ≤ (nb : ℤ) - 1 ∧ (2 : ℤ) ∣ x - 1 := by
    intro x hx
    rw [hpy, mem_irange2] at hx
    obtain ⟨h1, h2, h3⟩ := hx
    refine ⟨h1, ?_, h3⟩
    omega
  have hpy2 : pyRange2 ((nb : ℤ) + 9) (2 * (nb : ℤ) + 2) =
      irange2 ((nb : ℤ) + 9) (2 * m - 2) := by
    rw [pyRange2]
    congr 1
    omega
  have hfoo2Nd : (pyRange2 ((nb : ℤ) + 9) (2 * (nb : ℤ) + 2)).Nodup := by
    rw [hpy2]
    exact irange2_nodup _ _
  have hfoo2Len : (pyRange2 ((nb : ℤ) + 9) (2 * (nb : ℤ) + 2)).length = 2 * m - 2 := by
    rw [hpy2]
    exact irange2_length _ _
  have hfoo2Mem : ∀ x ∈ pyRange2 ((nb : ℤ) + 9) (2 * (nb : ℤ) + 2),
      (nb : ℤ) + 9 ≤ x ∧ x ≤ 2 * (nb : ℤ) + 1 ∧ (2 : ℤ) ∣ x - ((nb : ℤ) + 9) := by
    intro x hx
    rw [hpy2, mem_irange2] at hx
    obtain ⟨h1, h2, h3⟩ := hx
    refine ⟨h1, ?_, h3⟩
    omega
  by_cases hrand : st.randomize = true
  · simp only [BSquare.my_shuffle, hsrc, if_pos hrand]
    simp only [mkBundle_complement, ← hSveq]
    have hp1 : (draw.shuffles st.rctr (pyRange2 1 (nb : ℤ))).Perm (pyRange2 1 (nb : ℤ)) :=
      hvd st.rctr _
    set A := List.take (nb / 4) (draw.shuffles st.rctr (pyRange2 1 (nb : ℤ))) with hAdef
    set D := List.drop (nb / 4) (draw.shuffles st.rctr (pyRange2 1 (nb : ℤ))) with hDdef
    have hADeq : A ++ D = draw.shuffles st.rctr (pyRange2 1 (nb : ℤ)) :=
      List.take_append_drop _ _
    have hfoo1Nd : (draw.shuffles st.rctr (pyRange2 1 (nb : ℤ))).Nodup :=
      hp1.nodup_iff.mpr hfooNd
    have hADnd : (A ++ D).Nodup := by
      rw [hADeq]
      exact hfoo1Nd
    have hLen1 : (draw.shuffles st.rctr (pyRange2 1 (nb : ℤ))).length = 2 * m + 1 :=
      hp1.length_eq.trans hfooLen
    have hAL : A.length = m := by
      rw [hAdef, List.length_take, hLen1]
      omega
    have hDL : D.length = m + 1 := by
      rw [hDdef, List.length_drop, hLen1]
      omega
    have hmemAD : ∀ x ∈ A ++ D, 1 ≤ x ∧ x ≤ (nb : ℤ) - 1 ∧ (2 : ℤ) ∣ x - 1 := by
      intro x hx
      rw [hADeq] at hx
      exact hfooMem x (hp1.mem_iff.mp hx)
    have hmemA : ∀ x ∈ A, 1 ≤ x ∧ x ≤ (nb : ℤ) - 1 ∧ (2 : ℤ) ∣ x - 1 :=
      fun x hx => hmemAD x (List.mem_append_left _ hx)
    have hmemD : ∀ x ∈ D, 1 ≤ x ∧ x ≤ (nb : ℤ) - 1 ∧ (2 : ℤ) ∣ x - 1 :=
      fun x hx => hmemAD x (List.mem_append_right _ hx)
    have hANd : A.Nodup := (List.nodup_append.mp hADnd).1
    have hDNd : D.Nodup := (List.nodup_append.mp hADnd).2.1
    have hdisjAD : A.Disjoint D := (List.nodup_append.mp hADnd).2.2
    rw [BSquare.link_each_asc_green_spec nb d Sv hSveq
        [Link.norm ((nb : ℤ) + 2) ((nb : ℤ) + 1)]
        [Link.norm ((nb : ℤ) + 3) ((nb : ℤ) + 1), Link.norm ((nb : ℤ) + 4) ((nb : ℤ) + 2)]
        A
        { st with
          bundle := mkBundle nb d Sv [Link.norm ((nb : ℤ) + 2) ((nb : ℤ) + 1)]
            [Link.norm ((nb : ℤ) + 3) ((nb : ℤ) + 1), Link.norm ((nb : ℤ) + 4) ((nb : ℤ) + 2)],
          rctr := st.rctr + 1 }
        rfl
        (by intro w hw; simp [linksLabels, Link.labels] at hw; omega)
        (by intro x hx; have := hmemA x hx; omega)
        hANd
        (by
          intro x hx
          have := hmemA x hx
          constructor <;>
            · intro hmem
              simp [linksLabels, Link.labels] at hmem
              omega)
        { st with
          bundle := mkBundle nb d Sv
            ([Link.norm ((nb : ℤ) + 2) ((nb : ℤ) + 1)] ++ ascLinks A)
            [Link.norm ((nb : ℤ) + 3) ((nb : ℤ) + 1), Link.norm ((nb : ℤ) + 4) ((nb : ℤ) + 2)],
          rctr := st.rctr + 1 }
        rfl,
      BSquare.andThen_ok]
    simp only [mkBundle_complement, ← hSveq]
    rw [BSquare.link_each_desc_green_spec nb d Sv hSveq
        ([Link.norm ((nb : ℤ) + 2) ((nb : ℤ) + 1)] ++ ascLinks A)
        [Link.norm ((nb : ℤ) + 3) ((nb : ℤ) + 1), Link.norm ((nb : ℤ) + 4) ((nb : ℤ) + 2)]
        D
        { st with
          bundle := mkBundle nb d Sv
            ([Link.norm ((nb : ℤ) + 2) ((nb : ℤ) + 1)] ++ ascLinks A)
            [Link.norm ((nb : ℤ) + 3) ((nb : ℤ) + 1), Link.norm ((nb : ℤ) + 4) ((nb : ℤ) + 2)],
          rctr := st.rctr + 1 }
        rfl
        (by
          intro w hw
          rw [linksLabels_append, List.mem_append] at hw
          rcases hw with hw | hw
          · simp [linksLabels, Link.labels] at hw
            omega
          · obtain ⟨y, hy, hv | hv⟩ := mem_labels_asc hw <;>
              · have := hmemA y hy
                omega)
        (by intro x hx; have := hmemD x hx; omega)
        hDNd
        (by
          intro x hx
          have hxf := hmemD x hx
          constructor <;>
            · rw [linksLabels_append, List.mem_append]
              rintro (hmem | hmem)
              · simp [linksLabels, Link.labels] at hmem
                omega
              · obtain ⟨y, hy, hv | hv⟩ := mem_labels_asc hmem <;>
                  · have hyf := hmemA y hy
                    have hxy : x ≠ y := fun he => hdisjAD hy (he ▸ hx)
                    omega)
        { st with
          bundle := mkBundle nb d Sv
            (([Link.norm ((nb : ℤ) + 2) ((nb : ℤ) + 1)] ++ ascLinks A) ++ descLinks D)
            [Link.norm ((nb : ℤ) + 3) ((nb : ℤ) + 1), Link.norm ((nb : ℤ) + 4) ((nb : ℤ) + 2)],
          rctr := st.rctr + 1 }
        rfl,
      BSquare.andThen_ok]
    rw [BSquare.bundle_op_ok2
        { st with
          bundle := mkBundle nb d Sv
            (([Link.norm ((nb : ℤ) + 2) ((nb : ℤ) + 1)] ++ ascLinks A) ++ descLinks D)
            [Link.norm ((nb : ℤ) + 3) ((nb : ℤ) + 1), Link.norm ((nb : ℤ) + 4) ((nb : ℤ) + 2)],
          rctr := st.rctr + 1 }
        { st with
          bundle := mkBundle nb d Sv
            (([Link.norm ((nb : ℤ) + 2) ((nb : ℤ) + 1)] ++ ascLinks A) ++ descLinks D)
            ([Link.norm ((nb : ℤ) + 3) ((nb : ℤ) + 1), Link.norm ((nb : ℤ) + 4) ((nb : ℤ) + 2)] ++
              [Link.norm ((nb : ℤ) + 5) ((nb : ℤ) + 7)]),
          rctr := st.rctr + 1 }
        (fun b => b.link_purple ((nb : ℤ) + 5) (b.complement ((nb : ℤ) + 7)))
        (mkBundle nb d Sv
          (([Link.norm ((nb : ℤ) + 2) ((nb : ℤ) + 1)] ++ ascLinks A) ++ descLinks D)
          ([Link.norm ((nb : ℤ) + 3) ((nb : ℤ) + 1), Link.norm ((nb : ℤ) + 4) ((nb : ℤ) + 2)] ++
            [Link.norm ((nb : ℤ) + 5) ((nb : ℤ) + 7)]))
        (mkBundle_link_purple_norm nb d Sv hSveq _
          [Link.norm ((nb : ℤ) + 3) ((nb : ℤ) + 1), Link.norm ((nb : ℤ) + 4) ((nb : ℤ) + 2)]
          ((nb : ℤ) + 5) ((nb : ℤ) + 7)
          (by intro w hw; simp [linksLabels, Link.labels] at hw; omega)
          (by omega) (by omega) (by omega)
          (by simp [linksLabels, Link.labels])
          (by simp [linksLabels, Link.labels]))
        rfl,
      BSquare.andThen_ok]
    rw [BSquare.bundle_op_ok2
        { st with
          bundle := mkBundle nb d Sv
            (([Link.norm ((nb : ℤ) + 2) ((nb : ℤ) + 1)] ++ ascLinks A) ++ descLinks D)
            ([Link.norm ((nb : ℤ) + 3) ((nb : ℤ) + 1), Link.norm ((nb : ℤ) + 4) ((nb : ℤ) + 2)] ++
              [Link.norm ((nb : ℤ) + 5) ((nb : ℤ) + 7)]),
          rctr := st.rctr + 1 }
        { st with
          bundle := mkBundle nb d Sv
            (([Link.norm ((nb : ℤ) + 2) ((nb : ℤ) + 1)] ++ ascLinks A) ++ descLinks D)
            (([Link.norm ((nb : ℤ) + 3) ((nb : ℤ) + 1), Link.norm ((nb : ℤ) + 4) ((nb : ℤ) + 2)] ++
              [Link.norm ((nb : ℤ) + 5) ((nb : ℤ) + 7)]) ++ [Link.norm ((nb : ℤ) + 6) ((nb : ℤ) + 8)]),
          rctr := st.rctr + 1 }
        (fun b => b.link_purple ((nb : ℤ) + 6) (b.complement ((nb : ℤ) + 8)))
        (mkBundle nb d Sv
          (([Link.norm ((nb : ℤ) + 2) ((nb : ℤ) + 1)] ++ ascLinks A) ++ descLinks D)
          (([Link.norm ((nb : ℤ) + 3) ((nb : ℤ) + 1), Link.norm ((nb : ℤ) + 4) ((nb : ℤ) + 2)] ++
            [Link.norm ((nb : ℤ) + 5) ((nb : ℤ) + 7)]) ++ [Link.norm ((nb : ℤ) + 6) ((nb : ℤ) + 8)]))
        (mkBundle_link_purple_norm nb d Sv hSveq _
          ([Link.norm ((nb : ℤ) + 3) ((nb : ℤ) + 1), Link.norm ((nb : ℤ) + 4) ((nb : ℤ) + 2)] ++
            [Link.norm ((nb : ℤ) + 5) ((nb : ℤ) + 7)])
          ((nb : ℤ) + 6) ((nb : ℤ) + 8)
          (by intro w hw; simp [linksLabels, Link.labels] at hw; omega)
          (by omega) (by omega) (by omega)
          (by simp [linksLabels, Link.labels])
          (by simp [linksLabels, Link.labels]))
        rfl,
      BSquare.andThen_ok]
    simp only [BSquare.my_shuffle, hsrc, if_pos hrand]
    simp only [mkBundle_complement, ← hSveq]
    have hp2 : (draw.shuffles (st.rctr + 1) (pyRange2 ((nb : ℤ) + 9) (2 * (nb : ℤ) + 2))).Perm
        (pyRange2 ((nb : ℤ) + 9) (2 * (nb : ℤ) + 2)) := hvd (st.rctr + 1) _
    set A2 := List.take ((nb - 6) / 4)
      (draw.shuffles (st.rctr + 1) (pyRange2 ((nb : ℤ) + 9) (2 * (nb : ℤ) + 2))) with hA2def
    set D2 := List.drop ((nb - 6) / 4)
      (draw.shuffles (st.rctr + 1) (pyRange2 ((nb : ℤ) + 9) (2 * (nb : ℤ) + 2))) with hD2def
    have hA2D2eq : A2 ++ D2 =
        draw.shuffles (st.rctr + 1) (pyRange2 ((nb : ℤ) + 9) (2 * (nb : ℤ) + 2)) :=
      List.take_append_drop _ _
    have hfoo2Nd' : (draw.shuffles (st.rctr + 1)
        (pyRange2 ((nb : ℤ) + 9) (2 * (nb : ℤ) + 2))).Nodup :=
      hp2.nodup_iff.mpr hfoo2Nd
    have hA2D2nd : (A2 ++ D2).Nodup := by
      rw [hA2D2eq]
      exact hfoo2Nd'
    have hLen2 : (draw.shuffles (st.rctr + 1)
        (pyRange2 ((nb : ℤ) + 9) (2 * (nb : ℤ) + 2))).length = 2 * m - 2 :=
      hp2.length_eq.trans hfoo2Len
    have hA2L : A2.length = m - 1 := by
      rw [hA2def, List.length_take, hLen2]
      omega
    have hD2L : D2.length = m - 1 := by
      rw [hD2def, List.length_drop, hLen2]
      omega
    have hmemA2D2 : ∀ x ∈ A2 ++ D2,
        (nb : ℤ) + 9 ≤ x ∧ x ≤ 2 * (nb : ℤ) + 1 ∧ (2 : ℤ) ∣ x - ((nb : ℤ) + 9) := by
      intro x hx
      rw [hA2D2eq] at hx
      exact hfoo2Mem x (hp2.mem_iff.mp hx)
    have hmemA2 : ∀ x ∈ A2,
        (nb : ℤ) + 9 ≤ x ∧ x ≤ 2 * (nb : ℤ) + 1 ∧ (2 : ℤ) ∣ x - ((nb : ℤ) + 9) :=
      fun x hx => hmemA2D2 x (List.mem_append_left _ hx)
    have hmemD2 : ∀ x ∈ D2,
        (nb : ℤ) + 9 ≤ x ∧ x ≤ 2 * (nb : ℤ) + 1 ∧ (2 : ℤ) ∣ x - ((nb : ℤ) + 9) :=
      fun x hx => hmemA2D2 x (List.mem_append_right _ hx)
    have hA2Nd : A2.Nodup := (List.nodup_append.mp hA2D2nd).1
    have hD2Nd : D2.Nodup := (List.nodup_append.mp hA2D2nd).2.1
    have hdisjA2D2 : A2.Disjoint D2 := (List.nodup_append.mp hA2D2nd).2.2
    rw [BSquare.link_each_asc_purple_spec nb d Sv hSveq
        (([Link.norm ((nb : ℤ) + 2) ((nb : ℤ) + 1)] ++ ascLinks A) ++ descLinks D)
        (([Link.norm ((nb : ℤ) + 3) ((nb : ℤ) + 1), Link.norm ((nb : ℤ) + 4) ((nb : ℤ) + 2)] ++
          [Link.norm ((nb : ℤ) + 5) ((nb : ℤ) + 7)]) ++ [Link.norm ((nb : ℤ) + 6) ((nb : ℤ) + 8)])
        A2
        { st with
          bundle := mkBundle nb d Sv
            (([Link.norm ((nb : ℤ) + 2) ((nb : ℤ) + 1)] ++ ascLinks A) ++ descLinks D)
            (([Link.norm ((nb : ℤ) + 3) ((nb : ℤ) + 1), Link.norm ((nb : ℤ) + 4) ((nb : ℤ) + 2)] ++
              [Link.norm ((nb : ℤ) + 5) ((nb : ℤ) + 7)]) ++ [Link.norm ((nb : ℤ) + 6) ((nb : ℤ) + 8)]),
          rctr := st.rctr + 1 + 1 }
        rfl
        (by intro w hw; simp [linksLabels, Link.labels] at hw; omega)
        (by intro x hx; have := hmemA2 x hx; omega)
        hA2Nd
        (by
          intro x hx
          have := hmemA2 x hx
          constructor <;>
            · intro hmem
              simp [linksLabels, Link.labels] at hmem
              omega)
        { st with
          bundle := mkBundle nb d Sv
            (([Link.norm ((nb : ℤ) + 2) ((nb : ℤ) + 1)] ++ ascLinks A) ++ descLinks D)
            ((([Link.norm ((nb : ℤ) + 3) ((nb : ℤ) + 1), Link.norm ((nb : ℤ) + 4) ((nb : ℤ) + 2)] ++
              [Link.norm ((nb : ℤ) + 5) ((nb : ℤ) + 7)]) ++ [Link.norm ((nb : ℤ) + 6) ((nb : ℤ) + 8)]) ++
              ascLinks A2),
          rctr := st.rctr + 1 + 1 }
        rfl,
      BSquare.andThen_ok]
    simp only [mkBundle_complement, ← hSveq]
    rw [BSquare.link_each_desc_purple_spec nb d Sv hSveq
        (([Link.norm ((nb : ℤ) + 2) ((nb : ℤ) + 1)] ++ ascLinks A) ++ descLinks D)
        ((([Link.norm ((nb : ℤ) + 3) ((nb : ℤ) + 1), Link.norm ((nb : ℤ) + 4) ((nb : ℤ) + 2)] ++
          [Link.norm ((nb : ℤ) + 5) ((nb : ℤ) + 7)]) ++ [Link.norm ((nb : ℤ) + 6) ((nb : ℤ) + 8)]) ++
          ascLinks A2)
        D2
        { st with
          bundle := mkBundle nb d Sv
            (([Link.norm ((nb : ℤ) + 2) ((nb : ℤ) + 1)] ++ ascLinks A) ++ descLinks D)
            ((([Link.norm ((nb : ℤ) + 3) ((nb : ℤ) + 1), Link.norm ((nb : ℤ) + 4) ((nb : ℤ) + 2)] ++
              [Link.norm ((nb : ℤ) + 5) ((nb : ℤ) + 7)]) ++ [Link.norm ((nb : ℤ) + 6) ((nb : ℤ) + 8)]) ++
              ascLinks A2),
          rctr := st.rctr + 1 + 1 }
        rfl
        (by
          intro w hw
          rw [linksLabels_append, List.mem_append] at hw
          rcases hw with hw | hw
          · simp [linksLabels, Link.labels] at hw
            omega
          · obtain ⟨y, hy, hv | hv⟩ := mem_labels_asc hw <;>
              · have := hmemA2 y hy
                omega)
        (by intro x hx; have := hmemD2 x hx; omega)
        hD2Nd
        (by
          intro x hx
          have hxf := hmemD2 x hx
          constructor <;>
            · rw [linksLabels_append, List.mem_append]
              rintro (hmem | hmem)
              · simp [linksLabels, Link.labels] at hmem
                omega
              · obtain ⟨y, hy, hv | hv⟩ := mem_labels_asc hmem <;>
                  · have hyf := hmemA2 y hy
                    have hxy : x ≠ y := fun he => hdisjA2D2 hy (he ▸ hx)
                    omega)
        { st with
          bundle := mkBundle nb d Sv
            (([Link.norm ((nb : ℤ) + 2) ((nb : ℤ) + 1)] ++ ascLinks A) ++ descLinks D)
            (((([Link.norm ((nb : ℤ) + 3) ((nb : ℤ) + 1), Link.norm ((nb : ℤ) + 4) ((nb : ℤ) + 2)] ++
              [Link.norm ((nb : ℤ) + 5) ((nb : ℤ) + 7)]) ++ [Link.norm ((nb : ℤ) + 6) ((nb : ℤ) + 8)]) ++
              ascLinks A2) ++ descLinks D2),
          rctr := st.rctr + 1 + 1 }
        rfl]
    refine ⟨A, D, A2, D2, st.rctr + 1 + 1, ?_, hAL, hDL, ?_, hA2L, hD2L, ?_⟩
    · rw [hADeq]
      exact hp1
    · rw [hA2D2eq]
      exact hp2
    · rfl
  · simp only [BSquare.my_shuffle, hsrc, if_neg hrand]
    simp only [mkBundle_complement, ← hSveq]
    have hp1 : (pyRange2 1 (nb : ℤ)).Perm (pyRange2 1 (nb : ℤ)) := List.Perm.refl _
    set A := List.take (nb / 4) (pyRange2 1 (nb : ℤ)) with hAdef
    set D := List.drop (nb / 4) (pyRange2 1 (nb : ℤ)) with hDdef
    have hADeq : A ++ D = pyRange2 1 (nb : ℤ) :=
      List.take_append_drop _ _
    have hfoo1Nd : (pyRange2 1 (nb : ℤ)).Nodup :=
      hp1.nodup_iff.mpr hfooNd
    have hADnd : (A ++ D).Nodup := by
      rw [hADeq]
      exact hfoo1Nd
    have hLen1 : (pyRange2 1 (nb : ℤ)).length = 2 * m + 1 :=
      hp1.length_eq.trans hfooLen
    have hAL : A.length = m := by
      rw [hAdef, List.length_take, hLen1]
      omega
    have hDL : D.length = m + 1 := by
      rw [hDdef, List.length_drop, hLen1]
      omega
    have hmemAD : ∀ x ∈ A ++ D, 1 ≤ x ∧ x ≤ (nb : ℤ) - 1 ∧ (2 : ℤ) ∣ x - 1 := by
      intro x hx
      rw [hADeq] at hx
      exact hfooMem x (hp1.mem_iff.mp hx)
    have hmemA : ∀ x ∈ A, 1 ≤ x ∧ x ≤ (nb : ℤ) - 1 ∧ (2 : ℤ) ∣ x - 1 :=
      fun x hx => hmemAD x (List.mem_append_left _ hx)
    have hmemD : ∀ x ∈ D, 1 ≤ x ∧ x ≤ (nb : ℤ) - 1 ∧ (2 : ℤ) ∣ x - 1 :=
      fun x hx => hmemAD x (List.mem_append_right _ hx)
    have hANd : A.Nodup := (List.nodup_append.mp hADnd).1
    have hDNd : D.Nodup := (List.nodup_append.mp hADnd).2.1
    have hdisjAD : A.Disjoint D := (List.nodup_append.mp hADnd).2.2
    rw [BSquare.link_each_asc_green_spec nb d Sv hSveq
        [Link.norm ((nb : ℤ) + 2) ((nb : ℤ) + 1)]
        [Link.norm ((nb : ℤ) + 3) ((nb : ℤ) + 1), Link.norm ((nb : ℤ) + 4) ((nb : ℤ) + 2)]
        A
        { st with
          bundle := mkBundle nb d Sv [Link.norm ((nb : ℤ) + 2) ((nb : ℤ) + 1)]
            [Link.norm ((nb : ℤ) + 3) ((nb : ℤ) + 1), Link.norm ((nb : ℤ) + 4) ((nb : ℤ) + 2)] }
        rfl
        (by intro w hw; simp [linksLabels, Link.labels] at hw; omega)
        (by intro x hx; have := hmemA x hx; omega)
        hANd
        (by
          intro x hx
          have := hmemA x hx
          constructor <;>
            · intro hmem
              simp [linksLabels, Link.labels] at hmem
              omega)
        { st with
          bundle := mkBundle nb d Sv
            ([Link.norm ((nb : ℤ) + 2) ((nb : ℤ) + 1)] ++ ascLinks A)
            [Link.norm ((nb : ℤ) + 3) ((nb : ℤ) + 1), Link.norm ((nb : ℤ) + 4) ((nb : ℤ) + 2)] }
        rfl,
      BSquare.andThen_ok]
    simp only [mkBundle_complement, ← hSveq]
    rw [BSquare.link_each_desc_green_spec nb d Sv hSveq
        ([Link.norm ((nb : ℤ) + 2) ((nb : ℤ) + 1)] ++ ascLinks A)
        [Link.norm ((nb : ℤ) + 3) ((nb : ℤ) + 1), Link.norm ((nb : ℤ) + 4) ((nb : ℤ) + 2)]
        D
        { st with
          bundle := mkBundle nb d Sv
            ([Link.norm ((nb : ℤ) + 2) ((nb : ℤ) + 1)] ++ ascLinks A)
            [Link.norm ((nb : ℤ) + 3) ((nb : ℤ) + 1), Link.norm ((nb : ℤ) + 4) ((nb : ℤ) + 2)] }
        rfl
        (by
          intro w hw
          rw [linksLabels_append, List.mem_append] at hw
          rcases hw with hw | hw
          · simp [linksLabels, Link.labels] at hw
            omega
          · obtain ⟨y, hy, hv | hv⟩ := mem_labels_asc hw <;>
              · have := hmemA y hy
                omega)
        (by intro x hx; have := hmemD x hx; omega)
        hDNd
        (by
          intro x hx
          have hxf := hmemD x hx
          constructor <;>
            · rw [linksLabels_append, List.mem_append]
              rintro (hmem | hmem)
              · simp [linksLabels, Link.labels] at hmem
                omega
              · obtain ⟨y, hy, hv | hv⟩ := mem_labels_asc hmem <;>
                  · have hyf := hmemA y hy
                    have hxy : x ≠ y := fun he => hdisjAD hy (he ▸ hx)
                    omega)
        { st with
          bundle := mkBundle nb d Sv
            (([Link.norm ((nb : ℤ) + 2) ((nb : ℤ) + 1)] ++ ascLinks A) ++ descLinks D)
            [Link.norm ((nb : ℤ) + 3) ((nb : ℤ) + 1), Link.norm ((nb : ℤ) + 4) ((nb : ℤ) + 2)] }
        rfl,
      BSquare.andThen_ok]
    rw [BSquare.bundle_op_ok2
        { st with
          bundle := mkBundle nb d Sv
            (([Link.norm ((nb : ℤ) + 2) ((nb : ℤ) + 1)] ++ ascLinks A) ++ descLinks D)
            [Link.norm ((nb : ℤ) + 3) ((nb : ℤ) + 1), Link.norm ((nb : ℤ) + 4) ((nb : ℤ) + 2)] }
        { st with
          bundle := mkBundle nb d Sv
            (([Link.norm ((nb : ℤ) + 2) ((nb : ℤ) + 1)] ++ ascLinks A) ++ descLinks D)
            ([Link.norm ((nb : ℤ) + 3) ((nb : ℤ) + 1), Link.norm ((nb : ℤ) + 4) ((nb : ℤ) + 2)] ++
              [Link.norm ((nb : ℤ) + 5) ((nb : ℤ) + 7)]) }
        (fun b => b.link_purple ((nb : ℤ) + 5) (b.complement ((nb : ℤ) + 7)))
        (mkBundle nb d Sv
          (([Link.norm ((nb : ℤ) + 2) ((nb : ℤ) + 1)] ++ ascLinks A) ++ descLinks D)
          ([Link.norm ((nb : ℤ) + 3) ((nb : ℤ) + 1), Link.norm ((nb : ℤ) + 4) ((nb : ℤ) + 2)] ++
            [Link.norm ((nb : ℤ) + 5) ((nb : ℤ) + 7)]))
        (mkBundle_link_purple_norm nb d Sv hSveq _
          [Link.norm ((nb : ℤ) + 3) ((nb : ℤ) + 1), Link.norm ((nb : ℤ) + 4) ((nb : ℤ) + 2)]
          ((nb : ℤ) + 5) ((nb : ℤ) + 7)
          (by intro w hw; simp [linksLabels, Link.labels] at hw; omega)
          (by omega) (by omega) (by omega)
          (by simp [linksLabels, Link.labels])
          (by simp [linksLabels, Link.labels]))
        rfl,
      BSquare.andThen_ok]
    rw [BSquare.bundle_op_ok2
        { st with
          bundle := mkBundle nb d Sv
            (([Link.norm ((nb : ℤ) + 2) ((nb : ℤ) + 1)] ++ ascLinks A) ++ descLinks D)
            ([Link.norm ((nb : ℤ) + 3) ((nb : ℤ) + 1), Link.norm ((nb : ℤ) + 4) ((nb : ℤ) + 2)] ++
              [Link.norm ((nb : ℤ) + 5) ((nb : ℤ) + 7)]) }
        { st with
          bundle := mkBundle nb d Sv
            (([Link.norm ((nb : ℤ) + 2) ((nb : ℤ) + 1)] ++ ascLinks A) ++ descLinks D)
            (([Link.norm ((nb : ℤ) + 3) ((nb : ℤ) + 1), Link.norm ((nb : ℤ) + 4) ((nb : ℤ) + 2)] ++
              [Link.norm ((nb : ℤ) + 5) ((nb : ℤ) + 7)]) ++ [Link.norm ((nb : ℤ) + 6) ((nb : ℤ) + 8)]) }
        (fun b => b.link_purple ((nb : ℤ) + 6) (b.complement ((nb : ℤ) + 8)))
        (mkBundle nb d Sv
          (([Link.norm ((nb : ℤ) + 2) ((nb : ℤ) + 1)] ++ ascLinks A) ++ descLinks D)
          (([Link.norm ((nb : ℤ) + 3) ((nb : ℤ) + 1), Link.norm ((nb : ℤ) + 4) ((nb : ℤ) + 2)] ++
            [Link.norm ((nb : ℤ) + 5) ((nb : ℤ) + 7)]) ++ [Link.norm ((nb : ℤ) + 6) ((nb : ℤ) + 8)]))
        (mkBundle_link_purple_norm nb d Sv hSveq _
          ([Link.norm ((nb : ℤ) + 3) ((nb : ℤ) + 1), Link.norm ((nb : ℤ) + 4) ((nb : ℤ) + 2)] ++
            [Link.norm ((nb : ℤ) + 5) ((nb : ℤ) + 7)])
          ((nb : ℤ) + 6) ((nb : ℤ) + 8)
          (by intro w hw; simp [linksLabels, Link.labels] at hw; omega)
          (by omega) (by omega) (by omega)
          (by simp [linksLabels, Link.labels])
          (by simp [linksLabels, Link.labels]))
        rfl,
      BSquare.andThen_ok]
    simp only [BSquare.my_shuffle, hsrc, if_neg hrand]
    simp only [mkBundle_complement, ← hSveq]
    have hp2 : (pyRange2 ((nb : ℤ) + 9) (2 * (nb : ℤ) + 2)).Perm
        (pyRange2 ((nb : ℤ) + 9) (2 * (nb : ℤ) + 2)) := List.Perm.refl _
    set A2 := List.take ((nb - 6) / 4)
      (pyRange2 ((nb : ℤ) + 9) (2 * (nb : ℤ) + 2)) with hA2def
    set D2 := List.drop ((nb - 6) / 4)
      (pyRange2 ((nb : ℤ) + 9) (2 * (nb : ℤ) + 2)) with hD2def
    have hA2D2eq : A2 ++ D2 =
        pyRange2 ((nb : ℤ) + 9) (2 * (nb : ℤ) + 2) :=
      List.take_append_drop _ _
    have hfoo2Nd' : (pyRange2 ((nb : ℤ) + 9) (2 * (nb : ℤ) + 2)).Nodup :=
      hp2.nodup_iff.mpr hfoo2Nd
    have hA2D2nd : (A2 ++ D2).Nodup := by
      rw [hA2D2eq]
      exact hfoo2Nd'
    have hLen2 : (pyRange2 ((nb : ℤ) + 9) (2 * (nb : ℤ) + 2)).length = 2 * m - 2 :=
      hp2.length_eq.trans hfoo2Len
    have hA2L : A2.length = m - 1 := by
      rw [hA2def, List.length_take, hLen2]
      omega
    have hD2L : D2.length = m - 1 := by
      rw [hD2def, List.length_drop, hLen2]
      omega
    have hmemA2D2 : ∀ x ∈ A2 ++ D2,
        (nb : ℤ) + 9 ≤ x ∧ x ≤ 2 * (nb : ℤ) + 1 ∧ (2 : ℤ) ∣ x - ((nb : ℤ) + 9) := by
      intro x hx
      rw [hA2D2eq] at hx
      exact hfoo2Mem x (hp2.mem_iff.mp hx)
    have hmemA2 : ∀ x ∈ A2,
        (nb : ℤ) + 9 ≤ x ∧ x ≤ 2 * (nb : ℤ) + 1 ∧ (2 : ℤ) ∣ x - ((nb : ℤ) + 9) :=
      fun x hx => hmemA2D2 x (List.mem_append_left _ hx)
    have hmemD2 : ∀ x ∈ D2,
        (nb : ℤ) + 9 ≤ x ∧ x ≤ 2 * (nb : ℤ) + 1 ∧ (2 : ℤ) ∣ x - ((nb : ℤ) + 9) :=
      fun x hx => hmemA2D2 x (List.mem_append_right _ hx)
    have hA2Nd : A2.Nodup := (List.nodup_append.mp hA2D2nd).1
    have hD2Nd : D2.Nodup := (List.nodup_append.mp hA2D2nd).2.1
    have hdisjA2D2 : A2.Disjoint D2 := (List.nodup_append.mp hA2D2nd).2.2
    rw [BSquare.link_each_asc_purple_spec nb d Sv hSveq
        (([Link.norm ((nb : ℤ) + 2) ((nb : ℤ) + 1)] ++ ascLinks A) ++ descLinks D)
        (([Link.norm ((nb : ℤ) + 3) ((nb : ℤ) + 1), Link.norm ((nb : ℤ) + 4) ((nb : ℤ) + 2)] ++
          [Link.norm ((nb : ℤ) + 5) ((nb : ℤ) + 7)]) ++ [Link.norm ((nb : ℤ) + 6) ((nb : ℤ) + 8)])
        A2
        { st with
          bundle := mkBundle nb d Sv
            (([Link.norm ((nb : ℤ) + 2) ((nb : ℤ) + 1)] ++ ascLinks A) ++ descLinks D)
            (([Link.norm ((nb : ℤ) + 3) ((nb : ℤ) + 1), Link.norm ((nb : ℤ) + 4) ((nb : ℤ) + 2)] ++
              [Link.norm ((nb : ℤ) + 5) ((nb : ℤ) + 7)]) ++ [Link.norm ((nb : ℤ) + 6) ((nb : ℤ) + 8)]) }
        rfl
        (by intro w hw; simp [linksLabels, Link.labels] at hw; omega)
        (by intro x hx; have := hmemA2 x hx; omega)
        hA2Nd
        (by
          intro x hx
          have := hmemA2 x hx
          constructor <;>
            · intro hmem
              simp [linksLabels, Link.labels] at hmem
              omega)
        { st with
          bundle := mkBundle nb d Sv
            (([Link.norm ((nb : ℤ) + 2) ((nb : ℤ) + 1)] ++ ascLinks A) ++ descLinks D)
            ((([Link.norm ((nb : ℤ) + 3) ((nb : ℤ) + 1), Link.norm ((nb : ℤ) + 4) ((nb : ℤ) + 2)] ++
              [Link.norm ((nb : ℤ) + 5) ((nb : ℤ) + 7)]) ++ [Link.norm ((nb : ℤ) + 6) ((nb : ℤ) + 8)]) ++
              ascLinks A2) }
        rfl,
      BSquare.andThen_ok]
    simp only [mkBundle_complement, ← hSveq]
    rw [BSquare.link_each_desc_purple_spec nb d Sv hSveq
        (([Link.norm ((nb : ℤ) + 2) ((nb : ℤ) + 1)] ++ ascLinks A) ++ descLinks D)
        ((([Link.norm ((nb : ℤ) + 3) ((nb : ℤ) + 1), Link.norm ((nb : ℤ) + 4) ((nb : ℤ) + 2)] ++
          [Link.norm ((nb : ℤ) + 5) ((nb : ℤ) + 7)]) ++ [Link.norm ((nb : ℤ) + 6) ((nb : ℤ) + 8)]) ++
          ascLinks A2)
        D2
        { st with
          bundle := mkBundle nb d Sv
            (([Link.norm ((nb : ℤ) + 2) ((nb : ℤ) + 1)] ++ ascLinks A) ++ descLinks D)
            ((([Link.norm ((nb : ℤ) + 3) ((nb : ℤ) + 1), Link.norm ((nb : ℤ) + 4) ((nb : ℤ) + 2)] ++
              [Link.norm ((nb : ℤ) + 5) ((nb : ℤ) + 7)]) ++ [Link.norm ((nb : ℤ) + 6) ((nb : ℤ) + 8)]) ++
              ascLinks A2) }
        rfl
        (by
          intro w hw
          rw [linksLabels_append, List.mem_append] at hw
          rcases hw with hw | hw
          · simp [linksLabels, Link.labels] at hw
            omega
          · obtain ⟨y, hy, hv | hv⟩ := mem_labels_asc hw <;>
              · have := hmemA2 y hy
                omega)
        (by intro x hx; have := hmemD2 x hx; omega)
        hD2Nd
        (by
          intro x hx
          have hxf := hmemD2 x hx
          constructor <;>
            · rw [linksLabels_append, List.mem_append]
              rintro (hmem | hmem)
              · simp [linksLabels, Link.labels] at hmem
                omega
              · obtain ⟨y, hy, hv | hv⟩ := mem_labels_asc hmem <;>
                  · have hyf := hmemA2 y hy
                    have hxy : x ≠ y := fun he => hdisjA2D2 hy (he ▸ hx)
                    omega)
        { st with
          bundle := mkBundle nb d Sv
            (([Link.norm ((nb : ℤ) + 2) ((nb : ℤ) + 1)] ++ ascLinks A) ++ descLinks D)
            (((([Link.norm ((nb : ℤ) + 3) ((nb : ℤ) + 1), Link.norm ((nb : ℤ) + 4) ((nb : ℤ) + 2)] ++
              [Link.norm ((nb : ℤ) + 5) ((nb : ℤ) + 7)]) ++ [Link.norm ((nb : ℤ) + 6) ((nb : ℤ) + 8)]) ++
              ascLinks A2) ++ descLinks D2) }
        rfl]
    refine ⟨A, D, A2, D2, st.rctr, ?_, hAL, hDL, ?_, hA2L, hD2L, ?_⟩
    · rw [hADeq]
    · rw [hA2D2eq]
    · rfl


theorem BSquare.frame0_evenly_even_spec (nb m : ℕ) (d : Bool) (Sv : ℤ)
    (hSveq : Sv = ((nb : ℤ) + 2) ^ 2 + 1) (hnb : nb = 4 * m) (hm : 2 ≤ m)
    (st : BSquare) (draw : Draw) (hvd : ValidDraw draw)
    (hsrc : st.source.n = nb) (hb : st.bundle = mkBundle nb d Sv [] []) :
    ∃ (A A2 D A3 D2 : List ℤ) (r2 : ℕ),
      ((A ++ A2) ++ D).Perm (pyRange2 1 ((nb : ℤ) - 2)) ∧
      A.length = 3 ∧ A2.length = m - 2 ∧ D.length = m - 2 ∧
      (A3 ++ D2).Perm (pyRange2 ((nb : ℤ) + 5) (2 * (nb : ℤ) + 2)) ∧
      A3.length = m - 1 ∧ D2.length = m ∧
      st.frame0_evenly_even draw =
        (.ok (), { st with
                   bundle := mkBundle nb d Sv (eeGls (nb : ℤ) A A2 D)
                     (eePls (nb : ℤ) A3 D2),
                   rctr := r2 }) := by
  have hSv : 4 * (nb : ℤ) + 5 ≤ Sv := by
    rw [hSveq]
    nlinarith [sq_nonneg ((nb : ℤ))]
  simp only [BSquare.frame0_evenly_even, hsrc]
  rw [BSquare.bundle_op_ok2 st
      { st with bundle := mkBundle nb d Sv [Link.norm ((nb : ℤ) + 2) ((nb : ℤ) + 1)] [] }
      (fun b => b.link_green ((nb : ℤ) + 2) (b.complement ((nb : ℤ) + 1)))
      (mkBundle nb d Sv ([] ++ [Link.norm ((nb : ℤ) + 2) ((nb : ℤ) + 1)]) [])
      (by
        rw [hb]
        exact mkBundle_link_green_norm nb d Sv hSveq [] [] ((nb : ℤ) + 2) ((nb : ℤ) + 1)
          (by intro w hw; simp [linksLabels] at hw) (by omega) (by omega) (by omega)
          (by simp [linksLabels]) (by simp [linksLabels]))
      rfl,
    BSquare.andThen_ok]
  rw [BSquare.bundle_op_ok2
      { st with bundle := mkBundle nb d Sv [Link.norm ((nb : ℤ) + 2) ((nb : ℤ) + 1)] [] }
      { st with
        bundle := mkBundle nb d Sv [Link.norm ((nb : ℤ) + 2) ((nb : ℤ) + 1)]
          [Link.norm ((nb : ℤ)) ((nb : ℤ) + 1)] }
      (fun b => b.link_purple ((nb : ℤ)) (b.complement ((nb : ℤ) + 1)))
      (mkBundle nb d Sv [Link.norm ((nb : ℤ) + 2) ((nb : ℤ) + 1)]
        ([] ++ [Link.norm ((nb : ℤ)) ((nb : ℤ) + 1)]))
      (mkBundle_link_purple_norm nb d Sv hSveq [Link.norm ((nb : ℤ) + 2) ((nb : ℤ) + 1)] []
        ((nb : ℤ)) ((nb : ℤ) + 1)
        (by intro w hw; simp [linksLabels] at hw) (by omega) (by omega) (by omega)
        (by simp [linksLabels]) (by simp [linksLabels]))
      rfl,
    BSquare.andThen_ok]
  rw [BSquare.bundle_op_ok2
      { st with
        bundle := mkBundle nb d Sv [Link.norm ((nb : ℤ) + 2) ((nb : ℤ) + 1)]
          [Link.norm ((nb : ℤ)) ((nb : ℤ) + 1)] }
      { st with
        bundle := mkBundle nb d Sv [Link.norm ((nb : ℤ) + 2) ((nb : ℤ) + 1)]
          [Link.norm ((nb : ℤ)) ((nb : ℤ) + 1), Link.norm ((nb : ℤ) + 4) ((nb : ℤ) + 2)] }
      (fun b => b.link_purple ((nb : ℤ) + 4) (b.complement ((nb : ℤ) + 2)))
      (mkBundle nb d Sv [Link.norm ((nb : ℤ) + 2) ((nb : ℤ) + 1)]
        ([Link.norm ((nb : ℤ)) ((nb : ℤ) + 1)] ++ [Link.norm ((nb : ℤ) + 4) ((nb : ℤ) + 2)]))
      (mkBundle_link_purple_norm nb d Sv hSveq [Link.norm ((nb : ℤ) + 2) ((nb : ℤ) + 1)]
        [Link.norm ((nb : ℤ)) ((nb : ℤ) + 1)] ((nb : ℤ) + 4) ((nb : ℤ) + 2)
        (by intro w hw; simp [linksLabels, Link.labels] at hw; omega)
        (by omega) (by omega) (by omega)
        (by simp [linksLabels, Link.labels])
        (by simp [linksLabels, Link.labels]))
      rfl,
    BSquare.andThen_ok]
  rw [BSquare.bundle_op_ok2
      { st with
        bundle := mkBundle nb d Sv [Link.norm ((nb : ℤ) + 2) ((nb : ℤ) + 1)]
          [Link.norm ((nb : ℤ)) ((nb : ℤ) + 1), Link.norm ((nb : ℤ) + 4) ((nb : ℤ) + 2)] }
      { st with
        bundle := mkBundle nb d Sv
          [Link.norm ((nb : ℤ) + 2) ((nb : ℤ) + 1), Link.norm ((nb : ℤ) - 1) ((nb : ℤ) + 3)]
          [Link.norm ((nb : ℤ)) ((nb : ℤ) + 1), Link.norm ((nb : ℤ) + 4) ((nb : ℤ) + 2)] }
      (fun b => b.link_green ((nb : ℤ) - 1) (b.complement ((nb : ℤ) + 3)))
      (mkBundle nb d Sv
        ([Link.norm ((nb : ℤ) + 2) ((nb : ℤ) + 1)] ++ [Link.norm ((nb : ℤ) - 1) ((nb : ℤ) + 3)])
        [Link.norm ((nb : ℤ)) ((nb : ℤ) + 1), Link.norm ((nb : ℤ) + 4) ((nb : ℤ) + 2)])
      (mkBundle_link_green_norm nb d Sv hSveq [Link.norm ((nb : ℤ) + 2) ((nb : ℤ) + 1)]
        [Link.norm ((nb : ℤ)) ((nb : ℤ) + 1), Link.norm ((nb : ℤ) + 4) ((nb : ℤ) + 2)]
        ((nb : ℤ) - 1) ((nb : ℤ) + 3)
        (by intro w hw; simp [linksLabels, Link.labels] at hw; omega)
        (by omega) (by omega) (by omega)
        (by simp [linksLabels, Link.labels]; omega)
        (by simp [linksLabels, Link.labels]))
      rfl,
    BSquare.andThen_ok]
  have hpy : pyRange2 1 ((nb : ℤ) - 2) = irange2 1 (2 * m - 1) := by
    rw [pyRange2]
    congr 1
    omega
  have hfooNd : (pyRange2 1 ((nb : ℤ) - 2)).Nodup := by
    rw [hpy]
    exact irange2_nodup _ _
  have hfooLen : (pyRange2 1 ((nb : ℤ) - 2)).length = 2 * m - 1 := by
    rw [hpy]
    exact irange2_length _ _
  have hfooMem : ∀ x ∈ pyRange2 1 ((nb : ℤ) - 2),
      1 ≤ x ∧ x ≤ (nb : ℤ) - 3 ∧ (2 : ℤ) ∣ x - 1 := by
    intro x hx
    rw [hpy, mem_irange2] at hx
    obtain ⟨h1, h2, h3⟩ := hx
    refine ⟨h1, ?_, h3⟩
    omega
  have hpy2 : pyRange2 ((nb : ℤ) + 5) (2 * (nb : ℤ) + 2) =
      irange2 ((nb : ℤ) + 5) (2 * m - 1) := by
    rw [pyRange2]
    congr 1
    omega
  have hfoo2Nd : (pyRange2 ((nb : ℤ) + 5) (2 * (nb : ℤ) + 2)).Nodup := by
    rw [hpy2]
    exact irange2_nodup _ _
  have hfoo2Len : (pyRange2 ((nb : ℤ) + 5) (2 * (nb : ℤ) + 2)).length = 2 * m - 1 := by
    rw [hpy2]
    exact irange2_length _ _
  have hfoo2Mem : ∀ x ∈ pyRange2 ((nb : ℤ) + 5) (2 * (nb : ℤ) + 2),
      (nb : ℤ) + 5 ≤ x ∧ x ≤ 2 * (nb : ℤ) + 1 ∧ (2 : ℤ) ∣ x - ((nb : ℤ) + 5) := by
    intro x hx
    rw [hpy2, mem_irange2] at hx
    obtain ⟨h1, h2, h3⟩ := hx
    refine ⟨h1, ?_, h3⟩
    omega
  by_cases hrand : st.randomize = true
  · simp only [BSquare.my_shuffle, hsrc, if_pos hrand]
    simp only [mkBundle_complement, ← hSveq]
    have hp1 : (draw.shuffles st.rctr (pyRange2 1 ((nb : ℤ) - 2))).Perm
        (pyRange2 1 ((nb : ℤ) - 2)) := hvd st.rctr _
    set A := List.take 3 (draw.shuffles st.rctr (pyRange2 1 ((nb : ℤ) - 2))) with hAdef
    set REST := List.drop 3 (draw.shuffles st.rctr (pyRange2 1 ((nb : ℤ) - 2))) with hRdef
    have hAReq : A ++ REST = draw.shuffles st.rctr (pyRange2 1 ((nb : ℤ) - 2)) :=
      List.take_append_drop _ _
    have hfoo1Nd : (draw.shuffles st.rctr (pyRange2 1 ((nb : ℤ) - 2))).Nodup :=
      hp1.nodup_iff.mpr hfooNd
    have hARnd : (A ++ REST).Nodup := by
      rw [hAReq]
      exact hfoo1Nd
    have hLen1 : (draw.shuffles st.rctr (pyRange2 1 ((nb : ℤ) - 2))).length = 2 * m - 1 :=
      hp1.length_eq.trans hfooLen
    have hAL : A.length = 3 := by
      rw [hAdef, List.length_take, hLen1]
      omega
    have hRL : REST.length = 2 * m - 4 := by
      rw [hRdef, List.length_drop, hLen1]
      omega
    have hmemAR : ∀ x ∈ A ++ REST, 1 ≤ x ∧ x ≤ (nb : ℤ) - 3 ∧ (2 : ℤ) ∣ x - 1 := by
      intro x hx
      rw [hAReq] at hx
      exact hfooMem x (hp1.mem_iff.mp hx)
    have hmemA : ∀ x ∈ A, 1 ≤ x ∧ x ≤ (nb : ℤ) - 3 ∧ (2 : ℤ) ∣ x - 1 :=
      fun x hx => hmemAR x (List.mem_append_left _ hx)
    have hmemR : ∀ x ∈ REST, 1 ≤ x ∧ x ≤ (nb : ℤ) - 3 ∧ (2 : ℤ) ∣ x - 1 :=
      fun x hx => hmemAR x (List.mem_append_right _ hx)
    have hANd : A.Nodup := (List.nodup_append.mp hARnd).1
    have hRNd : REST.Nodup := (List.nodup_append.mp hARnd).2.1
    have hdisjAR : A.Disjoint REST := (List.nodup_append.mp hARnd).2.2
    set A2 := List.take (REST.length / 2) REST with hA2def
    set D := List.drop (REST.length / 2) REST with hDdef
    have hA2Deq : A2 ++ D = REST := List.take_append_drop _ _
    have hA2Dnd : (A2 ++ D).Nodup := by
      rw [hA2Deq]
      exact hRNd
    have hA2L : A2.length = m - 2 := by
      rw [hA2def, List.length_take, hRL]
      omega
    have hDL : D.length = m - 2 := by
      rw [hDdef, List.length_drop, hRL]
      omega
    have hmemA2 : ∀ x ∈ A2, 1 ≤ x ∧ x ≤ (nb : ℤ) - 3 ∧ (2 : ℤ) ∣ x - 1 :=
      fun x hx => hmemR x (hA2Deq ▸ List.mem_append_left _ hx)
    have hmemD : ∀ x ∈ D, 1 ≤ x ∧ x ≤ (nb : ℤ) - 3 ∧ (2 : ℤ) ∣ x - 1 :=
      fun x hx => hmemR x (hA2Deq ▸ List.mem_append_right _ hx)
    have hA2Nd : A2.Nodup := (List.nodup_append.mp hA2Dnd).1
    have hDNd : D.Nodup := (List.nodup_append.mp hA2Dnd).2.1
    have hdisjA2D : A2.Disjoint D := (List.nodup_append.mp hA2Dnd).2.2
    have hA2subR : ∀ x ∈ A2, x ∈ REST := fun x hx => hA2Deq ▸ List.mem_append_left _ hx
    have hDsubR : ∀ x ∈ D, x ∈ REST := fun x hx => hA2Deq ▸ List.mem_append_right _ hx
    rw [BSquare.link_each_asc_green_spec nb d Sv hSveq
        [Link.norm ((nb : ℤ) + 2) ((nb : ℤ) + 1), Link.norm ((nb : ℤ) - 1) ((nb : ℤ) + 3)]
        [Link.norm ((nb : ℤ)) ((nb : ℤ) + 1), Link.norm ((nb : ℤ) + 4) ((nb : ℤ) + 2)]
        A
        { st with
          bundle := mkBundle nb d Sv
            [Link.norm ((nb : ℤ) + 2) ((nb : ℤ) + 1), Link.norm ((nb : ℤ) - 1) ((nb : ℤ) + 3)]
            [Link.norm ((nb : ℤ)) ((nb : ℤ) + 1), Link.norm ((nb : ℤ) + 4) ((nb : ℤ) + 2)],
          rctr := st.rctr + 1 }
        rfl
        (by intro w hw; simp [linksLabels, Link.labels] at hw; omega)
        (by intro x hx; have := hmemA x hx; omega)
        hANd
        (by
          intro x hx
          have := hmemA x hx
          constructor <;>
            · intro hmem
              simp [linksLabels, Link.labels] at hmem
              omega)
        { st with
          bundle := mkBundle nb d Sv
            ([Link.norm ((nb : ℤ) + 2) ((nb : ℤ) + 1), Link.norm ((nb : ℤ) - 1) ((nb : ℤ) + 3)] ++
              ascLinks A)
            [Link.norm ((nb : ℤ)) ((nb : ℤ) + 1), Link.norm ((nb : ℤ) + 4) ((nb : ℤ) + 2)],
          rctr := st.rctr + 1 }
        rfl,
      BSquare.andThen_ok]
    simp only [mkBundle_complement, ← hSveq]
    rw [BSquare.link_each_asc_green_spec nb d Sv hSveq
        ([Link.norm ((nb : ℤ) + 2) ((nb : ℤ) + 1), Link.norm ((nb : ℤ) - 1) ((nb : ℤ) + 3)] ++
          ascLinks A)
        [Link.norm ((nb : ℤ)) ((nb : ℤ) + 1), Link.norm ((nb : ℤ) + 4) ((nb : ℤ) + 2)]
        A2
        { st with
          bundle := mkBundle nb d Sv
            ([Link.norm ((nb : ℤ) + 2) ((nb : ℤ) + 1), Link.norm ((nb : ℤ) - 1) ((nb : ℤ) + 3)] ++
              ascLinks A)
            [Link.norm ((nb : ℤ)) ((nb : ℤ) + 1), Link.norm ((nb : ℤ) + 4) ((nb : ℤ) + 2)],
          rctr := st.rctr + 1 }
        rfl
        (by
          intro w hw
          rw [linksLabels_append, List.mem_append] at hw
          rcases hw with hw | hw
          · simp [linksLabels, Link.labels] at hw
            omega
          · obtain ⟨y, hy, hv | hv⟩ := mem_labels_asc hw <;>
              · have := hmemA y hy
                omega)
        (by intro x hx; have := hmemA2 x hx; omega)
        hA2Nd
        (by
          intro x hx
          have hxf := hmemA2 x hx
          constructor <;>
            · rw [linksLabels_append, List.mem_append]
              rintro (hmem | hmem)
              · simp [linksLabels, Link.labels] at hmem
                omega
              · obtain ⟨y, hy, hv | hv⟩ := mem_labels_asc hmem <;>
                  · have hyf := hmemA y hy
                    have hxy : x ≠ y := fun he => hdisjAR hy (he ▸ hA2subR x hx)
                    omega)
        { st with
          bundle := mkBundle nb d Sv
            (([Link.norm ((nb : ℤ) + 2) ((nb : ℤ) + 1), Link.norm ((nb : ℤ) - 1) ((nb : ℤ) + 3)] ++
              ascLinks A) ++ ascLinks A2)
            [Link.norm ((nb : ℤ)) ((nb : ℤ) + 1), Link.norm ((nb : ℤ) + 4) ((nb : ℤ) + 2)],
          rctr := st.rctr + 1 }
        rfl,
      BSquare.andThen_ok]
    simp only [mkBundle_complement, ← hSveq]
    rw [BSquare.link_each_desc_green_spec nb d Sv hSveq
        (([Link.norm ((nb : ℤ) + 2) ((nb : ℤ) + 1), Link.norm ((nb : ℤ) - 1) ((nb : ℤ) + 3)] ++
          ascLinks A) ++ ascLinks A2)
        [Link.norm ((nb : ℤ)) ((nb : ℤ) + 1), Link.norm ((nb : ℤ) + 4) ((nb : ℤ) + 2)]
        D
        { st with
          bundle := mkBundle nb d Sv
            (([Link.norm ((nb : ℤ) + 2) ((nb : ℤ) + 1), Link.norm ((nb : ℤ) - 1) ((nb : ℤ) + 3)] ++
              ascLinks A) ++ ascLinks A2)
            [Link.norm ((nb : ℤ)) ((nb : ℤ) + 1), Link.norm ((nb : ℤ) + 4) ((nb : ℤ) + 2)],
          rctr := st.rctr + 1 }
        rfl
        (by
          intro w hw
          rw [linksLabels_append, List.mem_append, linksLabels_append, List.mem_append] at hw
          rcases hw with (hw | hw) | hw
          · simp [linksLabels, Link.labels] at hw
            omega
          · obtain ⟨y, hy, hv | hv⟩ := mem_labels_asc hw <;>
              · have := hmemA y hy
                omega
          · obtain ⟨y, hy, hv | hv⟩ := mem_labels_asc hw <;>
              · have := hmemA2 y hy
                omega)
        (by intro x hx; have := hmemD x hx; omega)
        hDNd
        (by
          intro x hx
          have hxf := hmemD x hx
          constructor <;>
            · rw [linksLabels_append, List.mem_append, linksLabels_append, List.mem_append]
              rintro ((hmem | hmem) | hmem)
              · simp [linksLabels, Link.labels] at hmem
                omega
              · obtain ⟨y, hy, hv | hv⟩ := mem_labels_asc hmem <;>
                  · have hyf := hmemA y hy
                    have hxy : x ≠ y := fun he => hdisjAR hy (he ▸ hDsubR x hx)
                    omega
              · obtain ⟨y, hy, hv | hv⟩ := mem_labels_asc hmem <;>
                  · have hyf := hmemA2 y hy
                    have hxy : x ≠ y := fun he => hdisjA2D hy (he ▸ hx)
                    omega)
        { st with
          bundle := mkBundle nb d Sv
            ((([Link.norm ((nb : ℤ) + 2) ((nb : ℤ) + 1), Link.norm ((nb : ℤ) - 1) ((nb : ℤ) + 3)] ++
              ascLinks A) ++ ascLinks A2) ++ descLinks D)
            [Link.norm ((nb : ℤ)) ((nb : ℤ) + 1), Link.norm ((nb : ℤ) + 4) ((nb : ℤ) + 2)],
          rctr := st.rctr + 1 }
        rfl,
      BSquare.andThen_ok]
    simp only [BSquare.my_shuffle, hsrc, if_pos hrand]
    simp only [mkBundle_complement, ← hSveq]
    have hp2 : (draw.shuffles (st.rctr + 1) (pyRange2 ((nb : ℤ) + 5) (2 * (nb : ℤ) + 2))).Perm
        (pyRange2 ((nb : ℤ) + 5) (2 * (nb : ℤ) + 2)) := hvd (st.rctr + 1) _
    set D2 := List.take (nb / 4)
      (draw.shuffles (st.rctr + 1) (pyRange2 ((nb : ℤ) + 5) (2 * (nb : ℤ) + 2))) with hD2def
    set A3 := List.drop (nb / 4)
      (draw.shuffles (st.rctr + 1) (pyRange2 ((nb : ℤ) + 5) (2 * (nb : ℤ) + 2))) with hA3def
    have hD2A3eq : D2 ++ A3 =
        draw.shuffles (st.rctr + 1) (pyRange2 ((nb : ℤ) + 5) (2 * (nb : ℤ) + 2)) :=
      List.take_append_drop _ _
    have hfoo2Nd' : (draw.shuffles (st.rctr + 1)
        (pyRange2 ((nb : ℤ) + 5) (2 * (nb : ℤ) + 2))).Nodup :=
      hp2.nodup_iff.mpr hfoo2Nd
    have hD2A3nd : (D2 ++ A3).Nodup := by
      rw [hD2A3eq]
      exact hfoo2Nd'
    have hLen2 : (draw.shuffles (st.rctr + 1)
        (pyRange2 ((nb : ℤ) + 5) (2 * (nb : ℤ) + 2))).length = 2 * m - 1 :=
      hp2.length_eq.trans hfoo2Len
    have hD2L : D2.length = m := by
      rw [hD2def, List.length_take, hLen2]
      omega
    have hA3L : A3.length = m - 1 := by
      rw [hA3def, List.length_drop, hLen2]
      omega
    have hmemD2A3 : ∀ x ∈ D2 ++ A3,
        (nb : ℤ) + 5 ≤ x ∧ x ≤ 2 * (nb : ℤ) + 1 ∧ (2 : ℤ) ∣ x - ((nb : ℤ) + 5) := by
      intro x hx
      rw [hD2A3eq] at hx
      exact hfoo2Mem x (hp2.mem_iff.mp hx)
    have hmemD2 : ∀ x ∈ D2,
        (nb : ℤ) + 5 ≤ x ∧ x ≤ 2 * (nb : ℤ) + 1 ∧ (2 : ℤ) ∣ x - ((nb : ℤ) + 5) :=
      fun x hx => hmemD2A3 x (List.mem_append_left _ hx)
    have hmemA3 : ∀ x ∈ A3,
        (nb : ℤ) + 5 ≤ x ∧ x ≤ 2 * (nb : ℤ) + 1 ∧ (2 : ℤ) ∣ x - ((nb : ℤ) + 5) :=
      fun x hx => hmemD2A3 x (List.mem_append_right _ hx)
    have hD2Nd : D2.Nodup := (List.nodup_append.mp hD2A3nd).1
    have hA3Nd : A3.Nodup := (List.nodup_append.mp hD2A3nd).2.1
    have hdisjD2A3 : D2.Disjoint A3 := (List.nodup_append.mp hD2A3nd).2.2
    rw [BSquare.link_each_asc_purple_spec nb d Sv hSveq
        ((([Link.norm ((nb : ℤ) + 2) ((nb : ℤ) + 1), Link.norm ((nb : ℤ) - 1) ((nb : ℤ) + 3)] ++
          ascLinks A) ++ ascLinks A2) ++ descLinks D)
        [Link.norm ((nb : ℤ)) ((nb : ℤ) + 1), Link.norm ((nb : ℤ) + 4) ((nb : ℤ) + 2)]
        A3
        { st with
          bundle := mkBundle nb d Sv
            ((([Link.norm ((nb : ℤ) + 2) ((nb : ℤ) + 1), Link.norm ((nb : ℤ) - 1) ((nb : ℤ) + 3)] ++
              ascLinks A) ++ ascLinks A2) ++ descLinks D)
            [Link.norm ((nb : ℤ)) ((nb : ℤ) + 1), Link.norm ((nb : ℤ) + 4) ((nb : ℤ) + 2)],
          rctr := st.rctr + 1 + 1 }
        rfl
        (by intro w hw; simp [linksLabels, Link.labels] at hw; omega)
        (by intro x hx; have := hmemA3 x hx; omega)
        hA3Nd
        (by
          intro x hx
          have := hmemA3 x hx
          constructor <;>
            · intro hmem
              simp [linksLabels, Link.labels] at hmem
              omega)
        { st with
          bundle := mkBundle nb d Sv
            ((([Link.norm ((nb : ℤ) + 2) ((nb : ℤ) + 1), Link.norm ((nb : ℤ) - 1) ((nb : ℤ) + 3)] ++
              ascLinks A) ++ ascLinks A2) ++ descLinks D)
            ([Link.norm ((nb : ℤ)) ((nb : ℤ) + 1), Link.norm ((nb : ℤ) + 4) ((nb : ℤ) + 2)] ++
              ascLinks A3),
          rctr := st.rctr + 1 + 1 }
        rfl,
      BSquare.andThen_ok]
    simp only [mkBundle_complement, ← hSveq]
    rw [BSquare.link_each_desc_purple_spec nb d Sv hSveq
        ((([Link.norm ((nb : ℤ) + 2) ((nb : ℤ) + 1), Link.norm ((nb : ℤ) - 1) ((nb : ℤ) + 3)] ++
          ascLinks A) ++ ascLinks A2) ++ descLinks D)
        ([Link.norm ((nb : ℤ)) ((nb : ℤ) + 1), Link.norm ((nb : ℤ) + 4) ((nb : ℤ) + 2)] ++
          ascLinks A3)
        D2
        { st with
          bundle := mkBundle nb d Sv
            ((([Link.norm ((nb : ℤ) + 2) ((nb : ℤ) + 1), Link.norm ((nb : ℤ) - 1) ((nb : ℤ) + 3)] ++
              ascLinks A) ++ ascLinks A2) ++ descLinks D)
            ([Link.norm ((nb : ℤ)) ((nb : ℤ) + 1), Link.norm ((nb : ℤ) + 4) ((nb : ℤ) + 2)] ++
              ascLinks A3),
          rctr := st.rctr + 1 + 1 }
        rfl
        (by
          intro w hw
          rw [linksLabels_append, List.mem_append] at hw
          rcases hw with hw | hw
          · simp [linksLabels, Link.labels] at hw
            omega
          · obtain ⟨y, hy, hv | hv⟩ := mem_labels_asc hw <;>
              · have := hmemA3 y hy
                omega)
        (by intro x hx; have := hmemD2 x hx; omega)
        hD2Nd
        (by
          intro x hx
          have hxf := hmemD2 x hx
          constructor <;>
            · rw [linksLabels_append, List.mem_append]
              rintro (hmem | hmem)
              · simp [linksLabels, Link.labels] at hmem
                omega
              · obtain ⟨y, hy, hv | hv⟩ := mem_labels_asc hmem <;>
                  · have hyf := hmemA3 y hy
                    have hxy : x ≠ y := fun he => (hdisjD2A3 hx) (he ▸ hy)
                    omega)
        { st with
          bundle := mkBundle nb d Sv
            ((([Link.norm ((nb : ℤ) + 2) ((nb : ℤ) + 1), Link.norm ((nb : ℤ) - 1) ((nb : ℤ) + 3)] ++
              ascLinks A) ++ ascLinks A2) ++ descLinks D)
            (([Link.norm ((nb : ℤ)) ((nb : ℤ) + 1), Link.norm ((nb : ℤ) + 4) ((nb : ℤ) + 2)] ++
              ascLinks A3) ++ descLinks D2),
          rctr := st.rctr + 1 + 1 }
        rfl]
    refine ⟨A, A2, D, A3, D2, st.rctr + 1 + 1, ?_, hAL, hA2L, hDL, ?_, hA3L, hD2L, ?_⟩
    · rw [List.append_assoc, hA2Deq, hAReq]
      exact hp1
    · refine List.perm_append_comm.trans ?_
      rw [hD2A3eq]
      exact hp2
    · rw [List.append_assoc
        ([Link.norm ((nb : ℤ) + 2) ((nb : ℤ) + 1), Link.norm ((nb : ℤ) - 1) ((nb : ℤ) + 3)] ++
          ascLinks A) (ascLinks A2) (descLinks D),
        List.append_assoc
          [Link.norm ((nb : ℤ) + 2) ((nb : ℤ) + 1), Link.norm ((nb : ℤ) - 1) ((nb : ℤ) + 3)]
          (ascLinks A) (ascLinks A2 ++ descLinks D)]
      rfl
  · simp only [BSquare.my_shuffle, hsrc, if_neg hrand]
    simp only [mkBundle_complement, ← hSveq]
    have hp1 : (pyRange2 1 ((nb : ℤ) - 2)).Perm
        (pyRange2 1 ((nb : ℤ) - 2)) := List.Perm.refl _
    set A := List.take 3 (pyRange2 1 ((nb : ℤ) - 2)) with hAdef
    set REST := List.drop 3 (pyRange2 1 ((nb : ℤ) - 2)) with hRdef
    have hAReq : A ++ REST = pyRange2 1 ((nb : ℤ) - 2) :=
      List.take_append_drop _ _
    have hfoo1Nd : (pyRange2 1 ((nb : ℤ) - 2)).Nodup :=
      hp1.nodup_iff.mpr hfooNd
    have hARnd : (A ++ REST).Nodup := by
      rw [hAReq]
      exact hfoo1Nd
    have hLen1 : (pyRange2 1 ((nb : ℤ) - 2)).length = 2 * m - 1 :=
      hp1.length_eq.trans hfooLen
    have hAL : A.length = 3 := by
      rw [hAdef, List.length_take, hLen1]
      omega
    have hRL : REST.length = 2 * m - 4 := by
      rw [hRdef, List.length_drop, hLen1]
      omega
    have hmemAR : ∀ x ∈ A ++ REST, 1 ≤ x ∧ x ≤ (nb : ℤ) - 3 ∧ (2 : ℤ) ∣ x - 1 := by
      intro x hx
      rw [hAReq] at hx
      exact hfooMem x (hp1.mem_iff.mp hx)
    have hmemA : ∀ x ∈ A, 1 ≤ x ∧ x ≤ (nb : ℤ) - 3 ∧ (2 : ℤ) ∣ x - 1 :=
      fun x hx => hmemAR x (List.mem_append_left _ hx)
    have hmemR : ∀ x ∈ REST, 1 ≤ x ∧ x ≤ (nb : ℤ) - 3 ∧ (2 : ℤ) ∣ x - 1 :=
      fun x hx => hmemAR x (List.mem_append_right _ hx)
    have hANd : A.Nodup := (List.nodup_append.mp hARnd).1
    have hRNd : REST.Nodup := (List.nodup_append.mp hARnd).2.1
    have hdisjAR : A.Disjoint REST := (List.nodup_append.mp hARnd).2.2
    set A2 := List.take (REST.length / 2) REST with hA2def
    set D := List.drop (REST.length / 2) REST with hDdef
    have hA2Deq : A2 ++ D = REST := List.take_append_drop _ _
    have hA2Dnd : (A2 ++ D).Nodup := by
      rw [hA2Deq]
      exact hRNd
    have hA2L : A2.length = m - 2 := by
      rw [hA2def, List.length_take, hRL]
      omega
    have hDL : D.length = m - 2 := by
      rw [hDdef, List.length_drop, hRL]
      omega
    have hmemA2 : ∀ x ∈ A2, 1 ≤ x ∧ x ≤ (nb : ℤ) - 3 ∧ (2 : ℤ) ∣ x - 1 :=
      fun x hx => hmemR x (hA2Deq ▸ List.mem_append_left _ hx)
    have hmemD : ∀ x ∈ D, 1 ≤ x ∧ x ≤ (nb : ℤ) - 3 ∧ (2 : ℤ) ∣ x - 1 :=
      fun x hx => hmemR x (hA2Deq ▸ List.mem_append_right _ hx)
    have hA2Nd : A2.Nodup := (List.nodup_append.mp hA2Dnd).1
    have hDNd : D.Nodup := (List.nodup_append.mp hA2Dnd).2.1
    have hdisjA2D : A2.Disjoint D := (List.nodup_append.mp hA2Dnd).2.2
    have hA2subR : ∀ x ∈ A2, x ∈ REST := fun x hx => hA2Deq ▸ List.mem_append_left _ hx
    have hDsubR : ∀ x ∈ D, x ∈ REST := fun x hx => hA2Deq ▸ List.mem_append_right _ hx
    rw [BSquare.link_each_asc_green_spec nb d Sv hSveq
        [Link.norm ((nb : ℤ) + 2) ((nb : ℤ) + 1), Link.norm ((nb : ℤ) - 1) ((nb : ℤ) + 3)]
        [Link.norm ((nb : ℤ)) ((nb : ℤ) + 1), Link.norm ((nb : ℤ) + 4) ((nb : ℤ) + 2)]
        A
        { st with
          bundle := mkBundle nb d Sv
            [Link.norm ((nb : ℤ) + 2) ((nb : ℤ) + 1), Link.norm ((nb : ℤ) - 1) ((nb : ℤ) + 3)]
            [Link.norm ((nb : ℤ)) ((nb : ℤ) + 1), Link.norm ((nb : ℤ) + 4) ((nb : ℤ) + 2)] }
        rfl
        (by intro w hw; simp [linksLabels, Link.labels] at hw; omega)
        (by intro x hx; have := hmemA x hx; omega)
        hANd
        (by
          intro x hx
          have := hmemA x hx
          constructor <;>
            · intro hmem
              simp [linksLabels, Link.labels] at hmem
              omega)
        { st with
          bundle := mkBundle nb d Sv
            ([Link.norm ((nb : ℤ) + 2) ((nb : ℤ) + 1), Link.norm ((nb : ℤ) - 1) ((nb : ℤ) + 3)] ++
              ascLinks A)
            [Link.norm ((nb : ℤ)) ((nb : ℤ) + 1), Link.norm ((nb : ℤ) + 4) ((nb : ℤ) + 2)] }
        rfl,
      BSquare.andThen_ok]
    simp only [mkBundle_complement, ← hSveq]
    rw [BSquare.link_each_asc_green_spec nb d Sv hSveq
        ([Link.norm ((nb : ℤ) + 2) ((nb : ℤ) + 1), Link.norm ((nb : ℤ) - 1) ((nb : ℤ) + 3)] ++
          ascLinks A)
        [Link.norm ((nb : ℤ)) ((nb : ℤ) + 1), Link.norm ((nb : ℤ) + 4) ((nb : ℤ) + 2)]
        A2
        { st with
          bundle := mkBundle nb d Sv
            ([Link.norm ((nb : ℤ) + 2) ((nb : ℤ) + 1), Link.norm ((nb : ℤ) - 1) ((nb : ℤ) + 3)] ++
              ascLinks A)
            [Link.norm ((nb : ℤ)) ((nb : ℤ) + 1), Link.norm ((nb : ℤ) + 4) ((nb : ℤ) + 2)] }
        rfl
        (by
          intro w hw
          rw [linksLabels_append, List.mem_append] at hw
          rcases hw with hw | hw
          · simp [linksLabels, Link.labels] at hw
            omega
          · obtain ⟨y, hy, hv | hv⟩ := mem_labels_asc hw <;>
              · have := hmemA y hy
                omega)
        (by intro x hx; have := hmemA2 x hx; omega)
        hA2Nd
        (by
          intro x hx
          have hxf := hmemA2 x hx
          constructor <;>
            · rw [linksLabels_append, List.mem_append]
              rintro (hmem | hmem)
              · simp [linksLabels, Link.labels] at hmem
                omega
              · obtain ⟨y, hy, hv | hv⟩ := mem_labels_asc hmem <;>
                  · have hyf := hmemA y hy
                    have hxy : x ≠ y := fun he => hdisjAR hy (he ▸ hA2subR x hx)
                    omega)
        { st with
          bundle := mkBundle nb d Sv
            (([Link.norm ((nb : ℤ) + 2) ((nb : ℤ) + 1), Link.norm ((nb : ℤ) - 1) ((nb : ℤ) + 3)] ++
              ascLinks A) ++ ascLinks A2)
            [Link.norm ((nb : ℤ)) ((nb : ℤ) + 1), Link.norm ((nb : ℤ) + 4) ((nb : ℤ) + 2)] }
        rfl,
      BSquare.andThen_ok]
    simp only [mkBundle_complement, ← hSveq]
    rw [BSquare.link_each_desc_green_spec nb d Sv hSveq
        (([Link.norm ((nb : ℤ) + 2) ((nb : ℤ) + 1), Link.norm ((nb : ℤ) - 1) ((nb : ℤ) + 3)] ++
          ascLinks A) ++ ascLinks A2)
        [Link.norm ((nb : ℤ)) ((nb : ℤ) + 1), Link.norm ((nb : ℤ) + 4) ((nb : ℤ) + 2)]
        D
        { st with
          bundle := mkBundle nb d Sv
            (([Link.norm ((nb : ℤ) + 2) ((nb : ℤ) + 1), Link.norm ((nb : ℤ) - 1) ((nb : ℤ) + 3)] ++
              ascLinks A) ++ ascLinks A2)
            [Link.norm ((nb : ℤ)) ((nb : ℤ) + 1), Link.norm ((nb : ℤ) + 4) ((nb : ℤ) + 2)] }
        rfl
        (by
          intro w hw
          rw [linksLabels_append, List.mem_append, linksLabels_append, List.mem_append] at hw
          rcases hw with (hw | hw) | hw
          · simp [linksLabels, Link.labels] at hw
            omega
          · obtain ⟨y, hy, hv | hv⟩ := mem_labels_asc hw <;>
              · have := hmemA y hy
                omega
          · obtain ⟨y, hy, hv | hv⟩ := mem_labels_asc hw <;>
              · have := hmemA2 y hy
                omega)
        (by intro x hx; have := hmemD x hx; omega)
        hDNd
        (by
          intro x hx
          have hxf := hmemD x hx
          constructor <;>
            · rw [linksLabels_append, List.mem_append, linksLabels_append, List.mem_append]
              rintro ((hmem | hmem) | hmem)
              · simp [linksLabels, Link.labels] at hmem
                omega
              · obtain ⟨y, hy, hv | hv⟩ := mem_labels_asc hmem <;>
                  · have hyf := hmemA y hy
                    have hxy : x ≠ y := fun he => hdisjAR hy (he ▸ hDsubR x hx)
                    omega
              · obtain ⟨y, hy, hv | hv⟩ := mem_labels_asc hmem <;>
                  · have hyf := hmemA2 y hy
                    have hxy : x ≠ y := fun he => hdisjA2D hy (he ▸ hx)
                    omega)
        { st with
          bundle := mkBundle nb d Sv
            ((([Link.norm ((nb : ℤ) + 2) ((nb : ℤ) + 1), Link.norm ((nb : ℤ) - 1) ((nb : ℤ) + 3)] ++
              ascLinks A) ++ ascLinks A2) ++ descLinks D)
            [Link.norm ((nb : ℤ)) ((nb : ℤ) + 1), Link.norm ((nb : ℤ) + 4) ((nb : ℤ) + 2)] }
        rfl,
      BSquare.andThen_ok]
    simp only [BSquare.my_shuffle, hsrc, if_neg hrand]
    simp only [mkBundle_complement, ← hSveq]
    have hp2 : (pyRange2 ((nb : ℤ) + 5) (2 * (nb : ℤ) + 2)).Perm
        (pyRange2 ((nb : ℤ) + 5) (2 * (nb : ℤ) + 2)) := List.Perm.refl _
    set D2 := List.take (nb / 4) (pyRange2 ((nb : ℤ) + 5) (2 * (nb : ℤ) + 2)) with hD2def
    set A3 := List.drop (nb / 4) (pyRange2 ((nb : ℤ) + 5) (2 * (nb : ℤ) + 2)) with hA3def
    have hD2A3eq : D2 ++ A3 =
        pyRange2 ((nb : ℤ) + 5) (2 * (nb : ℤ) + 2) :=
      List.take_append_drop _ _
    have hfoo2Nd' : (pyRange2 ((nb : ℤ) + 5) (2 * (nb : ℤ) + 2)).Nodup :=
      hp2.nodup_iff.mpr hfoo2Nd
    have hD2A3nd : (D2 ++ A3).Nodup := by
      rw [hD2A3eq]
      exact hfoo2Nd'
    have hLen2 : (pyRange2 ((nb : ℤ) + 5) (2 * (nb : ℤ) + 2)).length = 2 * m - 1 :=
      hp2.length_eq.trans hfoo2Len
    have hD2L : D2.length = m := by
      rw [hD2def, List.length_take, hLen2]
      omega
    have hA3L : A3.length = m - 1 := by
      rw [hA3def, List.length_drop, hLen2]
      omega
    have hmemD2A3 : ∀ x ∈ D2 ++ A3,
        (nb : ℤ) + 5 ≤ x ∧ x ≤ 2 * (nb : ℤ) + 1 ∧ (2 : ℤ) ∣ x - ((nb : ℤ) + 5) := by
      intro x hx
      rw [hD2A3eq] at hx
      exact hfoo2Mem x (hp2.mem_iff.mp hx)
    have hmemD2 : ∀ x ∈ D2,
        (nb : ℤ) + 5 ≤ x ∧ x ≤ 2 * (nb : ℤ) + 1 ∧ (2 : ℤ) ∣ x - ((nb : ℤ) + 5) :=
      fun x hx => hmemD2A3 x (List.mem_append_left _ hx)
    have hmemA3 : ∀ x ∈ A3,
        (nb : ℤ) + 5 ≤ x ∧ x ≤ 2 * (nb : ℤ) + 1 ∧ (2 : ℤ) ∣ x - ((nb : ℤ) + 5) :=
      fun x hx => hmemD2A3 x (List.mem_append_right _ hx)
    have hD2Nd : D2.Nodup := (List.nodup_append.mp hD2A3nd).1
    have hA3Nd : A3.Nodup := (List.nodup_append.mp hD2A3nd).2.1
    have hdisjD2A3 : D2.Disjoint A3 := (List.nodup_append.mp hD2A3nd).2.2
    rw [BSquare.link_each_asc_purple_spec nb d Sv hSveq
        ((([Link.norm ((nb : ℤ) + 2) ((nb : ℤ) + 1), Link.norm ((nb : ℤ) - 1) ((nb : ℤ) + 3)] ++
          ascLinks A) ++ ascLinks A2) ++ descLinks D)
        [Link.norm ((nb : ℤ)) ((nb : ℤ) + 1), Link.norm ((nb : ℤ) + 4) ((nb : ℤ) + 2)]
        A3
        { st with
          bundle := mkBundle nb d Sv
            ((([Link.norm ((nb : ℤ) + 2) ((nb : ℤ) + 1), Link.norm ((nb : ℤ) - 1) ((nb : ℤ) + 3)] ++
              ascLinks A) ++ ascLinks A2) ++ descLinks D)
            [Link.norm ((nb : ℤ)) ((nb : ℤ) + 1), Link.norm ((nb : ℤ) + 4) ((nb : ℤ) + 2)] }
        rfl
        (by intro w hw; simp [linksLabels, Link.labels] at hw; omega)
        (by intro x hx; have := hmemA3 x hx; omega)
        hA3Nd
        (by
          intro x hx
          have := hmemA3 x hx
          constructor <;>
            · intro hmem
              simp [linksLabels, Link.labels] at hmem
              omega)
        { st with
          bundle := mkBundle nb d Sv
            ((([Link.norm ((nb : ℤ) + 2) ((nb : ℤ) + 1), Link.norm ((nb : ℤ) - 1) ((nb : ℤ) + 3)] ++
              ascLinks A) ++ ascLinks A2) ++ descLinks D)
            ([Link.norm ((nb : ℤ)) ((nb : ℤ) + 1), Link.norm ((nb : ℤ) + 4) ((nb : ℤ) + 2)] ++
              ascLinks A3) }
        rfl,
      BSquare.andThen_ok]
    simp only [mkBundle_complement, ← hSveq]
    rw [BSquare.link_each_desc_purple_spec nb d Sv hSveq
        ((([Link.norm ((nb : ℤ) + 2) ((nb : ℤ) + 1), Link.norm ((nb : ℤ) - 1) ((nb : ℤ) + 3)] ++
          ascLinks A) ++ ascLinks A2) ++ descLinks D)
        ([Link.norm ((nb : ℤ)) ((nb : ℤ) + 1), Link.norm ((nb : ℤ) + 4) ((nb : ℤ) + 2)] ++
          ascLinks A3)
        D2
        { st with
          bundle := mkBundle nb d Sv
            ((([Link.norm ((nb : ℤ) + 2) ((nb : ℤ) + 1), Link.norm ((nb : ℤ) - 1) ((nb : ℤ) + 3)] ++
              ascLinks A) ++ ascLinks A2) ++ descLinks D)
            ([Link.norm ((nb : ℤ)) ((nb : ℤ) + 1), Link.norm ((nb : ℤ) + 4) ((nb : ℤ) + 2)] ++
              ascLinks A3) }
        rfl
        (by
          intro w hw
          rw [linksLabels_append, List.mem_append] at hw
          rcases hw with hw | hw
          · simp [linksLabels, Link.labels] at hw
            omega
          · obtain ⟨y, hy, hv | hv⟩ := mem_labels_asc hw <;>
              · have := hmemA3 y hy
                omega)
        (by intro x hx; have := hmemD2 x hx; omega)
        hD2Nd
        (by
          intro x hx
          have hxf := hmemD2 x hx
          constructor <;>
            · rw [linksLabels_append, List.mem_append]
              rintro (hmem | hmem)
              · simp [linksLabels, Link.labels] at hmem
                omega
              · obtain ⟨y, hy, hv | hv⟩ := mem_labels_asc hmem <;>
                  · have hyf := hmemA3 y hy
                    have hxy : x ≠ y := fun he => (hdisjD2A3 hx) (he ▸ hy)
                    omega)
        { st with
          bundle := mkBundle nb d Sv
            ((([Link.norm ((nb : ℤ) + 2) ((nb : ℤ) + 1), Link.norm ((nb : ℤ) - 1) ((nb : ℤ) + 3)] ++
              ascLinks A) ++ ascLinks A2) ++ descLinks D)
            (([Link.norm ((nb : ℤ)) ((nb : ℤ) + 1), Link.norm ((nb : ℤ) + 4) ((nb : ℤ) + 2)] ++
              ascLinks A3) ++ descLinks D2) }
        rfl]
    refine ⟨A, A2, D, A3, D2, st.rctr, ?_, hAL, hA2L, hDL, ?_, hA3L, hD2L, ?_⟩
    · rw [List.append_assoc, hA2Deq, hAReq]
    · refine List.perm_append_comm.trans ?_
      rw [hD2A3eq]
    · rw [List.append_assoc
        ([Link.norm ((nb : ℤ) + 2) ((nb : ℤ) + 1), Link.norm ((nb : ℤ) - 1) ((nb : ℤ) + 3)] ++
          ascLinks A) (ascLinks A2) (descLinks D),
        List.append_assoc
          [Link.norm ((nb : ℤ) + 2) ((nb : ℤ) + 1), Link.norm ((nb : ℤ) - 1) ((nb : ℤ) + 3)]
          (ascLinks A) (ascLinks A2 ++ descLinks D)]
      rfl

